import Mathlib

/-! # TTL cache: expiration heap and cache core

A shallow embedding of the Go package (cache.go, item.go, expiration_heap.go,
metrics.go) together with the part of the Go standard library package
container/heap that the expiration heap is built on.

Modelling conventions
* time.Time is an integer number of nanoseconds; the zero time.Time is 0
  (IsZero), Before is `<`, After is `>`, Add is `+`.
* time.Duration is an integer number of nanoseconds.
* every call of an operation reads the clock once: the operation takes the
  instant `now` as an argument.
* item objects live in a memory (a list of objects); a pointer is the position
  of the object in that list.  The key map and the heap both hold pointers, so
  an object that is reachable from both is shared, as in the source.
* a Go runtime panic (index out of range, failed type assertion) is the result
  `none` of an operation.
-/

namespace TTL

/-- Values of type interface: the nil interface or some payload. -/
abbrev Value := Option Nat

/-- Largest time.Duration (int64). -/
def maxDuration : Int := 2 ^ 63 - 1

/-- Smallest time.Duration (int64). -/
def minDuration : Int := -(2 ^ 63)

/-- Errors returned by the cache: the two constError values and any error of a loader. -/
inductive GoError where
  | ErrClosed
  | ErrNotFound
  | loader (code : Nat)
deriving DecidableEq, Repr

/-- Constant ItemNotExpire of item.go. -/
def ItemNotExpire : Int := -1

/-- Constant ItemExpireWithGlobalTTL of item.go. -/
def ItemExpireWithGlobalTTL : Int := 0

/-- Struct item of item.go. -/
structure item where
  key : String
  data : Value
  ttl : Int
  expireAt : Int
  queueIndex : Int
deriving DecidableEq, Repr

instance : Inhabited item := ⟨⟨"", none, 0, 0, 0⟩⟩

/-- Method item.touch: reset the item expiration time. -/
def item.touch (it : item) (now : Int) : item :=
  if it.ttl > 0 then { it with expireAt := now + it.ttl } else it

/-- Method item.expired. -/
def item.expired (it : item) (now : Int) : Bool :=
  if it.ttl ≤ 0 then false else decide (it.expireAt < now)

/-- Constructor newItem of item.go: queueIndex keeps its zero value. -/
def newItem (key : String) (data : Value) (ttl : Int) (now : Int) : item :=
  item.touch ⟨key, data, ttl, 0, 0⟩ now

/-- Constant EntryNotIndexed of expiration_heap.go. -/
def EntryNotIndexed : Int := -1

/-- Struct ExpirationHeap of expiration_heap.go.  The field mem is the memory
holding the objects behind the ExpirationHeapEntry interface values, entries
holds pointers into it, and notified counts the calls of notify (each one is an
attempt to send on NotifyCh). -/
structure ExpirationHeap where
  mem : List item
  entries : List Nat
  notified : Nat
deriving DecidableEq, Repr

namespace ExpirationHeap

/-- Dereference a pointer. -/
def deref (h : ExpirationHeap) (p : Nat) : item := h.mem.getD p default

/-- The pointer stored at position i of the slice entries. -/
def entry (h : ExpirationHeap) (i : Nat) : Nat := h.entries.getD i 0

/-- Method SetIndex of the entry behind pointer p. -/
def SetIndex (h : ExpirationHeap) (p : Nat) (index : Int) : ExpirationHeap :=
  { h with mem := h.mem.set p { h.deref p with queueIndex := index } }

/-- Method notify: a non-blocking send attempt on NotifyCh. -/
def notify (h : ExpirationHeap) : ExpirationHeap :=
  { h with notified := h.notified + 1 }

/-- Method Len. -/
def Len (h : ExpirationHeap) : Nat := h.entries.length

/-- Method Less. -/
def Less (h : ExpirationHeap) (i j : Nat) : Bool :=
  if (h.deref (h.entry i)).expireAt = 0 then false
  else if (h.deref (h.entry j)).expireAt = 0 then true
  else decide ((h.deref (h.entry i)).expireAt < (h.deref (h.entry j)).expireAt)

/-- Method Swap. -/
def Swap (h : ExpirationHeap) (i j : Nat) : ExpirationHeap :=
  let isFirstEntry := h.Len = 0
  let firstEntry := h.entry 0
  let h1 : ExpirationHeap :=
    { h with entries := (h.entries.set i (h.entry j)).set j (h.entry i) }
  let h2 := h1.SetIndex (h1.entry i) i
  let h3 := h2.SetIndex (h2.entry j) j
  if isFirstEntry ∨ (h3.deref firstEntry).queueIndex ≠ 0 then h3.notify else h3

/-- Method Push. -/
def Push (h : ExpirationHeap) (x : Nat) : ExpirationHeap :=
  let l := h.entries.length
  let h1 := h.SetIndex x l
  let h2 : ExpirationHeap := { h1 with entries := h1.entries ++ [x] }
  if (h2.deref x).queueIndex = 0 then h2.notify else h2

/-- Method Pop: returns the new heap and the removed entry. -/
def Pop (h : ExpirationHeap) : ExpirationHeap × Nat :=
  let l := h.entries.length
  let e := h.entry (l - 1)
  let h1 := h.SetIndex e EntryNotIndexed
  ({ h1 with entries := h1.entries.take (l - 1) }, e)

/-- Loop of function up of container/heap; the first argument bounds the
number of iterations (j iterations are enough, the index halves each round). -/
def upLoop : Nat → ExpirationHeap → Nat → ExpirationHeap
  | 0, h, _ => h
  | fuel + 1, h, j =>
    let i := (j - 1) / 2
    if i = j ∨ ¬ h.Less j i then h
    else upLoop fuel (h.Swap i j) i

/-- Function up of container/heap. -/
def up (h : ExpirationHeap) (j : Nat) : ExpirationHeap := upLoop j h j

/-- Loop of function down of container/heap; returns the heap and the final
index.  The first argument bounds the number of iterations (the index grows
each round and stays below n). -/
def downLoop : Nat → ExpirationHeap → Nat → Nat → ExpirationHeap × Nat
  | 0, h, i, _ => (h, i)
  | fuel + 1, h, i, n =>
    let j1 := 2 * i + 1
    if j1 ≥ n then (h, i)
    else
      let j := if j1 + 1 < n ∧ h.Less (j1 + 1) j1 then j1 + 1 else j1
      if ¬ h.Less j i then (h, i)
      else downLoop fuel (h.Swap i j) j n

/-- Function down of container/heap: the heap and whether the element moved. -/
def down (h : ExpirationHeap) (i0 n : Nat) : ExpirationHeap × Bool :=
  let r := downLoop n h i0 n
  (r.1, decide (r.2 > i0))

/-- Function heap.Push of container/heap. -/
def heapPush (h : ExpirationHeap) (x : Nat) : ExpirationHeap :=
  let h1 := h.Push x
  h1.up (h1.Len - 1)

/-- Function heap.Pop of container/heap (called on a non-empty heap). -/
def heapPop (h : ExpirationHeap) : ExpirationHeap × Nat :=
  let n := h.Len - 1
  let h1 := h.Swap 0 n
  let h2 := (h1.down 0 n).1
  h2.Pop

/-- Function heap.Fix of container/heap, for an index inside the slice. -/
def heapFix (h : ExpirationHeap) (i : Nat) : ExpirationHeap :=
  let r := h.down i h.Len
  if ¬ r.2 then r.1.up i else r.1

/-- Function heap.Remove of container/heap, for an index inside the slice. -/
def heapRemove (h : ExpirationHeap) (i : Nat) : ExpirationHeap × Nat :=
  let n := h.Len - 1
  if n ≠ i then
    let h1 := h.Swap i n
    let r := h1.down i n
    let h2 := if ¬ r.2 then r.1.up i else r.1
    h2.Pop
  else h.Pop

/-- Constructor NewExpirationHeap over a given memory: heap.Init on an empty
slice does nothing. -/
def NewExpirationHeap (mem : List item) : ExpirationHeap := ⟨mem, [], 0⟩

/-- Method Update.  heap.Fix is called with the index stored in the entry.
For an index inside the slice this is heapFix.  For the index -1, and for the
index 0 on an empty heap, both loops of heap.Fix stop at once without reading
the slice; every other index makes Less read outside the slice, a panic. -/
def Update (h : ExpirationHeap) (e : Nat) : Option ExpirationHeap :=
  let idx := (h.deref e).queueIndex
  if 0 ≤ idx ∧ idx < h.Len then some (h.heapFix idx.toNat)
  else if idx = -1 ∨ (idx = 0 ∧ h.Len = 0) then some h
  else none

/-- Method Add. -/
def Add (h : ExpirationHeap) (e : Nat) : ExpirationHeap := h.heapPush e

/-- Method First: the new heap and the removed root, none (nil) when empty. -/
def First (h : ExpirationHeap) : ExpirationHeap × Option Nat :=
  if h.Len = 0 then (h, none)
  else ((h.heapPop).1, some (h.heapPop).2)

/-- Method Peek. -/
def Peek (h : ExpirationHeap) : Option Nat :=
  if h.Len = 0 then none else some (h.entry 0)

/-- Method Remove.  An index other than EntryNotIndexed that lies outside the
slice makes heap.Remove read outside the slice, a panic. -/
def Remove (h : ExpirationHeap) (e : Nat) : Option ExpirationHeap :=
  let idx := (h.deref e).queueIndex
  if idx ≠ EntryNotIndexed then
    if 0 ≤ idx ∧ idx < h.Len then some (h.heapRemove idx.toNat).1 else none
  else some h

/-- Method NextExpiration. -/
def NextExpiration (h : ExpirationHeap) : Int :=
  if h.Len = 0 then 0 else (h.deref (h.entry 0)).expireAt

end ExpirationHeap

/-- Struct Metrics of metrics.go.  The counters are int64 in the source; they
are unbounded integers here (no counter reaches 2^63). -/
structure Metrics where
  Inserted : Int
  Retrievals : Int
  Hits : Int
  Misses : Int
  EvictedFull : Int
  EvictedExpired : Int
  EvictedClosed : Int
deriving DecidableEq, Repr

/-- Enumeration EvictionReason of cache.go. -/
inductive EvictionReason where
  | Removed
  | EvictedSize
  | Expired
  | Closed
deriving DecidableEq, Repr

/-- Type LoaderFunction: data, ttl and error for a key. -/
abbrev LoaderFunction := String → Value × Int × Option GoError

/-- Type CheckExpireCallback. -/
abbrev CheckExpireCallback := String → Value → Bool

/-- Struct Cache of cache.go.  The memory of the item objects is the field
mem of expirationHeap; items maps a key to a pointer.  The field evictions
records the calls of checkExpirationCallback, that is the key, reason and value
handed to the expiration callbacks (which run asynchronously and do not act on
the cache).  Mutex, channels and the single-flight group have no counterpart:
an operation runs from start to end without interleaving. -/
structure Cache where
  ttl : Int
  items : List (String × Nat)
  checkExpireCallback : Option CheckExpireCallback
  expirationHeap : ExpirationHeap
  expirationTime : Int
  skipTTLExtension : Bool
  isShutDown : Bool
  loaderFunction : Option LoaderFunction
  sizeLimit : Int
  metrics : Metrics
  evictions : List (String × EvictionReason × Value)

/-- Map read items[key]. -/
def mapGet : List (String × Nat) → String → Option Nat
  | [], _ => none
  | (k, p) :: m, key => if k = key then some p else mapGet m key

/-- Map operation delete(items, key). -/
def mapDelete : List (String × Nat) → String → List (String × Nat)
  | [], _ => []
  | (k, p) :: m, key => if k = key then mapDelete m key else (k, p) :: mapDelete m key

/-- Map write items[key] = p. -/
def mapSet (m : List (String × Nat)) (key : String) (p : Nat) : List (String × Nat) :=
  (key, p) :: mapDelete m key

/-- Function time.Until(t) for the instant now: the difference, saturated to
the range of time.Duration. -/
def timeUntil (t now : Int) : Int :=
  if t - now > maxDuration then maxDuration
  else if t - now < minDuration then minDuration
  else t - now

namespace Cache

/-- Dereference an item pointer. -/
def deref (c : Cache) (p : Nat) : item := c.expirationHeap.deref p

/-- Assignment to the field expirationHeap. -/
def withHeap (c : Cache) (h : ExpirationHeap) : Cache := { c with expirationHeap := h }

/-- Assignment to the field items. -/
def withItems (c : Cache) (m : List (String × Nat)) : Cache := { c with items := m }

/-- Assignment to the field metrics. -/
def withMetrics (c : Cache) (m : Metrics) : Cache := { c with metrics := m }

/-- Store an item object at pointer p. -/
def setItem (c : Cache) (p : Nat) (it : item) : Cache :=
  c.withHeap { c.expirationHeap with mem := c.expirationHeap.mem.set p it }

/-- Allocate a new item object; its pointer is the old size of the memory. -/
def alloc (c : Cache) (it : item) : Cache :=
  c.withHeap { c.expirationHeap with mem := c.expirationHeap.mem ++ [it] }

/-- Block of method getItem for the item p it found (the if statement on the
ttl of the item): the ttl of the item is resolved, the item is touched
unless skipTTLExtension is set, and the heap is updated. -/
def getItemRefresh (c : Cache) (now : Int) (p : Nat) : Option Cache :=
  if (c.deref p).ttl ≥ 0 ∧ ((c.deref p).ttl > 0 ∨ c.ttl > 0) then
    let c1 := if c.ttl > 0 ∧ (c.deref p).ttl = 0
      then c.setItem p { c.deref p with ttl := c.ttl } else c
    let c2 := if ¬ c1.skipTTLExtension
      then c1.setItem p ((c1.deref p).touch now) else c1
    (c2.expirationHeap.Update p).map (fun h => c2.withHeap h)
  else some c

/-- Method getItem at instant now.  The result is the cache, the item (none
is the nil item, returned together with exists = false; some p is returned
together with exists = true) and the flag expirationNotification. -/
def getItem (c : Cache) (now : Int) (key : String) : Option (Cache × Option Nat × Bool) :=
  match mapGet c.items key with
  | none => some (c, none, false)
  | some p =>
    if (c.deref p).expired now then some (c, none, false)
    else
      (c.getItemRefresh now p).map
        (fun c3 => (c3, some p, decide (c3.expirationTime > now + (c3.deref p).ttl)))

/-- Switch statement of method removeItem: the eviction is counted. -/
def countEviction (m : Metrics) (reason : EvictionReason) : Metrics :=
  match reason with
  | EvictionReason.EvictedSize => { m with EvictedFull := m.EvictedFull + 1 }
  | EvictionReason.Expired => { m with EvictedExpired := m.EvictedExpired + 1 }
  | EvictionReason.Closed => { m with EvictedClosed := m.EvictedClosed + 1 }
  | EvictionReason.Removed => m

/-- Call of checkExpirationCallback in method removeItem: key, reason and
value are handed to the expiration callbacks, which is recorded in evictions. -/
def logEviction (c : Cache) (p : Nat) (reason : EvictionReason) : Cache :=
  { c with evictions := c.evictions ++ [((c.deref p).key, reason, (c.deref p).data)] }

/-- Method removeItem. -/
def removeItem (c : Cache) (p : Nat) (reason : EvictionReason) : Option Cache :=
  let c1 := (c.withMetrics (countEviction c.metrics reason)).logEviction p reason
  (c1.expirationHeap.Remove p).map
    (fun h => (c1.withHeap h).withItems (mapDelete c1.items (c.deref p).key))

/-- Loop of method evictjob.  The first argument bounds the number of
iterations; a loop that needs more has no result. -/
def evictLoop : Nat → Cache → EvictionReason → Option Cache
  | fuel, c, reason =>
    match c.expirationHeap.Peek with
    | none => some c
    | some p =>
      match fuel with
      | 0 => none
      | fuel + 1 => (c.removeItem p reason).bind (fun c1 => evictLoop fuel c1 reason)

/-- Method evictjob: every round removes one heap entry. -/
def evictjob (c : Cache) (reason : EvictionReason) : Option Cache :=
  evictLoop c.expirationHeap.Len c reason

/-- Test of method cleanjob: a check-expiration callback is set and returns
false for the item behind p. -/
def vetoes (c : Cache) (p : Nat) : Bool :=
  match c.checkExpireCallback with
  | some cb => !cb (c.deref p).key (c.deref p).data
  | none => false

/-- Loop of method cleanjob at instant now.  The first argument bounds the
number of iterations; a loop that needs more has no result. -/
def cleanLoop : Nat → Cache → Int → Option Cache
  | fuel, c, now =>
    match c.expirationHeap.Peek with
    | none => some c
    | some p =>
      if ¬ (c.deref p).expired now then some c
      else
        match fuel with
        | 0 => none
        | fuel + 1 =>
          if c.vetoes p then
            let c1 := c.setItem p ((c.deref p).touch now)
            ((c1.expirationHeap.Update p).map (fun h => c1.withHeap h)).bind
              (fun c2 => cleanLoop fuel c2 now)
          else (c.removeItem p EvictionReason.Expired).bind (fun c1 => cleanLoop fuel c1 now)

/-- Method cleanjob at instant now: every round removes an expired heap entry
or renews it, so the number of heap entries bounds the rounds. -/
def cleanjob (c : Cache) (now : Int) : Option Cache :=
  cleanLoop c.expirationHeap.Len c now

/-- Method Purge. -/
def Purge (c : Cache) : Cache × Option GoError :=
  ((((c.withMetrics
      { c.metrics with EvictedClosed := c.metrics.EvictedClosed + c.items.length }).withItems
      []).withHeap (ExpirationHeap.NewExpirationHeap c.expirationHeap.mem)), none)

/-- Assignment isShutDown = true of method Close. -/
def shutDown (c : Cache) : Cache := { c with isShutDown := true }

/-- Method Close, with the shutdown branch of startExpirationProcessing run
in between, as the handshake over shutdownSignal makes it. -/
def Close (c : Cache) : Option (Cache × Option GoError) :=
  if ¬ c.isShutDown then
    let c1 := c.shutDown
    let r := if c1.expirationHeap.Len > 0 then c1.evictjob EvictionReason.Closed else some c1
    r.map (fun c2 => c2.Purge)
  else some (c, some GoError.ErrClosed)

/-- Block of method SetWithTTL for a key that getItem did not find: the size
check, which removes the heap root as a size eviction.  The type assertion on
the nil result of Peek panics. -/
def makeRoom (c : Cache) : Option Cache :=
  if c.sizeLimit ≠ 0 ∧ (c.items.length : Int) ≥ c.sizeLimit then
    match c.expirationHeap.Peek with
    | none => none
    | some root => c.removeItem root EvictionReason.EvictedSize
  else some c

/-- Block of method SetWithTTL for a key that getItem did not find: a new item
is created and stored in the key map.  The result is the cache and the item. -/
def storeNew (c : Cache) (now : Int) (key : String) (data : Value) (ttl : Int) : Cache × Nat :=
  ((c.alloc (newItem key data ttl now)).withItems
    (mapSet c.items key c.expirationHeap.mem.length), c.expirationHeap.mem.length)

/-- Statement metrics.Inserted++ of method SetWithTTL. -/
def countInserted (c : Cache) : Cache :=
  c.withMetrics { c.metrics with Inserted := c.metrics.Inserted + 1 }

/-- Block of method SetWithTTL (the if statement on the ttl of the item): the
ttl of the item p is resolved and the item is touched. -/
def refresh (c : Cache) (now : Int) (p : Nat) : Cache :=
  if (c.deref p).ttl ≥ 0 ∧ ((c.deref p).ttl > 0 ∨ c.ttl > 0) then
    let c1 := if c.ttl > 0 ∧ (c.deref p).ttl = 0
      then c.setItem p { c.deref p with ttl := c.ttl } else c
    c1.setItem p ((c1.deref p).touch now)
  else c

/-- Method SetWithTTL at instant now. -/
def SetWithTTL (c : Cache) (now : Int) (key : String) (data : Value) (ttl : Int) :
    Option (Cache × Option GoError) :=
  if c.isShutDown then some (c, some GoError.ErrClosed)
  else
    (c.getItem now key).bind (fun g =>
      let r : Option (Cache × Nat) :=
        match g.2.1 with
        | some p => some (g.1.setItem p { g.1.deref p with data := data, ttl := ttl }, p)
        | none => g.1.makeRoom.map (fun c2 => c2.storeNew now key data ttl)
      r.bind (fun cp =>
        let c5 := cp.1.countInserted.refresh now cp.2
        let r6 : Option Cache :=
          if g.2.1.isSome then (c5.expirationHeap.Update cp.2).map (fun h => c5.withHeap h)
          else some (c5.withHeap (c5.expirationHeap.Add cp.2))
        r6.map (fun c6 => (c6, none))))

/-- Method Set at instant now. -/
def Set (c : Cache) (now : Int) (key : String) (data : Value) :
    Option (Cache × Option GoError) :=
  c.SetWithTTL now key data ItemExpireWithGlobalTTL

/-- Method invokeLoader at instant now. -/
def invokeLoader (c : Cache) (now : Int) (key : String) (loaderFunction : LoaderFunction) :
    Option (Cache × Value × Int × Option GoError) :=
  match loaderFunction key with
  | (dataToReturn, ttl, some err) => some (c, dataToReturn, ttl, some err)
  | (dataToReturn, ttl, none) =>
    (c.SetWithTTL now key dataToReturn ttl).map (fun r =>
      match r.2 with
      | some err => (r.1, none, 0, some err)
      | none => (r.1, dataToReturn, ttl, none))

/-- Statement metrics.Hits++ of method GetByLoader. -/
def countHit (c : Cache) : Cache :=
  c.withMetrics { c.metrics with Hits := c.metrics.Hits + 1 }

/-- Statement metrics.Retrievals++ of method GetByLoader. -/
def countRetrieval (c : Cache) : Cache :=
  c.withMetrics { c.metrics with Retrievals := c.metrics.Retrievals + 1 }

/-- Statement metrics.Misses++ of method GetByLoader. -/
def countMiss (c : Cache) : Cache :=
  c.withMetrics { c.metrics with Misses := c.metrics.Misses + 1 }

/-- Remaining ttl that method GetByLoader returns for an item found:
time.Until of its expiration, or zero when that is negative. -/
def ttlToReturn (expireAt now : Int) : Int :=
  if timeUntil expireAt now < 0 then 0 else timeUntil expireAt now

/-- Method GetByLoader at instant now, for a single caller. -/
def GetByLoader (c : Cache) (now : Int) (key : String)
    (customLoaderFunction : Option LoaderFunction) :
    Option (Cache × Value × Int × Option GoError) :=
  if c.isShutDown then some (c, none, 0, some GoError.ErrClosed)
  else
    (c.countHit.getItem now key).bind (fun g =>
      match g.2.1 with
      | some p =>
        some (g.1.countRetrieval, (g.1.deref p).data,
          ttlToReturn (g.1.deref p).expireAt now, none)
      | none =>
        let c2 := g.1.countMiss
        let loaderFunction := match customLoaderFunction with
          | some f => some f
          | none => c2.loaderFunction
        match loaderFunction with
        | none => some (c2, none, 0, some GoError.ErrNotFound)
        | some f => c2.invokeLoader now key f)

/-- Method GetWithTTL at instant now. -/
def GetWithTTL (c : Cache) (now : Int) (key : String) :
    Option (Cache × Value × Int × Option GoError) :=
  c.GetByLoader now key none

/-- Method Get at instant now. -/
def Get (c : Cache) (now : Int) (key : String) : Option (Cache × Value × Option GoError) :=
  (c.GetByLoader now key none).map (fun r => (r.1, r.2.1, r.2.2.2))

/-- Method Remove. -/
def Remove (c : Cache) (key : String) : Option (Cache × Option GoError) :=
  if c.isShutDown then some (c, some GoError.ErrClosed)
  else
    match mapGet c.items key with
    | none => some (c, some GoError.ErrNotFound)
    | some p => (c.removeItem p EvictionReason.Removed).map (fun c1 => (c1, none))

/-- Method Count. -/
def Count (c : Cache) : Nat :=
  if c.isShutDown then 0 else c.items.length

/-- Method GetKeys; none is the nil slice. -/
def GetKeys (c : Cache) : Option (List String) :=
  if c.isShutDown then none else some (c.items.map (fun e => e.1))

/-- Method SetTTL. -/
def SetTTL (c : Cache) (ttl : Int) : Cache × Option GoError :=
  if c.isShutDown then (c, some GoError.ErrClosed)
  else ({ c with ttl := ttl }, none)

/-- Method SetCheckExpirationCallback; none is the nil callback. -/
def SetCheckExpirationCallback (c : Cache) (callback : Option CheckExpireCallback) : Cache :=
  { c with checkExpireCallback := callback }

/-- Method SkipTTLExtensionOnHit. -/
def SkipTTLExtensionOnHit (c : Cache) (value : Bool) : Cache :=
  { c with skipTTLExtension := value }

/-- Method SetLoaderFunction; none is the nil loader. -/
def SetLoaderFunction (c : Cache) (loader : Option LoaderFunction) : Cache :=
  { c with loaderFunction := loader }

/-- Method SetCacheSizeLimit. -/
def SetCacheSizeLimit (c : Cache) (limit : Int) : Cache :=
  { c with sizeLimit := limit }

/-- Method GetMetrics. -/
def GetMetrics (c : Cache) : Metrics := c.metrics

/-- Method Touch at instant now. -/
def Touch (c : Cache) (now : Int) (key : String) : Cache × Option GoError :=
  match mapGet c.items key with
  | none => (c, some GoError.ErrNotFound)
  | some p => (c.setItem p ((c.deref p).touch now), none)

/-- Sleep time computed by one round of startExpirationProcessing at instant now. -/
def sleepTime (c : Cache) (now : Int) : Int :=
  let hour : Int := 3600000000000
  let microsecond : Int := 1000
  if c.expirationHeap.Len > 0 then
    let s0 := timeUntil c.expirationHeap.NextExpiration now
    let s1 := if s0 < 0 ∧ c.expirationHeap.NextExpiration = 0 then hour
      else if s0 < 0 then microsecond else s0
    if c.ttl > 0 then min s1 c.ttl else s1
  else if c.ttl > 0 then c.ttl
  else hour

/-- Start of one round of startExpirationProcessing at instant now: the wake-up
instant is stored in expirationTime. -/
def schedule (c : Cache) (now : Int) : Cache :=
  { c with expirationTime := now + c.sleepTime now }

/-- Timer branch of startExpirationProcessing at instant now: an expiration
sweep. -/
def sweep (c : Cache) (now : Int) : Option Cache :=
  if c.expirationHeap.Len = 0 then some c else c.cleanjob now

end Cache

/-- Constructor NewCache at instant now. -/
def NewCache (now : Int) : Cache :=
  { ttl := 0,
    items := [],
    checkExpireCallback := none,
    expirationHeap := ExpirationHeap.NewExpirationHeap [],
    expirationTime := now,
    skipTTLExtension := false,
    isShutDown := false,
    loaderFunction := none,
    sizeLimit := 0,
    metrics := ⟨0, 0, 0, 0, 0, 0, 0⟩,
    evictions := [] }

/-! ## Loader calls through the single-flight group

The field loaderLock of the cache is a Group of the package
golang.org/x/sync/singleflight.  Its methods DoChan and doCall are embedded
here together with the statements of GetByLoader around them.  GetByLoader is
cut at the point where the caller waits: arrive is the part that runs under the
mutex of the cache, up to the return of DoChan; doCall is the goroutine that
DoChan starts, which runs the loader, stores its result with SetWithTTL and
sends the result to every caller that waits; receive is the read of the result
from the channel.  A channel is a number, chosen by the caller. -/

/-- Result of a call through the group as GetByLoader reads it: data and ttl of
the loaderResult, and the error. -/
abbrev LoadResult := Value × Int × Option GoError

/-- Struct call of singleflight, for a call in flight: the channels of the
callers that wait for the result (chans) and the number of callers that joined
the call (dups), together with the function fn that doCall was started with. -/
structure call where
  fn : LoaderFunction
  chans : List Nat
  dups : Nat

/-- Map read m[key] of the group. -/
def flightGet : List (String × call) → String → Option call
  | [], _ => none
  | (k, c) :: m, key => if k = key then some c else flightGet m key

/-- Map operation delete(m, key) of the group. -/
def flightDelete : List (String × call) → String → List (String × call)
  | [], _ => []
  | (k, c) :: m, key => if k = key then flightDelete m key else (k, c) :: flightDelete m key

/-- A cache with its single-flight group: m is the field m of the group (the
calls in flight by key), invoked records the invocations of a loader function
(the key of each), sent records the results sent on channels. -/
structure Flight where
  cache : Cache
  m : List (String × call)
  invoked : List String
  sent : List (Nat × LoadResult)

namespace Flight

/-- A cache with no call in flight. -/
def start (c : Cache) : Flight := ⟨c, [], [], []⟩

/-- Method DoChan of the group, called with the channel ch it makes: a caller
that finds a call in flight for the key joins it; otherwise the call is
registered and the goroutine doCall is started for it. -/
def DoChan (s : Flight) (key : String) (fn : LoaderFunction) (ch : Nat) : Flight :=
  match flightGet s.m key with
  | some c =>
    { s with m := (key, { c with dups := c.dups + 1, chans := c.chans ++ [ch] }) ::
        flightDelete s.m key }
  | none => { s with m := (key, { fn := fn, chans := [ch], dups := 0 }) :: s.m }

/-- Method GetByLoader at instant now up to the point where the caller waits
for the result of DoChan on channel ch.  The result is the new state and what
the call returns when it does not wait (closed cache, hit, or miss with no
loader); none stands for a caller that waits. -/
def arrive (s : Flight) (now : Int) (ch : Nat) (key : String)
    (customLoaderFunction : Option LoaderFunction) : Option (Flight × Option LoadResult) :=
  if s.cache.isShutDown then some (s, some (none, 0, some GoError.ErrClosed))
  else
    (s.cache.countHit.getItem now key).map (fun g =>
      match g.2.1 with
      | some p =>
        ({ s with cache := g.1.countRetrieval },
          some ((g.1.deref p).data, Cache.ttlToReturn (g.1.deref p).expireAt now, none))
      | none =>
        let c2 := g.1.countMiss
        let loaderFunction := match customLoaderFunction with
          | some f => some f
          | none => c2.loaderFunction
        match loaderFunction with
        | none => ({ s with cache := c2 }, some (none, 0, some GoError.ErrNotFound))
        | some f => (({ s with cache := c2 } : Flight).DoChan key f ch, none))

/-- Method doCall of the group for the call in flight for key, finishing at
instant now: fn, the closure of GetByLoader, runs invokeLoader (one invocation
of the loader function, and SetWithTTL when it returned no error); then the
call is deleted from the group and the result is sent on every channel of the
call.  There is no result when no call is in flight for the key. -/
def doCall (s : Flight) (now : Int) (key : String) : Option Flight :=
  match flightGet s.m key with
  | none => none
  | some c =>
    (s.cache.invokeLoader now key c.fn).map (fun r =>
      { cache := r.1, m := flightDelete s.m key, invoked := s.invoked ++ [key],
        sent := s.sent ++ c.chans.map (fun ch => (ch, r.2)) })

/-- End of method GetByLoader for a caller that waited: what it reads from its
channel ch and returns; none while nothing was sent. -/
def receive (s : Flight) (ch : Nat) : Option LoadResult :=
  (s.sent.find? (fun e => e.1 == ch)).map Prod.snd

/-- Calls of Get for one key by several callers, given by their channels and
the instants at which they take the mutex, one after the other: the state, and
for each caller what it returned, none for a caller that waits. -/
def arriveAll (s : Flight) (key : String) :
    List (Nat × Int) → Option (Flight × List (Option LoadResult))
  | [] => some (s, [])
  | (ch, now) :: rest =>
    (s.arrive now ch key none).bind (fun r =>
      (arriveAll r.1 key rest).map (fun r2 => (r2.1, r.2 :: r2.2)))

end Flight

/-! ## Predicates used in the statements -/

/-- Exchange of two positions of a slice. -/
def swapList (l : List Nat) (i j : Nat) : List Nat :=
  (l.set i (l.getD j 0)).set j (l.getD i 0)

/-- The fields of an item that the heap never writes: all but queueIndex. -/
def item.core (it : item) : item := { it with queueIndex := 0 }

namespace ExpirationHeap

/-- Heap h2 holds the same objects as heap h1, up to their queueIndex. -/
def SameCore (h1 h2 : ExpirationHeap) : Prop :=
  h2.mem.length = h1.mem.length ∧ ∀ p, (h2.deref p).core = (h1.deref p).core

/-- Index integrity: every position of the slice holds a pointer to an object
of the memory whose queueIndex is that position. -/
def WF (h : ExpirationHeap) : Prop :=
  ∀ i, i < h.entries.length →
    h.entry i < h.mem.length ∧ (h.deref (h.entry i)).queueIndex = (i : Int)

/-- Heap h2 is heap h1 with its entries rearranged: same objects, same set of
entries, index integrity kept, objects outside the heap untouched. -/
structure Shuffle (h1 h2 : ExpirationHeap) : Prop where
  core : SameCore h1 h2
  len : h2.entries.length = h1.entries.length
  mem : ∀ p, p ∈ h2.entries ↔ p ∈ h1.entries
  wf : h1.WF → h2.WF
  out : h1.WF → ∀ p, p ∉ h1.entries → h2.deref p = h1.deref p

end ExpirationHeap

namespace ExpirationHeap

/-- Heap h2 is heap h1 with the entry x added. -/
structure Added (h1 : ExpirationHeap) (x : Nat) (h2 : ExpirationHeap) : Prop where
  core : SameCore h1 h2
  len : h2.entries.length = h1.entries.length + 1
  mem : ∀ p, p ∈ h2.entries ↔ p = x ∨ p ∈ h1.entries
  wf : h2.WF
  out : ∀ p, p ∉ h1.entries → p ≠ x → h2.deref p = h1.deref p

/-- Heap h2 is heap h1 with the entry x removed and marked as not indexed. -/
structure Removed (h1 : ExpirationHeap) (x : Nat) (h2 : ExpirationHeap) : Prop where
  core : SameCore h1 h2
  len : h2.entries.length + 1 = h1.entries.length
  mem : ∀ p, p ∈ h2.entries ↔ p ∈ h1.entries ∧ p ≠ x
  wf : h2.WF
  out : ∀ p, p ∉ h1.entries → h2.deref p = h1.deref p
  idx : (h2.deref x).queueIndex = EntryNotIndexed

end ExpirationHeap

/-- Order of expiration instants that Less induces: a sorts no later than b.
The zero instant (never expires) sorts after every other instant. -/
def expLe (a b : Int) : Prop := b = 0 ∨ (a ≠ 0 ∧ a ≤ b)

namespace ExpirationHeap

/-- Expiration instant of the entry at position i (method ExpiresAt). -/
def exp (h : ExpirationHeap) (i : Nat) : Int := (h.deref (h.entry i)).expireAt

/-- Heap order on the first n positions: no entry sorts before its parent. -/
def Ordered (h : ExpirationHeap) (n : Nat) : Prop :=
  ∀ k, 0 < k → k < n → expLe (h.exp ((k - 1) / 2)) (h.exp k)

/-- Heap order on the first n positions except for the edge above position j,
whose children do not sort before its parent. -/
def UpInv (h : ExpirationHeap) (n j : Nat) : Prop :=
  (∀ k, 0 < k → k < n → k ≠ j → expLe (h.exp ((k - 1) / 2)) (h.exp k)) ∧
  (∀ k, 0 < k → k < n → (k - 1) / 2 = j → 0 < j → expLe (h.exp ((j - 1) / 2)) (h.exp k))

/-- Heap order on the first n positions except for the edges below position i,
whose children do not sort before its parent. -/
def DownInv (h : ExpirationHeap) (n i : Nat) : Prop :=
  (∀ k, 0 < k → k < n → (k - 1) / 2 ≠ i → expLe (h.exp ((k - 1) / 2)) (h.exp k)) ∧
  (∀ k, 0 < k → k < n → (k - 1) / 2 = i → 0 < i → expLe (h.exp ((i - 1) / 2)) (h.exp k))

/-- Heap order on the first n positions except for the edges at position i,
whose children do not sort before its parent: the state in which heap.Fix and
heap.Remove repair position i. -/
def FixPre (h : ExpirationHeap) (n i : Nat) : Prop :=
  (∀ k, 0 < k → k < n → k ≠ i → (k - 1) / 2 ≠ i → expLe (h.exp ((k - 1) / 2)) (h.exp k)) ∧
  (∀ k, 0 < k → k < n → (k - 1) / 2 = i → 0 < i → expLe (h.exp ((i - 1) / 2)) (h.exp k))

end ExpirationHeap

namespace ExpirationHeap

/-- Heap h2 is heap h1 after a write to the object behind pointer p that left
its queueIndex alone: the slice, the size of the memory and all other objects
are the same. -/
structure Modified (h1 : ExpirationHeap) (p : Nat) (h2 : ExpirationHeap) : Prop where
  entries : h2.entries = h1.entries
  len : h2.mem.length = h1.mem.length
  other : ∀ q, q ≠ p → h2.deref q = h1.deref q
  index : (h2.deref p).queueIndex = (h1.deref p).queueIndex

/-- Assignment of the expiration instant of the entry behind pointer p. -/
def setExpireAt (h : ExpirationHeap) (p : Nat) (e : Int) : ExpirationHeap :=
  { h with mem := h.mem.set p { h.deref p with expireAt := e } }

end ExpirationHeap

namespace ExpirationHeap

/-- Allocation of a new entry object; its pointer is the old size of the memory. -/
def alloc (h : ExpirationHeap) (it : item) : ExpirationHeap :=
  { h with mem := h.mem ++ [it] }

/-- Loop that calls First until it returns nil: the entries returned, in the
order of the calls, and the heap left.  The first argument bounds the number
of calls. -/
def drainLoop : Nat → ExpirationHeap → List Nat × ExpirationHeap
  | 0, h => ([], h)
  | fuel + 1, h =>
    match h.First.2 with
    | none => ([], h.First.1)
    | some p => (p :: (drainLoop fuel h.First.1).1, (drainLoop fuel h.First.1).2)

/-- Repeated calls of First on a heap: every call removes one entry, so Len
calls empty the heap. -/
def drain (h : ExpirationHeap) : List Nat × ExpirationHeap := drainLoop h.Len h

/-- Heaps built from the empty heap by calls of Add (each with a new entry
object), Remove and Update (called after the expiration of an entry in the
heap was assigned), together with the entries added and not removed since. -/
inductive Built : ExpirationHeap → List Nat → Prop
  | empty : Built (NewExpirationHeap []) []
  | add (h : ExpirationHeap) (live : List Nat) (it : item) :
      Built h live → Built ((h.alloc it).Add h.mem.length) (h.mem.length :: live)
  | remove (h : ExpirationHeap) (live : List Nat) (p : Nat) (h2 : ExpirationHeap) :
      Built h live → p < h.mem.length → h.Remove p = some h2 → Built h2 (live.erase p)
  | update (h : ExpirationHeap) (live : List Nat) (p : Nat) (e : Int) (h2 : ExpirationHeap) :
      Built h live → p ∈ live → (h.setExpireAt p e).Update p = some h2 → Built h2 live

end ExpirationHeap

/-- Example heap, first stage: entries x (expires at 3), y (at 1), z (at 2)
and n (never) are added to the empty heap. -/
def exampleHeapAdded : ExpirationHeap :=
  let h0 := ExpirationHeap.NewExpirationHeap []
  let h1 := (h0.alloc ⟨"x", none, 0, 3, -1⟩).Add h0.mem.length
  let h2 := (h1.alloc ⟨"y", none, 0, 1, -1⟩).Add h1.mem.length
  let h3 := (h2.alloc ⟨"z", none, 0, 2, -1⟩).Add h2.mem.length
  (h3.alloc ⟨"n", none, 0, 0, -1⟩).Add h3.mem.length

/-- Example heap, second stage: the expiration of x is changed to 5 and the
heap is updated. -/
def exampleHeapUpdated : ExpirationHeap :=
  ((exampleHeapAdded.setExpireAt 0 5).Update 0).getD exampleHeapAdded

/-- Example heap: z is removed. -/
def exampleHeap : ExpirationHeap :=
  (exampleHeapUpdated.Remove 2).getD exampleHeapUpdated

namespace Cache

/-- Invariant of the cache: the heap has index integrity, the key map has one
entry per key, and every item of the key map is in the heap and carries the key
it is stored under. -/
def Inv (c : Cache) : Prop :=
  c.expirationHeap.WF ∧ (c.items.map Prod.fst).Nodup ∧
    ∀ k p, mapGet c.items k = some p → p ∈ c.expirationHeap.entries ∧ (c.deref p).key = k

/-- Cache c2 has the configuration of cache c1. -/
def SameConfig (c1 c2 : Cache) : Prop :=
  c2.ttl = c1.ttl ∧ c2.checkExpireCallback = c1.checkExpireCallback ∧
    c2.expirationTime = c1.expirationTime ∧ c2.skipTTLExtension = c1.skipTTLExtension ∧
    c2.isShutDown = c1.isShutDown ∧ c2.loaderFunction = c1.loaderFunction ∧
    c2.sizeLimit = c1.sizeLimit

/-- Frame of key k between cache c1 and cache c2: if k is in the key map of
c2, it was in the key map of c1 with the same item, and the item has the same
fields (up to queueIndex). -/
def KeyFrame (k : String) (c1 c2 : Cache) : Prop :=
  ∀ p, mapGet c2.items k = some p →
    mapGet c1.items k = some p ∧ (c2.deref p).core = (c1.deref p).core

end Cache

/-- The ttl an item is left with when its expiration is computed under the
global ttl: the global ttl when that is positive and the item has ttl zero,
else its own ttl. -/
def resolvedTTL (globalTTL ttl : Int) : Int :=
  if globalTTL > 0 ∧ ttl = 0 then globalTTL else ttl

namespace Cache

/-- Cache c2 is cache c1 after method removeItem removed the heap entry p. -/
structure ItemRemoved (c1 : Cache) (p : Nat) (reason : EvictionReason) (c2 : Cache) : Prop where
  heap : ExpirationHeap.Removed c1.expirationHeap p c2.expirationHeap
  items : c2.items = mapDelete c1.items (c1.deref p).key
  config : SameConfig c1 c2
  evictions : c2.evictions = c1.evictions ++ [((c1.deref p).key, reason, (c1.deref p).data)]
  metrics : c2.metrics = countEviction c1.metrics reason
  inv : c2.Inv

/-- Cache c2 is cache c1 after method getItem found the item p at instant now. -/
structure Hit (c1 : Cache) (p : Nat) (now : Int) (c2 : Cache) : Prop where
  items : c2.items = c1.items
  config : SameConfig c1 c2
  evictions : c2.evictions = c1.evictions
  metrics : c2.metrics = c1.metrics
  memlen : c2.expirationHeap.mem.length = c1.expirationHeap.mem.length
  len : c2.expirationHeap.entries.length = c1.expirationHeap.entries.length
  entries : ∀ q, q ∈ c2.expirationHeap.entries ↔ q ∈ c1.expirationHeap.entries
  other : ∀ q, q ≠ p → (c2.deref q).core = (c1.deref q).core
  key : (c2.deref p).key = (c1.deref p).key
  data : (c2.deref p).data = (c1.deref p).data
  ttl : (c2.deref p).ttl = resolvedTTL c1.ttl (c1.deref p).ttl
  expireAt : (c2.deref p).expireAt =
    if 0 < resolvedTTL c1.ttl (c1.deref p).ttl ∧ c1.skipTTLExtension = false
    then now + resolvedTTL c1.ttl (c1.deref p).ttl else (c1.deref p).expireAt
  inv : c2.Inv

end Cache

namespace Cache

/-- Cache c2 is cache c1 after the size check of method SetWithTTL for a key
that getItem did not find: either the check let the cache be, or it removed the
heap root as a size eviction. -/
def EvictStep (c1 c2 : Cache) : Prop :=
  (¬ (c1.sizeLimit ≠ 0 ∧ (c1.items.length : Int) ≥ c1.sizeLimit) ∧ c2 = c1) ∨
  ((c1.sizeLimit ≠ 0 ∧ (c1.items.length : Int) ≥ c1.sizeLimit) ∧
    ∃ root, c1.expirationHeap.Peek = some root ∧
      ItemRemoved c1 root EvictionReason.EvictedSize c2)

/-- Cache c2 is cache c1 after method SetWithTTL created a new item for the
key at instant now and added it to the heap.  The new item is behind the
pointer that is the size of the memory of c1. -/
structure Inserted (c1 : Cache) (now : Int) (key : String) (data : Value) (ttl : Int)
    (c2 : Cache) : Prop where
  items : c2.items = mapSet c1.items key c1.expirationHeap.mem.length
  memlen : c2.expirationHeap.mem.length = c1.expirationHeap.mem.length + 1
  len : c2.expirationHeap.entries.length = c1.expirationHeap.entries.length + 1
  entries : ∀ q, q ∈ c2.expirationHeap.entries ↔
    q = c1.expirationHeap.mem.length ∨ q ∈ c1.expirationHeap.entries
  old : ∀ q, q < c1.expirationHeap.mem.length → (c2.deref q).core = (c1.deref q).core
  key_eq : (c2.deref c1.expirationHeap.mem.length).key = key
  data_eq : (c2.deref c1.expirationHeap.mem.length).data = data
  ttl_eq : (c2.deref c1.expirationHeap.mem.length).ttl = resolvedTTL c1.ttl ttl
  expireAt_eq : (c2.deref c1.expirationHeap.mem.length).expireAt =
    if 0 < resolvedTTL c1.ttl ttl then now + resolvedTTL c1.ttl ttl else 0
  config : SameConfig c1 c2
  metrics : c2.metrics = { c1.metrics with Inserted := c1.metrics.Inserted + 1 }
  evictions : c2.evictions = c1.evictions
  inv : c2.Inv

/-- Cache c2 is cache c1 after method SetWithTTL wrote data and ttl to the
item p that getItem found, at instant now, and updated the heap. -/
structure Overwritten (c1 : Cache) (p : Nat) (now : Int) (data : Value) (ttl : Int)
    (c2 : Cache) : Prop where
  items : c2.items = c1.items
  memlen : c2.expirationHeap.mem.length = c1.expirationHeap.mem.length
  len : c2.expirationHeap.entries.length = c1.expirationHeap.entries.length
  entries : ∀ q, q ∈ c2.expirationHeap.entries ↔ q ∈ c1.expirationHeap.entries
  other : ∀ q, q ≠ p → (c2.deref q).core = (c1.deref q).core
  key_eq : (c2.deref p).key = (c1.deref p).key
  data_eq : (c2.deref p).data = data
  ttl_eq : (c2.deref p).ttl = resolvedTTL c1.ttl ttl
  expireAt_eq : (c2.deref p).expireAt =
    if 0 < resolvedTTL c1.ttl ttl then now + resolvedTTL c1.ttl ttl else (c1.deref p).expireAt
  config : SameConfig c1 c2
  metrics : c2.metrics = { c1.metrics with Inserted := c1.metrics.Inserted + 1 }
  evictions : c2.evictions = c1.evictions
  inv : c2.Inv

end Cache

namespace Cache

/-- The check-expiration callback of cache c does not veto the expiry of the
item stored under key k. -/
def NoVeto (k : String) (c : Cache) : Prop :=
  ∀ p, mapGet c.items k = some p → c.vetoes p = false

/-- States of a cache: the result of NewCache and of every call of a public
method, of a round of the expiration scheduler (schedule) and of its
expiration sweep (sweep), at arbitrary instants. -/
inductive Reachable : Cache → Prop
  | newCache (now : Int) : Reachable (NewCache now)
  | setWithTTL (c : Cache) (now : Int) (key : String) (data : Value) (ttl : Int) (c2 : Cache)
      (e : Option GoError) :
      Reachable c → c.SetWithTTL now key data ttl = some (c2, e) → Reachable c2
  | getByLoader (c : Cache) (now : Int) (key : String) (l : Option LoaderFunction) (c2 : Cache)
      (r : Value × Int × Option GoError) :
      Reachable c → c.GetByLoader now key l = some (c2, r) → Reachable c2
  | remove (c : Cache) (key : String) (c2 : Cache) (e : Option GoError) :
      Reachable c → c.Remove key = some (c2, e) → Reachable c2
  | touch (c : Cache) (now : Int) (key : String) : Reachable c → Reachable (c.Touch now key).1
  | purge (c : Cache) : Reachable c → Reachable c.Purge.1
  | close (c : Cache) (c2 : Cache) (e : Option GoError) :
      Reachable c → c.Close = some (c2, e) → Reachable c2
  | setTTL (c : Cache) (ttl : Int) : Reachable c → Reachable (c.SetTTL ttl).1
  | setCheckExpirationCallback (c : Cache) (f : Option CheckExpireCallback) :
      Reachable c → Reachable (c.SetCheckExpirationCallback f)
  | skipTTLExtensionOnHit (c : Cache) (b : Bool) :
      Reachable c → Reachable (c.SkipTTLExtensionOnHit b)
  | setLoaderFunction (c : Cache) (f : Option LoaderFunction) :
      Reachable c → Reachable (c.SetLoaderFunction f)
  | setCacheSizeLimit (c : Cache) (limit : Int) :
      Reachable c → Reachable (c.SetCacheSizeLimit limit)
  | schedule (c : Cache) (now : Int) : Reachable c → Reachable (c.schedule now)
  | sweep (c : Cache) (now : Int) (c2 : Cache) :
      Reachable c → c.sweep now = some c2 → Reachable c2

/-- One step of a cache that is not a call for key k and does not touch the
item stored under k: a call of SetWithTTL, GetByLoader (so Get and
GetWithTTL), Remove or Touch for another key, a change of the configuration, a
round of the scheduler, or an expiration sweep in which no callback vetoes the
expiry of the item of k. -/
inductive OtherStep (k : String) : Cache → Cache → Prop
  | setWithTTL (c : Cache) (now : Int) (key : String) (data : Value) (ttl : Int) (c2 : Cache)
      (e : Option GoError) :
      key ≠ k → c.SetWithTTL now key data ttl = some (c2, e) → OtherStep k c c2
  | getByLoader (c : Cache) (now : Int) (key : String) (l : Option LoaderFunction) (c2 : Cache)
      (r : Value × Int × Option GoError) :
      key ≠ k → c.GetByLoader now key l = some (c2, r) → OtherStep k c c2
  | remove (c : Cache) (key : String) (c2 : Cache) (e : Option GoError) :
      key ≠ k → c.Remove key = some (c2, e) → OtherStep k c c2
  | touch (c : Cache) (now : Int) (key : String) : key ≠ k → OtherStep k c (c.Touch now key).1
  | setTTL (c : Cache) (ttl : Int) : OtherStep k c (c.SetTTL ttl).1
  | setCheckExpirationCallback (c : Cache) (f : Option CheckExpireCallback) :
      OtherStep k c (c.SetCheckExpirationCallback f)
  | skipTTLExtensionOnHit (c : Cache) (b : Bool) : OtherStep k c (c.SkipTTLExtensionOnHit b)
  | setLoaderFunction (c : Cache) (f : Option LoaderFunction) :
      OtherStep k c (c.SetLoaderFunction f)
  | setCacheSizeLimit (c : Cache) (limit : Int) : OtherStep k c (c.SetCacheSizeLimit limit)
  | schedule (c : Cache) (now : Int) : OtherStep k c (c.schedule now)
  | sweep (c : Cache) (now : Int) (c2 : Cache) :
      NoVeto k c → c.sweep now = some c2 → OtherStep k c c2

/-- Any number of steps that are no calls for key k and do not touch the item
stored under k. -/
inductive Others (k : String) : Cache → Cache → Prop
  | refl (c : Cache) : Others k c c
  | step (c1 c2 c3 : Cache) : Others k c1 c2 → OtherStep k c2 c3 → Others k c1 c3

end Cache

/-- Example cache: on a new cache, key a is set to the value 7 with ttl 50 at
instant 10. -/
def exampleSet : Cache :=
  (((NewCache 0).SetWithTTL 10 "a" (some 7) 50).map Prod.fst).getD (NewCache 0)

/-- Example cache: an expiration sweep of exampleSet at instant 100. -/
def exampleSwept : Cache := (exampleSet.sweep 100).getD exampleSet

/-- Example cache: the global TTL is set to 10 and key a is set with ttl 0
(method Set) at instant 0. -/
def exampleZero : Cache :=
  ((((NewCache 0).SetTTL 10).1.Set 0 "a" (some 1)).map Prod.fst).getD (NewCache 0)

/-- Example cache: the global TTL of exampleZero is changed to 100. -/
def exampleZeroBumped : Cache := (exampleZero.SetTTL 100).1

/-- Example cache: Get of key a on exampleZeroBumped at instant 5. -/
def exampleZeroRead : Cache :=
  ((exampleZeroBumped.Get 5 "a").map Prod.fst).getD exampleZeroBumped

/-- Example cache: a new cache after Close. -/
def exampleClosed : Cache := ((NewCache 0).Close.map Prod.fst).getD (NewCache 0)

/-- Example cache: key a is set with ttl 1 at instant 0. -/
def exampleStale : Cache :=
  (((NewCache 0).SetWithTTL 0 "a" (some 1) 1).map Prod.fst).getD (NewCache 0)

/-- Example cache: on exampleStale, whose entry of key a is expired and not
swept, key a is set again at instant 5, with the negative ttl -1. -/
def exampleOverNeg : Cache :=
  ((exampleStale.SetWithTTL 5 "a" (some 2) (-1)).map Prod.fst).getD exampleStale

/-- Example cache: an expiration sweep of exampleOverNeg at instant 6. -/
def exampleOverNegSwept : Cache := (exampleOverNeg.sweep 6).getD exampleOverNeg

/-- Example cache: Close of exampleOverNeg. -/
def exampleOverNegClosed : Cache :=
  (exampleOverNeg.Close.map Prod.fst).getD exampleOverNeg

/-- Example cache: on exampleStale, whose entry of key a is expired and not
swept, key a is set again at instant 5, with ttl 100. -/
def exampleOver : Cache :=
  ((exampleStale.SetWithTTL 5 "a" (some 2) 100).map Prod.fst).getD exampleStale

/-- Example cache: an expiration sweep of exampleOver at instant 6, then the
size limit is set to 1 and key b is set with ttl 100 at instant 7. -/
def exampleFull : Cache :=
  (((((exampleOver.sweep 6).getD exampleOver).SetCacheSizeLimit 1).SetWithTTL 7 "b" (some 3)
    100).map Prod.fst).getD exampleOver

/-- Example cache: on exampleFull key c is set with ttl 100 at instant 8. -/
def exampleOverfull : Cache :=
  ((exampleFull.SetWithTTL 8 "c" (some 4) 100).map Prod.fst).getD exampleFull

namespace Cache

/-- Agreement of heap and key map: every item in the heap is the item that the
key map holds for its key. -/
def Agree (c : Cache) : Prop :=
  ∀ q, q ∈ c.expirationHeap.entries → mapGet c.items (c.deref q).key = some q

end Cache

namespace Cache

/-- One of the operations that C5 lets follow the insert: SetTTL, Get with no
loader configured, Touch and an expiration sweep. -/
inductive QuietStep : Cache → Cache → Prop
  | setTTL (c : Cache) (ttl : Int) : QuietStep c (c.SetTTL ttl).1
  | get (c : Cache) (now : Int) (key : String) (c2 : Cache) (r : Value × Option GoError) :
      c.loaderFunction = none → c.Get now key = some (c2, r) → QuietStep c c2
  | touch (c : Cache) (now : Int) (key : String) : QuietStep c (c.Touch now key).1
  | sweep (c : Cache) (now : Int) (c2 : Cache) : c.sweep now = some c2 → QuietStep c c2

/-- Any number of operations of the kind QuietStep. -/
inductive Quiet : Cache → Cache → Prop
  | refl (c : Cache) : Quiet c c
  | step (c1 c2 c3 : Cache) : Quiet c1 c2 → QuietStep c2 c3 → Quiet c1 c3

/-- The open cache c holds under key k the item p with value v and ttl, and no
other item in its heap carries the key k. -/
def Holds (k : String) (p : Nat) (v : Value) (ttl : Int) (c : Cache) : Prop :=
  c.Inv ∧ c.isShutDown = false ∧ mapGet c.items k = some p ∧ (c.deref p).data = v ∧
    (c.deref p).ttl = ttl ∧
    ∀ q, q ∈ c.expirationHeap.entries → (c.deref q).key = k → q = p

end Cache

/-- Example cache: the size limit is set to 1 and key a is set with ttl 100 at
instant 0. -/
def exampleLimited : Cache :=
  ((((NewCache 0).SetCacheSizeLimit 1).SetWithTTL 0 "a" (some 1) 100).map Prod.fst).getD
    (NewCache 0)

/-- Example cache: key a is set with the negative ttl -1 at instant 0. -/
def exampleNeg : Cache :=
  (((NewCache 0).SetWithTTL 0 "a" (some 1) (-1)).map Prod.fst).getD (NewCache 0)

/-- Example cache: an expiration sweep of exampleNeg at instant 50. -/
def exampleNegSwept : Cache := (exampleNeg.sweep 50).getD exampleNeg

/-! ## Predicates for the heap methods -/

namespace ExpirationHeap

/-- Heaps reached from the empty heap by calls of Add (each with a new entry
object), Remove, Update (after an assignment to the expiration of the entry)
and First, together with the entries that are in the heap (live) and the
entries that were removed or popped (gone).  Remove and Update are called with
entries that were added before, so their index was set by the heap only. -/
inductive Operated : ExpirationHeap → List Nat → List Nat → Prop
  | empty : Operated (NewExpirationHeap []) [] []
  | add (h : ExpirationHeap) (live gone : List Nat) (it : item) :
      Operated h live gone → Operated ((h.alloc it).Add h.mem.length) (h.mem.length :: live) gone
  | remove (h : ExpirationHeap) (live gone : List Nat) (p : Nat) (h2 : ExpirationHeap) :
      Operated h live gone → p ∈ live ∨ p ∈ gone → h.Remove p = some h2 →
      Operated h2 (live.erase p) (p :: gone)
  | update (h : ExpirationHeap) (live gone : List Nat) (p : Nat) (e : Int)
      (h2 : ExpirationHeap) :
      Operated h live gone → p ∈ live ∨ p ∈ gone → (h.setExpireAt p e).Update p = some h2 →
      Operated h2 live gone
  | first (h : ExpirationHeap) (live gone : List Nat) (p : Nat) :
      Operated h live gone → h.First.2 = some p → Operated h.First.1 (live.erase p) (p :: gone)
  | firstNil (h : ExpirationHeap) (live gone : List Nat) :
      Operated h live gone → h.First.2 = none → Operated h.First.1 live gone

end ExpirationHeap

/-- Example heap: the root of exampleHeap is popped by First. -/
def exampleHeapPopped : ExpirationHeap := exampleHeap.First.1

/-- Example heap: the entry x (expires at 3) is added to the empty heap, and
the entry object y (expires at 1) is allocated and not added yet. -/
def exampleHeapFresh : ExpirationHeap :=
  (((ExpirationHeap.NewExpirationHeap []).alloc ⟨"x", none, 0, 3, -1⟩).Add 0).alloc
    ⟨"y", none, 0, 1, -1⟩

/-! ## Predicates and examples for the claims on Touch, reads and sweeps -/

/-- Example cache: on a new cache (no global TTL), key a is set with ttl 0
(method Set) at instant 0. -/
def exampleNoTTL : Cache :=
  (((NewCache 0).Set 0 "a" (some 1)).map Prod.fst).getD (NewCache 0)

/-- Example cache: the global TTL of exampleNoTTL is set to 10. -/
def exampleLateTTL : Cache := (exampleNoTTL.SetTTL 10).1

/-- Example cache: on a new cache, key a is set with ttl 10 and key b with
ttl 12, both at instant 0. -/
def exampleTwoKeys : Cache :=
  ((((((NewCache 0).SetWithTTL 0 "a" (some 1) 10).map Prod.fst).getD (NewCache 0)).SetWithTTL 0
    "b" (some 2) 12).map Prod.fst).getD (NewCache 0)

/-- Example cache: Touch of key a on exampleTwoKeys at instant 5. -/
def exampleTouchedOnly : Cache := (exampleTwoKeys.Touch 5 "a").1

/-- Example cache: an expiration sweep of exampleTouchedOnly at instant 13. -/
def exampleTouchedSwept : Cache := (exampleTouchedOnly.sweep 13).getD exampleTouchedOnly

/-- Example cache: SkipTTLExtensionOnHit(true) on exampleTouchedOnly. -/
def exampleTouched : Cache := exampleTouchedOnly.SkipTTLExtensionOnHit true

/-- Example cache: Get of key a on exampleTouched at instant 6. -/
def exampleTouchedRead : Cache :=
  ((exampleTouched.Get 6 "a").map Prod.fst).getD exampleTouched

/-- Example cache: SkipTTLExtensionOnHit(true) on exampleSet. -/
def exampleSkip : Cache := exampleSet.SkipTTLExtensionOnHit true

/-- Example cache: on a new cache, SkipTTLExtensionOnHit(true), a
check-expiration callback that always returns false, and key a set with ttl 10
at instant 0. -/
def exampleVeto : Cache :=
  (((((NewCache 0).SkipTTLExtensionOnHit true).SetCheckExpirationCallback
    (some (fun _ _ => false))).SetWithTTL 0 "a" (some 1) 10).map Prod.fst).getD (NewCache 0)

/-- Example cache: an expiration sweep of exampleVeto at instant 20. -/
def exampleVetoSwept : Cache := (exampleVeto.sweep 20).getD exampleVeto

namespace Cache

/-- Cache c2 is cache c1 after a sweep at instant now kept the heap entry p,
the expiry of which the check-expiration callback vetoed: the entry is still in
the heap and in the key map, its expiration is now + its ttl, and no eviction
is counted or reported. -/
structure Vetoed (c1 : Cache) (p : Nat) (now : Int) (c2 : Cache) : Prop where
  items : c2.items = c1.items
  config : SameConfig c1 c2
  evictions : c2.evictions = c1.evictions
  metrics : c2.metrics = c1.metrics
  entries : ∀ q, q ∈ c2.expirationHeap.entries ↔ q ∈ c1.expirationHeap.entries
  other : ∀ q, q ≠ p → (c2.deref q).core = (c1.deref q).core
  key_eq : (c2.deref p).key = (c1.deref p).key
  data_eq : (c2.deref p).data = (c1.deref p).data
  ttl_eq : (c2.deref p).ttl = (c1.deref p).ttl
  expireAt_eq : (c2.deref p).expireAt = now + (c1.deref p).ttl
  inv : c2.Inv

/-- The rounds of an expiration sweep at instant now, as the veto rule
describes them: the sweep ends when the heap is empty or its root is not due;
a due root for which the check-expiration callback returns false is kept and
renewed; a due root for which it returns true, or with no callback set, is
removed with reason Expired and EvictedExpired grows by one. -/
inductive Swept (now : Int) : Cache → Cache → Prop
  | done (c : Cache) :
      (∀ p, c.expirationHeap.Peek = some p → (c.deref p).expired now = false) → Swept now c c
  | veto (c : Cache) (p : Nat) (c1 c2 : Cache) :
      c.expirationHeap.Peek = some p → (c.deref p).expired now = true →
      (∃ cb, c.checkExpireCallback = some cb ∧ cb (c.deref p).key (c.deref p).data = false) →
      Vetoed c p now c1 → Swept now c1 c2 → Swept now c c2
  | expire (c : Cache) (p : Nat) (c1 c2 : Cache) :
      c.expirationHeap.Peek = some p → (c.deref p).expired now = true →
      (c.checkExpireCallback = none ∨
        ∃ cb, c.checkExpireCallback = some cb ∧ cb (c.deref p).key (c.deref p).data = true) →
      ItemRemoved c p EvictionReason.Expired c1 →
      c1.metrics.EvictedExpired = c.metrics.EvictedExpired + 1 →
      Swept now c1 c2 → Swept now c c2

end Cache

/-- Example cache: a check-expiration callback that returns false for the
value 1 and true for every other value is set on a new cache, and key a is set
to the value 1 with ttl 10 at instant 0. -/
def exampleVetoA : Cache :=
  ((((NewCache 0).SetCheckExpirationCallback
    (some (fun _ v => decide (v ≠ some 1)))).SetWithTTL 0 "a" (some 1) 10).map Prod.fst).getD
      (NewCache 0)

/-- Example cache: on exampleVetoA key b is set to the value 2 with ttl 10 at
instant 0. -/
def exampleVetoOne : Cache :=
  ((exampleVetoA.SetWithTTL 0 "b" (some 2) 10).map Prod.fst).getD exampleVetoA

/-- Example cache: an expiration sweep of exampleVetoOne at instant 20. -/
def exampleVetoOneSwept : Cache := (exampleVetoOne.sweep 20).getD exampleVetoOne

/-- Example loader function: the value 5 with ttl 100 for every key except
"bad", for which it returns the error with code 3. -/
def exampleLoader : LoaderFunction :=
  fun key => if key = "bad" then (none, 0, some (GoError.loader 3)) else (some 5, 100, none)

/-- Example cache: on exampleSet the loader function exampleLoader is set. -/
def exampleLoading : Cache := exampleSet.SetLoaderFunction (some exampleLoader)

namespace Cache

/-- States of a cache in which SkipTTLExtensionOnHit keeps its default: the
states reached from NewCache by the public methods other than
SkipTTLExtensionOnHit and by the rounds and sweeps of the scheduler, at
instants that do not decrease.  The index is an instant that the clock has
reached. -/
inductive DefaultRun : Int → Cache → Prop
  | newCache (now : Int) : DefaultRun now (NewCache now)
  | later (T T2 : Int) (c : Cache) : DefaultRun T c → T ≤ T2 → DefaultRun T2 c
  | setWithTTL (T : Int) (c : Cache) (key : String) (data : Value) (ttl : Int) (c2 : Cache)
      (e : Option GoError) :
      DefaultRun T c → c.SetWithTTL T key data ttl = some (c2, e) → DefaultRun T c2
  | getByLoader (T : Int) (c : Cache) (key : String) (l : Option LoaderFunction) (c2 : Cache)
      (r : Value × Int × Option GoError) :
      DefaultRun T c → c.GetByLoader T key l = some (c2, r) → DefaultRun T c2
  | remove (T : Int) (c : Cache) (key : String) (c2 : Cache) (e : Option GoError) :
      DefaultRun T c → c.Remove key = some (c2, e) → DefaultRun T c2
  | touch (T : Int) (c : Cache) (key : String) : DefaultRun T c → DefaultRun T (c.Touch T key).1
  | purge (T : Int) (c : Cache) : DefaultRun T c → DefaultRun T c.Purge.1
  | close (T : Int) (c : Cache) (c2 : Cache) (e : Option GoError) :
      DefaultRun T c → c.Close = some (c2, e) → DefaultRun T c2
  | setTTL (T : Int) (c : Cache) (ttl : Int) : DefaultRun T c → DefaultRun T (c.SetTTL ttl).1
  | setCheckExpirationCallback (T : Int) (c : Cache) (f : Option CheckExpireCallback) :
      DefaultRun T c → DefaultRun T (c.SetCheckExpirationCallback f)
  | setLoaderFunction (T : Int) (c : Cache) (f : Option LoaderFunction) :
      DefaultRun T c → DefaultRun T (c.SetLoaderFunction f)
  | setCacheSizeLimit (T : Int) (c : Cache) (limit : Int) :
      DefaultRun T c → DefaultRun T (c.SetCacheSizeLimit limit)
  | schedule (T : Int) (c : Cache) : DefaultRun T c → DefaultRun T (c.schedule T)
  | sweep (T : Int) (c : Cache) (c2 : Cache) :
      DefaultRun T c → c.sweep T = some c2 → DefaultRun T c2

/-- At instant T no item with a positive ttl has more than its ttl left, and
the flag skipTTLExtension is off. -/
def Fresh (T : Int) (c : Cache) : Prop :=
  c.skipTTLExtension = false ∧
    ∀ p, 0 < (c.deref p).ttl → (c.deref p).expireAt ≤ T + (c.deref p).ttl

/-- Between cache c and cache c2 every item kept its ttl and expiration or, if
its ttl is positive, has at most that ttl left at instant now; the flag
skipTTLExtension is the same. -/
def Renewed (now : Int) (c c2 : Cache) : Prop :=
  c2.skipTTLExtension = c.skipTTLExtension ∧
    ∀ q, ((c2.deref q).ttl = (c.deref q).ttl ∧ (c2.deref q).expireAt = (c.deref q).expireAt) ∨
      (0 < (c2.deref q).ttl → (c2.deref q).expireAt ≤ now + (c2.deref q).ttl)

end Cache

namespace Cache

/-- The heap of the cache is in heap order and the expiration of every entry
in it is the zero instant exactly when the ttl of the entry is not positive. -/
def Sound (c : Cache) : Prop :=
  c.expirationHeap.Ordered c.expirationHeap.entries.length ∧
    ∀ q, q ∈ c.expirationHeap.entries → ((c.deref q).expireAt = 0 ↔ (c.deref q).ttl ≤ 0)

/-- What a sweep at instant now, from cache c to cache c2, did with the heap
entry q of c: it left the entry as it was, or kept and renewed it because it
was due and the check-expiration callback vetoed its expiry, or removed it with
reason Expired because it was due and no callback vetoed its expiry. -/
def Handled (now : Int) (c c2 : Cache) (q : Nat) : Prop :=
  (q ∈ c2.expirationHeap.entries ∧ (c2.deref q).core = (c.deref q).core) ∨
  (q ∈ c2.expirationHeap.entries ∧ (c.deref q).expired now = true ∧ c.vetoes q = true ∧
    (c2.deref q).key = (c.deref q).key ∧ (c2.deref q).data = (c.deref q).data ∧
    (c2.deref q).ttl = (c.deref q).ttl ∧ (c2.deref q).expireAt = now + (c.deref q).ttl) ∨
  (q ∉ c2.expirationHeap.entries ∧ (c.deref q).expired now = true ∧ c.vetoes q = false ∧
    ((c.deref q).key, EvictionReason.Expired, (c.deref q).data) ∈ c2.evictions)

end Cache

/-- Example cache: Get of key a on a new cache at instant 0. -/
def exampleMissRead : Cache := (((NewCache 0).Get 0 "a").map Prod.fst).getD (NewCache 0)

/-- Example cache: on a new cache, key a is set with ttl 10 at instant 0. -/
def exampleTen : Cache :=
  (((NewCache 0).SetWithTTL 0 "a" (some 1) 10).map Prod.fst).getD (NewCache 0)

/-- Example cache: on exampleTen key a is set again at instant 5, to the
value 2 with the ttl ItemNotExpire. -/
def exampleReset : Cache :=
  ((exampleTen.SetWithTTL 5 "a" (some 2) ItemNotExpire).map Prod.fst).getD exampleTen

/-- Example cache: SkipTTLExtensionOnHit(true) on exampleLateTTL. -/
def exampleLateSkip : Cache := exampleLateTTL.SkipTTLExtensionOnHit true

/-- Example cache: Get of key a on exampleLateSkip at instant 5. -/
def exampleLateRead : Cache :=
  ((exampleLateSkip.Get 5 "a").map Prod.fst).getD exampleLateSkip

/-- Example cache: a second Get of key a, on exampleLateRead, at instant 5. -/
def exampleLateAgain : Cache :=
  ((exampleLateRead.Get 5 "a").map Prod.fst).getD exampleLateRead

/-- Example cache: Get of key a on exampleSkip at instant 20. -/
def exampleSkipRead : Cache := ((exampleSkip.Get 20 "a").map Prod.fst).getD exampleSkip

namespace Cache

/-- States of a cache reached from NewCache by the public methods and by the
rounds and sweeps of the scheduler, at arbitrary instants, in runs in which no
key is written (by SetWithTTL, or by a loader through GetByLoader) while its
entry is expired and still in the key map. -/
inductive CleanRun : Cache → Prop
  | newCache (now : Int) : CleanRun (NewCache now)
  | setWithTTL (c : Cache) (now : Int) (key : String) (data : Value) (ttl : Int) (c2 : Cache)
      (e : Option GoError) :
      CleanRun c → (∀ p, mapGet c.items key = some p → (c.deref p).expired now = false) →
      c.SetWithTTL now key data ttl = some (c2, e) → CleanRun c2
  | getByLoader (c : Cache) (now : Int) (key : String) (l : Option LoaderFunction) (c2 : Cache)
      (r : Value × Int × Option GoError) :
      CleanRun c →
      ((l = none ∧ c.loaderFunction = none) ∨
        ∀ p, mapGet c.items key = some p → (c.deref p).expired now = false) →
      c.GetByLoader now key l = some (c2, r) → CleanRun c2
  | remove (c : Cache) (key : String) (c2 : Cache) (e : Option GoError) :
      CleanRun c → c.Remove key = some (c2, e) → CleanRun c2
  | touch (c : Cache) (now : Int) (key : String) : CleanRun c → CleanRun (c.Touch now key).1
  | purge (c : Cache) : CleanRun c → CleanRun c.Purge.1
  | close (c : Cache) (c2 : Cache) (e : Option GoError) :
      CleanRun c → c.Close = some (c2, e) → CleanRun c2
  | setTTL (c : Cache) (ttl : Int) : CleanRun c → CleanRun (c.SetTTL ttl).1
  | setCheckExpirationCallback (c : Cache) (f : Option CheckExpireCallback) :
      CleanRun c → CleanRun (c.SetCheckExpirationCallback f)
  | skipTTLExtensionOnHit (c : Cache) (b : Bool) :
      CleanRun c → CleanRun (c.SkipTTLExtensionOnHit b)
  | setLoaderFunction (c : Cache) (f : Option LoaderFunction) :
      CleanRun c → CleanRun (c.SetLoaderFunction f)
  | setCacheSizeLimit (c : Cache) (limit : Int) :
      CleanRun c → CleanRun (c.SetCacheSizeLimit limit)
  | schedule (c : Cache) (now : Int) : CleanRun c → CleanRun (c.schedule now)
  | sweep (c : Cache) (now : Int) (c2 : Cache) :
      CleanRun c → c.sweep now = some c2 → CleanRun c2

end Cache

namespace Cache

/-- States of a cache reached from NewCache by the public methods other than
Touch and by the rounds and sweeps of the scheduler, at arbitrary instants. -/
inductive NoTouchRun : Cache → Prop
  | newCache (now : Int) : NoTouchRun (NewCache now)
  | setWithTTL (c : Cache) (now : Int) (key : String) (data : Value) (ttl : Int) (c2 : Cache)
      (e : Option GoError) :
      NoTouchRun c → c.SetWithTTL now key data ttl = some (c2, e) → NoTouchRun c2
  | getByLoader (c : Cache) (now : Int) (key : String) (l : Option LoaderFunction) (c2 : Cache)
      (r : Value × Int × Option GoError) :
      NoTouchRun c → c.GetByLoader now key l = some (c2, r) → NoTouchRun c2
  | remove (c : Cache) (key : String) (c2 : Cache) (e : Option GoError) :
      NoTouchRun c → c.Remove key = some (c2, e) → NoTouchRun c2
  | purge (c : Cache) : NoTouchRun c → NoTouchRun c.Purge.1
  | close (c : Cache) (c2 : Cache) (e : Option GoError) :
      NoTouchRun c → c.Close = some (c2, e) → NoTouchRun c2
  | setTTL (c : Cache) (ttl : Int) : NoTouchRun c → NoTouchRun (c.SetTTL ttl).1
  | setCheckExpirationCallback (c : Cache) (f : Option CheckExpireCallback) :
      NoTouchRun c → NoTouchRun (c.SetCheckExpirationCallback f)
  | skipTTLExtensionOnHit (c : Cache) (b : Bool) :
      NoTouchRun c → NoTouchRun (c.SkipTTLExtensionOnHit b)
  | setLoaderFunction (c : Cache) (f : Option LoaderFunction) :
      NoTouchRun c → NoTouchRun (c.SetLoaderFunction f)
  | setCacheSizeLimit (c : Cache) (limit : Int) :
      NoTouchRun c → NoTouchRun (c.SetCacheSizeLimit limit)
  | schedule (c : Cache) (now : Int) : NoTouchRun c → NoTouchRun (c.schedule now)
  | sweep (c : Cache) (now : Int) (c2 : Cache) :
      NoTouchRun c → c.sweep now = some c2 → NoTouchRun c2

/-- The heap of the cache is in heap order. -/
def InOrder (c : Cache) : Prop :=
  c.expirationHeap.Ordered c.expirationHeap.entries.length

end Cache

/-- Example cache: on exampleReset key b is set with ttl 15 at instant 5. -/
def exampleResetTwo : Cache :=
  ((exampleReset.SetWithTTL 5 "b" (some 3) 15).map Prod.fst).getD exampleReset

/-- Example cache: an expiration sweep of exampleResetTwo at instant 25. -/
def exampleResetSwept : Cache := (exampleResetTwo.sweep 25).getD exampleResetTwo

/-- Example cache: SetCacheSizeLimit(-1) on a new cache. -/
def exampleNoRoom : Cache := (NewCache 0).SetCacheSizeLimit (-1)

/-- Example state: on exampleNoRoom a caller of GetByLoader for key k with the
loader exampleLoader arrives at instant 0, with channel 0. -/
def exampleNoRoomOne : Flight :=
  (((Flight.start exampleNoRoom).arrive 0 0 "k" (some exampleLoader)).map Prod.fst).getD
    (Flight.start exampleNoRoom)

/-- Example cache: on exampleNoRoom the loader function exampleLoader is set. -/
def exampleNoRoomLoading : Cache := exampleNoRoom.SetLoaderFunction (some exampleLoader)

/-- Example state: on exampleNoRoomLoading two callers of Get for key k
arrive, at instants 0 and 1, with channels 0 and 1. -/
def exampleNoRoomTwo : Flight :=
  (((Flight.start exampleNoRoomLoading).arriveAll "k" [(0, 0), (1, 1)]).map Prod.fst).getD
    (Flight.start exampleNoRoomLoading)

/-- Example cache: on a new cache (no global TTL), key a is set with ttl 100
at instant 0. -/
def exampleLong : Cache :=
  (((NewCache 0).SetWithTTL 0 "a" (some 1) 100).map Prod.fst).getD (NewCache 0)

/-- Example cache: on exampleLong key a is set again at instant 1, with ttl 0
(method Set). -/
def exampleLongReset : Cache :=
  ((exampleLong.Set 1 "a" (some 1)).map Prod.fst).getD exampleLong

/-- Example cache: on exampleLongReset the global TTL is set to 5 and
SkipTTLExtensionOnHit(true) is called. -/
def exampleLongSkip : Cache := (exampleLongReset.SetTTL 5).1.SkipTTLExtensionOnHit true

/-- Example cache: Get of key a on exampleLongSkip at instant 2. -/
def exampleLongRead : Cache :=
  ((exampleLongSkip.Get 2 "a").map Prod.fst).getD exampleLongSkip

/-- Example cache: SkipTTLExtensionOnHit(false) on exampleLongRead. -/
def exampleLongBack : Cache := exampleLongRead.SkipTTLExtensionOnHit false

/-- Example cache: GetWithTTL of key a on exampleLongBack at instant 3. -/
def exampleLongAgain : Cache :=
  ((exampleLongBack.GetWithTTL 3 "a").map Prod.fst).getD exampleLongBack

/-! ## Lists as arrays -/

theorem getD_set_eq {α : Type} (l : List α) (i j : Nat) (a d : α) :
    (l.set i a).getD j d = if i = j ∧ i < l.length then a else l.getD j d := by
  simp only [List.getD_eq_getElem?_getD, List.getElem?_set]
  by_cases h : i = j
  · subst h
    by_cases h2 : i < l.length
    · simp [h2]
    · simp [h2]
      rw [List.getElem?_eq_none (by omega)]
      rfl
  · simp [h]

theorem mem_iff_getD (l : List Nat) (p : Nat) :
    p ∈ l ↔ ∃ k, k < l.length ∧ l.getD k 0 = p := by
  rw [List.mem_iff_getElem]
  constructor
  · rintro ⟨k, hk, h⟩
    exact ⟨k, hk, by rw [List.getD_eq_getElem l 0 hk]; exact h⟩
  · rintro ⟨k, hk, h⟩
    exact ⟨k, hk, by rw [List.getD_eq_getElem l 0 hk] at h; exact h⟩

theorem getD_take (l : List Nat) (n k : Nat) (hk : k < n) :
    (l.take n).getD k 0 = l.getD k 0 := by
  simp only [List.getD_eq_getElem?_getD, List.getElem?_take, hk, if_true]

theorem swapList_length (l : List Nat) (i j : Nat) : (swapList l i j).length = l.length := by
  simp [swapList]

theorem swapList_getD (l : List Nat) (i j k : Nat) (hi : i < l.length) (hj : j < l.length) :
    (swapList l i j).getD k 0 =
      if k = j then l.getD i 0 else if k = i then l.getD j 0 else l.getD k 0 := by
  unfold swapList
  rw [getD_set_eq, getD_set_eq]
  simp only [List.length_set]
  by_cases h1 : j = k
  · subst h1; simp [hj]
  · have h1b : ¬ k = j := fun h => h1 h.symm
    simp only [h1, h1b, false_and, if_false]
    by_cases h2 : i = k
    · subst h2; simp [hi]
    · have h2b : ¬ k = i := fun h => h2 h.symm
      simp [h2, h2b]

theorem mem_swapList (l : List Nat) (i j p : Nat) (hi : i < l.length) (hj : j < l.length) :
    p ∈ swapList l i j ↔ p ∈ l := by
  rw [mem_iff_getD, mem_iff_getD, swapList_length]
  constructor
  · rintro ⟨k, hk, h⟩
    rw [swapList_getD l i j k hi hj] at h
    by_cases h1 : k = j
    · rw [if_pos h1] at h; exact ⟨i, hi, h⟩
    · rw [if_neg h1] at h
      by_cases h2 : k = i
      · rw [if_pos h2] at h; exact ⟨j, hj, h⟩
      · rw [if_neg h2] at h; exact ⟨k, hk, h⟩
  · rintro ⟨k, hk, h⟩
    by_cases h1 : k = i
    · refine ⟨j, hj, ?_⟩
      rw [swapList_getD l i j j hi hj, if_pos rfl, ← h1]; exact h
    · by_cases h2 : k = j
      · refine ⟨i, hi, ?_⟩
        rw [swapList_getD l i j i hi hj]
        by_cases h3 : i = j
        · rw [if_pos h3, ← h, h2, h3]
        · rw [if_neg h3, if_pos rfl, ← h2]; exact h
      · refine ⟨k, hk, ?_⟩
        rw [swapList_getD l i j k hi hj, if_neg h2, if_neg h1]; exact h

/-! ## The heap operations rearrange pointers and write only queueIndex -/

namespace ExpirationHeap

theorem SameCore.core_refl (h : ExpirationHeap) : SameCore h h := ⟨rfl, fun _ => rfl⟩

theorem SameCore.core_trans {h1 h2 h3 : ExpirationHeap} (a : SameCore h1 h2) (b : SameCore h2 h3) :
    SameCore h1 h3 :=
  ⟨b.1.trans a.1, fun p => (b.2 p).trans (a.2 p)⟩

theorem Shuffle.shuffle_refl (h : ExpirationHeap) : Shuffle h h :=
  ⟨SameCore.core_refl h, rfl, fun _ => Iff.rfl, id, fun _ _ _ => rfl⟩

theorem Shuffle.shuffle_trans {h1 h2 h3 : ExpirationHeap} (a : Shuffle h1 h2) (b : Shuffle h2 h3) :
    Shuffle h1 h3 :=
  ⟨a.core.core_trans b.core, b.len.trans a.len, fun p => (b.mem p).trans (a.mem p),
    fun w => b.wf (a.wf w),
    fun w p hp => (b.out (a.wf w) p (fun hq => hp ((a.mem p).1 hq))).trans (a.out w p hp)⟩

theorem deref_SetIndex (h : ExpirationHeap) (p q : Nat) (v : Int) :
    (h.SetIndex p v).deref q =
      if p = q ∧ p < h.mem.length then { h.deref p with queueIndex := v } else h.deref q := by
  simp only [SetIndex, deref]
  exact getD_set_eq _ _ _ _ _

theorem SetIndex_core (h : ExpirationHeap) (p : Nat) (v : Int) : SameCore h (h.SetIndex p v) := by
  refine ⟨by simp [SetIndex], fun q => ?_⟩
  rw [deref_SetIndex]
  split_ifs with hc
  · rw [← hc.1]; rfl
  · rfl

theorem notify_core (h : ExpirationHeap) : SameCore h h.notify := ⟨rfl, fun _ => rfl⟩

theorem Swap_entries (h : ExpirationHeap) (i j : Nat) :
    (h.Swap i j).entries = swapList h.entries i j := by
  unfold Swap
  dsimp only
  split_ifs <;> rfl

theorem Swap_mem (h : ExpirationHeap) (i j : Nat) (hi : i < h.entries.length)
    (hj : j < h.entries.length) :
    (h.Swap i j).mem =
      ((h.SetIndex (h.entry j) i).SetIndex (h.entry i) j).mem := by
  have e1 : (swapList h.entries i j).getD i 0 = h.entry j := by
    rw [swapList_getD _ _ _ _ hi hj]
    by_cases hc : i = j
    · rw [if_pos hc, hc]; rfl
    · rw [if_neg hc, if_pos rfl]; rfl
  have e2 : (swapList h.entries i j).getD j 0 = h.entry i := by
    rw [swapList_getD _ _ _ _ hi hj, if_pos rfl]; rfl
  have : (h.Swap i j).mem =
      ((({ h with entries := swapList h.entries i j } : ExpirationHeap).SetIndex
        ((swapList h.entries i j).getD i 0) i).SetIndex
          ((swapList h.entries i j).getD j 0) j).mem := by
    unfold Swap
    dsimp only
    split_ifs <;> rfl
  rw [this, e1, e2]
  rfl

theorem Swap_core (h : ExpirationHeap) (i j : Nat) : SameCore h (h.Swap i j) := by
  unfold Swap
  have key : ∀ (h1 : ExpirationHeap) (a b : Nat) (x y : Int), h1.mem = h.mem →
      SameCore h ((h1.SetIndex a x).SetIndex b y) := by
    intro h1 a b x y hm
    have s0 : SameCore h h1 := ⟨by rw [hm], fun p => by simp [deref, hm]⟩
    exact (s0.core_trans (SetIndex_core h1 a x)).core_trans (SetIndex_core _ b y)
  dsimp only
  split_ifs
  · exact (key _ _ _ _ _ rfl).core_trans (notify_core _)
  · exact key _ _ _ _ _ rfl

theorem Swap_deref (h : ExpirationHeap) (i j : Nat) (hi : i < h.entries.length)
    (hj : j < h.entries.length) (w : h.WF) (p : Nat) :
    (h.Swap i j).deref p =
      if p = h.entry i then { h.deref p with queueIndex := j }
      else if p = h.entry j then { h.deref p with queueIndex := i }
      else h.deref p := by
  have hmi := (w i hi).1
  have hmj := (w j hj).1
  have : (h.Swap i j).deref p = ((h.SetIndex (h.entry j) i).SetIndex (h.entry i) j).deref p := by
    simp only [deref, Swap_mem h i j hi hj]
  rw [this]
  have hl : (h.SetIndex (h.entry j) ↑i).mem.length = h.mem.length := by simp [SetIndex]
  simp only [deref_SetIndex, hl]
  by_cases h1 : h.entry i = p
  · subst h1
    by_cases h2 : h.entry j = h.entry i
    · simp [h2, hmi]
    · simp [h2, hmi]
  · have h1b : ¬ p = h.entry i := fun e => h1 e.symm
    by_cases h2 : h.entry j = p
    · subst h2; simp [hmj, h1, h1b]
    · have h2b : ¬ p = h.entry j := fun e => h2 e.symm
      simp [h1, h1b, h2, h2b]

theorem WF.inj {h : ExpirationHeap} (w : h.WF) {a b : Nat} (ha : a < h.entries.length)
    (hb : b < h.entries.length) (e : h.entry a = h.entry b) : a = b := by
  have h1 := (w a ha).2
  have h2 := (w b hb).2
  rw [e] at h1
  have : (a : Int) = (b : Int) := h1.symm.trans h2
  exact_mod_cast this

theorem WF.nodup {h : ExpirationHeap} (w : h.WF) : h.entries.Nodup := by
  rw [List.nodup_iff_injective_get]
  intro a b e
  apply Fin.ext
  apply w.inj a.2 b.2
  simp only [entry, List.getD_eq_getElem _ _ a.2, List.getD_eq_getElem _ _ b.2]
  simpa [List.get_eq_getElem] using e

theorem mem_entries_iff (h : ExpirationHeap) (p : Nat) :
    p ∈ h.entries ↔ ∃ k, k < h.entries.length ∧ h.entry k = p := mem_iff_getD _ _

theorem WF.mem_iff {h : ExpirationHeap} (w : h.WF) (p : Nat) :
    p ∈ h.entries ↔
      0 ≤ (h.deref p).queueIndex ∧ (h.deref p).queueIndex < h.entries.length ∧
        h.entry (h.deref p).queueIndex.toNat = p := by
  rw [mem_entries_iff]
  constructor
  · rintro ⟨k, hk, rfl⟩
    have := (w k hk).2
    rw [this]
    refine ⟨by omega, by omega, ?_⟩
    simp
  · rintro ⟨h0, h1, h2⟩
    exact ⟨_, by omega, h2⟩

theorem Swap_entry (h : ExpirationHeap) (i j k : Nat) (hi : i < h.entries.length)
    (hj : j < h.entries.length) :
    (h.Swap i j).entry k =
      if k = j then h.entry i else if k = i then h.entry j else h.entry k := by
  simp only [entry, Swap_entries]
  exact swapList_getD _ _ _ _ hi hj

theorem Swap_shuffle (h : ExpirationHeap) (i j : Nat) (hi : i < h.entries.length)
    (hj : j < h.entries.length) : Shuffle h (h.Swap i j) := by
  refine ⟨Swap_core h i j, by rw [Swap_entries, swapList_length], ?_, ?_, ?_⟩
  · intro p
    rw [Swap_entries]
    exact mem_swapList _ _ _ _ hi hj
  · intro w k hk
    rw [Swap_entries, swapList_length] at hk
    rw [(Swap_core h i j).1, Swap_deref h i j hi hj w, Swap_entry h i j k hi hj]
    by_cases h1 : k = j
    · subst h1
      simp only [if_true]
      exact ⟨(w i hi).1, trivial⟩
    · simp only [if_neg h1]
      by_cases h2 : k = i
      · subst h2
        simp only [if_true]
        have hne : ¬ h.entry j = h.entry k := fun e => h1 (w.inj hk hj e.symm)
        simp only [if_neg hne]
        exact ⟨(w j hj).1, trivial⟩
      · simp only [if_neg h2]
        have hne1 : ¬ h.entry k = h.entry i := fun e => h2 (w.inj hk hi e)
        have hne2 : ¬ h.entry k = h.entry j := fun e => h1 (w.inj hk hj e)
        simp only [if_neg hne1, if_neg hne2]
        exact w k hk
  · intro w p hp
    rw [Swap_deref h i j hi hj w]
    have h1 : ¬ p = h.entry i := fun e => hp ((mem_entries_iff h p).2 ⟨i, hi, e.symm⟩)
    have h2 : ¬ p = h.entry j := fun e => hp ((mem_entries_iff h p).2 ⟨j, hj, e.symm⟩)
    simp [h1, h2]

theorem upLoop_shuffle (fuel : Nat) (h : ExpirationHeap) (j : Nat) (hj : j < h.entries.length) :
    Shuffle h (upLoop fuel h j) := by
  induction fuel generalizing h j with
  | zero => exact Shuffle.shuffle_refl h
  | succ fuel ih =>
    unfold upLoop
    simp only
    split_ifs with hc
    · exact Shuffle.shuffle_refl h
    · have hi : (j - 1) / 2 < h.entries.length := by omega
      have s1 := Swap_shuffle h ((j - 1) / 2) j hi hj
      exact s1.shuffle_trans (ih _ _ (by rw [s1.len]; exact hi))

theorem up_shuffle (h : ExpirationHeap) (j : Nat) (hj : j < h.entries.length) :
    Shuffle h (h.up j) := upLoop_shuffle j h j hj

theorem downLoop_shuffle (fuel : Nat) (h : ExpirationHeap) (i n : Nat)
    (hn : n ≤ h.entries.length) :
    Shuffle h (downLoop fuel h i n).1 := by
  induction fuel generalizing h i with
  | zero => exact Shuffle.shuffle_refl h
  | succ fuel ih =>
    unfold downLoop
    simp only
    split_ifs with h1 h2 h3 h4
    · exact Shuffle.shuffle_refl h
    · have s1 := Swap_shuffle h i (2 * i + 1 + 1) (by omega) (by omega)
      exact s1.shuffle_trans (ih _ _ (by rw [s1.len]; exact hn))
    · exact Shuffle.shuffle_refl h
    · have s1 := Swap_shuffle h i (2 * i + 1) (by omega) (by omega)
      exact s1.shuffle_trans (ih _ _ (by rw [s1.len]; exact hn))
    · exact Shuffle.shuffle_refl h

theorem down_shuffle (h : ExpirationHeap) (i n : Nat) (hn : n ≤ h.entries.length) :
    Shuffle h (h.down i n).1 := downLoop_shuffle n h i n hn

end ExpirationHeap

/-! ## Push, Pop and the functions of container/heap -/

namespace ExpirationHeap

theorem upLoop_entry_gt (fuel : Nat) (h : ExpirationHeap) (j k : Nat)
    (hj : j < h.entries.length) (hk : j < k) :
    (upLoop fuel h j).entry k = h.entry k := by
  induction fuel generalizing h j with
  | zero => rfl
  | succ fuel ih =>
    unfold upLoop
    simp only
    split_ifs with hc
    · rfl
    · have hi : (j - 1) / 2 < h.entries.length := by omega
      have s1 := Swap_shuffle h ((j - 1) / 2) j hi hj
      rw [ih _ _ (by rw [s1.len]; exact hi) (by omega), Swap_entry h _ _ _ hi hj,
        if_neg (by omega), if_neg (by omega)]

theorem downLoop_entry_ge (fuel : Nat) (h : ExpirationHeap) (i n k : Nat)
    (hn : n ≤ h.entries.length) (hk : n ≤ k) :
    (downLoop fuel h i n).1.entry k = h.entry k := by
  induction fuel generalizing h i with
  | zero => rfl
  | succ fuel ih =>
    unfold downLoop
    simp only
    split_ifs with h1 h2 h3 h4
    · rfl
    · have s1 := Swap_shuffle h i (2 * i + 1 + 1) (by omega) (by omega)
      rw [ih _ _ (by rw [s1.len]; exact hn),
        Swap_entry h _ _ _ (by omega) (by omega), if_neg (by omega), if_neg (by omega)]
    · rfl
    · have s1 := Swap_shuffle h i (2 * i + 1) (by omega) (by omega)
      rw [ih _ _ (by rw [s1.len]; exact hn),
        Swap_entry h _ _ _ (by omega) (by omega), if_neg (by omega), if_neg (by omega)]
    · rfl

theorem Shuffle.added {h1 h2 h3 : ExpirationHeap} {x : Nat} (a : Added h1 x h2)
    (b : Shuffle h2 h3) : Added h1 x h3 :=
  ⟨a.core.core_trans b.core, b.len.trans a.len, fun p => (b.mem p).trans (a.mem p), b.wf a.wf,
    fun p hp hx => (b.out a.wf p (fun hq => by
      rcases (a.mem p).1 hq with e | e
      · exact hx e
      · exact hp e)).trans (a.out p hp hx)⟩

theorem Shuffle.removed {h1 h2 h3 : ExpirationHeap} {x : Nat} (w : h1.WF) (a : Shuffle h1 h2)
    (b : Removed h2 x h3) : Removed h1 x h3 :=
  ⟨a.core.core_trans b.core, b.len.trans a.len,
    fun p => (b.mem p).trans (and_congr (a.mem p) Iff.rfl), b.wf,
    fun p hp => (b.out p (fun hq => hp ((a.mem p).1 hq))).trans (a.out w p hp), b.idx⟩

theorem Push_added (h : ExpirationHeap) (x : Nat) (w : h.WF) (hx : x < h.mem.length)
    (hn : x ∉ h.entries) : Added h x (h.Push x) := by
  have hent : (h.Push x).entries = h.entries ++ [x] := by
    unfold Push; dsimp only; split_ifs <;> rfl
  have hder : ∀ p, (h.Push x).deref p = (h.SetIndex x h.entries.length).deref p := by
    intro p; unfold Push; dsimp only; split_ifs <;> rfl
  have hcore : SameCore h (h.Push x) := by
    refine ⟨?_, fun p => ?_⟩
    · unfold Push; dsimp only; split_ifs <;> simp [SetIndex, notify]
    · rw [hder]; exact (SetIndex_core h x _).2 p
  refine ⟨hcore, by rw [hent]; simp, fun p => by rw [hent]; simp [or_comm], ?_, ?_⟩
  · intro k hk
    rw [hent] at hk
    simp only [List.length_append, List.length_singleton] at hk
    rw [hcore.1, hder, deref_SetIndex]
    by_cases hkl : k < h.entries.length
    · have e : (h.Push x).entry k = h.entry k := by
        simp only [entry, hent]; exact List.getD_append _ _ _ _ hkl
      rw [e]
      have hne : ¬ (x = h.entry k ∧ x < h.mem.length) := fun hc =>
        hn ((mem_entries_iff h x).2 ⟨k, hkl, hc.1.symm⟩)
      rw [if_neg hne]
      exact w k hkl
    · have hke : k = h.entries.length := by omega
      have e : (h.Push x).entry k = x := by
        simp only [entry, hent]
        rw [List.getD_append_right _ _ _ _ (by omega), hke]
        simp
      rw [e, if_pos ⟨rfl, hx⟩, hke]
      exact ⟨hx, rfl⟩
  · intro p hp hpx
    rw [hder, deref_SetIndex, if_neg (fun hc => hpx hc.1.symm)]

theorem heapPush_added (h : ExpirationHeap) (x : Nat) (w : h.WF) (hx : x < h.mem.length)
    (hn : x ∉ h.entries) : Added h x (h.heapPush x) := by
  have a := Push_added h x w hx hn
  unfold heapPush
  exact Shuffle.added a (up_shuffle _ _ (by simp only [Len]; rw [a.len]; omega))

theorem Pop_removed (h : ExpirationHeap) (w : h.WF) (hl : 0 < h.entries.length) :
    Removed h (h.entry (h.entries.length - 1)) h.Pop.1 ∧
      h.Pop.2 = h.entry (h.entries.length - 1) := by
  refine ⟨?_, rfl⟩
  have hlast := w (h.entries.length - 1) (by omega)
  have hent : h.Pop.1.entries = h.entries.take (h.entries.length - 1) := rfl
  have hder : ∀ p, h.Pop.1.deref p =
      (h.SetIndex (h.entry (h.entries.length - 1)) EntryNotIndexed).deref p := fun _ => rfl
  have hcore : SameCore h h.Pop.1 :=
    ⟨(SetIndex_core h _ EntryNotIndexed).1, fun p => by
      rw [hder]; exact (SetIndex_core h _ EntryNotIndexed).2 p⟩
  have hmem : ∀ p, p ∈ h.Pop.1.entries ↔
      p ∈ h.entries ∧ p ≠ h.entry (h.entries.length - 1) := by
    intro p
    rw [hent, mem_iff_getD, mem_entries_iff]
    simp only [List.length_take]
    constructor
    · rintro ⟨k, hk, e⟩
      have hk2 : k < h.entries.length - 1 := by omega
      rw [getD_take _ _ _ hk2] at e
      refine ⟨⟨k, by omega, e⟩, fun hc => ?_⟩
      have := w.inj (a := k) (b := h.entries.length - 1) (by omega) (by omega)
        (by rw [← hc]; exact e)
      omega
    · rintro ⟨⟨k, hk, e⟩, hne⟩
      have hk2 : k < h.entries.length - 1 := by
        rcases Nat.lt_or_ge k (h.entries.length - 1) with c | c
        · exact c
        · exfalso
          have : k = h.entries.length - 1 := by omega
          rw [this] at e
          exact hne e.symm
      exact ⟨k, by omega, by rw [getD_take _ _ _ hk2]; exact e⟩
  refine ⟨hcore, by rw [hent]; simp; omega, hmem, ?_, ?_, ?_⟩
  · intro k hk
    rw [hent] at hk
    simp only [List.length_take] at hk
    have hk2 : k < h.entries.length - 1 := by omega
    have e : h.Pop.1.entry k = h.entry k := by
      simp only [entry, hent]; exact getD_take _ _ _ hk2
    rw [hcore.1, hder, deref_SetIndex, e]
    have hne : ¬ (h.entry (h.entries.length - 1) = h.entry k ∧
        h.entry (h.entries.length - 1) < h.mem.length) := fun hc => by
      have := w.inj (a := h.entries.length - 1) (b := k) (by omega) (by omega) hc.1
      omega
    rw [if_neg hne]
    exact w k (by omega)
  · intro p hp
    rw [hder, deref_SetIndex]
    have hne : ¬ (h.entry (h.entries.length - 1) = p ∧
        h.entry (h.entries.length - 1) < h.mem.length) := fun hc =>
      hp ((mem_entries_iff h p).2 ⟨_, by omega, hc.1⟩)
    rw [if_neg hne]
  · rw [hder, deref_SetIndex, if_pos ⟨rfl, hlast.1⟩]

theorem heapPop_removed (h : ExpirationHeap) (w : h.WF) (hl : 0 < h.entries.length) :
    Removed h (h.entry 0) h.heapPop.1 ∧ h.heapPop.2 = h.entry 0 := by
  have s1 := Swap_shuffle h 0 (h.entries.length - 1) hl (by omega)
  have s2 := down_shuffle (h.Swap 0 (h.entries.length - 1)) 0 (h.entries.length - 1)
    (by rw [s1.len]; omega)
  have hsh : Shuffle h ((h.Swap 0 (h.Len - 1)).down 0 (h.Len - 1)).1 := s1.shuffle_trans s2
  have hlen : ((h.Swap 0 (h.Len - 1)).down 0 (h.Len - 1)).1.entries.length =
      h.entries.length := hsh.len
  have hlastentry : ((h.Swap 0 (h.Len - 1)).down 0 (h.Len - 1)).1.entry
      (h.entries.length - 1) = h.entry 0 := by
    simp only [Len, down]
    rw [downLoop_entry_ge _ _ _ _ _ (by rw [s1.len]; omega) (le_refl _),
      Swap_entry h _ _ _ hl (by omega), if_pos rfl]
  have p := Pop_removed _ (hsh.wf w) (by rw [hlen]; exact hl)
  rw [hlen, hlastentry] at p
  exact ⟨Shuffle.removed w hsh p.1, p.2⟩

end ExpirationHeap

/-! ## The methods of ExpirationHeap on a heap with index integrity -/

namespace ExpirationHeap

theorem heapFix_shuffle (h : ExpirationHeap) (i : Nat) (hi : i < h.entries.length) :
    Shuffle h (h.heapFix i) := by
  have s1 := down_shuffle h i h.Len (le_refl _)
  unfold heapFix
  dsimp only
  split_ifs
  · exact s1
  · exact s1.shuffle_trans (up_shuffle _ _ (by rw [s1.len]; exact hi))

theorem heapRemove_removed (h : ExpirationHeap) (w : h.WF) (i : Nat)
    (hi : i < h.entries.length) :
    Removed h (h.entry i) (h.heapRemove i).1 ∧ (h.heapRemove i).2 = h.entry i := by
  unfold heapRemove
  dsimp only
  by_cases hc : h.Len - 1 = i
  · rw [if_neg (by simpa using hc)]
    have p := Pop_removed h w (by omega)
    simp only [Len] at hc
    rw [hc] at p
    exact p
  · rw [if_pos hc]
    simp only [Len] at hc
    have hn : h.entries.length - 1 < h.entries.length := by omega
    have s1 := Swap_shuffle h i (h.entries.length - 1) hi hn
    have s2 := down_shuffle (h.Swap i (h.entries.length - 1)) i (h.entries.length - 1)
      (by rw [s1.len]; omega)
    have e1 : ((h.Swap i (h.entries.length - 1)).down i (h.entries.length - 1)).1.entry
        (h.entries.length - 1) = h.entry i := by
      simp only [down]
      rw [downLoop_entry_ge _ _ _ _ _ (by rw [s1.len]; omega) (le_refl _),
        Swap_entry h _ _ _ hi hn, if_pos rfl]
    simp only [Len]
    split_ifs with hm
    · have hsh := s1.shuffle_trans s2
      have p := Pop_removed _ (hsh.wf w) (by rw [hsh.len]; omega)
      rw [hsh.len, e1] at p
      exact ⟨Shuffle.removed w hsh p.1, p.2⟩
    · have s3 := up_shuffle ((h.Swap i (h.entries.length - 1)).down i
        (h.entries.length - 1)).1 i (by rw [s2.len, s1.len]; exact hi)
      have hsh := (s1.shuffle_trans s2).shuffle_trans s3
      have e2 : (((h.Swap i (h.entries.length - 1)).down i (h.entries.length - 1)).1.up i).entry
          (h.entries.length - 1) = h.entry i := by
        unfold up
        rw [upLoop_entry_gt _ _ _ _ (by rw [s2.len, s1.len]; exact hi) (by omega), e1]
      have p := Pop_removed _ (hsh.wf w) (by rw [hsh.len]; omega)
      rw [hsh.len, e2] at p
      exact ⟨Shuffle.removed w hsh p.1, p.2⟩

theorem Update_shuffle (h : ExpirationHeap) (w : h.WF) (e : Nat) (he : e ∈ h.entries) :
    ∃ h2, h.Update e = some h2 ∧ Shuffle h h2 := by
  obtain ⟨h0, h1, _⟩ := (w.mem_iff e).1 he
  refine ⟨h.heapFix (h.deref e).queueIndex.toNat, ?_, heapFix_shuffle _ _ (by omega)⟩
  unfold Update
  dsimp only
  rw [if_pos ⟨h0, by simpa [Len] using h1⟩]

theorem Remove_removed (h : ExpirationHeap) (w : h.WF) (e : Nat) (he : e ∈ h.entries) :
    ∃ h2, h.Remove e = some h2 ∧ Removed h e h2 := by
  obtain ⟨h0, h1, h2⟩ := (w.mem_iff e).1 he
  have r := heapRemove_removed h w (h.deref e).queueIndex.toNat (by omega)
  rw [h2] at r
  refine ⟨_, ?_, r.1⟩
  unfold Remove
  dsimp only
  rw [if_pos (by simp only [EntryNotIndexed]; omega), if_pos ⟨h0, by simpa [Len] using h1⟩]

theorem Remove_notIndexed (h : ExpirationHeap) (e : Nat)
    (he : (h.deref e).queueIndex = EntryNotIndexed) : h.Remove e = some h := by
  unfold Remove
  dsimp only
  rw [if_neg (by simp [he])]

theorem Add_added (h : ExpirationHeap) (x : Nat) (w : h.WF) (hx : x < h.mem.length)
    (hn : x ∉ h.entries) : Added h x (h.Add x) := heapPush_added h x w hx hn

theorem First_removed (h : ExpirationHeap) (w : h.WF) (hl : 0 < h.entries.length) :
    Removed h (h.entry 0) h.First.1 ∧ h.First.2 = some (h.entry 0) := by
  have p := heapPop_removed h w hl
  unfold First
  rw [if_neg (by simp only [Len]; omega)]
  exact ⟨p.1, by rw [p.2]⟩

theorem First_empty (h : ExpirationHeap) (hl : h.entries.length = 0) : h.First = (h, none) := by
  unfold First
  rw [if_pos (by simpa [Len] using hl)]

theorem Peek_eq (h : ExpirationHeap) (hl : 0 < h.entries.length) :
    h.Peek = some (h.entry 0) := by
  unfold Peek
  rw [if_neg (by simp only [Len]; omega)]

theorem Peek_mem (h : ExpirationHeap) (p : Nat) (hp : h.Peek = some p) : p ∈ h.entries := by
  unfold Peek at hp
  split_ifs at hp with hc
  simp only [Option.some.injEq] at hp
  exact (mem_entries_iff h p).2 ⟨0, by simp only [Len] at hc; omega, hp⟩

end ExpirationHeap

/-! ## Heap order -/

namespace ExpirationHeap

theorem Less_iff (h : ExpirationHeap) (i j : Nat) :
    h.Less i j = true ↔ ¬ expLe (h.exp j) (h.exp i) := by
  unfold Less expLe exp
  by_cases h1 : (h.deref (h.entry i)).expireAt = 0
  · simp [h1]
  · by_cases h2 : (h.deref (h.entry j)).expireAt = 0
    · simp [h1, h2]
    · simp only [h1, h2, if_false, decide_eq_true_eq, false_or, ne_eq, not_false_eq_true,
        true_and, not_le]

theorem Less_false_iff (h : ExpirationHeap) (i j : Nat) :
    ¬ (h.Less i j = true) ↔ expLe (h.exp j) (h.exp i) := by
  rw [Less_iff, not_not]

theorem SameCore.expireAt {h1 h2 : ExpirationHeap} (s : SameCore h1 h2) (p : Nat) :
    (h2.deref p).expireAt = (h1.deref p).expireAt := by
  have e := congrArg item.expireAt (s.2 p)
  exact e

theorem Swap_exp (h : ExpirationHeap) (i j k : Nat) (hi : i < h.entries.length)
    (hj : j < h.entries.length) :
    (h.Swap i j).exp k = if k = j then h.exp i else if k = i then h.exp j else h.exp k := by
  unfold exp
  rw [(Swap_core h i j).expireAt, Swap_entry h i j k hi hj]
  split_ifs <;> rfl

theorem upLoop_ordered (fuel : Nat) (h : ExpirationHeap) (n j : Nat) (hf : j ≤ fuel)
    (hj : j < n) (hn : n ≤ h.entries.length) (inv : UpInv h n j) :
    Ordered (upLoop fuel h j) n := by
  induction fuel generalizing h j with
  | zero =>
    have hj0 : j = 0 := by omega
    subst hj0
    intro k hk0 hkn
    exact inv.1 k hk0 hkn (by omega)
  | succ fuel ih =>
    unfold upLoop
    simp only
    split_ifs with hc
    · intro k hk0 hkn
      by_cases hkj : k = j
      · subst hkj
        rcases hc with hc | hc
        · omega
        · exact (Less_false_iff _ _ _).1 hc
      · exact inv.1 k hk0 hkn hkj
    · have hij : (j - 1) / 2 ≠ j := fun e => hc (Or.inl e)
      have hless : ¬ expLe (h.exp ((j - 1) / 2)) (h.exp j) := by
        rw [← Less_iff]
        by_contra hx
        exact hc (Or.inr hx)
      have hi : (j - 1) / 2 < h.entries.length := by omega
      have hjl : j < h.entries.length := by omega
      have s1 := Swap_shuffle h ((j - 1) / 2) j hi hjl
      apply ih _ _ (by omega) (by omega) (by rw [s1.len]; exact hn)
      have hj0 : 0 < j := by omega
      have hpj := inv.1 ((j - 1) / 2)
      constructor
      · intro k hk0 hkn hki
        rw [Swap_exp h _ _ _ hi hjl, Swap_exp h _ _ _ hi hjl]
        by_cases hkj : k = j
        · subst hkj
          rw [if_neg hij, if_pos rfl, if_pos rfl]
          unfold expLe at hless ⊢
          omega
        · rw [if_neg hkj, if_neg hki]
          have h1 := inv.1 k hk0 hkn hkj
          by_cases hp1 : (k - 1) / 2 = j
          · rw [if_pos hp1]
            have h2 := inv.2 k hk0 hkn hp1 hj0
            exact h2
          · rw [if_neg hp1]
            by_cases hp2 : (k - 1) / 2 = (j - 1) / 2
            · rw [if_pos hp2]
              rw [hp2] at h1
              unfold expLe at hless h1 ⊢
              omega
            · rw [if_neg hp2]
              exact h1
      · intro k hk0 hkn hpk hi0
        rw [Swap_exp h _ _ _ hi hjl, Swap_exp h _ _ _ hi hjl]
        have hpp := inv.1 ((j - 1) / 2) hi0 (by omega) hij
        rw [if_neg (by omega), if_neg (by omega)]
        by_cases hkj : k = j
        · subst hkj
          rw [if_pos rfl]
          exact hpp
        · rw [if_neg hkj, if_neg (by omega)]
          have h1 := inv.1 k hk0 hkn hkj
          rw [hpk] at h1
          unfold expLe at hpp h1 ⊢
          omega

theorem Ordered.upInv {h : ExpirationHeap} {n : Nat} (o : Ordered h n) (j : Nat) :
    UpInv h n j := by
  refine ⟨fun k hk0 hkn _ => o k hk0 hkn, fun k hk0 hkn hpk hj0 => ?_⟩
  have h1 := o k hk0 hkn
  have h2 := o j hj0 (by omega)
  rw [hpk] at h1
  unfold expLe at h1 h2 ⊢
  omega

theorem up_ordered (h : ExpirationHeap) (n j : Nat) (hj : j < n) (hn : n ≤ h.entries.length)
    (inv : UpInv h n j) : Ordered (h.up j) n :=
  upLoop_ordered j h n j (le_refl _) hj hn inv

end ExpirationHeap

namespace ExpirationHeap

theorem downLoop_ordered (fuel : Nat) (h : ExpirationHeap) (n i : Nat) (hf : n ≤ fuel + i)
    (hn : n ≤ h.entries.length) (inv : DownInv h n i) :
    Ordered (downLoop fuel h i n).1 n := by
  induction fuel generalizing h i with
  | zero =>
    intro k hk0 hkn
    exact inv.1 k hk0 hkn (by omega)
  | succ fuel ih =>
    unfold downLoop
    simp only
    by_cases h1 : 2 * i + 1 ≥ n
    · rw [if_pos h1]
      intro k hk0 hkn
      exact inv.1 k hk0 hkn (by omega)
    · rw [if_neg h1]
      have hil : i < h.entries.length := by omega
      have hj1 : 2 * i + 1 < h.entries.length := by omega
      by_cases h2 : 2 * i + 1 + 1 < n ∧ h.Less (2 * i + 1 + 1) (2 * i + 1) = true
      · rw [if_pos h2]
        have hj2 : 2 * i + 1 + 1 < h.entries.length := by omega
        have hlt := (Less_iff _ _ _).1 h2.2
        by_cases h3 : h.Less (2 * i + 1 + 1) i = true
        · rw [if_neg (by simpa using h3)]
          have hlt3 := (Less_iff _ _ _).1 h3
          have s1 := Swap_shuffle h i (2 * i + 1 + 1) hil hj2
          apply ih _ _ (by omega) (by rw [s1.len]; exact hn)
          constructor
          · intro k hk0 hkn hpk
            rw [Swap_exp h _ _ _ hil hj2, Swap_exp h _ _ _ hil hj2]
            by_cases hk2 : k = 2 * i + 1 + 1
            · subst hk2
              have e : (2 * i + 1 + 1 - 1) / 2 = i := by omega
              rw [e, if_neg (by omega), if_pos rfl, if_pos rfl]
              unfold expLe at hlt3 ⊢
              omega
            · rw [if_neg hk2]
              by_cases hki : k = i
              · subst hki
                rw [if_pos rfl, if_neg (by omega), if_neg (by omega)]
                exact inv.2 (2 * k + 1 + 1) (by omega) h2.1 (by omega) hk0
              · rw [if_neg hki, if_neg hpk]
                by_cases hpi : (k - 1) / 2 = i
                · rw [if_pos hpi]
                  have hk1 : k = 2 * i + 1 := by omega
                  subst hk1
                  unfold expLe at hlt ⊢
                  omega
                · rw [if_neg hpi]
                  exact inv.1 k hk0 hkn hpi
          · intro k hk0 hkn hpk _
            rw [Swap_exp h _ _ _ hil hj2, Swap_exp h _ _ _ hil hj2]
            have e : (2 * i + 1 + 1 - 1) / 2 = i := by omega
            rw [e, if_neg (by omega), if_pos rfl, if_neg (by omega), if_neg (by omega)]
            have := inv.1 k hk0 hkn (by omega)
            rw [hpk] at this
            exact this
        · rw [if_pos (by simpa using h3)]
          have hle3 := (Less_false_iff _ _ _).1 h3
          show Ordered h n
          intro k hk0 hkn
          by_cases hpi : (k - 1) / 2 = i
          · rw [hpi]
            by_cases hk2 : k = 2 * i + 1 + 1
            · subst hk2; exact hle3
            · have hk1 : k = 2 * i + 1 := by omega
              subst hk1
              unfold expLe at hlt hle3 ⊢
              omega
          · exact inv.1 k hk0 hkn hpi
      · rw [if_neg h2]
        have hsib : 2 * i + 1 + 1 < n → expLe (h.exp (2 * i + 1)) (h.exp (2 * i + 1 + 1)) := by
          intro hc
          rw [← Less_false_iff]
          exact fun hx => h2 ⟨hc, hx⟩
        by_cases h3 : h.Less (2 * i + 1) i = true
        · rw [if_neg (by simpa using h3)]
          have hlt3 := (Less_iff _ _ _).1 h3
          have s1 := Swap_shuffle h i (2 * i + 1) hil hj1
          apply ih _ _ (by omega) (by rw [s1.len]; exact hn)
          constructor
          · intro k hk0 hkn hpk
            rw [Swap_exp h _ _ _ hil hj1, Swap_exp h _ _ _ hil hj1]
            by_cases hk1 : k = 2 * i + 1
            · subst hk1
              have e : (2 * i + 1 - 1) / 2 = i := by omega
              rw [e, if_neg (by omega), if_pos rfl, if_pos rfl]
              unfold expLe at hlt3 ⊢
              omega
            · rw [if_neg hk1]
              by_cases hki : k = i
              · subst hki
                rw [if_pos rfl, if_neg (by omega), if_neg (by omega)]
                exact inv.2 (2 * k + 1) (by omega) (by omega) (by omega) hk0
              · rw [if_neg hki, if_neg hpk]
                by_cases hpi : (k - 1) / 2 = i
                · rw [if_pos hpi]
                  have hk2 : k = 2 * i + 1 + 1 := by omega
                  subst hk2
                  exact hsib hkn
                · rw [if_neg hpi]
                  exact inv.1 k hk0 hkn hpi
          · intro k hk0 hkn hpk _
            rw [Swap_exp h _ _ _ hil hj1, Swap_exp h _ _ _ hil hj1]
            have e : (2 * i + 1 - 1) / 2 = i := by omega
            rw [e, if_neg (by omega), if_pos rfl, if_neg (by omega), if_neg (by omega)]
            have := inv.1 k hk0 hkn (by omega)
            rw [hpk] at this
            exact this
        · rw [if_pos (by simpa using h3)]
          have hle3 := (Less_false_iff _ _ _).1 h3
          show Ordered h n
          intro k hk0 hkn
          by_cases hpi : (k - 1) / 2 = i
          · rw [hpi]
            by_cases hk1 : k = 2 * i + 1
            · subst hk1; exact hle3
            · have hk2 : k = 2 * i + 1 + 1 := by omega
              subst hk2
              have := hsib hkn
              unfold expLe at this hle3 ⊢
              omega
          · exact inv.1 k hk0 hkn hpi

theorem down_ordered (h : ExpirationHeap) (n i : Nat) (hn : n ≤ h.entries.length)
    (inv : DownInv h n i) : Ordered (h.down i n).1 n :=
  downLoop_ordered n h n i (by omega) hn inv

theorem downLoop_noop (fuel : Nat) (h : ExpirationHeap) (n i : Nat)
    (h1 : 2 * i + 1 < n → expLe (h.exp i) (h.exp (2 * i + 1)))
    (h2 : 2 * i + 1 + 1 < n → expLe (h.exp i) (h.exp (2 * i + 1 + 1))) :
    downLoop fuel h i n = (h, i) := by
  cases fuel with
  | zero => rfl
  | succ fuel =>
    unfold downLoop
    simp only
    by_cases c1 : 2 * i + 1 ≥ n
    · rw [if_pos c1]
    · rw [if_neg c1]
      by_cases c2 : 2 * i + 1 + 1 < n ∧ h.Less (2 * i + 1 + 1) (2 * i + 1) = true
      · rw [if_pos c2]
        have := (Less_false_iff h (2 * i + 1 + 1) i).2 (h2 c2.1)
        rw [if_pos this]
      · rw [if_neg c2]
        have := (Less_false_iff h (2 * i + 1) i).2 (h1 (by omega))
        rw [if_pos this]

theorem fix_ordered (h : ExpirationHeap) (n i : Nat) (hi : i < n) (hn : n ≤ h.entries.length)
    (pre : FixPre h n i) :
    Ordered (if ¬ (h.down i n).2 = true then (h.down i n).1.up i else (h.down i n).1) n := by
  by_cases hp : 0 < i ∧ ¬ expLe (h.exp ((i - 1) / 2)) (h.exp i)
  · have c1 : 2 * i + 1 < n → expLe (h.exp i) (h.exp (2 * i + 1)) := by
      intro hc
      have := pre.2 (2 * i + 1) (by omega) hc (by omega) hp.1
      have hp2 := hp.2
      unfold expLe at this hp2 ⊢
      omega
    have c2 : 2 * i + 1 + 1 < n → expLe (h.exp i) (h.exp (2 * i + 1 + 1)) := by
      intro hc
      have := pre.2 (2 * i + 1 + 1) (by omega) hc (by omega) hp.1
      have hp2 := hp.2
      unfold expLe at this hp2 ⊢
      omega
    have e : h.down i n = (h, false) := by
      unfold down
      rw [downLoop_noop n h n i c1 c2]
      simp
    rw [e]
    simp only [Bool.false_eq_true, not_false_eq_true, if_true]
    apply up_ordered h n i hi hn
    constructor
    · intro k hk0 hkn hki
      by_cases hpk : (k - 1) / 2 = i
      · rw [hpk]
        rcases (show k = 2 * i + 1 ∨ k = 2 * i + 1 + 1 by omega) with hk | hk
        · subst hk; exact c1 hkn
        · subst hk; exact c2 hkn
      · exact pre.1 k hk0 hkn hki hpk
    · exact pre.2
  · have inv : DownInv h n i := by
      constructor
      · intro k hk0 hkn hpk
        by_cases hki : k = i
        · subst hki
          by_contra hx
          exact hp ⟨hk0, hx⟩
        · exact pre.1 k hk0 hkn hki hpk
      · exact pre.2
    have o := down_ordered h n i hn inv
    have s := down_shuffle h i n hn
    split_ifs
    · exact o
    · exact up_ordered _ n i hi (by rw [s.len]; exact hn) (o.upInv i)

theorem Ordered.root_le {h : ExpirationHeap} {n : Nat} (o : Ordered h n) (k : Nat) (hk : k < n) :
    expLe (h.exp 0) (h.exp k) ∨ k = 0 := by
  induction k using Nat.strong_induction_on with
  | _ k ih =>
    by_cases hk0 : k = 0
    · exact Or.inr hk0
    · left
      have h1 := o k (by omega) hk
      rcases ih ((k - 1) / 2) (by omega) (by omega) with h2 | h2
      · unfold expLe at h1 h2 ⊢
        omega
      · rw [h2] at h1
        exact h1

end ExpirationHeap

namespace ExpirationHeap

theorem Push_entries (h : ExpirationHeap) (x : Nat) : (h.Push x).entries = h.entries ++ [x] := by
  unfold Push; dsimp only; split_ifs <;> rfl

theorem Push_core (h : ExpirationHeap) (x : Nat) : SameCore h (h.Push x) := by
  have hder : ∀ p, (h.Push x).deref p = (h.SetIndex x h.entries.length).deref p := by
    intro p; unfold Push; dsimp only; split_ifs <;> rfl
  refine ⟨?_, fun p => ?_⟩
  · unfold Push; dsimp only; split_ifs <;> simp [SetIndex, notify]
  · rw [hder]; exact (SetIndex_core h x _).2 p

theorem Push_exp (h : ExpirationHeap) (x k : Nat) (hk : k < h.entries.length) :
    (h.Push x).exp k = h.exp k := by
  unfold exp
  rw [(Push_core h x).expireAt]
  have e : (h.Push x).entry k = h.entry k := by
    simp only [entry, Push_entries]; exact List.getD_append _ _ _ _ hk
  rw [e]

theorem Pop_core (h : ExpirationHeap) : SameCore h h.Pop.1 :=
  ⟨(SetIndex_core h _ EntryNotIndexed).1, fun p => (SetIndex_core h _ EntryNotIndexed).2 p⟩

theorem Pop_exp (h : ExpirationHeap) (k : Nat) (hk : k < h.entries.length - 1) :
    h.Pop.1.exp k = h.exp k := by
  unfold exp
  rw [(Pop_core h).expireAt]
  have e : h.Pop.1.entry k = h.entry k := getD_take _ _ _ hk
  rw [e]

theorem Pop_ordered (h : ExpirationHeap) (o : Ordered h (h.entries.length - 1)) :
    Ordered h.Pop.1 (h.entries.length - 1) := by
  intro k hk0 hkn
  rw [Pop_exp h k hkn, Pop_exp h _ (by omega)]
  exact o k hk0 hkn

theorem Ordered.mono {h : ExpirationHeap} {n m : Nat} (o : Ordered h n) (hm : m ≤ n) :
    Ordered h m := fun k hk0 hkm => o k hk0 (by omega)

theorem heapPush_ordered (h : ExpirationHeap) (x : Nat) (o : Ordered h h.entries.length) :
    Ordered (h.heapPush x) (h.entries.length + 1) := by
  unfold heapPush
  dsimp only
  have hl : (h.Push x).Len - 1 = h.entries.length := by simp [Len, Push_entries]
  rw [hl]
  apply up_ordered _ _ _ (by omega) (by simp [Push_entries])
  constructor
  · intro k hk0 hkn hkl
    rw [Push_exp h x k (by omega), Push_exp h x _ (by omega)]
    exact o k hk0 (by omega)
  · intro k hk0 hkn hpk _
    omega

theorem heapPop_ordered (h : ExpirationHeap) (hl : 0 < h.entries.length)
    (o : Ordered h h.entries.length) : Ordered h.heapPop.1 (h.entries.length - 1) := by
  unfold heapPop
  dsimp only
  simp only [Len]
  have hn : h.entries.length - 1 < h.entries.length := by omega
  have s1 := Swap_shuffle h 0 (h.entries.length - 1) hl hn
  have s2 := down_shuffle (h.Swap 0 (h.entries.length - 1)) 0 (h.entries.length - 1)
    (by rw [s1.len]; omega)
  have inv : DownInv (h.Swap 0 (h.entries.length - 1)) (h.entries.length - 1) 0 := by
    constructor
    · intro k hk0 hkn hpk
      rw [Swap_exp h _ _ _ hl hn, Swap_exp h _ _ _ hl hn, if_neg (by omega), if_neg (by omega),
        if_neg (by omega), if_neg (by omega)]
      exact o k hk0 (by omega)
    · intro k _ _ _ h0
      omega
  have o2 := down_ordered _ _ _ (by rw [s1.len]; omega) inv
  have hlen : ((h.Swap 0 (h.entries.length - 1)).down 0 (h.entries.length - 1)).1.entries.length
      = h.entries.length := s2.len.trans s1.len
  have := Pop_ordered ((h.Swap 0 (h.entries.length - 1)).down 0 (h.entries.length - 1)).1
    (by rw [hlen]; exact o2)
  rw [hlen] at this
  exact this

theorem heapRemove_ordered (h : ExpirationHeap) (i : Nat) (hi : i < h.entries.length)
    (o : Ordered h h.entries.length) : Ordered (h.heapRemove i).1 (h.entries.length - 1) := by
  unfold heapRemove
  dsimp only
  by_cases hc : h.Len - 1 = i
  · rw [if_neg (by simpa using hc)]
    exact Pop_ordered h (o.mono (by omega))
  · rw [if_pos hc]
    simp only [Len] at hc ⊢
    have hn : h.entries.length - 1 < h.entries.length := by omega
    have s1 := Swap_shuffle h i (h.entries.length - 1) hi hn
    have s2 := down_shuffle (h.Swap i (h.entries.length - 1)) i (h.entries.length - 1)
      (by rw [s1.len]; omega)
    have pre : FixPre (h.Swap i (h.entries.length - 1)) (h.entries.length - 1) i := by
      constructor
      · intro k hk0 hkn hki hpk
        rw [Swap_exp h _ _ _ hi hn, Swap_exp h _ _ _ hi hn, if_neg (by omega), if_neg hpk,
          if_neg (by omega), if_neg hki]
        exact o k hk0 (by omega)
      · intro k hk0 hkn hpk hi0
        rw [Swap_exp h _ _ _ hi hn, Swap_exp h _ _ _ hi hn, if_neg (by omega), if_neg (by omega),
          if_neg (by omega), if_neg (by omega)]
        have h1 := o k hk0 (by omega)
        have h2 := o i hi0 hi
        rw [hpk] at h1
        unfold expLe at h1 h2 ⊢
        omega
    have o2 := fix_ordered _ _ i (by omega) (by rw [s1.len]; omega) pre
    have hlen : (if ¬ ((h.Swap i (h.entries.length - 1)).down i (h.entries.length - 1)).2 = true
        then ((h.Swap i (h.entries.length - 1)).down i (h.entries.length - 1)).1.up i
        else ((h.Swap i (h.entries.length - 1)).down i (h.entries.length - 1)).1).entries.length
        = h.entries.length := by
      split_ifs
      · exact s2.len.trans s1.len
      · exact (up_shuffle _ i (by rw [s2.len, s1.len]; exact hi)).len.trans (s2.len.trans s1.len)
    have := Pop_ordered _ (by rw [hlen]; exact o2)
    rw [hlen] at this
    exact this

theorem heapFix_ordered (h : ExpirationHeap) (i : Nat) (hi : i < h.entries.length)
    (pre : FixPre h h.entries.length i) : Ordered (h.heapFix i) h.entries.length := by
  unfold heapFix
  dsimp only
  exact fix_ordered h _ i hi (le_refl _) pre

theorem Modified.entry {h1 h2 : ExpirationHeap} {p : Nat} (m : Modified h1 p h2) (k : Nat) :
    h2.entry k = h1.entry k := by
  unfold ExpirationHeap.entry
  rw [m.entries]

theorem Modified.wf {h1 h2 : ExpirationHeap} {p : Nat} (m : Modified h1 p h2) (w : h1.WF) :
    h2.WF := by
  intro k hk
  rw [m.entries] at hk
  rw [m.entry, m.len]
  refine ⟨(w k hk).1, ?_⟩
  by_cases hp : h1.entry k = p
  · rw [hp, m.index, ← hp]
    exact (w k hk).2
  · rw [m.other _ hp]
    exact (w k hk).2

theorem Modified.exp {h1 h2 : ExpirationHeap} {p : Nat} (m : Modified h1 p h2) (k : Nat)
    (hk : h1.entry k ≠ p) : h2.exp k = h1.exp k := by
  unfold ExpirationHeap.exp
  rw [m.entry, m.other _ hk]

theorem Modified.fixPre {h1 h2 : ExpirationHeap} {p : Nat} (m : Modified h1 p h2) (w : h1.WF)
    (i : Nat) (hi : i < h1.entries.length) (hp : h1.entry i = p)
    (o : Ordered h1 h1.entries.length) : FixPre h2 h2.entries.length i := by
  rw [m.entries]
  have hne : ∀ k, k < h1.entries.length → k ≠ i → h1.entry k ≠ p := by
    intro k hk hki e
    exact hki (w.inj hk hi (e.trans hp.symm))
  constructor
  · intro k hk0 hkn hki hpk
    rw [m.exp k (hne k hkn hki), m.exp _ (hne _ (by omega) hpk)]
    exact o k hk0 hkn
  · intro k hk0 hkn hpk hi0
    rw [m.exp k (hne k hkn (by omega)), m.exp _ (hne _ (by omega) (by omega))]
    have h1 := o k hk0 hkn
    have h2 := o i hi0 hi
    rw [hpk] at h1
    unfold expLe at h1 h2 ⊢
    omega

theorem setExpireAt_modified (h : ExpirationHeap) (p : Nat) (e : Int) :
    Modified h p (h.setExpireAt p e) := by
  refine ⟨rfl, by simp [setExpireAt], ?_, ?_⟩
  · intro q hq
    simp only [setExpireAt, deref]
    rw [getD_set_eq, if_neg (fun hc => hq hc.1.symm)]
  · simp only [setExpireAt, deref]
    rw [getD_set_eq]
    split_ifs <;> rfl

end ExpirationHeap

/-! ## Draining a heap in heap order -/

namespace ExpirationHeap

theorem expLe_refl (a : Int) : expLe a a := by
  unfold expLe; omega

theorem First_ordered (h : ExpirationHeap) (hl : 0 < h.entries.length)
    (o : Ordered h h.entries.length) : Ordered h.First.1 (h.entries.length - 1) := by
  have := heapPop_ordered h hl o
  unfold First
  rw [if_neg (by simp only [Len]; omega)]
  exact this

theorem Removed.perm {h1 h2 : ExpirationHeap} {x : Nat} (r : Removed h1 x h2) (w : h1.WF)
    (hx : x ∈ h1.entries) : h1.entries.Perm (x :: h2.entries) := by
  have hnd : (x :: h2.entries).Nodup :=
    List.nodup_cons.2 ⟨fun hc => ((r.mem x).1 hc).2 rfl, r.wf.nodup⟩
  rw [List.perm_ext_iff_of_nodup w.nodup hnd]
  intro a
  rw [List.mem_cons, r.mem]
  constructor
  · intro ha
    by_cases e : a = x
    · exact Or.inl e
    · exact Or.inr ⟨ha, e⟩
  · rintro (e | e)
    · rw [e]; exact hx
    · exact e.1

theorem drainLoop_spec (fuel : Nat) (h : ExpirationHeap) (hf : h.entries.length = fuel)
    (w : h.WF) (o : Ordered h h.entries.length) :
    (drainLoop fuel h).1.Perm h.entries ∧
      ((drainLoop fuel h).1.map (fun p => ((h.deref p).expireAt : Int))).Pairwise expLe ∧
      (drainLoop fuel h).2.entries = [] := by
  induction fuel generalizing h with
  | zero =>
    have : h.entries = [] := List.length_eq_zero.1 hf
    simp [drainLoop, this]
  | succ fuel ih =>
    have hl : 0 < h.entries.length := by omega
    obtain ⟨r, hfirst⟩ := First_removed h w hl
    have o1 := First_ordered h hl o
    have hlen1 : h.First.1.entries.length = fuel := by have := r.len; omega
    have hp := r.perm w ((mem_entries_iff h _).2 ⟨0, hl, rfl⟩)
    rw [← hlen1] at ih
    have o1b : Ordered h.First.1 h.First.1.entries.length := by
      have e : h.First.1.entries.length = h.entries.length - 1 := by omega
      rw [e]; exact o1
    obtain ⟨p1, p2, p3⟩ := ih h.First.1 rfl r.wf o1b
    unfold drainLoop
    rw [hfirst]
    dsimp only
    rw [hlen1] at p1 p2 p3
    refine ⟨(List.Perm.cons _ p1).trans hp.symm, ?_, p3⟩
    rw [List.map_cons, List.pairwise_cons]
    constructor
    · intro b hb
      rw [List.mem_map] at hb
      obtain ⟨q, hq, rfl⟩ := hb
      have hq1 : q ∈ h.entries := ((r.mem q).1 (p1.subset hq)).1
      obtain ⟨k, hk, e⟩ := (mem_entries_iff h q).1 hq1
      rcases o.root_le k hk with c | c
      · unfold exp at c
        rw [e] at c
        exact c
      · rw [c] at e
        rw [e]
        exact expLe_refl _
    · have e : (List.map (fun p => ((h.deref p).expireAt : Int)) (drainLoop fuel h.First.1).1) =
          (List.map (fun p => ((h.First.1.deref p).expireAt : Int)) (drainLoop fuel h.First.1).1) :=
        List.map_congr_left (fun p _ => (r.core.expireAt p).symm)
      rw [e]
      exact p2

theorem WF.wf_alloc {h : ExpirationHeap} (w : h.WF) (it : item) : (h.alloc it).WF := by
  intro k hk
  have hk2 : k < h.entries.length := hk
  have e : (h.alloc it).entry k = h.entry k := rfl
  have hlt := (w k hk2).1
  rw [e]
  refine ⟨by simp only [ExpirationHeap.alloc, List.length_append, List.length_singleton]; omega, ?_⟩
  have : (h.alloc it).deref (h.entry k) = h.deref (h.entry k) := by
    simp only [ExpirationHeap.alloc, deref]
    exact List.getD_append _ _ _ _ hlt
  rw [this]
  exact (w k hk2).2

theorem alloc_deref (h : ExpirationHeap) (it : item) (p : Nat) (hp : p < h.mem.length) :
    (h.alloc it).deref p = h.deref p := by
  simp only [ExpirationHeap.alloc, deref]
  exact List.getD_append _ _ _ _ hp

theorem alloc_deref_new (h : ExpirationHeap) (it : item) :
    (h.alloc it).deref h.mem.length = it := by
  simp only [ExpirationHeap.alloc, deref]
  rw [List.getD_append_right _ _ _ _ (le_refl _), Nat.sub_self]
  rfl

theorem Ordered.ordered_alloc {h : ExpirationHeap} {n : Nat} (w : h.WF) (hn : n ≤ h.entries.length)
    (o : Ordered h n) (it : item) : Ordered (h.alloc it) n := by
  intro k hk0 hkn
  have e : ∀ j, j < h.entries.length → (h.alloc it).exp j = h.exp j := by
    intro j hj
    unfold exp
    have : (h.alloc it).entry j = h.entry j := rfl
    rw [this, alloc_deref h it _ (w j hj).1]
  rw [e k (by omega), e _ (by omega)]
  exact o k hk0 hkn

/-- Invariant of the heaps built from the empty heap. -/
theorem Built.built_inv {h : ExpirationHeap} {live : List Nat} (b : Built h live) :
    h.WF ∧ Ordered h h.entries.length ∧ (∀ p, p ∈ h.entries ↔ p ∈ live) ∧ live.Nodup ∧
      (∀ p, p < h.mem.length → p ∉ h.entries → (h.deref p).queueIndex = EntryNotIndexed) := by
  induction b with
  | empty =>
    refine ⟨fun k hk => ?_, fun k _ hk => ?_, fun p => Iff.rfl, List.nodup_nil, fun p hp => ?_⟩
    · simp [NewExpirationHeap] at hk
    · simp [NewExpirationHeap] at hk
    · simp [NewExpirationHeap] at hp
  | add h live it _ ih =>
    obtain ⟨w, o, hm, hnd, hout⟩ := ih
    have hfresh : h.mem.length ∉ (h.alloc it).entries := by
      intro hc
      obtain ⟨k, hk, e⟩ := (mem_entries_iff h _).1 hc
      have := (w k hk).1
      omega
    have hx : h.mem.length < (h.alloc it).mem.length := by
      simp [ExpirationHeap.alloc]
    have a := Add_added (h.alloc it) h.mem.length (w.wf_alloc it) hx hfresh
    have o2 := heapPush_ordered (h.alloc it) h.mem.length
      (Ordered.ordered_alloc w (le_refl _) o it)
    refine ⟨a.wf, ?_, ?_, ?_, ?_⟩
    · rw [a.len]; exact o2
    · intro p
      rw [a.mem, List.mem_cons]
      exact or_congr Iff.rfl (hm p)
    · refine List.nodup_cons.2 ⟨fun hc => hfresh ((hm _).2 hc), hnd⟩
    · intro p hp hpn
      have hp1 : p ≠ h.mem.length := fun e => hpn ((a.mem p).2 (Or.inl e))
      have hp2 : p ∉ h.entries := fun e => hpn ((a.mem p).2 (Or.inr e))
      have hp3 : p < h.mem.length := by
        rw [a.core.1] at hp
        simp only [ExpirationHeap.alloc, List.length_append, List.length_singleton] at hp
        omega
      rw [a.out p hp2 hp1, alloc_deref h it p hp3]
      exact hout p hp3 hp2
  | remove h live p h2 _ hp hr ih =>
    obtain ⟨w, o, hm, hnd, hout⟩ := ih
    by_cases hin : p ∈ h.entries
    · obtain ⟨h3, e3, r⟩ := Remove_removed h w p hin
      rw [hr] at e3
      cases e3
      obtain ⟨h0, h1, h2e⟩ := (w.mem_iff p).1 hin
      have o2 : Ordered h2 h2.entries.length := by
        have := heapRemove_ordered h (h.deref p).queueIndex.toNat (by omega) o
        have e : h.Remove p = some (h.heapRemove (h.deref p).queueIndex.toNat).1 := by
          unfold Remove
          dsimp only
          rw [if_pos (by simp only [EntryNotIndexed]; omega),
            if_pos ⟨h0, by simpa [Len] using h1⟩]
        rw [hr] at e
        cases e
        have hl := r.len
        have e2 : (h.heapRemove (h.deref p).queueIndex.toNat).1.entries.length =
            h.entries.length - 1 := by omega
        rw [e2]; exact this
      refine ⟨r.wf, o2, ?_, hnd.erase p, ?_⟩
      · intro q
        rw [r.mem, hnd.mem_erase_iff, hm q, and_comm]
      · intro q hq hqn
        rw [r.core.1] at hq
        by_cases hqp : q = p
        · rw [hqp]; exact r.idx
        · have : q ∉ h.entries := fun e => hqn ((r.mem q).2 ⟨e, hqp⟩)
          rw [r.out q this]
          exact hout q hq this
    · have e := Remove_notIndexed h p (hout p hp hin)
      rw [hr] at e
      cases e
      have : live.erase p = live := List.erase_of_not_mem (fun hc => hin ((hm p).2 hc))
      rw [this]
      exact ⟨w, o, hm, hnd, hout⟩
  | update h live p e h2 _ hp hu ih =>
    obtain ⟨w, o, hm, hnd, hout⟩ := ih
    have hin : p ∈ h.entries := (hm p).2 hp
    have m := setExpireAt_modified h p e
    have w1 := m.wf w
    have hin1 : p ∈ (h.setExpireAt p e).entries := by rw [m.entries]; exact hin
    obtain ⟨h3, e3, s⟩ := Update_shuffle _ w1 p hin1
    rw [hu] at e3
    cases e3
    obtain ⟨h0, h1, h2e⟩ := (w.mem_iff p).1 hin
    have pre := m.fixPre w (h.deref p).queueIndex.toNat (by omega) h2e o
    have hidx : ((h.setExpireAt p e).deref p).queueIndex = (h.deref p).queueIndex := m.index
    have o2 : Ordered h2 h2.entries.length := by
      have := heapFix_ordered (h.setExpireAt p e) (h.deref p).queueIndex.toNat
        (by rw [m.entries]; omega) pre
      have e : (h.setExpireAt p e).Update p =
          some ((h.setExpireAt p e).heapFix (h.deref p).queueIndex.toNat) := by
        unfold Update
        dsimp only
        rw [hidx, if_pos ⟨h0, by simp only [Len]; rw [m.entries]; exact h1⟩]
      rw [hu] at e
      cases e
      rw [s.len]
      exact this
    refine ⟨s.wf w1, o2, ?_, hnd, ?_⟩
    · intro q
      rw [s.mem, m.entries]
      exact hm q
    · intro q hq hqn
      rw [s.core.1, m.len] at hq
      have hq1 : q ∉ h.entries := by
        intro hc
        apply hqn
        rw [s.mem, m.entries]
        exact hc
      have hq2 : q ∉ (h.setExpireAt p e).entries := by rw [m.entries]; exact hq1
      rw [s.out w1 q hq2, m.other q (fun e => hq1 (e ▸ hin))]
      exact hout q hq hq1

end ExpirationHeap

/-! ## The key map -/

theorem mapGet_mapDelete (m : List (String × Nat)) (k k2 : String) :
    mapGet (mapDelete m k) k2 = if k2 = k then none else mapGet m k2 := by
  induction m with
  | nil => simp [mapDelete, mapGet]
  | cons e m ih =>
    obtain ⟨a, p⟩ := e
    by_cases h1 : a = k
    · simp only [mapDelete, if_pos h1, ih, mapGet]
      by_cases h2 : k2 = k
      · simp [h2]
      · have : ¬ a = k2 := fun e => h2 (e.symm.trans h1)
        simp [h2, this]
    · simp only [mapDelete, if_neg h1, mapGet, ih]
      by_cases h2 : a = k2
      · have : ¬ k2 = k := fun e => h1 (h2.trans e)
        simp [h2, this]
      · simp [h2]

theorem mapGet_mapSet (m : List (String × Nat)) (k k2 : String) (p : Nat) :
    mapGet (mapSet m k p) k2 = if k2 = k then some p else mapGet m k2 := by
  unfold mapSet
  simp only [mapGet, mapGet_mapDelete]
  by_cases h : k = k2
  · simp [h]
  · have : ¬ k2 = k := fun e => h e.symm
    simp [h, this]

theorem mapGet_none_iff (m : List (String × Nat)) (k : String) :
    mapGet m k = none ↔ k ∉ m.map Prod.fst := by
  induction m with
  | nil => simp [mapGet]
  | cons e m ih =>
    obtain ⟨a, p⟩ := e
    by_cases h : a = k
    · simp [mapGet, h]
    · have : ¬ k = a := fun e => h e.symm
      simp [mapGet, h, ih, this]

theorem keys_mapDelete (m : List (String × Nat)) (k : String) :
    (mapDelete m k).map Prod.fst = (m.map Prod.fst).filter (fun a => decide (a ≠ k)) := by
  induction m with
  | nil => rfl
  | cons e m ih =>
    obtain ⟨a, p⟩ := e
    by_cases h : a = k
    · simp [mapDelete, h, ih]
    · simp [mapDelete, h, ih]

theorem nodup_mapDelete (m : List (String × Nat)) (k : String) (h : (m.map Prod.fst).Nodup) :
    ((mapDelete m k).map Prod.fst).Nodup := by
  rw [keys_mapDelete]
  exact h.filter _

theorem nodup_mapSet (m : List (String × Nat)) (k : String) (p : Nat)
    (h : (m.map Prod.fst).Nodup) : ((mapSet m k p).map Prod.fst).Nodup := by
  unfold mapSet
  rw [List.map_cons, List.nodup_cons]
  refine ⟨?_, nodup_mapDelete m k h⟩
  rw [keys_mapDelete]
  simp

theorem length_mapDelete_absent (m : List (String × Nat)) (k : String) (h : mapGet m k = none) :
    mapDelete m k = m := by
  induction m with
  | nil => rfl
  | cons e m ih =>
    obtain ⟨a, p⟩ := e
    by_cases h1 : a = k
    · simp [mapGet, h1] at h
    · simp only [mapGet, if_neg h1] at h
      simp [mapDelete, h1, ih h]

theorem length_mapDelete_present (m : List (String × Nat)) (k : String) (p : Nat)
    (hn : (m.map Prod.fst).Nodup) (h : mapGet m k = some p) :
    (mapDelete m k).length + 1 = m.length := by
  induction m with
  | nil => simp [mapGet] at h
  | cons e m ih =>
    obtain ⟨a, q⟩ := e
    rw [List.map_cons, List.nodup_cons] at hn
    by_cases h1 : a = k
    · have hk : mapGet m k = none := by
        rw [mapGet_none_iff, ← h1]; exact hn.1
      simp [mapDelete, h1, length_mapDelete_absent m k hk]
    · simp only [mapGet, if_neg h1] at h
      simp [mapDelete, h1, ih hn.2 h]

theorem item_core_fields (a b : item) (h : a.core = b.core) :
    a.key = b.key ∧ a.data = b.data ∧ a.ttl = b.ttl ∧ a.expireAt = b.expireAt := by
  have h1 := congrArg item.key h
  have h2 := congrArg item.data h
  have h3 := congrArg item.ttl h
  have h4 := congrArg item.expireAt h
  exact ⟨h1, h2, h3, h4⟩

theorem item_expired_core (a b : item) (h : a.core = b.core) (now : Int) :
    a.expired now = b.expired now := by
  obtain ⟨_, _, h3, h4⟩ := item_core_fields a b h
  unfold item.expired
  rw [h3, h4]

namespace Cache

theorem deref_setItem (c : Cache) (p q : Nat) (it : item) (hp : p < c.expirationHeap.mem.length) :
    (c.setItem p it).deref q = if q = p then it else c.deref q := by
  simp only [setItem, withHeap, deref, ExpirationHeap.deref]
  rw [getD_set_eq]
  by_cases h : p = q
  · subst h
    rw [if_pos ⟨rfl, hp⟩, if_pos rfl]
  · have : ¬ q = p := fun e => h e.symm
    rw [if_neg (fun hc => h hc.1), if_neg this]

theorem setItem_modified (c : Cache) (p : Nat) (it : item)
    (hq : it.queueIndex = (c.deref p).queueIndex) :
    ExpirationHeap.Modified c.expirationHeap p (c.setItem p it).expirationHeap := by
  refine ⟨rfl, by simp [setItem, withHeap], ?_, ?_⟩
  · intro q hne
    simp only [setItem, withHeap, ExpirationHeap.deref]
    rw [getD_set_eq, if_neg (fun hc => hne hc.1.symm)]
  · simp only [setItem, withHeap, ExpirationHeap.deref]
    rw [getD_set_eq]
    split_ifs
    · exact hq
    · rfl

theorem SameConfig.config_refl (c : Cache) : SameConfig c c := ⟨rfl, rfl, rfl, rfl, rfl, rfl, rfl⟩

theorem SameConfig.config_trans {a b c : Cache} (x : SameConfig a b) (y : SameConfig b c) :
    SameConfig a c :=
  ⟨y.1.trans x.1, y.2.1.trans x.2.1, y.2.2.1.trans x.2.2.1, y.2.2.2.1.trans x.2.2.2.1,
    y.2.2.2.2.1.trans x.2.2.2.2.1, y.2.2.2.2.2.1.trans x.2.2.2.2.2.1,
    y.2.2.2.2.2.2.trans x.2.2.2.2.2.2⟩

theorem KeyFrame.frame_refl (k : String) (c : Cache) : KeyFrame k c c := fun _ h => ⟨h, rfl⟩

theorem KeyFrame.frame_trans {k : String} {a b c : Cache} (x : KeyFrame k a b) (y : KeyFrame k b c) :
    KeyFrame k a c := fun p h =>
  ⟨(x p (y p h).1).1, (y p h).2.trans (x p (y p h).1).2⟩

end Cache

/-! ## The private methods of the cache -/

namespace Cache

theorem Inv.lt_mem {c : Cache} (inv : c.Inv) {p : Nat} (hp : p ∈ c.expirationHeap.entries) :
    p < c.expirationHeap.mem.length := by
  obtain ⟨k, hk, e⟩ := (ExpirationHeap.mem_entries_iff _ p).1 hp
  rw [← e]
  exact (inv.1 k hk).1

theorem removeItem_spec (c : Cache) (p : Nat) (reason : EvictionReason) (inv : c.Inv)
    (hp : p ∈ c.expirationHeap.entries) :
    ∃ c2, c.removeItem p reason = some c2 ∧ ItemRemoved c p reason c2 := by
  obtain ⟨h2, e, r⟩ := ExpirationHeap.Remove_removed c.expirationHeap inv.1 p hp
  have e1 : ((c.withMetrics (countEviction c.metrics reason)).logEviction p
      reason).expirationHeap.Remove p = some h2 := e
  refine ⟨_, by unfold removeItem; dsimp only; rw [e1]; rfl, ?_⟩
  refine ⟨r, rfl, SameConfig.config_refl c, rfl, rfl, r.wf, nodup_mapDelete _ _ inv.2.1, ?_⟩
  intro k q hq
  show q ∈ h2.entries ∧ (h2.deref q).key = k
  have hq2 : mapGet (mapDelete c.items (c.deref p).key) k = some q := hq
  rw [mapGet_mapDelete] at hq2
  split_ifs at hq2 with hk
  obtain ⟨hq3, hq4⟩ := inv.2.2 k q hq2
  have hne : q ≠ p := by
    intro e2
    rw [e2] at hq4
    exact hk hq4.symm
  refine ⟨(r.mem q).2 ⟨hq3, hne⟩, ?_⟩
  rw [(item_core_fields _ _ (r.core.2 q)).1]
  exact hq4

theorem getItem_miss (c : Cache) (now : Int) (key : String)
    (h : mapGet c.items key = none ∨
      ∃ p, mapGet c.items key = some p ∧ (c.deref p).expired now = true) :
    c.getItem now key = some (c, none, false) := by
  unfold getItem
  rcases h with h | ⟨p, h1, h2⟩
  · rw [h]
  · rw [h1]
    dsimp only
    rw [if_pos h2]

theorem resolvedTTL_pos_iff (g t : Int) :
    0 < resolvedTTL g t ↔ (t ≥ 0 ∧ (t > 0 ∨ g > 0)) := by
  unfold resolvedTTL
  split_ifs with h
  · omega
  · omega

theorem touch_queueIndex (it : item) (now : Int) : (it.touch now).queueIndex = it.queueIndex := by
  unfold item.touch; split_ifs <;> rfl

/-- The two conditional writes to the item p in getItem and in SetWithTTL:
with extend set the item is touched. -/
theorem writes_spec (c : Cache) (p : Nat) (now : Int) (extend : Bool)
    (hlt : p < c.expirationHeap.mem.length) (c5 : Cache)
    (hc5 : c5 = (if extend = true then
        (if c.ttl > 0 ∧ (c.deref p).ttl = 0
          then c.setItem p { c.deref p with ttl := c.ttl } else c).setItem p
          (((if c.ttl > 0 ∧ (c.deref p).ttl = 0
            then c.setItem p { c.deref p with ttl := c.ttl } else c).deref p).touch now)
      else (if c.ttl > 0 ∧ (c.deref p).ttl = 0
          then c.setItem p { c.deref p with ttl := c.ttl } else c))) :
    ExpirationHeap.Modified c.expirationHeap p c5.expirationHeap ∧
      c5.deref p = { c.deref p with
        ttl := resolvedTTL c.ttl (c.deref p).ttl,
        expireAt := if 0 < resolvedTTL c.ttl (c.deref p).ttl ∧ extend = true
          then now + resolvedTTL c.ttl (c.deref p).ttl else (c.deref p).expireAt } ∧
      c5.items = c.items ∧ SameConfig c c5 ∧ c5.evictions = c.evictions ∧
      c5.metrics = c.metrics := by
  subst hc5
  have m1 := setItem_modified c p { c.deref p with ttl := c.ttl } rfl
  have hl : p < (c.setItem p { c.deref p with ttl := c.ttl }).expirationHeap.mem.length := by
    simp only [setItem, withHeap, List.length_set]; exact hlt
  by_cases ha : c.ttl > 0 ∧ (c.deref p).ttl = 0
  · have hr : resolvedTTL c.ttl (c.deref p).ttl = c.ttl := by
      unfold resolvedTTL; rw [if_pos ha]
    rw [if_pos ha, hr]
    cases extend with
    | true =>
      rw [if_pos rfl]
      have m2 := setItem_modified (c.setItem p { c.deref p with ttl := c.ttl }) p
        (((c.setItem p { c.deref p with ttl := c.ttl }).deref p).touch now)
        (touch_queueIndex _ _)
      refine ⟨⟨m2.entries.trans m1.entries, m2.len.trans m1.len,
        fun q hq => (m2.other q hq).trans (m1.other q hq), m2.index.trans m1.index⟩, ?_,
        rfl, SameConfig.config_refl c, rfl, rfl⟩
      rw [deref_setItem _ _ _ _ hl, if_pos rfl, deref_setItem _ _ _ _ hlt, if_pos rfl]
      unfold item.touch
      simp only
      rw [if_pos ha.1, if_pos ⟨ha.1, trivial⟩]
    | false =>
      rw [if_neg (by simp)]
      refine ⟨m1, ?_, rfl, SameConfig.config_refl c, rfl, rfl⟩
      rw [deref_setItem _ _ _ _ hlt, if_pos rfl, if_neg (by simp)]
  · have hr : resolvedTTL c.ttl (c.deref p).ttl = (c.deref p).ttl := by
      unfold resolvedTTL; rw [if_neg ha]
    rw [if_neg ha, hr]
    cases extend with
    | true =>
      rw [if_pos rfl]
      refine ⟨setItem_modified c p ((c.deref p).touch now) (touch_queueIndex _ _), ?_, rfl,
        SameConfig.config_refl c, rfl, rfl⟩
      rw [deref_setItem _ _ _ _ hlt, if_pos rfl]
      unfold item.touch
      by_cases hpos : 0 < (c.deref p).ttl
      · rw [if_pos hpos, if_pos ⟨hpos, rfl⟩]
      · rw [if_neg hpos, if_neg (fun hx => hpos hx.1)]
    | false =>
      rw [if_neg (by simp)]
      refine ⟨⟨rfl, rfl, fun _ _ => rfl, rfl⟩, ?_, rfl, SameConfig.config_refl c, rfl, rfl⟩
      rw [if_neg (by simp)]

theorem getItemRefresh_spec (c : Cache) (now : Int) (p : Nat) (inv : c.Inv)
    (hin : p ∈ c.expirationHeap.entries) :
    ∃ c2, c.getItemRefresh now p = some c2 ∧ Hit c p now c2 := by
  have hlt := inv.lt_mem hin
  unfold getItemRefresh
  by_cases hc : (c.deref p).ttl ≥ 0 ∧ ((c.deref p).ttl > 0 ∨ c.ttl > 0)
  · rw [if_pos hc]
    dsimp only
    have hpos := (resolvedTTL_pos_iff c.ttl (c.deref p).ttl).2 hc
    have hskip : (if c.ttl > 0 ∧ (c.deref p).ttl = 0
        then c.setItem p { c.deref p with ttl := c.ttl } else c).skipTTLExtension =
        c.skipTTLExtension := by split_ifs <;> rfl
    rw [hskip]
    obtain ⟨hmod, hit2, hit, hcf, hev, hme⟩ :=
      writes_spec c p now (!c.skipTTLExtension) hlt _ rfl
    have hcond : (¬ c.skipTTLExtension = true) ↔ ((!c.skipTTLExtension) = true) := by
      cases c.skipTTLExtension <;> simp
    simp only [hcond]
    generalize hg : (if (!c.skipTTLExtension) = true then _ else _) = c2 at hmod hit2 hit hcf hev hme ⊢
    have w2 := hmod.wf inv.1
    obtain ⟨h3, e3, s⟩ := ExpirationHeap.Update_shuffle c2.expirationHeap w2 p
      (by rw [hmod.entries]; exact hin)
    rw [e3]
    refine ⟨_, rfl, ?_⟩
    have hcore : ∀ q, (h3.deref q).core = (c2.expirationHeap.deref q).core := s.core.2
    have hp3 : (h3.deref p).core = (c2.deref p).core := hcore p
    rw [hit2] at hp3
    obtain ⟨k1, k2, k3, k4⟩ := item_core_fields _ _ hp3
    refine ⟨hit, hcf, hev, hme, s.core.1.trans hmod.len,
      s.len.trans (by rw [hmod.entries]), fun q => (s.mem q).trans (by rw [hmod.entries]),
      fun q hq => (hcore q).trans (by
        show (c2.expirationHeap.deref q).core = (c.expirationHeap.deref q).core
        rw [hmod.other q hq]), k1, k2, k3, ?_, s.wf w2, ?_, ?_⟩
    · show (h3.deref p).expireAt = _
      rw [k4]
      cases hs : c.skipTTLExtension <;> simp [hpos]
    · show (List.map Prod.fst c2.items).Nodup
      rw [hit]; exact inv.2.1
    · intro k q hq
      have hq1 : mapGet c.items k = some q := by rw [← hit]; exact hq
      obtain ⟨a1, a2⟩ := inv.2.2 k q hq1
      refine ⟨(s.mem q).2 (by rw [hmod.entries]; exact a1), ?_⟩
      show (h3.deref q).key = k
      by_cases hqp : q = p
      · rw [hqp, k1]
        rw [hqp] at a2
        exact a2
      · rw [(item_core_fields _ _ (hcore q)).1, hmod.other q hqp]
        exact a2
  · rw [if_neg hc]
    have hnpos : ¬ 0 < resolvedTTL c.ttl (c.deref p).ttl := fun hx =>
      hc ((resolvedTTL_pos_iff _ _).1 hx)
    have hr : resolvedTTL c.ttl (c.deref p).ttl = (c.deref p).ttl := by
      unfold resolvedTTL
      rw [if_neg (fun ha => hc ⟨by omega, Or.inr ha.1⟩)]
    refine ⟨_, rfl, rfl, SameConfig.config_refl c, rfl, rfl, rfl, rfl, fun _ => Iff.rfl,
      fun _ _ => rfl, rfl, rfl, hr.symm, ?_, inv⟩
    rw [if_neg (fun hx => hnpos hx.1)]

theorem getItem_hit (c : Cache) (now : Int) (key : String) (p : Nat) (inv : c.Inv)
    (h1 : mapGet c.items key = some p) (h2 : (c.deref p).expired now = false) :
    ∃ c2 flag, c.getItem now key = some (c2, some p, flag) ∧ Hit c p now c2 := by
  obtain ⟨hin, _⟩ := inv.2.2 key p h1
  obtain ⟨c2, e, hit⟩ := getItemRefresh_spec c now p inv hin
  unfold getItem
  rw [h1]
  dsimp only
  rw [if_neg (by simp [h2]), e]
  exact ⟨c2, _, rfl, hit⟩

theorem refresh_spec (c : Cache) (now : Int) (p : Nat) (hlt : p < c.expirationHeap.mem.length) :
    ExpirationHeap.Modified c.expirationHeap p (c.refresh now p).expirationHeap ∧
      (c.refresh now p).deref p = { c.deref p with
        ttl := resolvedTTL c.ttl (c.deref p).ttl,
        expireAt := if 0 < resolvedTTL c.ttl (c.deref p).ttl
          then now + resolvedTTL c.ttl (c.deref p).ttl else (c.deref p).expireAt } ∧
      (c.refresh now p).items = c.items ∧ SameConfig c (c.refresh now p) ∧
      (c.refresh now p).evictions = c.evictions ∧ (c.refresh now p).metrics = c.metrics := by
  unfold refresh
  by_cases hc : (c.deref p).ttl ≥ 0 ∧ ((c.deref p).ttl > 0 ∨ c.ttl > 0)
  · rw [if_pos hc]
    dsimp only
    have := writes_spec c p now true hlt _ rfl
    simp only [if_true, and_true] at this
    exact this
  · rw [if_neg hc]
    have hnpos : ¬ 0 < resolvedTTL c.ttl (c.deref p).ttl := fun hx =>
      hc ((resolvedTTL_pos_iff _ _).1 hx)
    have hr : resolvedTTL c.ttl (c.deref p).ttl = (c.deref p).ttl := by
      unfold resolvedTTL
      rw [if_neg (fun ha => hc ⟨by omega, Or.inr ha.1⟩)]
    refine ⟨⟨rfl, rfl, fun _ _ => rfl, rfl⟩, ?_, rfl, SameConfig.config_refl c, rfl, rfl⟩
    rw [if_neg hnpos, hr]

end Cache

/-! ## Method SetWithTTL -/

namespace Cache

theorem makeRoom_spec (c c2 : Cache) (inv : c.Inv) (h : c.makeRoom = some c2) :
    EvictStep c c2 ∧ c2.Inv := by
  unfold makeRoom at h
  by_cases hc : c.sizeLimit ≠ 0 ∧ (c.items.length : Int) ≥ c.sizeLimit
  · rw [if_pos hc] at h
    cases hp : c.expirationHeap.Peek with
    | none => rw [hp] at h; cases h
    | some root =>
      rw [hp] at h
      dsimp only at h
      obtain ⟨c3, e3, r⟩ := removeItem_spec c root EvictionReason.EvictedSize inv
        (ExpirationHeap.Peek_mem _ _ hp)
      rw [e3] at h
      cases h
      exact ⟨Or.inr ⟨hc, root, hp, r⟩, r.inv⟩
  · rw [if_neg hc] at h
    cases h
    exact ⟨Or.inl ⟨hc, rfl⟩, inv⟩

theorem insert_spec (c : Cache) (now : Int) (key : String) (data : Value) (ttl : Int)
    (inv : c.Inv) :
    Inserted c now key data ttl
      (((c.storeNew now key data ttl).1.countInserted.refresh now
          (c.storeNew now key data ttl).2).withHeap
        (((c.storeNew now key data ttl).1.countInserted.refresh now
          (c.storeNew now key data ttl).2).expirationHeap.Add (c.storeNew now key data ttl).2)) := by
  have hp2 : (c.storeNew now key data ttl).2 = c.expirationHeap.mem.length := rfl
  rw [hp2]
  generalize hc4 : (c.storeNew now key data ttl).1.countInserted = c4
  have h4heap : c4.expirationHeap = c.expirationHeap.alloc (newItem key data ttl now) := by
    rw [← hc4]; rfl
  have h4items : c4.items = mapSet c.items key c.expirationHeap.mem.length := by
    rw [← hc4]; rfl
  have h4cfg : SameConfig c c4 := by rw [← hc4]; exact SameConfig.config_refl c
  have h4ttl : c4.ttl = c.ttl := h4cfg.1
  have h4ev : c4.evictions = c.evictions := by rw [← hc4]; rfl
  have h4me : c4.metrics = { c.metrics with Inserted := c.metrics.Inserted + 1 } := by
    rw [← hc4]; rfl
  have hlt4 : c.expirationHeap.mem.length < c4.expirationHeap.mem.length := by
    rw [h4heap]; simp [ExpirationHeap.alloc]
  have h4new : c4.deref c.expirationHeap.mem.length = newItem key data ttl now := by
    show c4.expirationHeap.deref _ = _
    rw [h4heap]; exact ExpirationHeap.alloc_deref_new _ _
  have h4old : ∀ q, q < c.expirationHeap.mem.length → c4.deref q = c.deref q := by
    intro q hq
    show c4.expirationHeap.deref _ = _
    rw [h4heap]; exact ExpirationHeap.alloc_deref _ _ _ hq
  have w4 : c4.expirationHeap.WF := by rw [h4heap]; exact inv.1.wf_alloc _
  obtain ⟨hmod, hit5, hitems5, hcfg5, hev5, hme5⟩ :=
    refresh_spec c4 now c.expirationHeap.mem.length hlt4
  generalize hc5 : c4.refresh now c.expirationHeap.mem.length = c5 at hmod hit5 hitems5 hcfg5 hev5 hme5 ⊢
  have w5 := hmod.wf w4
  have hfresh : c.expirationHeap.mem.length ∉ c5.expirationHeap.entries := by
    rw [hmod.entries, h4heap]
    intro hcon
    have := inv.lt_mem hcon
    omega
  have hlt5 : c.expirationHeap.mem.length < c5.expirationHeap.mem.length := by
    rw [hmod.len]; exact hlt4
  have a := ExpirationHeap.Add_added c5.expirationHeap c.expirationHeap.mem.length w5 hlt5 hfresh
  have hlen4 : c4.expirationHeap.mem.length = c.expirationHeap.mem.length + 1 := by
    rw [h4heap]; simp [ExpirationHeap.alloc]
  have hent4 : c4.expirationHeap.entries = c.expirationHeap.entries := by rw [h4heap]; rfl
  have hnewcore : ((c5.expirationHeap.Add c.expirationHeap.mem.length).deref
      c.expirationHeap.mem.length).core = (c5.deref c.expirationHeap.mem.length).core :=
    a.core.2 _
  rw [hit5, h4new] at hnewcore
  obtain ⟨k1, k2, k3, k4⟩ := item_core_fields _ _ hnewcore
  have hnk : (newItem key data ttl now).key = key := by
    unfold newItem item.touch; split_ifs <;> rfl
  have hnd : (newItem key data ttl now).data = data := by
    unfold newItem item.touch; split_ifs <;> rfl
  have hnt : (newItem key data ttl now).ttl = ttl := by
    unfold newItem item.touch; split_ifs <;> rfl
  have hne : (newItem key data ttl now).expireAt = if 0 < ttl then now + ttl else 0 := by
    unfold newItem item.touch; split_ifs <;> rfl
  have holdcore : ∀ q, q < c.expirationHeap.mem.length →
      ((c5.expirationHeap.Add c.expirationHeap.mem.length).deref q).core = (c.deref q).core := by
    intro q hq
    rw [a.core.2 q]
    show (c5.expirationHeap.deref q).core = _
    rw [hmod.other q (by omega)]
    show (c4.deref q).core = _
    rw [h4old q hq]
  refine ⟨h4items ▸ hitems5, a.core.1.trans (hmod.len.trans hlen4),
    a.len.trans (by rw [hmod.entries, hent4]), fun q => (a.mem q).trans (by
      rw [hmod.entries, hent4]), holdcore, k1.trans hnk, k2.trans hnd, ?_, ?_,
    h4cfg.config_trans hcfg5, hme5.trans h4me, hev5.trans h4ev, a.wf, ?_, ?_⟩
  · show ((c5.expirationHeap.Add c.expirationHeap.mem.length).deref _).ttl = _
    rw [k3]
    simp only [hnt, h4ttl]
  · show ((c5.expirationHeap.Add c.expirationHeap.mem.length).deref _).expireAt = _
    rw [k4]
    simp only [hnt, h4ttl, hne]
    by_cases hpos : 0 < resolvedTTL c.ttl ttl
    · simp only [if_pos hpos]
    · simp only [if_neg hpos]
      have : ¬ 0 < ttl := by
        intro hx
        apply hpos
        rw [resolvedTTL_pos_iff]
        exact ⟨by omega, Or.inl hx⟩
      rw [if_neg this]
  · show (List.map Prod.fst c5.items).Nodup
    rw [hitems5, h4items]
    exact nodup_mapSet _ _ _ inv.2.1
  · intro k q hq
    have hq1 : mapGet (mapSet c.items key c.expirationHeap.mem.length) k = some q := by
      rw [← h4items, ← hitems5]; exact hq
    rw [mapGet_mapSet] at hq1
    show q ∈ (c5.expirationHeap.Add c.expirationHeap.mem.length).entries ∧
      ((c5.expirationHeap.Add c.expirationHeap.mem.length).deref q).key = k
    by_cases hk : k = key
    · rw [if_pos hk] at hq1
      cases hq1
      exact ⟨(a.mem _).2 (Or.inl rfl), by rw [k1, hnk, hk]⟩
    · rw [if_neg hk] at hq1
      obtain ⟨b1, b2⟩ := inv.2.2 k q hq1
      refine ⟨(a.mem _).2 (Or.inr (by rw [hmod.entries, hent4]; exact b1)), ?_⟩
      rw [(item_core_fields _ _ (holdcore q (inv.lt_mem b1))).1]
      exact b2

theorem SetWithTTL_miss (c : Cache) (now : Int) (key : String) (data : Value) (ttl : Int)
    (inv : c.Inv) (hopen : c.isShutDown = false)
    (hmiss : mapGet c.items key = none ∨
      ∃ p, mapGet c.items key = some p ∧ (c.deref p).expired now = true)
    (c2 : Cache) (e : Option GoError) (h : c.SetWithTTL now key data ttl = some (c2, e)) :
    e = none ∧ ∃ c1, EvictStep c c1 ∧ Inserted c1 now key data ttl c2 := by
  unfold SetWithTTL at h
  rw [if_neg (by simp [hopen]), getItem_miss c now key hmiss] at h
  simp only [Option.some_bind, Option.isSome_none, Bool.false_eq_true, if_false] at h
  cases hm : c.makeRoom with
  | none => rw [hm] at h; cases h
  | some c1 =>
    rw [hm] at h
    simp only [Option.map_some', Option.some_bind, Option.some.injEq, Prod.mk.injEq] at h
    obtain ⟨r1, inv1⟩ := makeRoom_spec c c1 inv hm
    refine ⟨h.2.symm, c1, r1, ?_⟩
    rw [← h.1]
    exact insert_spec c1 now key data ttl inv1

theorem SetWithTTL_hit (c : Cache) (now : Int) (key : String) (data : Value) (ttl : Int)
    (p : Nat) (inv : c.Inv) (hopen : c.isShutDown = false)
    (h1 : mapGet c.items key = some p) (h2 : (c.deref p).expired now = false) :
    ∃ c1 c2, Hit c p now c1 ∧ c.SetWithTTL now key data ttl = some (c2, none) ∧
      Overwritten c1 p now data ttl c2 := by
  obtain ⟨c1, flag, e1, hit⟩ := getItem_hit c now key p inv h1 h2
  have hin1 : p ∈ c1.expirationHeap.entries := (hit.entries p).2 (inv.2.2 key p h1).1
  have hlt1 := hit.inv.lt_mem hin1
  -- the write of data and ttl
  generalize hc3 : (c1.setItem p { c1.deref p with data := data, ttl := ttl }).countInserted = c4
  have m3 := setItem_modified c1 p { c1.deref p with data := data, ttl := ttl } rfl
  have h4heap : c4.expirationHeap =
      (c1.setItem p { c1.deref p with data := data, ttl := ttl }).expirationHeap := by
    rw [← hc3]; rfl
  have h4it : c4.deref p = { c1.deref p with data := data, ttl := ttl } := by
    show c4.expirationHeap.deref p = _
    rw [h4heap]
    have := deref_setItem c1 p p { c1.deref p with data := data, ttl := ttl } hlt1
    rw [if_pos rfl] at this
    exact this
  have hlt4 : p < c4.expirationHeap.mem.length := by rw [h4heap, m3.len]; exact hlt1
  have h4cfg : SameConfig c1 c4 := by rw [← hc3]; exact SameConfig.config_refl c1
  obtain ⟨hmod, hit5, hitems5, hcfg5, hev5, hme5⟩ := refresh_spec c4 now p hlt4
  generalize hc5 : c4.refresh now p = c5 at hmod hit5 hitems5 hcfg5 hev5 hme5
  have w4 : c4.expirationHeap.WF := by rw [h4heap]; exact m3.wf hit.inv.1
  have w5 := hmod.wf w4
  have hent5 : c5.expirationHeap.entries = c1.expirationHeap.entries := by
    rw [hmod.entries, h4heap, m3.entries]
  obtain ⟨h6, e6, s⟩ := ExpirationHeap.Update_shuffle c5.expirationHeap w5 p
    (by rw [hent5]; exact hin1)
  refine ⟨c1, c5.withHeap h6, hit, ?_, ?_⟩
  · unfold SetWithTTL
    rw [if_neg (by simp [hopen]), e1]
    simp only [Option.some_bind, Option.isSome_some, if_true, hc3, hc5, e6, Option.map_some']
  · have hcore : ((c5.withHeap h6).deref p).core = (c5.deref p).core := s.core.2 p
    rw [hit5, h4it] at hcore
    obtain ⟨k1, k2, k3, k4⟩ := item_core_fields _ _ hcore
    have hother : ∀ q, q ≠ p → ((c5.withHeap h6).deref q).core = (c1.deref q).core := by
      intro q hq
      have a1 : ((c5.withHeap h6).deref q).core = (c5.expirationHeap.deref q).core := s.core.2 q
      rw [a1, hmod.other q hq, h4heap, m3.other q hq]
      rfl
    refine ⟨?_, ?_, s.len.trans (by rw [hent5]), fun q => (s.mem q).trans (by rw [hent5]),
      hother, k1, k2, ?_, ?_, h4cfg.config_trans hcfg5, ?_, ?_, s.wf w5, ?_, ?_⟩
    · show c5.items = c1.items
      rw [hitems5, ← hc3]; rfl
    · show h6.mem.length = _
      rw [s.core.1, hmod.len, h4heap, m3.len]
    · rw [k3]; simp only [h4cfg.1]
    · rw [k4]; simp only [h4cfg.1]
    · show c5.metrics = _
      rw [hme5, ← hc3]; rfl
    · show c5.evictions = _
      rw [hev5, ← hc3]; rfl
    · show (List.map Prod.fst c5.items).Nodup
      rw [hitems5, ← hc3]; exact hit.inv.2.1
    · intro k q hq
      have hq1 : mapGet c1.items k = some q := by
        have : c5.items = c1.items := by rw [hitems5, ← hc3]; rfl
        rw [← this]; exact hq
      obtain ⟨b1, b2⟩ := hit.inv.2.2 k q hq1
      refine ⟨(s.mem q).2 (by rw [hent5]; exact b1), ?_⟩
      by_cases hqp : q = p
      · rw [hqp]
        rw [hqp] at b2
        exact k1.trans b2
      · rw [(item_core_fields _ _ (hother q hqp)).1]
        exact b2

end Cache

/-! ## Frames of the private steps -/

namespace Cache

theorem Inv.congr {c1 c2 : Cache} (inv : c1.Inv) (hh : c2.expirationHeap = c1.expirationHeap)
    (hi : c2.items = c1.items) : c2.Inv := by
  unfold Inv deref at *
  rw [hh, hi]
  exact inv

theorem KeyFrame.of_eq {c1 c2 : Cache} (k : String) (hh : c2.expirationHeap = c1.expirationHeap)
    (hi : c2.items = c1.items) : KeyFrame k c1 c2 := by
  intro p hp
  rw [hi] at hp
  refine ⟨hp, ?_⟩
  unfold deref
  rw [hh]

theorem KeyFrame.of_hit {c1 c2 : Cache} {p : Nat} {now : Int} (k : String) (inv : c1.Inv)
    (hit : Hit c1 p now c2) (hk : (c1.deref p).key ≠ k) : KeyFrame k c1 c2 := by
  intro q hq
  rw [hit.items] at hq
  refine ⟨hq, hit.other q ?_⟩
  intro e
  rw [e] at hq
  exact hk (inv.2.2 k p hq).2

theorem KeyFrame.of_removed {c1 c2 : Cache} {p : Nat} {r : EvictionReason} (k : String)
    (x : ItemRemoved c1 p r c2) : KeyFrame k c1 c2 := by
  intro q hq
  rw [x.items, mapGet_mapDelete] at hq
  split_ifs at hq
  exact ⟨hq, x.heap.core.2 q⟩

theorem KeyFrame.of_evictStep {c1 c2 : Cache} (k : String) (x : EvictStep c1 c2) :
    KeyFrame k c1 c2 := by
  rcases x with ⟨_, e⟩ | ⟨_, root, _, r⟩
  · rw [e]; exact KeyFrame.frame_refl k c1
  · exact KeyFrame.of_removed k r

theorem KeyFrame.of_inserted {c1 c2 : Cache} {now : Int} {key : String} {data : Value}
    {ttl : Int} (k : String) (inv : c1.Inv) (x : Inserted c1 now key data ttl c2)
    (hk : k ≠ key) : KeyFrame k c1 c2 := by
  intro q hq
  rw [x.items, mapGet_mapSet, if_neg hk] at hq
  exact ⟨hq, x.old q (inv.lt_mem (inv.2.2 k q hq).1)⟩

theorem KeyFrame.of_overwritten {c1 c2 : Cache} {p : Nat} {now : Int} {data : Value}
    {ttl : Int} (k : String) (inv : c1.Inv) (x : Overwritten c1 p now data ttl c2)
    (hk : (c1.deref p).key ≠ k) : KeyFrame k c1 c2 := by
  intro q hq
  rw [x.items] at hq
  refine ⟨hq, x.other q ?_⟩
  intro e
  rw [e] at hq
  exact hk (inv.2.2 k p hq).2

theorem EvictStep.config {c1 c2 : Cache} (x : EvictStep c1 c2) : SameConfig c1 c2 := by
  rcases x with ⟨_, e⟩ | ⟨_, root, _, r⟩
  · rw [e]; exact SameConfig.config_refl c1
  · exact r.config

theorem SetWithTTL_closed (c : Cache) (now : Int) (key : String) (data : Value) (ttl : Int)
    (h : c.isShutDown = true) :
    c.SetWithTTL now key data ttl = some (c, some GoError.ErrClosed) := by
  unfold SetWithTTL
  rw [if_pos h]

theorem expired_cases (c : Cache) (now : Int) (key : String) :
    (mapGet c.items key = none ∨
      ∃ p, mapGet c.items key = some p ∧ (c.deref p).expired now = true) ∨
    ∃ p, mapGet c.items key = some p ∧ (c.deref p).expired now = false := by
  cases h : mapGet c.items key with
  | none => exact Or.inl (Or.inl rfl)
  | some p =>
    cases h2 : (c.deref p).expired now with
    | true => exact Or.inl (Or.inr ⟨p, rfl, h2⟩)
    | false => exact Or.inr ⟨p, rfl, h2⟩

theorem SetWithTTL_frame (c : Cache) (now : Int) (key : String) (data : Value) (ttl : Int)
    (c2 : Cache) (e : Option GoError) (inv : c.Inv)
    (h : c.SetWithTTL now key data ttl = some (c2, e)) :
    c2.Inv ∧ SameConfig c c2 ∧ ∀ k, k ≠ key → KeyFrame k c c2 := by
  cases hs : c.isShutDown with
  | true =>
    rw [SetWithTTL_closed c now key data ttl hs] at h
    cases h
    exact ⟨inv, SameConfig.config_refl c, fun k _ => KeyFrame.frame_refl k c⟩
  | false =>
    rcases expired_cases c now key with hm | ⟨p, h1, h2⟩
    · obtain ⟨_, c1, r1, r2⟩ := SetWithTTL_miss c now key data ttl inv hs hm c2 e h
      have inv1 : c1.Inv := by
        rcases r1 with ⟨_, e1⟩ | ⟨_, root, _, r⟩
        · rw [e1]; exact inv
        · exact r.inv
      exact ⟨r2.inv, r1.config.config_trans r2.config, fun k hk =>
        (KeyFrame.of_evictStep k r1).frame_trans (KeyFrame.of_inserted k inv1 r2 hk)⟩
    · obtain ⟨c1, c3, hit, e3, ow⟩ := SetWithTTL_hit c now key data ttl p inv hs h1 h2
      rw [e3] at h
      cases h
      have hkey : (c.deref p).key = key := (inv.2.2 key p h1).2
      refine ⟨ow.inv, hit.config.config_trans ow.config, fun k hk =>
        (KeyFrame.of_hit k inv hit (by rw [hkey]; exact fun e => hk e.symm)).frame_trans
          (KeyFrame.of_overwritten k hit.inv ow (by
            rw [hit.key, hkey]; exact fun e => hk e.symm))⟩

end Cache

/-! ## The public methods -/

namespace Cache

theorem GetByLoader_closed (c : Cache) (now : Int) (key : String) (l : Option LoaderFunction)
    (h : c.isShutDown = true) :
    c.GetByLoader now key l = some (c, none, 0, some GoError.ErrClosed) := by
  unfold GetByLoader
  rw [if_pos h]

theorem countHit_inv {c : Cache} (inv : c.Inv) : c.countHit.Inv := inv.congr rfl rfl

theorem GetByLoader_hit (c : Cache) (now : Int) (key : String) (l : Option LoaderFunction)
    (p : Nat) (inv : c.Inv) (hopen : c.isShutDown = false)
    (h1 : mapGet c.items key = some p) (h2 : (c.deref p).expired now = false) :
    ∃ c1, Hit c.countHit p now c1 ∧
      c.GetByLoader now key l = some (c1.countRetrieval, (c1.deref p).data,
        ttlToReturn (c1.deref p).expireAt now, none) := by
  obtain ⟨c1, flag, e1, hit⟩ := getItem_hit c.countHit now key p (countHit_inv inv) h1 h2
  refine ⟨c1, hit, ?_⟩
  unfold GetByLoader
  rw [if_neg (by simp [hopen]), e1]
  rfl

theorem GetByLoader_miss (c : Cache) (now : Int) (key : String)
    (hopen : c.isShutDown = false)
    (hmiss : mapGet c.items key = none ∨
      ∃ p, mapGet c.items key = some p ∧ (c.deref p).expired now = true)
    (hl : c.loaderFunction = none) :
    c.GetByLoader now key none =
      some (c.countHit.countMiss, none, 0, some GoError.ErrNotFound) := by
  unfold GetByLoader
  rw [if_neg (by simp [hopen]), getItem_miss c.countHit now key hmiss]
  have : c.countHit.countMiss.loaderFunction = none := hl
  simp only [Option.some_bind, this]

theorem invokeLoader_frame (c : Cache) (now : Int) (key : String) (f : LoaderFunction)
    (c2 : Cache) (r : Value × Int × Option GoError) (inv : c.Inv)
    (h : c.invokeLoader now key f = some (c2, r)) :
    c2.Inv ∧ SameConfig c c2 ∧ ∀ k, k ≠ key → KeyFrame k c c2 := by
  unfold invokeLoader at h
  rcases hf : f key with ⟨d, t, err⟩
  rw [hf] at h
  cases err with
  | some er =>
    simp only [Option.some.injEq, Prod.mk.injEq] at h
    rw [← h.1]
    exact ⟨inv, SameConfig.config_refl c, fun k _ => KeyFrame.frame_refl k c⟩
  | none =>
    simp only at h
    rw [Option.map_eq_some'] at h
    obtain ⟨⟨c3, e3⟩, hset, hres⟩ := h
    obtain ⟨i3, cf3, kf3⟩ := SetWithTTL_frame _ now key d t c3 e3 inv hset
    have hc : c3 = c2 := by
      cases e3 <;> simp only [Prod.mk.injEq] at hres <;> exact hres.1
    rw [← hc]
    exact ⟨i3, cf3, kf3⟩

theorem GetByLoader_frame (c : Cache) (now : Int) (key : String) (l : Option LoaderFunction)
    (c2 : Cache) (r : Value × Int × Option GoError) (inv : c.Inv)
    (h : c.GetByLoader now key l = some (c2, r)) :
    c2.Inv ∧ SameConfig c c2 ∧ ∀ k, k ≠ key → KeyFrame k c c2 := by
  cases hs : c.isShutDown with
  | true =>
    rw [GetByLoader_closed c now key l hs] at h
    cases h
    exact ⟨inv, SameConfig.config_refl c, fun k _ => KeyFrame.frame_refl k c⟩
  | false =>
    rcases expired_cases c now key with hm | ⟨p, h1, h2⟩
    · unfold GetByLoader at h
      rw [if_neg (by simp [hs]), getItem_miss c.countHit now key hm] at h
      simp only [Option.some_bind] at h
      have inv2 : c.countHit.countMiss.Inv := inv.congr rfl rfl
      have cfg2 : SameConfig c c.countHit.countMiss := SameConfig.config_refl c
      have kf2 : ∀ k, KeyFrame k c c.countHit.countMiss := fun k => KeyFrame.of_eq k rfl rfl
      have tail : ∀ f, c.countHit.countMiss.invokeLoader now key f = some (c2, r) →
          c2.Inv ∧ SameConfig c c2 ∧ ∀ k, k ≠ key → KeyFrame k c c2 := by
        intro f hf
        obtain ⟨i3, cf3, kf3⟩ := invokeLoader_frame _ now key f c2 r inv2 hf
        exact ⟨i3, cfg2.config_trans cf3, fun k hk => (kf2 k).frame_trans (kf3 k hk)⟩
      cases l with
      | some f => exact tail f h
      | none =>
        simp only at h
        cases hlf : c.countHit.countMiss.loaderFunction with
        | some f =>
          rw [hlf] at h
          exact tail f h
        | none =>
          rw [hlf] at h
          simp only [Option.some.injEq, Prod.mk.injEq] at h
          rw [← h.1]
          exact ⟨inv2, cfg2, fun k _ => kf2 k⟩
    · obtain ⟨c1, hit, e1⟩ := GetByLoader_hit c now key l p inv hs h1 h2
      rw [e1] at h
      cases h
      have hkey : (c.deref p).key = key := (inv.2.2 key p h1).2
      refine ⟨hit.inv.congr rfl rfl, hit.config, fun k hk => ?_⟩
      have a := KeyFrame.of_hit k (countHit_inv inv) hit (by
        show (c.deref p).key ≠ k
        rw [hkey]; exact fun e => hk e.symm)
      exact ((KeyFrame.of_eq k rfl rfl).frame_trans a).frame_trans (KeyFrame.of_eq k rfl rfl)

theorem Remove_closed (c : Cache) (key : String) (h : c.isShutDown = true) :
    c.Remove key = some (c, some GoError.ErrClosed) := by
  unfold Remove
  rw [if_pos h]

theorem Remove_absent (c : Cache) (key : String) (hopen : c.isShutDown = false)
    (h : mapGet c.items key = none) : c.Remove key = some (c, some GoError.ErrNotFound) := by
  unfold Remove
  rw [if_neg (by simp [hopen]), h]

theorem Remove_present (c : Cache) (key : String) (p : Nat) (inv : c.Inv)
    (hopen : c.isShutDown = false) (h : mapGet c.items key = some p) :
    ∃ c2, c.Remove key = some (c2, none) ∧ ItemRemoved c p EvictionReason.Removed c2 := by
  obtain ⟨c2, e, r⟩ := removeItem_spec c p EvictionReason.Removed inv (inv.2.2 key p h).1
  refine ⟨c2, ?_, r⟩
  unfold Remove
  rw [if_neg (by simp [hopen]), h]
  simp only [e, Option.map_some']

theorem Remove_frame (c : Cache) (key : String) (c2 : Cache) (e : Option GoError) (inv : c.Inv)
    (h : c.Remove key = some (c2, e)) :
    c2.Inv ∧ SameConfig c c2 ∧ ∀ k, KeyFrame k c c2 := by
  cases hs : c.isShutDown with
  | true =>
    rw [Remove_closed c key hs] at h
    cases h
    exact ⟨inv, SameConfig.config_refl c, fun k => KeyFrame.frame_refl k c⟩
  | false =>
    cases hm : mapGet c.items key with
    | none =>
      rw [Remove_absent c key hs hm] at h
      cases h
      exact ⟨inv, SameConfig.config_refl c, fun k => KeyFrame.frame_refl k c⟩
    | some p =>
      obtain ⟨c3, e3, r⟩ := Remove_present c key p inv hs hm
      rw [e3] at h
      cases h
      exact ⟨r.inv, r.config, fun k => KeyFrame.of_removed k r⟩

theorem Touch_absent (c : Cache) (now : Int) (key : String) (h : mapGet c.items key = none) :
    c.Touch now key = (c, some GoError.ErrNotFound) := by
  unfold Touch
  rw [h]

theorem Touch_present (c : Cache) (now : Int) (key : String) (p : Nat)
    (h : mapGet c.items key = some p) :
    c.Touch now key = (c.setItem p ((c.deref p).touch now), none) := by
  unfold Touch
  rw [h]

theorem setItem_inv (c : Cache) (p : Nat) (it : item) (inv : c.Inv)
    (hq : it.queueIndex = (c.deref p).queueIndex) (hk : it.key = (c.deref p).key) :
    (c.setItem p it).Inv := by
  have m := setItem_modified c p it hq
  refine ⟨m.wf inv.1, inv.2.1, ?_⟩
  intro k q hq1
  have hq2 : mapGet c.items k = some q := hq1
  obtain ⟨a1, a2⟩ := inv.2.2 k q hq2
  refine ⟨by rw [m.entries]; exact a1, ?_⟩
  by_cases hc : q = p
  · rw [hc, deref_setItem c p p it (inv.lt_mem (hc ▸ a1)), if_pos rfl, hk, ← hc]
    exact a2
  · show ((c.setItem p it).expirationHeap.deref q).key = k
    rw [m.other q hc]
    exact a2

theorem touch_key (it : item) (now : Int) : (it.touch now).key = it.key := by
  unfold item.touch; split_ifs <;> rfl

theorem Touch_frame (c : Cache) (now : Int) (key : String) (inv : c.Inv) :
    (c.Touch now key).1.Inv ∧ SameConfig c (c.Touch now key).1 ∧
      ∀ k, k ≠ key → KeyFrame k c (c.Touch now key).1 := by
  cases hm : mapGet c.items key with
  | none =>
    rw [Touch_absent c now key hm]
    exact ⟨inv, SameConfig.config_refl c, fun k _ => KeyFrame.frame_refl k c⟩
  | some p =>
    rw [Touch_present c now key p hm]
    refine ⟨setItem_inv c p _ inv (touch_queueIndex _ _) (touch_key _ _), SameConfig.config_refl c,
      fun k hk q hq => ⟨hq, ?_⟩⟩
    have hq2 : mapGet c.items k = some q := hq
    obtain ⟨a1, a2⟩ := inv.2.2 k q hq2
    rw [deref_setItem c p q _ (inv.lt_mem (inv.2.2 key p hm).1), if_neg]
    intro e
    rw [e] at a2
    exact hk (a2.symm.trans (inv.2.2 key p hm).2)

theorem Purge_inv (c : Cache) : c.Purge.1.Inv := by
  refine ⟨fun k hk => ?_, List.nodup_nil, fun k p hp => ?_⟩
  · exact absurd hk (by simp [Purge, withHeap, withItems, ExpirationHeap.NewExpirationHeap])
  · exact absurd hp (by simp [Purge, withHeap, withItems, withMetrics, mapGet])

theorem Purge_frame (k : String) (c1 c : Cache) : KeyFrame k c1 c.Purge.1 := by
  intro p hp
  exact absurd hp (by simp [Purge, withHeap, withItems, withMetrics, mapGet])

theorem removeItem_config (c : Cache) (p : Nat) (r : EvictionReason) (c2 : Cache)
    (h : c.removeItem p r = some c2) : SameConfig c c2 := by
  unfold removeItem at h
  dsimp only at h
  rw [Option.map_eq_some'] at h
  obtain ⟨h2, _, e⟩ := h
  rw [← e]
  exact SameConfig.config_refl c

theorem evictLoop_config (fuel : Nat) (c : Cache) (r : EvictionReason) (c2 : Cache)
    (h : evictLoop fuel c r = some c2) : SameConfig c c2 := by
  induction fuel generalizing c with
  | zero =>
    unfold evictLoop at h
    cases hp : c.expirationHeap.Peek with
    | none =>
      rw [hp] at h
      simp only [Option.some.injEq] at h
      rw [← h]; exact SameConfig.config_refl c
    | some p => rw [hp] at h; cases h
  | succ fuel ih =>
    unfold evictLoop at h
    cases hp : c.expirationHeap.Peek with
    | none =>
      rw [hp] at h
      simp only [Option.some.injEq] at h
      rw [← h]; exact SameConfig.config_refl c
    | some p =>
      rw [hp] at h
      dsimp only at h
      rw [Option.bind_eq_some] at h
      obtain ⟨c1, h1, h2⟩ := h
      exact (removeItem_config c p r c1 h1).config_trans (ih c1 h2)

theorem Close_closed (c : Cache) (h : c.isShutDown = true) :
    c.Close = some (c, some GoError.ErrClosed) := by
  unfold Close
  rw [if_neg (by simp [h])]

theorem Close_open (c : Cache) (c2 : Cache) (e : Option GoError) (hopen : c.isShutDown = false)
    (h : c.Close = some (c2, e)) :
    e = none ∧ c2.isShutDown = true ∧ c2.items = [] ∧ c2.expirationHeap.entries = [] ∧
      c2.Inv := by
  unfold Close at h
  rw [if_pos (by simp [hopen])] at h
  dsimp only at h
  rw [Option.map_eq_some'] at h
  obtain ⟨c1, h1, h2⟩ := h
  have hsd : c1.isShutDown = true := by
    split_ifs at h1
    · exact (evictLoop_config _ _ _ _ h1).2.2.2.2.1
    · cases h1; rfl
  have e2 : c2 = c1.Purge.1 := by rw [h2]
  have e3 : e = c1.Purge.2 := by rw [h2]
  rw [e2, e3]
  exact ⟨rfl, hsd, rfl, rfl, Purge_inv c1⟩

end Cache

/-! ## Eviction loops, reachable states -/

namespace Cache

theorem Inv.items_nil {c : Cache} (inv : c.Inv) (h : c.expirationHeap.entries = []) :
    c.items = [] := by
  cases hi : c.items with
  | nil => rfl
  | cons e m =>
    obtain ⟨k, p⟩ := e
    have : mapGet c.items k = some p := by rw [hi]; simp [mapGet]
    have := (inv.2.2 k p this).1
    rw [h] at this
    cases this

theorem Peek_none_iff (h : ExpirationHeap) : h.Peek = none ↔ h.entries = [] := by
  unfold ExpirationHeap.Peek ExpirationHeap.Len
  constructor
  · intro hp
    split_ifs at hp with hc
    exact List.length_eq_zero.1 hc
  · intro he
    rw [if_pos (by rw [he]; rfl)]

theorem evictLoop_spec (fuel : Nat) (c : Cache) (r : EvictionReason) (inv : c.Inv)
    (hf : c.expirationHeap.entries.length ≤ fuel) :
    ∃ c2, evictLoop fuel c r = some c2 ∧ c2.expirationHeap.entries = [] ∧ c2.items = [] ∧
      c2.Inv ∧ SameConfig c c2 := by
  induction fuel generalizing c with
  | zero =>
    have he : c.expirationHeap.entries = [] := List.length_eq_zero.1 (by omega)
    refine ⟨c, ?_, he, inv.items_nil he, inv, SameConfig.config_refl c⟩
    unfold evictLoop
    rw [(Peek_none_iff _).2 he]
  | succ fuel ih =>
    unfold evictLoop
    cases hp : c.expirationHeap.Peek with
    | none =>
      have he := (Peek_none_iff _).1 hp
      exact ⟨c, rfl, he, inv.items_nil he, inv, SameConfig.config_refl c⟩
    | some p =>
      dsimp only
      obtain ⟨c1, e1, x⟩ := removeItem_spec c p r inv (ExpirationHeap.Peek_mem _ _ hp)
      rw [e1]
      obtain ⟨c2, e2, a, b, i2, cf⟩ := ih c1 x.inv (by have := x.heap.len; omega)
      exact ⟨c2, e2, a, b, i2, x.config.config_trans cf⟩

theorem Close_returns (c : Cache) (inv : c.Inv) (hopen : c.isShutDown = false) :
    ∃ c2, c.Close = some (c2, none) := by
  unfold Close
  rw [if_pos (by simp [hopen])]
  dsimp only
  split_ifs with hc
  · have inv1 : c.shutDown.Inv := inv.congr rfl rfl
    obtain ⟨c2, e2, _⟩ := evictLoop_spec c.shutDown.expirationHeap.Len c.shutDown
      EvictionReason.Closed inv1 (le_refl _)
    unfold evictjob
    rw [e2]
    exact ⟨_, rfl⟩
  · exact ⟨_, rfl⟩

theorem Inv.shuffle {c : Cache} {h : ExpirationHeap} (inv : c.Inv)
    (s : ExpirationHeap.Shuffle c.expirationHeap h) : (c.withHeap h).Inv := by
  refine ⟨s.wf inv.1, inv.2.1, fun k q hq => ?_⟩
  have hq2 : mapGet c.items k = some q := hq
  obtain ⟨a1, a2⟩ := inv.2.2 k q hq2
  refine ⟨(s.mem q).2 a1, ?_⟩
  show (h.deref q).key = k
  rw [(item_core_fields _ _ (s.core.2 q)).1]
  exact a2

theorem vetoes_congr {c1 c2 : Cache} {p : Nat} (cf : SameConfig c1 c2)
    (hc : (c2.deref p).core = (c1.deref p).core) : c2.vetoes p = c1.vetoes p := by
  obtain ⟨k1, k2, _, _⟩ := item_core_fields _ _ hc
  unfold vetoes
  rw [cf.2.1, k1, k2]

theorem NoVeto.step {k : String} {c1 c2 : Cache} (nv : NoVeto k c1) (cf : SameConfig c1 c2)
    (kf : KeyFrame k c1 c2) : NoVeto k c2 := by
  intro p hp
  obtain ⟨a, b⟩ := kf p hp
  rw [vetoes_congr cf b]
  exact nv p a

theorem cleanLoop_frame (fuel : Nat) (c : Cache) (now : Int) (c2 : Cache) (inv : c.Inv)
    (h : cleanLoop fuel c now = some c2) :
    c2.Inv ∧ SameConfig c c2 ∧ ∀ k, NoVeto k c → KeyFrame k c c2 := by
  induction fuel generalizing c with
  | zero =>
    unfold cleanLoop at h
    cases hp : c.expirationHeap.Peek with
    | none =>
      rw [hp] at h
      simp only [Option.some.injEq] at h
      rw [← h]
      exact ⟨inv, SameConfig.config_refl c, fun k _ => KeyFrame.frame_refl k c⟩
    | some p =>
      rw [hp] at h
      dsimp only at h
      split_ifs at h
      simp only [Option.some.injEq] at h
      rw [← h]
      exact ⟨inv, SameConfig.config_refl c, fun k _ => KeyFrame.frame_refl k c⟩
  | succ fuel ih =>
    unfold cleanLoop at h
    cases hp : c.expirationHeap.Peek with
    | none =>
      rw [hp] at h
      simp only [Option.some.injEq] at h
      rw [← h]
      exact ⟨inv, SameConfig.config_refl c, fun k _ => KeyFrame.frame_refl k c⟩
    | some p =>
      rw [hp] at h
      dsimp only at h
      have hin := ExpirationHeap.Peek_mem _ _ hp
      have hlt := inv.lt_mem hin
      by_cases hex : (c.deref p).expired now = true
      · rw [if_neg (by simp [hex])] at h
        by_cases hv : c.vetoes p = true
        · rw [if_pos hv] at h
          have inv1 := setItem_inv c p ((c.deref p).touch now) inv (touch_queueIndex _ _)
            (touch_key _ _)
          have m := setItem_modified c p ((c.deref p).touch now) (touch_queueIndex _ _)
          obtain ⟨h3, e3, s⟩ := ExpirationHeap.Update_shuffle
            (c.setItem p ((c.deref p).touch now)).expirationHeap inv1.1 p
            (by rw [m.entries]; exact hin)
          rw [e3] at h
          simp only [Option.map_some', Option.some_bind] at h
          have inv2 := inv1.shuffle s
          obtain ⟨i3, cf3, kf3⟩ := ih _ inv2 h
          have cf2 : SameConfig c ((c.setItem p ((c.deref p).touch now)).withHeap h3) :=
            SameConfig.config_refl c
          have kf2 : ∀ k, NoVeto k c →
              KeyFrame k c ((c.setItem p ((c.deref p).touch now)).withHeap h3) := by
            intro k nv q hq
            have hq2 : mapGet c.items k = some q := hq
            refine ⟨hq2, ?_⟩
            have hne : q ≠ p := by
              intro e
              rw [e] at hq2
              have := nv p hq2
              rw [hv] at this
              cases this
            show (h3.deref q).core = _
            rw [s.core.2 q, m.other q hne]
            rfl
          exact ⟨i3, cf2.config_trans cf3, fun k nv =>
            (kf2 k nv).frame_trans (kf3 k (nv.step cf2 (kf2 k nv)))⟩
        · rw [if_neg hv] at h
          obtain ⟨c1, e1, x⟩ := removeItem_spec c p EvictionReason.Expired inv hin
          rw [e1] at h
          simp only [Option.some_bind] at h
          obtain ⟨i3, cf3, kf3⟩ := ih _ x.inv h
          exact ⟨i3, x.config.config_trans cf3, fun k nv =>
            (KeyFrame.of_removed k x).frame_trans
              (kf3 k (nv.step x.config (KeyFrame.of_removed k x)))⟩
      · rw [if_pos (by simpa using hex)] at h
        simp only [Option.some.injEq] at h
        rw [← h]
        exact ⟨inv, SameConfig.config_refl c, fun k _ => KeyFrame.frame_refl k c⟩

theorem sweep_frame (c : Cache) (now : Int) (c2 : Cache) (inv : c.Inv)
    (h : c.sweep now = some c2) :
    c2.Inv ∧ SameConfig c c2 ∧ ∀ k, NoVeto k c → KeyFrame k c c2 := by
  unfold sweep at h
  split_ifs at h
  · simp only [Option.some.injEq] at h
    rw [← h]
    exact ⟨inv, SameConfig.config_refl c, fun k _ => KeyFrame.frame_refl k c⟩
  · exact cleanLoop_frame _ c now c2 inv h

theorem NewCache_inv (now : Int) : (NewCache now).Inv := by
  refine ⟨fun k hk => ?_, List.nodup_nil, fun k p hp => ?_⟩
  · exact absurd hk (by simp [NewCache, ExpirationHeap.NewExpirationHeap])
  · exact absurd hp (by simp [NewCache, mapGet])

/-- Every reachable state satisfies the invariant of the cache. -/
theorem Reachable.reach_inv {c : Cache} (r : Reachable c) : c.Inv := by
  induction r with
  | newCache now => exact NewCache_inv now
  | setWithTTL c now key data ttl c2 e _ h ih => exact (SetWithTTL_frame c now key data ttl c2 e ih h).1
  | getByLoader c now key l c2 r _ h ih => exact (GetByLoader_frame c now key l c2 r ih h).1
  | remove c key c2 e _ h ih => exact (Remove_frame c key c2 e ih h).1
  | touch c now key _ ih => exact (Touch_frame c now key ih).1
  | purge c _ _ => exact Purge_inv c
  | close c c2 e _ h ih =>
    cases hs : c.isShutDown with
    | true =>
      rw [Close_closed c hs] at h
      cases h
      exact ih
    | false => exact (Close_open c c2 e hs h).2.2.2.2
  | setTTL c ttl _ ih =>
    unfold SetTTL
    split_ifs
    · exact ih
    · exact ih.congr rfl rfl
  | setCheckExpirationCallback c f _ ih => exact ih.congr rfl rfl
  | skipTTLExtensionOnHit c b _ ih => exact ih.congr rfl rfl
  | setLoaderFunction c f _ ih => exact ih.congr rfl rfl
  | setCacheSizeLimit c limit _ ih => exact ih.congr rfl rfl
  | schedule c now _ ih => exact ih.congr rfl rfl
  | sweep c now c2 _ h ih => exact (sweep_frame c now c2 ih h).1

theorem OtherStep.step_frame {k : String} {c1 c2 : Cache} (s : OtherStep k c1 c2) (inv : c1.Inv) :
    c2.Inv ∧ KeyFrame k c1 c2 := by
  cases s with
  | setWithTTL now key data ttl _ e hk h =>
    obtain ⟨a, _, b⟩ := SetWithTTL_frame c1 now key data ttl c2 e inv h
    exact ⟨a, b k (fun e => hk e.symm)⟩
  | getByLoader now key l _ r hk h =>
    obtain ⟨a, _, b⟩ := GetByLoader_frame c1 now key l c2 r inv h
    exact ⟨a, b k (fun e => hk e.symm)⟩
  | remove key _ e hk h =>
    obtain ⟨a, _, b⟩ := Remove_frame c1 key c2 e inv h
    exact ⟨a, b k⟩
  | touch now key hk =>
    obtain ⟨a, _, b⟩ := Touch_frame c1 now key inv
    exact ⟨a, b k (fun e => hk e.symm)⟩
  | setTTL ttl =>
    unfold SetTTL
    split_ifs
    · exact ⟨inv, KeyFrame.frame_refl k c1⟩
    · exact ⟨inv.congr rfl rfl, KeyFrame.of_eq k rfl rfl⟩
  | setCheckExpirationCallback f => exact ⟨inv.congr rfl rfl, KeyFrame.of_eq k rfl rfl⟩
  | skipTTLExtensionOnHit b => exact ⟨inv.congr rfl rfl, KeyFrame.of_eq k rfl rfl⟩
  | setLoaderFunction f => exact ⟨inv.congr rfl rfl, KeyFrame.of_eq k rfl rfl⟩
  | setCacheSizeLimit limit => exact ⟨inv.congr rfl rfl, KeyFrame.of_eq k rfl rfl⟩
  | schedule now => exact ⟨inv.congr rfl rfl, KeyFrame.of_eq k rfl rfl⟩
  | sweep now _ nv h =>
    obtain ⟨a, _, b⟩ := sweep_frame c1 now c2 inv h
    exact ⟨a, b k nv⟩

theorem Others.steps_frame {k : String} {c1 c2 : Cache} (s : Others k c1 c2) (inv : c1.Inv) :
    c2.Inv ∧ KeyFrame k c1 c2 := by
  induction s with
  | refl => exact ⟨inv, KeyFrame.frame_refl k c1⟩
  | step c2 c3 _ st ih =>
    obtain ⟨a, b⟩ := st.step_frame ih.1
    exact ⟨a, ih.2.frame_trans b⟩

end Cache

/-! ## Notifications of the heap and calls of First without heap order -/

namespace ExpirationHeap

theorem Swap_notified (h : ExpirationHeap) (i j : Nat) (hi : i < h.entries.length)
    (hj : j < h.entries.length) (w : h.WF) (hij : i ≠ j) :
    (h.Swap i j).notified = if i = 0 ∨ j = 0 then h.notified + 1 else h.notified := by
  have hl : 0 < h.entries.length := by omega
  have key : (h.Swap i j).notified =
      if h.Len = 0 ∨ ((h.Swap i j).deref (h.entry 0)).queueIndex ≠ 0 then h.notified + 1
      else h.notified := by
    unfold Swap
    dsimp only
    split_ifs with c1 c2 <;> first | rfl | (exfalso; revert c2; simp only [deref, notify] at *; tauto)
  rw [key, Swap_deref h i j hi hj w]
  have h0 := (w 0 hl).2
  have hlen : ¬ h.Len = 0 := by simp only [Len]; omega
  by_cases c : i = 0 ∨ j = 0
  · rw [if_pos c]
    rcases c with c | c
    · subst c
      rw [if_pos rfl]
      rw [if_pos (Or.inr (by
        show ((j : Nat) : Int) ≠ 0
        have : j ≠ 0 := fun e => hij e.symm
        exact_mod_cast this))]
    · subst c
      have hne : ¬ h.entry 0 = h.entry i := fun e => hij (w.inj hi hj e.symm)
      rw [if_neg hne, if_pos rfl]
      rw [if_pos (Or.inr (by
        show ((i : Nat) : Int) ≠ 0
        exact_mod_cast hij))]
  · rw [if_neg c]
    have c1 : i ≠ 0 := fun e => c (Or.inl e)
    have c2 : j ≠ 0 := fun e => c (Or.inr e)
    have hne1 : ¬ h.entry 0 = h.entry i := fun e => c1 (w.inj hl hi e).symm
    have hne2 : ¬ h.entry 0 = h.entry j := fun e => c2 (w.inj hl hj e).symm
    rw [if_neg hne1, if_neg hne2, if_neg]
    rintro (e | e)
    · exact hlen e
    · exact e h0

theorem upLoop_notified (fuel : Nat) (h : ExpirationHeap) (j : Nat) (hj : j < h.entries.length)
    (w : h.WF) (hf : j ≤ fuel) :
    ((upLoop fuel h j).entry 0 = h.entry j ∧
        (0 < j → (upLoop fuel h j).notified = h.notified + 1 ∧ ¬ expLe (h.exp 0) (h.exp j)) ∧
        (j = 0 → (upLoop fuel h j).notified = h.notified)) ∨
      ((upLoop fuel h j).entry 0 = h.entry 0 ∧ 0 < j ∧
        (upLoop fuel h j).notified = h.notified) := by
  induction fuel generalizing h j with
  | zero =>
    have : j = 0 := by omega
    subst this
    left
    exact ⟨rfl, fun hc => absurd hc (by omega), fun _ => rfl⟩
  | succ fuel ih =>
    unfold upLoop
    simp only
    split_ifs with hc
    · by_cases hj0 : j = 0
      · subst hj0
        left
        exact ⟨rfl, fun hc => absurd hc (by omega), fun _ => rfl⟩
      · right
        exact ⟨rfl, by omega, rfl⟩
    · have hj0 : 0 < j := by
        by_contra hcon
        apply hc
        left
        have : j = 0 := by omega
        subst this
        rfl
      have hij : (j - 1) / 2 ≠ j := by omega
      have hi : (j - 1) / 2 < h.entries.length := by omega
      have hless : h.Less j ((j - 1) / 2) = true := by
        by_contra hcon
        exact hc (Or.inr hcon)
      have s1 := Swap_shuffle h ((j - 1) / 2) j hi hj
      have hi1 : (j - 1) / 2 < (h.Swap ((j - 1) / 2) j).entries.length := by
        rw [s1.len]; exact hi
      have hn := Swap_notified h ((j - 1) / 2) j hi hj w hij
      have he1 : (h.Swap ((j - 1) / 2) j).entry ((j - 1) / 2) = h.entry j := by
        rw [Swap_entry h _ _ _ hi hj, if_neg hij, if_pos rfl]
      rcases ih (h.Swap ((j - 1) / 2) j) ((j - 1) / 2) hi1 (s1.wf w) (by omega) with a | a
      · left
        obtain ⟨a1, a2, a3⟩ := a
        refine ⟨a1.trans he1, fun _ => ?_, fun hc0 => absurd hc0 (by omega)⟩
        by_cases hi0 : (j - 1) / 2 = 0
        · rw [hi0] at a3 hn hless
          have a3b : (upLoop fuel (h.Swap 0 j) 0).notified = (h.Swap 0 j).notified := a3 rfl
          rw [hi0, a3b, hn, if_pos (Or.inl rfl)]
          exact ⟨rfl, (Less_iff h j 0).1 hless⟩
        · obtain ⟨b1, b2⟩ := a2 (by omega)
          have hj0b : j ≠ 0 := by omega
          rw [b1, hn, if_neg (by
            rintro (e | e)
            · exact hi0 e
            · exact hj0b e)]
          refine ⟨rfl, ?_⟩
          rw [Swap_exp h _ _ _ hi hj, Swap_exp h _ _ _ hi hj] at b2
          rw [if_neg (by omega), if_neg (fun e => hi0 e.symm), if_neg hij, if_pos rfl] at b2
          intro hle
          apply b2
          have l1 := (Less_iff h j ((j - 1) / 2)).1 hless
          unfold expLe at *
          omega
      · right
        obtain ⟨a1, a2, a3⟩ := a
        have hj0b : j ≠ 0 := by omega
        have hi0 : (j - 1) / 2 ≠ 0 := by omega
        refine ⟨?_, hj0, ?_⟩
        · rw [a1, Swap_entry h _ _ _ hi hj, if_neg (fun e => hj0b e.symm),
            if_neg (fun e => hi0 e.symm)]
        · rw [a3, hn, if_neg (by
            rintro (e | e)
            · exact hi0 e
            · exact hj0b e)]

end ExpirationHeap

namespace ExpirationHeap

theorem Push_notified (h : ExpirationHeap) (x : Nat) (hx : x < h.mem.length) :
    (h.Push x).notified = if h.entries.length = 0 then h.notified + 1 else h.notified := by
  have hd : ((h.SetIndex x h.entries.length).deref x).queueIndex = (h.entries.length : Int) := by
    rw [deref_SetIndex, if_pos ⟨rfl, hx⟩]
  unfold Push
  dsimp only
  simp only [deref] at hd ⊢
  by_cases hl : h.entries.length = 0
  · rw [if_pos (by rw [hd, hl]; rfl), if_pos hl]; rfl
  · rw [if_neg (by rw [hd]; exact_mod_cast hl), if_neg hl]; rfl

theorem Push_entry_last (h : ExpirationHeap) (x : Nat) :
    (h.Push x).entry h.entries.length = x := by
  simp only [entry, Push_entries]
  rw [List.getD_append_right _ _ _ _ (le_refl _)]
  simp

/-- Notifications of Add: one attempt when the new entry ends at position 0,
none otherwise; a new root of a heap that was not empty sorts strictly before
the old root. -/
theorem Add_notified (h : ExpirationHeap) (w : h.WF) (e : Nat) (he : e < h.mem.length)
    (hn : e ∉ h.entries) :
    ((h.Add e).entry 0 = e →
        (h.Add e).notified = h.notified + 1 ∧
        (h.entries ≠ [] → ¬ expLe (h.exp 0) ((h.Add e).exp 0))) ∧
      ((h.Add e).entry 0 ≠ e → (h.Add e).notified = h.notified) := by
  have a := Push_added h e w he hn
  have hlen : (h.Push e).Len - 1 = h.entries.length := by simp [Len, Push_entries]
  have hj : h.entries.length < (h.Push e).entries.length := by rw [a.len]; omega
  have hadd : h.Add e = upLoop h.entries.length (h.Push e) h.entries.length := by
    unfold Add heapPush up
    dsimp only
    rw [hlen]
  have hpn := Push_notified h e he
  have hlast := Push_entry_last h e
  have hcore : SameCore h (h.Add e) := (Add_added h e w he hn).core
  by_cases hl : h.entries.length = 0
  · have hnil : h.entries = [] := List.length_eq_zero.1 hl
    have hup : h.Add e = h.Push e := by
      rw [hadd, hl]; rfl
    rw [hup]
    have h0 : (h.Push e).entry 0 = e := by rw [← hl]; exact hlast
    rw [if_pos hl] at hpn
    exact ⟨fun _ => ⟨hpn, fun hc => absurd hnil hc⟩, fun hc => absurd h0 hc⟩
  · rw [if_neg hl] at hpn
    have hpos : 0 < h.entries.length := by omega
    have h0ne : (h.Push e).entry 0 ≠ e := by
      intro hc
      apply hn
      have e0 : (h.Push e).entry 0 = h.entry 0 := by
        simp only [entry, Push_entries]; exact List.getD_append _ _ _ _ hpos
      rw [e0] at hc
      exact (mem_entries_iff h e).2 ⟨0, hpos, hc⟩
    rw [hadd]
    rcases upLoop_notified h.entries.length (h.Push e) h.entries.length hj a.wf (le_refl _)
      with x | x
    · obtain ⟨x1, x2, _⟩ := x
      obtain ⟨x3, x4⟩ := x2 hpos
      rw [hlast] at x1
      refine ⟨fun _ => ⟨by rw [x3, hpn], fun _ => ?_⟩, fun hc => absurd x1 hc⟩
      have e1 : (upLoop h.entries.length (h.Push e) h.entries.length).exp 0 =
          (h.Push e).exp h.entries.length := by
        unfold exp
        rw [x1, hlast]
        have s := upLoop_shuffle h.entries.length (h.Push e) h.entries.length hj
        exact s.core.expireAt e
      rw [e1, ← Push_exp h e 0 hpos]
      exact x4
    · obtain ⟨x1, _, x3⟩ := x
      refine ⟨fun hc => absurd (x1 ▸ hc) h0ne, fun _ => by rw [x3, hpn]⟩

theorem drainLoop_perm (fuel : Nat) (h : ExpirationHeap) (hf : h.entries.length = fuel)
    (w : h.WF) :
    (drainLoop fuel h).1.Perm h.entries ∧ (drainLoop fuel h).2.entries = [] := by
  induction fuel generalizing h with
  | zero =>
    have : h.entries = [] := List.length_eq_zero.1 hf
    simp [drainLoop, this]
  | succ fuel ih =>
    have hl : 0 < h.entries.length := by omega
    obtain ⟨r, hfirst⟩ := First_removed h w hl
    have hlen1 : h.First.1.entries.length = fuel := by have := r.len; omega
    have hp := r.perm w ((mem_entries_iff h _).2 ⟨0, hl, rfl⟩)
    obtain ⟨p1, p3⟩ := ih h.First.1 hlen1 r.wf
    unfold drainLoop
    rw [hfirst]
    dsimp only
    exact ⟨(List.Perm.cons _ p1).trans hp.symm, p3⟩

/-- Invariant of the heaps reached by the methods of the heap. -/
theorem Operated.operated_inv {h : ExpirationHeap} {live gone : List Nat}
    (b : Operated h live gone) :
    h.WF ∧ (∀ p, p ∈ h.entries ↔ p ∈ live) ∧ live.Nodup ∧
      (∀ p, p < h.mem.length → p ∉ h.entries → (h.deref p).queueIndex = EntryNotIndexed) ∧
      (∀ p, p ∈ gone → p < h.mem.length ∧ p ∉ h.entries) := by
  induction b with
  | empty =>
    refine ⟨fun k hk => ?_, fun p => Iff.rfl, List.nodup_nil, fun p hp => ?_, fun p hp => ?_⟩
    · simp [NewExpirationHeap] at hk
    · simp [NewExpirationHeap] at hp
    · simp at hp
  | add h live gone it _ ih =>
    obtain ⟨w, hm, hnd, hout, hg⟩ := ih
    have hfresh : h.mem.length ∉ (h.alloc it).entries := by
      intro hc
      obtain ⟨k, hk, e⟩ := (mem_entries_iff h _).1 hc
      have := (w k hk).1
      omega
    have hx : h.mem.length < (h.alloc it).mem.length := by
      simp [ExpirationHeap.alloc]
    have a := Add_added (h.alloc it) h.mem.length (w.wf_alloc it) hx hfresh
    have hml : ((h.alloc it).Add h.mem.length).mem.length = h.mem.length + 1 := by
      rw [a.core.1]
      simp [ExpirationHeap.alloc]
    refine ⟨a.wf, ?_, ?_, ?_, ?_⟩
    · intro p
      rw [a.mem, List.mem_cons]
      exact or_congr Iff.rfl (hm p)
    · refine List.nodup_cons.2 ⟨fun hc => hfresh ((hm _).2 hc), hnd⟩
    · intro p hp hpn
      have hp1 : p ≠ h.mem.length := fun e => hpn ((a.mem p).2 (Or.inl e))
      have hp2 : p ∉ h.entries := fun e => hpn ((a.mem p).2 (Or.inr e))
      have hp3 : p < h.mem.length := by omega
      rw [a.out p hp2 hp1, alloc_deref h it p hp3]
      exact hout p hp3 hp2
    · intro p hp
      obtain ⟨g1, g2⟩ := hg p hp
      refine ⟨by omega, fun hc => ?_⟩
      rcases (a.mem p).1 hc with e | e
      · omega
      · exact g2 e
  | remove h live gone p h2 _ hp hr ih =>
    obtain ⟨w, hm, hnd, hout, hg⟩ := ih
    by_cases hin : p ∈ h.entries
    · obtain ⟨h3, e3, r⟩ := Remove_removed h w p hin
      rw [hr] at e3
      cases e3
      obtain ⟨k, hk, ek⟩ := (mem_entries_iff h p).1 hin
      have hplt : p < h.mem.length := ek ▸ (w k hk).1
      refine ⟨r.wf, ?_, hnd.erase p, ?_, ?_⟩
      · intro q
        rw [r.mem, hnd.mem_erase_iff, hm q, and_comm]
      · intro q hq hqn
        rw [r.core.1] at hq
        by_cases hqp : q = p
        · rw [hqp]; exact r.idx
        · have : q ∉ h.entries := fun e => hqn ((r.mem q).2 ⟨e, hqp⟩)
          rw [r.out q this]
          exact hout q hq this
      · intro q hq
        rw [r.core.1]
        rcases List.mem_cons.1 hq with e | e
        · rw [e]
          exact ⟨hplt, fun hc => ((r.mem p).1 hc).2 rfl⟩
        · exact ⟨(hg q e).1, fun hc => (hg q e).2 ((r.mem q).1 hc).1⟩
    · have hplt : p < h.mem.length := by
        rcases hp with e | e
        · exact absurd ((hm p).2 e) hin
        · exact (hg p e).1
      have e := Remove_notIndexed h p (hout p hplt hin)
      rw [hr] at e
      cases e
      have : live.erase p = live := List.erase_of_not_mem (fun hc => hin ((hm p).2 hc))
      rw [this]
      refine ⟨w, hm, hnd, hout, fun q hq => ?_⟩
      rcases List.mem_cons.1 hq with e | e
      · rw [e]; exact ⟨hplt, hin⟩
      · exact hg q e
  | update h live gone p e h2 _ hp hu ih =>
    obtain ⟨w, hm, hnd, hout, hg⟩ := ih
    have m := setExpireAt_modified h p e
    have w1 := m.wf w
    by_cases hin : p ∈ h.entries
    · have hin1 : p ∈ (h.setExpireAt p e).entries := by rw [m.entries]; exact hin
      obtain ⟨h3, e3, s⟩ := Update_shuffle _ w1 p hin1
      rw [hu] at e3
      cases e3
      refine ⟨s.wf w1, ?_, hnd, ?_, ?_⟩
      · intro q
        rw [s.mem, m.entries]
        exact hm q
      · intro q hq hqn
        rw [s.core.1, m.len] at hq
        have hq1 : q ∉ h.entries := by
          intro hc
          apply hqn
          rw [s.mem, m.entries]
          exact hc
        have hq2 : q ∉ (h.setExpireAt p e).entries := by rw [m.entries]; exact hq1
        rw [s.out w1 q hq2, m.other q (fun e => hq1 (e ▸ hin))]
        exact hout q hq hq1
      · intro q hq
        rw [s.core.1, m.len]
        refine ⟨(hg q hq).1, fun hc => (hg q hq).2 ?_⟩
        rw [s.mem, m.entries] at hc
        exact hc
    · have hplt : p < h.mem.length := by
        rcases hp with e | e
        · exact absurd ((hm p).2 e) hin
        · exact (hg p e).1
      have hidx : ((h.setExpireAt p e).deref p).queueIndex = EntryNotIndexed := by
        rw [m.index]; exact hout p hplt hin
      have e2 : (h.setExpireAt p e).Update p = some (h.setExpireAt p e) := by
        unfold Update
        dsimp only
        rw [hidx]
        simp [EntryNotIndexed]
      rw [hu] at e2
      cases e2
      refine ⟨w1, ?_, hnd, ?_, ?_⟩
      · intro q; rw [m.entries]; exact hm q
      · intro q hq hqn
        rw [m.len] at hq
        rw [m.entries] at hqn
        by_cases hqp : q = p
        · rw [hqp]; exact hidx
        · rw [m.other q hqp]
          exact hout q hq hqn
      · intro q hq
        rw [m.len, m.entries]
        exact hg q hq
  | first h live gone p _ hf ih =>
    obtain ⟨w, hm, hnd, hout, hg⟩ := ih
    have hl : 0 < h.entries.length := by
      by_contra hc
      rw [First_empty h (by omega)] at hf
      cases hf
    obtain ⟨r, e⟩ := First_removed h w hl
    rw [e] at hf
    cases hf
    have hin : h.entry 0 ∈ h.entries := (mem_entries_iff h _).2 ⟨0, hl, rfl⟩
    refine ⟨r.wf, ?_, hnd.erase _, ?_, ?_⟩
    · intro q
      rw [r.mem, hnd.mem_erase_iff, hm q, and_comm]
    · intro q hq hqn
      rw [r.core.1] at hq
      by_cases hqp : q = h.entry 0
      · rw [hqp]; exact r.idx
      · have : q ∉ h.entries := fun e => hqn ((r.mem q).2 ⟨e, hqp⟩)
        rw [r.out q this]
        exact hout q hq this
    · intro q hq
      rw [r.core.1]
      rcases List.mem_cons.1 hq with e | e
      · rw [e]
        exact ⟨(w 0 hl).1, fun hc => ((r.mem _).1 hc).2 rfl⟩
      · exact ⟨(hg q e).1, fun hc => (hg q e).2 ((r.mem q).1 hc).1⟩
  | firstNil h live gone _ hf ih =>
    have hl : h.entries.length = 0 := by
      by_contra hc
      obtain ⟨_, e⟩ := First_removed h ih.1 (by omega)
      rw [e] at hf
      cases hf
    rw [First_empty h hl]
    exact ih

end ExpirationHeap

/-! ## The rounds of an expiration sweep -/

theorem countP_drop {l1 l2 : List Nat} {f g : Nat → Bool} (p : Nat) (nd1 : l1.Nodup)
    (nd2 : l2.Nodup) (hp : p ∈ l1) (hfp : f p = true) (hsub : ∀ q, q ∈ l2 → q ∈ l1)
    (hg : ∀ q, q ∈ l2 → q ≠ p → g q = f q) (hgp : p ∈ l2 → g p = false) :
    l2.countP g + 1 ≤ l1.countP f := by
  have e1 : l1.countP f = (l1.erase p).countP f + 1 := by
    rw [(List.perm_cons_erase hp).countP_eq, List.countP_cons_of_pos _ _ hfp]
  have e2 : l2.countP g = (l2.erase p).countP g := by
    by_cases hin : p ∈ l2
    · rw [(List.perm_cons_erase hin).countP_eq, List.countP_cons_of_neg]
      rw [hgp hin]; simp
    · rw [List.erase_of_not_mem hin]
  have e3 : (l2.erase p).countP g = (l2.erase p).countP f := by
    apply List.countP_congr
    intro x hx
    have := (nd2.mem_erase_iff).1 hx
    rw [hg x this.2 this.1]
  have e4 : (l2.erase p).countP f ≤ (l1.erase p).countP f := by
    apply List.Subperm.countP_le
    apply List.subperm_of_subset (nd2.erase p)
    intro x hx
    have := (nd2.mem_erase_iff).1 hx
    exact (nd1.mem_erase_iff).2 ⟨this.1, hsub x this.2⟩
  omega

namespace Cache

theorem expired_ttl_pos (it : item) (now : Int) (h : it.expired now = true) : 0 < it.ttl := by
  unfold item.expired at h
  split_ifs at h with hc
  omega

theorem vetoes_iff (c : Cache) (p : Nat) :
    c.vetoes p = true ↔
      ∃ cb, c.checkExpireCallback = some cb ∧ cb (c.deref p).key (c.deref p).data = false := by
  unfold vetoes
  cases hcb : c.checkExpireCallback with
  | none => simp
  | some cb => simp

theorem vetoes_false_iff (c : Cache) (p : Nat) :
    c.vetoes p = false ↔
      (c.checkExpireCallback = none ∨
        ∃ cb, c.checkExpireCallback = some cb ∧ cb (c.deref p).key (c.deref p).data = true) := by
  unfold vetoes
  cases hcb : c.checkExpireCallback with
  | none => simp
  | some cb => simp

/-- The round of a sweep that keeps the due root p. -/
theorem vetoRound_spec (c : Cache) (p : Nat) (now : Int) (inv : c.Inv)
    (hin : p ∈ c.expirationHeap.entries) (hex : (c.deref p).expired now = true) :
    ∃ h3, (c.setItem p ((c.deref p).touch now)).expirationHeap.Update p = some h3 ∧
      Vetoed c p now ((c.setItem p ((c.deref p).touch now)).withHeap h3) ∧
      ((c.setItem p ((c.deref p).touch now)).withHeap h3).expirationHeap.entries.countP
          (fun q => (((c.setItem p ((c.deref p).touch now)).withHeap h3).deref q).expired now) + 1 ≤
        c.expirationHeap.entries.countP (fun q => (c.deref q).expired now) := by
  have hlt := inv.lt_mem hin
  have hpos := expired_ttl_pos _ _ hex
  have inv1 := setItem_inv c p ((c.deref p).touch now) inv (touch_queueIndex _ _) (touch_key _ _)
  have m := setItem_modified c p ((c.deref p).touch now) (touch_queueIndex _ _)
  obtain ⟨h3, e3, s⟩ := ExpirationHeap.Update_shuffle
    (c.setItem p ((c.deref p).touch now)).expirationHeap inv1.1 p (by rw [m.entries]; exact hin)
  have inv2 := inv1.shuffle s
  have hd : ∀ q, (h3.deref q).core =
      (if q = p then (c.deref p).touch now else c.deref q).core := by
    intro q
    rw [s.core.2 q]
    have : (c.setItem p ((c.deref p).touch now)).expirationHeap.deref q =
        if q = p then (c.deref p).touch now else c.deref q := deref_setItem c p q _ hlt
    rw [this]
  have htouch : (c.deref p).touch now = { c.deref p with expireAt := now + (c.deref p).ttl } := by
    unfold item.touch
    rw [if_pos hpos]
  have hp4 := item_core_fields _ _ (hd p)
  rw [if_pos rfl, htouch] at hp4
  dsimp only at hp4
  have hent : ∀ q, q ∈ h3.entries ↔ q ∈ c.expirationHeap.entries := by
    intro q
    rw [s.mem, m.entries]
  have hother : ∀ q, q ≠ p → (h3.deref q).core = (c.deref q).core := by
    intro q hq
    rw [hd q, if_neg hq]
  refine ⟨h3, e3, ⟨rfl, SameConfig.config_refl c, rfl, rfl, hent, hother, hp4.1, hp4.2.1,
    hp4.2.2.1, hp4.2.2.2, inv2⟩, ?_⟩
  apply countP_drop p inv.1.nodup inv2.1.nodup hin hex (fun q hq => (hent q).1 hq)
  · intro q _ hq
    exact item_expired_core _ _ (hother q hq) now
  · intro _
    show (h3.deref p).expired now = false
    unfold item.expired
    rw [hp4.2.2.1, hp4.2.2.2, if_neg (by omega)]
    simp only [decide_eq_false_iff_not, not_lt]
    show now ≤ now + (c.deref p).ttl
    omega

/-- The round of a sweep that removes the due root p. -/
theorem expireRound_spec (c : Cache) (p : Nat) (now : Int) (inv : c.Inv)
    (hin : p ∈ c.expirationHeap.entries) (hex : (c.deref p).expired now = true) :
    ∃ c1, c.removeItem p EvictionReason.Expired = some c1 ∧
      ItemRemoved c p EvictionReason.Expired c1 ∧
      c1.metrics.EvictedExpired = c.metrics.EvictedExpired + 1 ∧
      c1.expirationHeap.entries.countP (fun q => (c1.deref q).expired now) + 1 ≤
        c.expirationHeap.entries.countP (fun q => (c.deref q).expired now) := by
  obtain ⟨c1, e1, x⟩ := removeItem_spec c p EvictionReason.Expired inv hin
  refine ⟨c1, e1, x, by rw [x.metrics]; rfl, ?_⟩
  apply countP_drop p inv.1.nodup x.inv.1.nodup hin hex (fun q hq => ((x.heap.mem q).1 hq).1)
  · intro q _ _
    exact item_expired_core _ _ (x.heap.core.2 q) now
  · intro hc
    exact absurd rfl ((x.heap.mem p).1 hc).2

/-- The loop of cleanjob returns when its bound is at least the number of due
entries in the heap, and its rounds are those of the veto rule. -/
theorem cleanLoop_swept (fuel : Nat) (c : Cache) (now : Int) (inv : c.Inv)
    (hf : c.expirationHeap.entries.countP (fun q => (c.deref q).expired now) ≤ fuel) :
    ∃ c2, cleanLoop fuel c now = some c2 ∧ Swept now c c2 ∧ c2.Inv := by
  induction fuel generalizing c with
  | zero =>
    unfold cleanLoop
    cases hp : c.expirationHeap.Peek with
    | none =>
      exact ⟨c, rfl, Swept.done c (fun p hc => by rw [hp] at hc; cases hc), inv⟩
    | some p =>
      dsimp only
      have hin := ExpirationHeap.Peek_mem _ _ hp
      by_cases hex : (c.deref p).expired now = true
      · exfalso
        have : 0 < c.expirationHeap.entries.countP (fun q => (c.deref q).expired now) :=
          List.countP_pos_iff.2 ⟨p, hin, hex⟩
        omega
      · rw [if_pos hex]
        refine ⟨c, rfl, Swept.done c (fun q hq => ?_), inv⟩
        rw [hp] at hq
        cases hq
        simpa using hex
  | succ fuel ih =>
    unfold cleanLoop
    cases hp : c.expirationHeap.Peek with
    | none =>
      exact ⟨c, rfl, Swept.done c (fun p hc => by rw [hp] at hc; cases hc), inv⟩
    | some p =>
      dsimp only
      have hin := ExpirationHeap.Peek_mem _ _ hp
      by_cases hex : (c.deref p).expired now = true
      · rw [if_neg (by simp [hex])]
        by_cases hv : c.vetoes p = true
        · rw [if_pos hv]
          obtain ⟨h3, e3, v, hm⟩ := vetoRound_spec c p now inv hin hex
          rw [e3]
          simp only [Option.map_some', Option.some_bind]
          obtain ⟨c2, e2, sw, i2⟩ := ih _ v.inv (by omega)
          exact ⟨c2, e2, Swept.veto c p _ c2 hp hex ((vetoes_iff c p).1 hv) v sw, i2⟩
        · rw [if_neg hv]
          obtain ⟨c1, e1, x, hme, hm⟩ := expireRound_spec c p now inv hin hex
          rw [e1]
          simp only [Option.some_bind]
          obtain ⟨c2, e2, sw, i2⟩ := ih _ x.inv (by omega)
          have hv2 : c.vetoes p = false := by simpa using hv
          exact ⟨c2, e2, Swept.expire c p c1 c2 hp hex ((vetoes_false_iff c p).1 hv2) x hme sw,
            i2⟩
      · rw [if_pos hex]
        refine ⟨c, rfl, Swept.done c (fun q hq => ?_), inv⟩
        rw [hp] at hq
        cases hq
        simpa using hex

theorem sweep_swept (c : Cache) (now : Int) (inv : c.Inv) :
    ∃ c2, c.sweep now = some c2 ∧ Swept now c c2 ∧ c2.Inv := by
  unfold sweep
  split_ifs with hl
  · refine ⟨c, rfl, Swept.done c (fun p hp => ?_), inv⟩
    unfold ExpirationHeap.Peek at hp
    rw [if_pos hl] at hp
    cases hp
  · unfold cleanjob
    exact cleanLoop_swept _ c now inv (List.countP_le_length _)

end Cache

/-! ## Claim C3 -/

theorem exampleHeap_built : ExpirationHeap.Built exampleHeap [3, 1, 0] := by
  have b0 := ExpirationHeap.Built.empty
  have b1 := ExpirationHeap.Built.add _ _ ⟨"x", none, 0, 3, -1⟩ b0
  have b2 := ExpirationHeap.Built.add _ _ ⟨"y", none, 0, 1, -1⟩ b1
  have b3 := ExpirationHeap.Built.add _ _ ⟨"z", none, 0, 2, -1⟩ b2
  have b4 : ExpirationHeap.Built exampleHeapAdded [3, 2, 1, 0] :=
    ExpirationHeap.Built.add _ _ ⟨"n", none, 0, 0, -1⟩ b3
  have b5 : ExpirationHeap.Built exampleHeapUpdated [3, 2, 1, 0] :=
    ExpirationHeap.Built.update _ _ 0 5 _ b4 (by decide) (by decide)
  exact ExpirationHeap.Built.remove _ _ 2 _ b5 (by decide) (by decide)

theorem exampleHeap_drain : exampleHeap.drain.1 = [1, 0, 3] := by decide

/-- C3 (heap ordering).  For every heap built from the empty heap by a
sequence of Add, Remove and Update, with live the entries added and not removed
since: the calls of First, repeated until the heap is empty, return the entries
of live, each exactly once, in non-decreasing order of expiration with the zero
(never expiring) expirations after all others, and the next call of First
returns nil. -/
theorem heap_ordering (h : ExpirationHeap) (live : List Nat) (b : ExpirationHeap.Built h live) :
    h.drain.1.Perm live ∧ live.Nodup ∧
      (h.drain.1.map (fun p => ((h.deref p).expireAt : Int))).Pairwise expLe ∧
      h.drain.2.First = (h.drain.2, none) := by
  obtain ⟨w, o, hm, hnd, _⟩ := b.built_inv
  obtain ⟨p1, p2, p3⟩ := ExpirationHeap.drainLoop_spec h.entries.length h rfl w o
  have hperm : h.entries.Perm live := (List.perm_ext_iff_of_nodup w.nodup hnd).2 hm
  refine ⟨p1.trans hperm, hnd, p2, ?_⟩
  exact ExpirationHeap.First_empty _ (by
    have : h.drain.2.entries = [] := p3
    rw [this]; rfl)

theorem heap_ordering_witness :
    ExpirationHeap.Built exampleHeap [3, 1, 0] ∧
      (exampleHeap.drain.1.Perm [3, 1, 0] ∧ [3, 1, 0].Nodup ∧
        (exampleHeap.drain.1.map
          (fun p => ((exampleHeap.deref p).expireAt : Int))).Pairwise expLe ∧
        exampleHeap.drain.2.First = (exampleHeap.drain.2, none)) :=
  ⟨exampleHeap_built, heap_ordering exampleHeap [3, 1, 0] exampleHeap_built⟩

/-- On a heap built from the empty heap, Remove of an allocated entry and
Update of an entry in the heap (after its expiration was assigned) return. -/
theorem Built_ops_return (h : ExpirationHeap) (live : List Nat) (b : ExpirationHeap.Built h live) :
    (∀ p, p < h.mem.length → ∃ h2, h.Remove p = some h2) ∧
    (∀ p e, p ∈ live → ∃ h2, (h.setExpireAt p e).Update p = some h2) := by
  obtain ⟨w, _, hm, _, hout⟩ := b.built_inv
  constructor
  · intro p hp
    by_cases hin : p ∈ h.entries
    · obtain ⟨h2, e, _⟩ := ExpirationHeap.Remove_removed h w p hin
      exact ⟨h2, e⟩
    · exact ⟨h, ExpirationHeap.Remove_notIndexed h p (hout p hp hin)⟩
  · intro p e hp
    have m := ExpirationHeap.setExpireAt_modified h p e
    obtain ⟨h2, e2, _⟩ := ExpirationHeap.Update_shuffle _ (m.wf w) p
      (by rw [m.entries]; exact (hm p).2 hp)
    exact ⟨h2, e2⟩

/-! ## What SetWithTTL stores and what Get returns -/

namespace Cache

theorem SetWithTTL_stored (c : Cache) (now : Int) (key : String) (data : Value) (ttl : Int)
    (c2 : Cache) (e : Option GoError) (inv : c.Inv) (hopen : c.isShutDown = false)
    (h : c.SetWithTTL now key data ttl = some (c2, e)) :
    e = none ∧ c2.Inv ∧ SameConfig c c2 ∧
      ∃ p, mapGet c2.items key = some p ∧ (c2.deref p).data = data ∧
        (c2.deref p).key = key ∧ (c2.deref p).ttl = resolvedTTL c.ttl ttl ∧
        (0 < resolvedTTL c.ttl ttl → (c2.deref p).expireAt = now + resolvedTTL c.ttl ttl) := by
  rcases expired_cases c now key with hm | ⟨p, h1, h2⟩
  · obtain ⟨he, c1, r1, r2⟩ := SetWithTTL_miss c now key data ttl inv hopen hm c2 e h
    have httl : c1.ttl = c.ttl := r1.config.1
    refine ⟨he, r2.inv, r1.config.config_trans r2.config, c1.expirationHeap.mem.length, ?_, r2.data_eq,
      r2.key_eq, by rw [r2.ttl_eq, httl], fun hpos => ?_⟩
    · rw [r2.items, mapGet_mapSet, if_pos rfl]
    · rw [r2.expireAt_eq, httl, if_pos hpos]
  · obtain ⟨c1, c3, hit, e3, ow⟩ := SetWithTTL_hit c now key data ttl p inv hopen h1 h2
    rw [e3] at h
    simp only [Option.some.injEq, Prod.mk.injEq] at h
    rw [← h.1, ← h.2]
    have httl : c1.ttl = c.ttl := hit.config.1
    refine ⟨rfl, ow.inv, hit.config.config_trans ow.config, p, by rw [ow.items, hit.items]; exact h1,
      ow.data_eq, by rw [ow.key_eq, hit.key]; exact (inv.2.2 key p h1).2,
      by rw [ow.ttl_eq, httl], fun hpos => ?_⟩
    rw [ow.expireAt_eq, httl, if_pos hpos]

theorem Get_hit (c : Cache) (now : Int) (key : String) (p : Nat) (inv : c.Inv)
    (hopen : c.isShutDown = false) (h1 : mapGet c.items key = some p)
    (h2 : (c.deref p).expired now = false) :
    ∃ c1, Hit c.countHit p now c1 ∧
      c.Get now key = some (c1.countRetrieval, (c.deref p).data, none) := by
  obtain ⟨c1, hit, e⟩ := GetByLoader_hit c now key none p inv hopen h1 h2
  refine ⟨c1, hit, ?_⟩
  unfold Get
  rw [e]
  simp only [Option.map_some']
  rw [hit.data]
  rfl

theorem Get_miss (c : Cache) (now : Int) (key : String) (hopen : c.isShutDown = false)
    (hmiss : mapGet c.items key = none ∨
      ∃ p, mapGet c.items key = some p ∧ (c.deref p).expired now = true)
    (hl : c.loaderFunction = none) :
    c.Get now key = some (c.countHit.countMiss, none, some GoError.ErrNotFound) := by
  unfold Get
  rw [GetByLoader_miss c now key hopen hmiss hl]
  rfl

end Cache

/-! ## Claim C1 -/

/-- C1 (Set/Get round trip).  For every reachable cache state, key k, value v
and ttl: if SetWithTTL(k, v, ttl) at instant t returns without error (so the
cache is open), then Get(k) at any instant t2 at which the entry is not yet due
(the ttl resolves to a value that is not positive, that is never expires, or
t2 is at most t plus the resolved ttl), with no operation in between, returns v
and no error. -/
theorem set_get_roundtrip (c : Cache) (r : Cache.Reachable c) (t t2 : Int) (k : String)
    (v : Value) (ttl : Int) (c1 : Cache) (hset : c.SetWithTTL t k v ttl = some (c1, none))
    (hdue : 0 < resolvedTTL c.ttl ttl → t2 ≤ t + resolvedTTL c.ttl ttl) :
    ∃ c2, c1.Get t2 k = some (c2, v, none) := by
  have hopen : c.isShutDown = false := by
    cases hs : c.isShutDown with
    | false => rfl
    | true =>
      rw [Cache.SetWithTTL_closed c t k v ttl hs] at hset
      simp at hset
  obtain ⟨_, inv1, cfg, p, hp, hd, _, httl, hexp⟩ :=
    Cache.SetWithTTL_stored c t k v ttl c1 none r.reach_inv hopen hset
  have hopen1 : c1.isShutDown = false := by rw [cfg.2.2.2.2.1]; exact hopen
  have hne : (c1.deref p).expired t2 = false := by
    unfold item.expired
    by_cases hpos : 0 < resolvedTTL c.ttl ttl
    · rw [if_neg (by rw [httl]; omega), hexp hpos]
      have := hdue hpos
      simp only [decide_eq_false_iff_not, not_lt]
      exact this
    · rw [if_pos (by rw [httl]; omega)]
  obtain ⟨c2, _, e⟩ := Cache.Get_hit c1 t2 k p inv1 hopen1 hp hne
  rw [hd] at e
  exact ⟨_, e⟩

theorem set_get_roundtrip_witness :
    (NewCache 0).SetWithTTL 10 "a" (some 7) 50 = some (exampleSet, none) ∧
      ((0 : Int) < resolvedTTL (NewCache 0).ttl 50 →
        (60 : Int) ≤ 10 + resolvedTTL (NewCache 0).ttl 50) ∧
      ∃ c2, exampleSet.Get 60 "a" = some (c2, some 7, none) :=
  ⟨rfl, by decide,
    set_get_roundtrip (NewCache 0) (Cache.Reachable.newCache 0) 10 60 "a" (some 7) 50
      exampleSet rfl (by decide)⟩

/-! ## Claim C2 -/

/-- C2 (basic expiry).  For every reachable cache state, key k, value v and
positive ttl: if SetWithTTL(k, v, ttl) at instant t returns without error and
then any number of steps follow that are no calls for k and do not touch the
item of k (among them expiration sweeps, which may or may not remove the
entry), then on the cache, still open and with no loader configured, Get(k) at
any instant t2 after t + ttl returns the NotFound error (and only counts the
call). -/
theorem basic_expiry (c : Cache) (r : Cache.Reachable c) (t : Int) (k : String) (v : Value)
    (ttl : Int) (hpos : 0 < ttl) (c1 : Cache)
    (hset : c.SetWithTTL t k v ttl = some (c1, none)) (c2 : Cache)
    (hsteps : Cache.Others k c1 c2) (hopen2 : c2.isShutDown = false)
    (hl : c2.loaderFunction = none) (t2 : Int) (ht : t + ttl < t2) :
    c2.Get t2 k = some (c2.countHit.countMiss, none, some GoError.ErrNotFound) := by
  have hopen : c.isShutDown = false := by
    cases hs : c.isShutDown with
    | false => rfl
    | true =>
      rw [Cache.SetWithTTL_closed c t k v ttl hs] at hset
      simp at hset
  obtain ⟨_, inv1, cfg, p, hp, hd, _, httl, hexp⟩ :=
    Cache.SetWithTTL_stored c t k v ttl c1 none r.reach_inv hopen hset
  have hres : resolvedTTL c.ttl ttl = ttl := by
    unfold resolvedTTL
    rw [if_neg (by omega)]
  rw [hres] at httl hexp
  obtain ⟨inv2, kf⟩ := hsteps.steps_frame inv1
  apply Cache.Get_miss c2 t2 k hopen2 _ hl
  cases hq : mapGet c2.items k with
  | none => exact Or.inl rfl
  | some q =>
    right
    obtain ⟨a, b⟩ := kf q hq
    rw [hp] at a
    cases a
    refine ⟨p, rfl, ?_⟩
    obtain ⟨_, _, b3, b4⟩ := item_core_fields _ _ b
    unfold item.expired
    rw [b3, b4, httl, hexp hpos, if_neg (by omega)]
    simp only [decide_eq_true_eq]
    exact ht

theorem basic_expiry_witness :
    (0 : Int) < 50 ∧ (NewCache 0).SetWithTTL 10 "a" (some 7) 50 = some (exampleSet, none) ∧
      Cache.Others "a" exampleSet exampleSwept ∧ exampleSwept.isShutDown = false ∧
      exampleSwept.loaderFunction = none ∧ (10 : Int) + 50 < 100 ∧
      exampleSwept.Get 100 "a" =
        some (exampleSwept.countHit.countMiss, none, some GoError.ErrNotFound) :=
  have steps : Cache.Others "a" exampleSet exampleSwept :=
    Cache.Others.step _ _ _ (Cache.Others.refl _)
      (Cache.OtherStep.sweep exampleSet 100 exampleSwept (fun _ _ => rfl) rfl)
  ⟨by decide, rfl, steps, rfl, rfl, by decide,
    basic_expiry (NewCache 0) (Cache.Reachable.newCache 0) 10 "a" (some 7) 50 (by decide)
      exampleSet rfl exampleSwept steps rfl rfl 100 (by decide)⟩

/-! ## Claim C9 -/

/-- C9 (Remove contract).  On every reachable open cache: when k is absent
from the key map, Remove(k) returns NotFound and the cache is unchanged; when k
is present with item p, Remove(k) returns no error, k is no longer in the key
map, Count() drops by exactly one, p leaves the heap while every other heap
entry stays, and every other key keeps its item with its value, ttl and
expiration. -/
theorem remove_contract (c : Cache) (r : Cache.Reachable c) (hopen : c.isShutDown = false)
    (k : String) :
    (mapGet c.items k = none → c.Remove k = some (c, some GoError.ErrNotFound)) ∧
    (∀ p, mapGet c.items k = some p →
      ∃ c2, c.Remove k = some (c2, none) ∧ mapGet c2.items k = none ∧
        c2.Count + 1 = c.Count ∧
        (∀ q, q ∈ c2.expirationHeap.entries ↔ q ∈ c.expirationHeap.entries ∧ q ≠ p) ∧
        ∀ k2, k2 ≠ k → mapGet c2.items k2 = mapGet c.items k2 ∧
          ∀ q, mapGet c.items k2 = some q →
            (c2.deref q).data = (c.deref q).data ∧ (c2.deref q).ttl = (c.deref q).ttl ∧
              (c2.deref q).expireAt = (c.deref q).expireAt) := by
  have inv := r.reach_inv
  refine ⟨Cache.Remove_absent c k hopen, fun p hp => ?_⟩
  obtain ⟨c2, e, x⟩ := Cache.Remove_present c k p inv hopen hp
  have hkey : (c.deref p).key = k := (inv.2.2 k p hp).2
  have hopen2 : c2.isShutDown = false := by rw [x.config.2.2.2.2.1]; exact hopen
  refine ⟨c2, e, ?_, ?_, x.heap.mem, fun k2 hk2 => ⟨?_, fun q _ => ?_⟩⟩
  · rw [x.items, hkey, mapGet_mapDelete, if_pos rfl]
  · unfold Cache.Count
    rw [hopen, hopen2, x.items, hkey]
    simp only [Bool.false_eq_true, if_false]
    exact length_mapDelete_present c.items k p inv.2.1 hp
  · rw [x.items, hkey, mapGet_mapDelete, if_neg hk2]
  · obtain ⟨_, b2, b3, b4⟩ := item_core_fields _ _ (x.heap.core.2 q)
    exact ⟨b2, b3, b4⟩

theorem remove_contract_witness :
    exampleSet.isShutDown = false ∧
      ((mapGet exampleSet.items "a" = none →
          exampleSet.Remove "a" = some (exampleSet, some GoError.ErrNotFound)) ∧
        (∀ p, mapGet exampleSet.items "a" = some p →
          ∃ c2, exampleSet.Remove "a" = some (c2, none) ∧ mapGet c2.items "a" = none ∧
            c2.Count + 1 = exampleSet.Count ∧
            (∀ q, q ∈ c2.expirationHeap.entries ↔
              q ∈ exampleSet.expirationHeap.entries ∧ q ≠ p) ∧
            ∀ k2, k2 ≠ "a" → mapGet c2.items k2 = mapGet exampleSet.items k2 ∧
              ∀ q, mapGet exampleSet.items k2 = some q →
                (c2.deref q).data = (exampleSet.deref q).data ∧
                  (c2.deref q).ttl = (exampleSet.deref q).ttl ∧
                  (c2.deref q).expireAt = (exampleSet.deref q).expireAt)) :=
  ⟨rfl, remove_contract exampleSet
    (Cache.Reachable.setWithTTL (NewCache 0) 10 "a" (some 7) 50 exampleSet none
      (Cache.Reachable.newCache 0) rfl) rfl "a"⟩

/-! ## Claim C10 -/

/-- C10, as stated, fails: on the cache exampleSet the entry of key a (ttl 50,
expiration 60) is expired at instant 100 and not yet swept, and at that instant
Remove(a) and Touch(a) return no error instead of NotFound. -/
theorem expired_key_counterexample :
    mapGet exampleSet.items "a" = some 0 ∧ (exampleSet.deref 0).ttl = 50 ∧
      (exampleSet.deref 0).expireAt = 60 ∧ (exampleSet.deref 0).expired 100 = true ∧
      (exampleSet.Remove "a").map Prod.snd = some none ∧
      (exampleSet.Touch 100 "a").2 = none := by
  decide

/-- C10, amended.  On every reachable open cache with no loader configured,
for a key k whose item p is expired at instant now and still in the key map:
Get(k) at now returns NotFound (and only counts the call); Remove(k) and
Touch(k) look the key up in the key map without the expiry check, so Remove(k)
returns no error and removes the entry, and Touch(k) at now returns no error
and sets the expiration of the item to now plus its ttl. -/
theorem expired_key_not_found (c : Cache) (r : Cache.Reachable c)
    (hopen : c.isShutDown = false) (hl : c.loaderFunction = none) (k : String) (p : Nat)
    (now : Int) (hp : mapGet c.items k = some p) (hex : (c.deref p).expired now = true) :
    c.Get now k = some (c.countHit.countMiss, none, some GoError.ErrNotFound) ∧
    (∃ c2, c.Remove k = some (c2, none) ∧ mapGet c2.items k = none) ∧
    (c.Touch now k).2 = none ∧ mapGet (c.Touch now k).1.items k = some p ∧
    ((c.Touch now k).1.deref p).expireAt = now + (c.deref p).ttl := by
  have inv := r.reach_inv
  refine ⟨Cache.Get_miss c now k hopen (Or.inr ⟨p, hp, hex⟩) hl, ?_, ?_⟩
  · obtain ⟨c2, e, x⟩ := Cache.Remove_present c k p inv hopen hp
    refine ⟨c2, e, ?_⟩
    rw [x.items, (inv.2.2 k p hp).2, mapGet_mapDelete, if_pos rfl]
  · rw [Cache.Touch_present c now k p hp]
    refine ⟨rfl, hp, ?_⟩
    rw [Cache.deref_setItem c p p _ (inv.lt_mem (inv.2.2 k p hp).1), if_pos rfl]
    have hpos : 0 < (c.deref p).ttl := by
      unfold item.expired at hex
      by_contra hc
      rw [if_pos (by omega)] at hex
      cases hex
    unfold item.touch
    rw [if_pos hpos]

theorem expired_key_not_found_witness :
    exampleSet.isShutDown = false ∧ exampleSet.loaderFunction = none ∧
      mapGet exampleSet.items "a" = some 0 ∧ (exampleSet.deref 0).expired 100 = true ∧
      (exampleSet.Get 100 "a" =
          some (exampleSet.countHit.countMiss, none, some GoError.ErrNotFound) ∧
        (∃ c2, exampleSet.Remove "a" = some (c2, none) ∧ mapGet c2.items "a" = none) ∧
        (exampleSet.Touch 100 "a").2 = none ∧
        mapGet (exampleSet.Touch 100 "a").1.items "a" = some 0 ∧
        ((exampleSet.Touch 100 "a").1.deref 0).expireAt = 100 + (exampleSet.deref 0).ttl) :=
  ⟨rfl, rfl, by decide, by decide,
    expired_key_not_found exampleSet
      (Cache.Reachable.setWithTTL (NewCache 0) 10 "a" (some 7) 50 exampleSet none
        (Cache.Reachable.newCache 0) rfl) rfl rfl "a" 0 100 (by decide) (by decide)⟩

/-! ## Claim C6 -/

/-- C6, as stated, fails: key a is set with ttl 0 while the global TTL is 10
(its expiration is 10); the global TTL is then changed to 100; a Get hit at
instant 5, with TTL extension on, recomputes the expiration as 5 + 10 = 15, not
as 5 + 100. -/
theorem zero_ttl_counterexample :
    ((NewCache 0).SetTTL 10).1.Set 0 "a" (some 1) = some (exampleZero, none) ∧
      (exampleZero.deref 0).expireAt = 10 ∧
      exampleZeroBumped.ttl = 100 ∧ exampleZeroBumped.skipTTLExtension = false ∧
      (exampleZeroBumped.Get 5 "a").map Prod.snd = some (some 1, none) ∧
      (exampleZeroRead.deref 0).expireAt = 15 ∧ (15 : Int) ≠ 5 + exampleZeroBumped.ttl :=
  ⟨rfl, by decide, by decide, by decide, by decide, by decide, by decide⟩

/-- C6, amended.  On every reachable open cache with a positive global TTL,
Set(k, v) (ttl 0) at instant now leaves the item of k with the global TTL as
its ttl and with expiration now plus the global TTL.  On a Get hit at instant
now with TTL extension on: an item whose ttl is still 0, under a positive
global TTL, gets the global TTL as its ttl and expiration now plus the global
TTL; an item with a positive ttl (such as one that adopted an earlier global
TTL) keeps its ttl and gets expiration now plus its own ttl, whatever the
global TTL is. -/
theorem zero_ttl_adopts_global (c : Cache) (r : Cache.Reachable c)
    (hopen : c.isShutDown = false) (now : Int) (k : String) :
    (∀ v c1 e, 0 < c.ttl → c.Set now k v = some (c1, e) →
      e = none ∧ ∃ p, mapGet c1.items k = some p ∧ (c1.deref p).ttl = c.ttl ∧
        (c1.deref p).expireAt = now + c.ttl) ∧
    (∀ p, mapGet c.items k = some p → (c.deref p).expired now = false →
      c.skipTTLExtension = false →
      ∃ c1, c.Get now k = some (c1, (c.deref p).data, none) ∧
        ((c.deref p).ttl = 0 → 0 < c.ttl →
          (c1.deref p).ttl = c.ttl ∧ (c1.deref p).expireAt = now + c.ttl) ∧
        (0 < (c.deref p).ttl →
          (c1.deref p).ttl = (c.deref p).ttl ∧
            (c1.deref p).expireAt = now + (c.deref p).ttl)) := by
  have inv := r.reach_inv
  constructor
  · intro v c1 e hpos hset
    obtain ⟨he, _, _, p, hp, _, _, httl, hexp⟩ :=
      Cache.SetWithTTL_stored c now k v ItemExpireWithGlobalTTL c1 e inv hopen hset
    have hres : resolvedTTL c.ttl ItemExpireWithGlobalTTL = c.ttl := by
      unfold resolvedTTL ItemExpireWithGlobalTTL
      rw [if_pos ⟨hpos, rfl⟩]
    rw [hres] at httl hexp
    exact ⟨he, p, hp, httl, hexp hpos⟩
  · intro p hp hne hskip
    obtain ⟨c1, hit, e⟩ := Cache.Get_hit c now k p inv hopen hp hne
    refine ⟨_, e, ?_, ?_⟩
    · intro h0 hpos
      have hres : resolvedTTL c.ttl (c.deref p).ttl = c.ttl := by
        unfold resolvedTTL
        rw [if_pos ⟨hpos, h0⟩]
      have a := hit.ttl
      have b := hit.expireAt
      have e1 : resolvedTTL c.countHit.ttl (c.countHit.deref p).ttl = c.ttl := hres
      have e2 : c.countHit.skipTTLExtension = false := hskip
      rw [e1] at a b
      rw [if_pos ⟨hpos, e2⟩] at b
      exact ⟨a, b⟩
    · intro hpos
      have hres : resolvedTTL c.ttl (c.deref p).ttl = (c.deref p).ttl := by
        unfold resolvedTTL
        rw [if_neg (by omega)]
      have a := hit.ttl
      have b := hit.expireAt
      have e1 : resolvedTTL c.countHit.ttl (c.countHit.deref p).ttl = (c.deref p).ttl := hres
      have e2 : c.countHit.skipTTLExtension = false := hskip
      rw [e1] at a b
      rw [if_pos ⟨hpos, e2⟩] at b
      exact ⟨a, b⟩

theorem zero_ttl_adopts_global_witness :
    exampleZeroBumped.isShutDown = false ∧
      ((∀ v c1 e, 0 < exampleZeroBumped.ttl → exampleZeroBumped.Set 5 "a" v = some (c1, e) →
        e = none ∧ ∃ p, mapGet c1.items "a" = some p ∧
          (c1.deref p).ttl = exampleZeroBumped.ttl ∧
          (c1.deref p).expireAt = 5 + exampleZeroBumped.ttl) ∧
      (∀ p, mapGet exampleZeroBumped.items "a" = some p →
        (exampleZeroBumped.deref p).expired 5 = false →
        exampleZeroBumped.skipTTLExtension = false →
        ∃ c1, exampleZeroBumped.Get 5 "a" = some (c1, (exampleZeroBumped.deref p).data, none) ∧
          ((exampleZeroBumped.deref p).ttl = 0 → 0 < exampleZeroBumped.ttl →
            (c1.deref p).ttl = exampleZeroBumped.ttl ∧
              (c1.deref p).expireAt = 5 + exampleZeroBumped.ttl) ∧
          (0 < (exampleZeroBumped.deref p).ttl →
            (c1.deref p).ttl = (exampleZeroBumped.deref p).ttl ∧
              (c1.deref p).expireAt = 5 + (exampleZeroBumped.deref p).ttl))) :=
  ⟨rfl, zero_ttl_adopts_global exampleZeroBumped
    (Cache.Reachable.setTTL exampleZero 100
      (Cache.Reachable.setWithTTL ((NewCache 0).SetTTL 10).1 0 "a" (some 1)
        ItemExpireWithGlobalTTL exampleZero none
        (Cache.Reachable.setTTL (NewCache 0) 10 (Cache.Reachable.newCache 0)) rfl)) rfl 5 "a"⟩

/-! ## Claim C8 -/

/-- C8, as stated, fails: after Close has succeeded on a new cache, Purge
returns no error and Touch returns NotFound, not the Closed error. -/
theorem closed_terminal_counterexample :
    (NewCache 0).Close = some (exampleClosed, none) ∧ exampleClosed.Purge.2 = none ∧
      (exampleClosed.Touch 1 "a").2 = some GoError.ErrNotFound :=
  ⟨rfl, by decide, by decide⟩

/-- C8, amended.  Once Close has succeeded, SetWithTTL, Set, Get, GetWithTTL,
GetByLoader, Remove and SetTTL return the Closed error for every argument and
leave the cache as it is, and Purge returns no error (Close itself ends with a
call of Purge). -/
theorem closed_is_terminal (c c1 : Cache) (h : c.Close = some (c1, none)) :
    (∀ now k v ttl, c1.SetWithTTL now k v ttl = some (c1, some GoError.ErrClosed)) ∧
    (∀ now k v, c1.Set now k v = some (c1, some GoError.ErrClosed)) ∧
    (∀ now k, c1.Get now k = some (c1, none, some GoError.ErrClosed)) ∧
    (∀ now k, c1.GetWithTTL now k = some (c1, none, 0, some GoError.ErrClosed)) ∧
    (∀ now k l, c1.GetByLoader now k l = some (c1, none, 0, some GoError.ErrClosed)) ∧
    (∀ k, c1.Remove k = some (c1, some GoError.ErrClosed)) ∧
    (∀ ttl, c1.SetTTL ttl = (c1, some GoError.ErrClosed)) ∧
    c1.Purge.2 = none := by
  have hopen : c.isShutDown = false := by
    cases hs : c.isShutDown with
    | false => rfl
    | true =>
      rw [Cache.Close_closed c hs] at h
      simp at h
  have hsd : c1.isShutDown = true := (Cache.Close_open c c1 none hopen h).2.1
  refine ⟨fun now k v ttl => Cache.SetWithTTL_closed c1 now k v ttl hsd,
    fun now k v => Cache.SetWithTTL_closed c1 now k v _ hsd, fun now k => ?_,
    fun now k => Cache.GetByLoader_closed c1 now k none hsd,
    fun now k l => Cache.GetByLoader_closed c1 now k l hsd,
    fun k => Cache.Remove_closed c1 k hsd, fun ttl => ?_, rfl⟩
  · unfold Cache.Get
    rw [Cache.GetByLoader_closed c1 now k none hsd]
    rfl
  · unfold Cache.SetTTL
    rw [if_pos hsd]

theorem closed_is_terminal_witness :
    exampleSet.Close = some ((exampleSet.Close.map Prod.fst).getD exampleSet, none) ∧
      ((∀ now k v ttl, ((exampleSet.Close.map Prod.fst).getD exampleSet).SetWithTTL now k v ttl =
          some ((exampleSet.Close.map Prod.fst).getD exampleSet, some GoError.ErrClosed)) ∧
      (∀ now k v, ((exampleSet.Close.map Prod.fst).getD exampleSet).Set now k v =
          some ((exampleSet.Close.map Prod.fst).getD exampleSet, some GoError.ErrClosed)) ∧
      (∀ now k, ((exampleSet.Close.map Prod.fst).getD exampleSet).Get now k =
          some ((exampleSet.Close.map Prod.fst).getD exampleSet, none, some GoError.ErrClosed)) ∧
      (∀ now k, ((exampleSet.Close.map Prod.fst).getD exampleSet).GetWithTTL now k =
          some ((exampleSet.Close.map Prod.fst).getD exampleSet, none, 0,
            some GoError.ErrClosed)) ∧
      (∀ now k l, ((exampleSet.Close.map Prod.fst).getD exampleSet).GetByLoader now k l =
          some ((exampleSet.Close.map Prod.fst).getD exampleSet, none, 0,
            some GoError.ErrClosed)) ∧
      (∀ k, ((exampleSet.Close.map Prod.fst).getD exampleSet).Remove k =
          some ((exampleSet.Close.map Prod.fst).getD exampleSet, some GoError.ErrClosed)) ∧
      (∀ ttl, ((exampleSet.Close.map Prod.fst).getD exampleSet).SetTTL ttl =
          ((exampleSet.Close.map Prod.fst).getD exampleSet, some GoError.ErrClosed)) ∧
      ((exampleSet.Close.map Prod.fst).getD exampleSet).Purge.2 = none) :=
  ⟨rfl, closed_is_terminal exampleSet _ rfl⟩

/-! ## Claims C4, C5 and C7: the code at the failing inputs -/

/-- C5 at its failing input.  Key a is set with ttl 1 at instant 0; at
instant 5, before any sweep, key a is set again with ttl -1: the expired entry
counts as not found, a new item (pointer 1, ttl -1) is stored for key a, and the
old item (pointer 0) stays in the heap.  The sweep at instant 6 removes the old
item from the heap and deletes key a from the key map, so the item with the
negative ttl is no longer in the cache and Get(a) returns NotFound. -/
theorem negative_ttl_failing_input :
    (NewCache 0).SetWithTTL 0 "a" (some 1) 1 = some (exampleStale, none) ∧
      exampleStale.SetWithTTL 5 "a" (some 2) (-1) = some (exampleOverNeg, none) ∧
      mapGet exampleOverNeg.items "a" = some 1 ∧ (exampleOverNeg.deref 1).ttl = -1 ∧
      exampleOverNeg.expirationHeap.entries = [0, 1] ∧
      exampleOverNeg.sweep 6 = some exampleOverNegSwept ∧
      mapGet exampleOverNegSwept.items "a" = none ∧
      exampleOverNegSwept.expirationHeap.entries = [1] ∧
      exampleOverNegSwept.evictions = [("a", EvictionReason.Expired, some 1)] ∧
      (exampleOverNegSwept.Get 7 "a").map Prod.snd = some (none, some GoError.ErrNotFound) :=
  ⟨rfl, rfl, by decide, by decide, by decide, rfl, by decide, by decide, by decide, by decide⟩

/-- C7 at its failing input.  The cache exampleOverNeg (see
negative_ttl_failing_input) holds one entry, Count() is 1, and its heap holds
two items.  Close returns no error and Count() is 0 afterwards, but
EvictedClosed grows by 2 and two removals with reason Closed are handed to the
expiration callbacks. -/
theorem close_failing_input :
    exampleOverNeg.isShutDown = false ∧ exampleOverNeg.Count = 1 ∧
      exampleOverNeg.metrics.EvictedClosed = 0 ∧
      exampleOverNeg.Close = some (exampleOverNegClosed, none) ∧
      exampleOverNegClosed.Count = 0 ∧ exampleOverNegClosed.metrics.EvictedClosed = 2 ∧
      exampleOverNegClosed.evictions =
        [("a", EvictionReason.Closed, some 1), ("a", EvictionReason.Closed, some 2)] :=
  ⟨by decide, by decide, by decide, rfl, by decide, by decide, by decide⟩

/-- C4 at its failing input.  The cache exampleFull has size limit 1 and holds
exactly one entry, key b; the root of its heap is an item of key a that is no
longer in the key map.  SetWithTTL of the new key c counts a size eviction and
hands (a, EvictedSize) to the expiration callbacks, but no entry leaves the key
map: Count() is 2 afterwards, above the size limit. -/
theorem size_limit_failing_input :
    exampleFull.isShutDown = false ∧ exampleFull.sizeLimit = 1 ∧ exampleFull.Count = 1 ∧
      exampleFull.items = [("b", 2)] ∧ exampleFull.expirationHeap.entries = [1, 2] ∧
      (exampleFull.deref 1).key = "a" ∧ mapGet exampleFull.items "c" = none ∧
      exampleFull.SetWithTTL 8 "c" (some 4) 100 = some (exampleOverfull, none) ∧
      exampleOverfull.Count = 2 ∧ exampleOverfull.items = [("c", 3), ("b", 2)] ∧
      exampleOverfull.metrics.EvictedFull = exampleFull.metrics.EvictedFull + 1 ∧
      exampleOverfull.evictions =
        exampleFull.evictions ++ [("a", EvictionReason.EvictedSize, some 2)] :=
  ⟨by decide, by decide, by decide, by decide, by decide, by decide, by decide, rfl,
    by decide, by decide, by decide, by decide⟩

/-! ## Close on a reachable cache -/

namespace Cache

theorem mem_items_iff (m : List (String × Nat)) (hn : (m.map Prod.fst).Nodup) (k : String)
    (p : Nat) : (k, p) ∈ m ↔ mapGet m k = some p := by
  induction m with
  | nil => simp [mapGet]
  | cons e m ih =>
    obtain ⟨a, q⟩ := e
    rw [List.map_cons, List.nodup_cons] at hn
    by_cases h : a = k
    · subst h
      simp only [mapGet, if_true, List.mem_cons, Prod.mk.injEq, true_and, Option.some.injEq]
      constructor
      · rintro (e | e)
        · exact e.symm
        · exact absurd (List.mem_map_of_mem Prod.fst e) hn.1
      · intro e
        exact Or.inl e.symm
    · simp only [mapGet, if_neg h, List.mem_cons, Prod.mk.injEq]
      rw [← ih hn.2]
      constructor
      · rintro (e | e)
        · exact absurd e.1.symm h
        · exact e
      · intro e
        exact Or.inr e

/-- When heap and key map agree, the heap holds as many items as the key map
holds entries. -/
theorem Agree.length_eq {c : Cache} (ag : c.Agree) (inv : c.Inv) :
    c.expirationHeap.entries.length = c.items.length := by
  have hnd1 : (c.expirationHeap.entries.map (fun q => ((c.deref q).key, q))).Nodup := by
    refine List.Nodup.map ?_ inv.1.nodup
    intro a b e
    exact (Prod.mk.inj e).2
  have hnd2 : c.items.Nodup := List.Nodup.of_map _ inv.2.1
  have hp : (c.expirationHeap.entries.map (fun q => ((c.deref q).key, q))).Perm c.items := by
    rw [List.perm_ext_iff_of_nodup hnd1 hnd2]
    rintro ⟨k, p⟩
    rw [mem_items_iff _ inv.2.1, List.mem_map]
    constructor
    · rintro ⟨q, hq, e⟩
      obtain ⟨e1, e2⟩ := Prod.mk.inj e
      rw [← e1, ← e2]
      exact ag q hq
    · intro h
      obtain ⟨a1, a2⟩ := inv.2.2 k p h
      exact ⟨p, a1, by rw [a2]⟩
  have := hp.length_eq
  rw [List.length_map] at this
  exact this

theorem evictLoop_closed_metrics (fuel : Nat) (c : Cache) (inv : c.Inv)
    (hf : c.expirationHeap.entries.length ≤ fuel) :
    ∃ c2, evictLoop fuel c EvictionReason.Closed = some c2 ∧
      c2.expirationHeap.entries = [] ∧ c2.items = [] ∧ c2.Inv ∧ SameConfig c c2 ∧
      c2.metrics = { c.metrics with
        EvictedClosed := c.metrics.EvictedClosed + c.expirationHeap.entries.length } := by
  induction fuel generalizing c with
  | zero =>
    have he : c.expirationHeap.entries = [] := List.length_eq_zero.1 (by omega)
    refine ⟨c, ?_, he, inv.items_nil he, inv, SameConfig.config_refl c, ?_⟩
    · unfold evictLoop
      rw [(Peek_none_iff _).2 he]
    · rw [he]; simp
  | succ fuel ih =>
    unfold evictLoop
    cases hp : c.expirationHeap.Peek with
    | none =>
      have he := (Peek_none_iff _).1 hp
      refine ⟨c, rfl, he, inv.items_nil he, inv, SameConfig.config_refl c, ?_⟩
      rw [he]; simp
    | some p =>
      dsimp only
      obtain ⟨c1, e1, x⟩ := removeItem_spec c p EvictionReason.Closed inv
        (ExpirationHeap.Peek_mem _ _ hp)
      rw [e1]
      have hl := x.heap.len
      obtain ⟨c2, e2, a, b, i2, cf, hm⟩ := ih c1 x.inv (by omega)
      refine ⟨c2, e2, a, b, i2, x.config.config_trans cf, ?_⟩
      rw [hm, x.metrics, ← hl]
      simp only [countEviction, Nat.cast_add, Nat.cast_one]
      congr 1
      omega

end Cache

/-- Close on a reachable open cache (the part of C7 that holds in every
reachable state): the first Close returns no error, leaves the key map and the
heap empty, so Count() is 0, and EvictedClosed has grown by the number of items
the heap held; a second Close returns the Closed error and changes nothing.
The heap holds as many items as Count() reports whenever heap and key map
agree. -/
theorem close_on_reachable (c : Cache) (r : Cache.Reachable c) (hopen : c.isShutDown = false) :
    ∃ c2, c.Close = some (c2, none) ∧ c2.Count = 0 ∧ c2.items = [] ∧
      c2.expirationHeap.entries = [] ∧
      c2.metrics = { c.metrics with
        EvictedClosed := c.metrics.EvictedClosed + c.expirationHeap.entries.length } ∧
      c2.Close = some (c2, some GoError.ErrClosed) ∧
      (c.Agree → (c.expirationHeap.entries.length : Int) = c.Count) := by
  have inv := r.reach_inv
  have inv1 : c.shutDown.Inv := inv.congr rfl rfl
  obtain ⟨c1, e1, a, b, i1, cf, hm⟩ := Cache.evictLoop_closed_metrics
    c.shutDown.expirationHeap.Len c.shutDown inv1 (le_refl _)
  have hsd : c1.isShutDown = true := cf.2.2.2.2.1
  have hclose : c.Close = some (c1.Purge.1, none) := by
    unfold Cache.Close
    rw [if_pos (by simp [hopen])]
    dsimp only
    split_ifs with hc
    · unfold Cache.evictjob
      rw [e1]
      rfl
    · have he : c.shutDown.expirationHeap.entries = [] := by
        have : c.shutDown.expirationHeap.entries.length = 0 := by
          simp only [ExpirationHeap.Len] at hc; omega
        exact List.length_eq_zero.1 this
      have e0 : Cache.evictLoop c.shutDown.expirationHeap.Len c.shutDown EvictionReason.Closed =
          some c.shutDown := by
        cases hfu : c.shutDown.expirationHeap.Len <;>
          (unfold Cache.evictLoop; rw [(Cache.Peek_none_iff _).2 he])
      rw [e0] at e1
      simp only [Option.some.injEq] at e1
      rw [e1]
      rfl
  have hsd2 : c1.Purge.1.isShutDown = true := hsd
  refine ⟨c1.Purge.1, hclose, ?_, rfl, rfl, ?_, Cache.Close_closed _ hsd2, fun ag => ?_⟩
  · unfold Cache.Count
    rw [hsd2]
    rfl
  · show ({ c1.metrics with EvictedClosed := c1.metrics.EvictedClosed + c1.items.length } :
      Metrics) = _
    rw [hm, b]
    have e5 : c.shutDown.metrics = c.metrics := rfl
    have e6 : c.shutDown.expirationHeap = c.expirationHeap := rfl
    rw [e5, e6]
    simp
  · unfold Cache.Count
    rw [hopen, ag.length_eq inv]
    rfl

/-! ## Size-limit eviction when heap and key map agree -/

namespace Cache

theorem SetWithTTL_miss_returns (c : Cache) (now : Int) (key : String) (data : Value)
    (ttl : Int) (inv : c.Inv) (hopen : c.isShutDown = false)
    (hmiss : mapGet c.items key = none ∨
      ∃ p, mapGet c.items key = some p ∧ (c.deref p).expired now = true)
    (c1 : Cache) (hm : c.makeRoom = some c1) :
    ∃ c2, c.SetWithTTL now key data ttl = some (c2, none) ∧ EvictStep c c1 ∧
      Inserted c1 now key data ttl c2 := by
  obtain ⟨r1, inv1⟩ := makeRoom_spec c c1 inv hm
  refine ⟨_, ?_, r1, insert_spec c1 now key data ttl inv1⟩
  unfold SetWithTTL
  rw [if_neg (by simp [hopen]), getItem_miss c now key hmiss]
  simp only [Option.some_bind, Option.isSome_none, Bool.false_eq_true, if_false, hm,
    Option.map_some']

theorem Inv.peek_of_items {c : Cache} (inv : c.Inv) (h : 0 < c.items.length) :
    ∃ root, c.expirationHeap.Peek = some root := by
  cases hi : c.items with
  | nil => rw [hi] at h; simp at h
  | cons e m =>
    obtain ⟨k, p⟩ := e
    have : mapGet c.items k = some p := by rw [hi]; simp [mapGet]
    have hin := (inv.2.2 k p this).1
    have hl : 0 < c.expirationHeap.entries.length := List.length_pos_of_mem hin
    exact ⟨_, ExpirationHeap.Peek_eq _ hl⟩

end Cache

/-- Size-limit eviction on a reachable open cache whose heap and key map agree
(the case of C4 that the code gets right): with sizeLimit = N, N at least 1,
and exactly N entries, SetWithTTL of a key that is not in the key map returns no
error; the heap root is an entry of the cache, it leaves the key map and the
heap, it is counted as a size eviction and reported with reason EvictedSize;
every other key keeps its item, the new key is stored with its value, and
Count() is N. -/
theorem size_limit_when_agreeing (c : Cache) (r : Cache.Reachable c) (ag : c.Agree)
    (hopen : c.isShutDown = false) (N : Int) (hN : 1 ≤ N) (hlimit : c.sizeLimit = N)
    (hcount : (c.Count : Int) = N) (now : Int) (k : String) (v : Value) (ttl : Int)
    (hk : mapGet c.items k = none) :
    ∃ c2 root, c.expirationHeap.Peek = some root ∧
      c.SetWithTTL now k v ttl = some (c2, none) ∧
      mapGet c.items (c.deref root).key = some root ∧
      mapGet c2.items (c.deref root).key = none ∧ root ∉ c2.expirationHeap.entries ∧
      c2.metrics.EvictedFull = c.metrics.EvictedFull + 1 ∧
      c2.evictions =
        c.evictions ++ [((c.deref root).key, EvictionReason.EvictedSize, (c.deref root).data)] ∧
      (c2.Count : Int) = N ∧
      (∃ p, mapGet c2.items k = some p ∧ (c2.deref p).data = v) ∧
      ∀ k2, k2 ≠ k → k2 ≠ (c.deref root).key → mapGet c2.items k2 = mapGet c.items k2 := by
  have inv := r.reach_inv
  have hlen : (c.items.length : Int) = N := by
    unfold Cache.Count at hcount
    rw [hopen] at hcount
    exact hcount
  obtain ⟨root, hroot⟩ := inv.peek_of_items (by omega)
  have hin := ExpirationHeap.Peek_mem _ _ hroot
  obtain ⟨c1, e1, x⟩ := Cache.removeItem_spec c root EvictionReason.EvictedSize inv hin
  have hroom : c.makeRoom = some c1 := by
    unfold Cache.makeRoom
    rw [if_pos ⟨by rw [hlimit]; omega, by rw [hlimit, hlen]⟩, hroot]
    exact e1
  obtain ⟨c2, hset, _, ins⟩ := Cache.SetWithTTL_miss_returns c now k v ttl inv hopen
    (Or.inl hk) c1 hroom
  have hrootmap := ag root hin
  have hne : k ≠ (c.deref root).key := by
    intro e
    rw [← e, hk] at hrootmap
    cases hrootmap
  have hk1 : mapGet c1.items k = none := by
    rw [x.items, mapGet_mapDelete, if_neg hne]
    exact hk
  have hopen2 : c2.isShutDown = false := by
    rw [ins.config.2.2.2.2.1, x.config.2.2.2.2.1]; exact hopen
  refine ⟨c2, root, hroot, hset, hrootmap, ?_, ?_, ?_, ?_, ?_, ?_, ?_⟩
  · rw [ins.items, mapGet_mapSet, if_neg (fun e => hne e.symm), x.items, mapGet_mapDelete,
      if_pos rfl]
  · intro hc
    rcases (ins.entries root).1 hc with e | e
    · have := inv.lt_mem hin
      rw [e, x.heap.core.1] at this
      omega
    · exact ((x.heap.mem root).1 e).2 rfl
  · rw [ins.metrics, x.metrics]
    rfl
  · rw [ins.evictions, x.evictions]
  · unfold Cache.Count
    rw [hopen2, ins.items]
    simp only [Bool.false_eq_true, if_false, mapSet, List.length_cons]
    rw [length_mapDelete_absent c1.items k hk1, x.items]
    have := length_mapDelete_present c.items _ root inv.2.1 hrootmap
    push_cast
    omega
  · exact ⟨_, by rw [ins.items, mapGet_mapSet, if_pos rfl], ins.data_eq⟩
  · intro k2 h1 h2
    rw [ins.items, mapGet_mapSet, if_neg h1, x.items, mapGet_mapDelete, if_neg h2]

/-! ## An entry with a negative ttl that is the only heap item of its key -/

namespace Cache

theorem Holds.same_items {k : String} {p : Nat} {v : Value} {ttl : Int} {c c2 : Cache}
    (h : Holds k p v ttl c) (inv2 : c2.Inv) (hopen2 : c2.isShutDown = false)
    (hitems : c2.items = c.items)
    (hent : ∀ q, q ∈ c2.expirationHeap.entries → q ∈ c.expirationHeap.entries)
    (hkey : ∀ q, (c2.deref q).key = (c.deref q).key)
    (hdata : (c2.deref p).data = (c.deref p).data)
    (httl : (c2.deref p).ttl = (c.deref p).ttl) : Holds k p v ttl c2 := by
  obtain ⟨_, _, a, b, d, s⟩ := h
  refine ⟨inv2, hopen2, by rw [hitems]; exact a, by rw [hdata]; exact b,
    by rw [httl]; exact d, fun q hq hk => s q (hent q hq) (by rw [← hkey q]; exact hk)⟩

theorem Holds.not_expired {k : String} {p : Nat} {v : Value} {ttl : Int} {c : Cache}
    (h : Holds k p v ttl c) (hneg : ttl < 0) (now : Int) : (c.deref p).expired now = false := by
  unfold item.expired
  rw [if_pos (by rw [h.2.2.2.2.1]; omega)]

theorem Holds.touch {k : String} {p : Nat} {v : Value} {ttl : Int} {c : Cache}
    (h : Holds k p v ttl c) (now : Int) (key : String) :
    Holds k p v ttl (c.Touch now key).1 := by
  have inv := h.1
  cases hm : mapGet c.items key with
  | none =>
    rw [Touch_absent c now key hm]
    exact h
  | some q =>
    rw [Touch_present c now key q hm]
    have hlt := inv.lt_mem (inv.2.2 key q hm).1
    have hfield : ∀ x, ((c.setItem q ((c.deref q).touch now)).deref x).key = (c.deref x).key ∧
        ((c.setItem q ((c.deref q).touch now)).deref x).data = (c.deref x).data ∧
        ((c.setItem q ((c.deref q).touch now)).deref x).ttl = (c.deref x).ttl := by
      intro x
      rw [deref_setItem c q x _ hlt]
      split_ifs with hx
      · rw [hx]
        unfold item.touch
        split_ifs <;> exact ⟨rfl, rfl, rfl⟩
      · exact ⟨rfl, rfl, rfl⟩
    exact h.same_items (setItem_inv c q _ inv (touch_queueIndex _ _) (touch_key _ _)) h.2.1 rfl
      (fun x hx => hx) (fun x => (hfield x).1) (hfield p).2.1 (hfield p).2.2

theorem Holds.hit {k : String} {p : Nat} {v : Value} {ttl : Int} {c c2 : Cache} {q : Nat}
    {now : Int} (h : Holds k p v ttl c) (hneg : ttl < 0) (hit : Hit c q now c2) :
    Holds k p v ttl c2 := by
  have hkey : ∀ x, (c2.deref x).key = (c.deref x).key := by
    intro x
    by_cases hx : x = q
    · rw [hx]; exact hit.key
    · exact (item_core_fields _ _ (hit.other x hx)).1
  have hdata : (c2.deref p).data = (c.deref p).data := by
    by_cases hx : p = q
    · rw [hx]; exact hit.data
    · exact (item_core_fields _ _ (hit.other p hx)).2.1
  have httl : (c2.deref p).ttl = (c.deref p).ttl := by
    by_cases hx : p = q
    · rw [← hx] at hit
      rw [hit.ttl]
      unfold resolvedTTL
      rw [if_neg (by rw [h.2.2.2.2.1]; omega)]
    · exact (item_core_fields _ _ (hit.other p hx)).2.2.1
  exact h.same_items hit.inv (by rw [hit.config.2.2.2.2.1]; exact h.2.1) hit.items
    (fun x hx => (hit.entries x).1 hx) hkey hdata httl

theorem Holds.metrics {k : String} {p : Nat} {v : Value} {ttl : Int} {c c2 : Cache}
    (h : Holds k p v ttl c) (hh : c2.expirationHeap = c.expirationHeap)
    (hi : c2.items = c.items) (hs : c2.isShutDown = c.isShutDown) : Holds k p v ttl c2 := by
  have hd : ∀ x, c2.deref x = c.deref x := fun x => by unfold deref; rw [hh]
  exact h.same_items (h.1.congr hh hi) (by rw [hs]; exact h.2.1) hi
    (fun x hx => by rw [hh] at hx; exact hx) (fun x => by rw [hd x]) (by rw [hd p])
    (by rw [hd p])

theorem Holds.get {k : String} {p : Nat} {v : Value} {ttl : Int} {c c2 : Cache}
    (h : Holds k p v ttl c) (hneg : ttl < 0) (now : Int) (key : String)
    (r : Value × Option GoError) (hl : c.loaderFunction = none)
    (hg : c.Get now key = some (c2, r)) : Holds k p v ttl c2 := by
  have inv := h.1
  have hopen := h.2.1
  rcases expired_cases c now key with hm | ⟨q, h1, h2⟩
  · rw [Get_miss c now key hopen hm hl] at hg
    simp only [Option.some.injEq, Prod.mk.injEq] at hg
    rw [← hg.1]
    exact h.metrics rfl rfl rfl
  · obtain ⟨c1, hit, e⟩ := Get_hit c now key q inv hopen h1 h2
    rw [e] at hg
    simp only [Option.some.injEq, Prod.mk.injEq] at hg
    rw [← hg.1]
    have h0 : Holds k p v ttl c.countHit := h.metrics rfl rfl rfl
    exact (h0.hit hneg hit).metrics rfl rfl rfl

theorem Holds.cleanLoop {k : String} {p : Nat} {v : Value} {ttl : Int} (hneg : ttl < 0)
    (fuel : Nat) (c c2 : Cache) (now : Int) (h : Holds k p v ttl c)
    (hc : Cache.cleanLoop fuel c now = some c2) : Holds k p v ttl c2 := by
  induction fuel generalizing c with
  | zero =>
    unfold Cache.cleanLoop at hc
    cases hp : c.expirationHeap.Peek with
    | none =>
      rw [hp] at hc
      simp only [Option.some.injEq] at hc
      rw [← hc]; exact h
    | some q =>
      rw [hp] at hc
      dsimp only at hc
      split_ifs at hc
      simp only [Option.some.injEq] at hc
      rw [← hc]; exact h
  | succ fuel ih =>
    unfold Cache.cleanLoop at hc
    cases hp : c.expirationHeap.Peek with
    | none =>
      rw [hp] at hc
      simp only [Option.some.injEq] at hc
      rw [← hc]; exact h
    | some q =>
      rw [hp] at hc
      dsimp only at hc
      have inv := h.1
      have hin := ExpirationHeap.Peek_mem _ _ hp
      have hlt := inv.lt_mem hin
      by_cases hex : (c.deref q).expired now = true
      · rw [if_neg (by simp [hex])] at hc
        have hqp : q ≠ p := by
          intro e
          rw [e, h.not_expired hneg now] at hex
          cases hex
        by_cases hv : c.vetoes q = true
        · rw [if_pos hv] at hc
          have inv1 := setItem_inv c q ((c.deref q).touch now) inv (touch_queueIndex _ _)
            (touch_key _ _)
          have m := setItem_modified c q ((c.deref q).touch now) (touch_queueIndex _ _)
          obtain ⟨h3, e3, s⟩ := ExpirationHeap.Update_shuffle
            (c.setItem q ((c.deref q).touch now)).expirationHeap inv1.1 q
            (by rw [m.entries]; exact hin)
          rw [e3] at hc
          simp only [Option.map_some', Option.some_bind] at hc
          apply ih _ _ hc
          have hfield : ∀ x, (h3.deref x).key = (c.deref x).key ∧
              (x ≠ q → (h3.deref x).data = (c.deref x).data ∧
                (h3.deref x).ttl = (c.deref x).ttl) := by
            intro x
            obtain ⟨a1, a2, a3, _⟩ := item_core_fields _ _ (s.core.2 x)
            have hx : (c.setItem q ((c.deref q).touch now)).expirationHeap.deref x =
                if x = q then (c.deref q).touch now else c.deref x :=
              deref_setItem c q x _ hlt
            rw [hx] at a1 a2 a3
            constructor
            · rw [a1]
              split_ifs with hxq
              · rw [hxq]; exact touch_key _ _
              · rfl
            · intro hxq
              rw [a2, a3, if_neg hxq]
              exact ⟨rfl, rfl⟩
          exact h.same_items (inv1.shuffle s) h.2.1 rfl
            (fun x hx => by
              have := (s.mem x).1 hx
              rw [m.entries] at this
              exact this)
            (fun x => (hfield x).1) ((hfield p).2 (fun e => hqp e.symm)).1
            ((hfield p).2 (fun e => hqp e.symm)).2
        · rw [if_neg hv] at hc
          obtain ⟨c1, e1, x⟩ := removeItem_spec c q EvictionReason.Expired inv hin
          rw [e1] at hc
          simp only [Option.some_bind] at hc
          apply ih _ _ hc
          have hkq : (c.deref q).key ≠ k := fun e => hqp (h.2.2.2.2.2 q hin e)
          have hcore : ∀ y, (c1.deref y).core = (c.deref y).core := x.heap.core.2
          refine ⟨x.inv, by rw [x.config.2.2.2.2.1]; exact h.2.1, ?_, ?_, ?_, ?_⟩
          · rw [x.items, mapGet_mapDelete, if_neg (fun e => hkq e.symm)]
            exact h.2.2.1
          · rw [(item_core_fields _ _ (hcore p)).2.1]; exact h.2.2.2.1
          · rw [(item_core_fields _ _ (hcore p)).2.2.1]; exact h.2.2.2.2.1
          · intro y hy hyk
            rw [(item_core_fields _ _ (hcore y)).1] at hyk
            exact h.2.2.2.2.2 y ((x.heap.mem y).1 hy).1 hyk
      · rw [if_pos (by simpa using hex)] at hc
        simp only [Option.some.injEq] at hc
        rw [← hc]; exact h

theorem Holds.quiet {k : String} {p : Nat} {v : Value} {ttl : Int} (hneg : ttl < 0)
    {c c2 : Cache} (h : Holds k p v ttl c) (s : Quiet c c2) : Holds k p v ttl c2 := by
  induction s with
  | refl => exact h
  | step c2 c3 _ st ih =>
    cases st with
    | setTTL t =>
      unfold SetTTL
      rw [if_neg (by rw [ih.2.1]; simp)]
      exact ih.metrics rfl rfl rfl
    | get now key _ r hl hg => exact ih.get hneg now key r hl hg
    | touch now key => exact ih.touch now key
    | sweep now _ hs =>
      unfold Cache.sweep at hs
      split_ifs at hs
      · simp only [Option.some.injEq] at hs
        rw [← hs]; exact ih
      · exact Holds.cleanLoop hneg _ _ _ now ih hs

theorem Agree.holds {c : Cache} (ag : c.Agree) (inv : c.Inv) (hopen : c.isShutDown = false)
    (k : String) (p : Nat) (hp : mapGet c.items k = some p) :
    Holds k p (c.deref p).data (c.deref p).ttl c := by
  refine ⟨inv, hopen, hp, rfl, rfl, fun q hq hk => ?_⟩
  have := ag q hq
  rw [hk, hp] at this
  exact (Option.some.inj this).symm

end Cache

/-- Negative ttl never expires, for an entry that is the only heap item of its
key (the case of C5 that the code gets right).  On a reachable open cache that
holds under key k an item p with value v and a negative ttl, with no other item
of key k in the heap (so whenever heap and key map agree): after any sequence of
SetTTL, Get (no loader configured), Touch and expiration sweeps at any instants,
the key still maps to p, the item is not expired at any instant, and Get(k)
returns v with no error. -/
theorem negative_ttl_when_sole (c : Cache) (r : Cache.Reachable c)
    (hopen : c.isShutDown = false) (k : String) (p : Nat) (v : Value) (ttl : Int)
    (hneg : ttl < 0) (hp : mapGet c.items k = some p) (hv : (c.deref p).data = v)
    (ht : (c.deref p).ttl = ttl)
    (hsole : ∀ q, q ∈ c.expirationHeap.entries → (c.deref q).key = k → q = p)
    (c2 : Cache) (hsteps : Cache.Quiet c c2) (now : Int) :
    mapGet c2.items k = some p ∧ (c2.deref p).expired now = false ∧
      ∃ c3, c2.Get now k = some (c3, v, none) := by
  have h : Cache.Holds k p v ttl c := ⟨r.reach_inv, hopen, hp, hv, ht, hsole⟩
  have h2 := h.quiet hneg hsteps
  refine ⟨h2.2.2.1, h2.not_expired hneg now, ?_⟩
  obtain ⟨c1, _, e⟩ := Cache.Get_hit c2 now k p h2.1 h2.2.1 h2.2.2.1 (h2.not_expired hneg now)
  rw [h2.2.2.2.1] at e
  exact ⟨_, e⟩

/-! ## Instances of the supporting theorems -/

theorem close_on_reachable_witness :
    exampleSet.isShutDown = false ∧
      ∃ c2, exampleSet.Close = some (c2, none) ∧ c2.Count = 0 ∧ c2.items = [] ∧
        c2.expirationHeap.entries = [] ∧
        c2.metrics = { exampleSet.metrics with
          EvictedClosed :=
            exampleSet.metrics.EvictedClosed + exampleSet.expirationHeap.entries.length } ∧
        c2.Close = some (c2, some GoError.ErrClosed) ∧
        (exampleSet.Agree → (exampleSet.expirationHeap.entries.length : Int) = exampleSet.Count) :=
  ⟨rfl, close_on_reachable exampleSet
    (Cache.Reachable.setWithTTL (NewCache 0) 10 "a" (some 7) 50 exampleSet none
      (Cache.Reachable.newCache 0) rfl) rfl⟩

theorem size_limit_when_agreeing_witness :
    exampleLimited.Agree ∧ exampleLimited.sizeLimit = 1 ∧ (exampleLimited.Count : Int) = 1 ∧
      ∃ c2, exampleLimited.SetWithTTL 5 "b" (some 2) 100 = some (c2, none) ∧
        (c2.Count : Int) = 1 :=
  have ag : exampleLimited.Agree := by
    intro q hq
    have e : exampleLimited.expirationHeap.entries = [0] := by decide
    rw [e] at hq
    simp only [List.mem_singleton] at hq
    subst hq
    decide
  ⟨ag, rfl, by decide, by
    obtain ⟨c2, root, _, h, _, _, _, _, _, hc, _⟩ :=
      size_limit_when_agreeing exampleLimited
        (Cache.Reachable.setWithTTL ((NewCache 0).SetCacheSizeLimit 1) 0 "a" (some 1) 100
          exampleLimited none
          (Cache.Reachable.setCacheSizeLimit (NewCache 0) 1 (Cache.Reachable.newCache 0)) rfl)
        ag rfl 1 (by decide) rfl (by decide) 5 "b" (some 2) 100 (by decide)
    exact ⟨c2, h, hc⟩⟩

theorem negative_ttl_when_sole_witness :
    mapGet exampleNeg.items "a" = some 0 ∧ (exampleNeg.deref 0).ttl = -1 ∧
      Cache.Quiet exampleNeg exampleNegSwept ∧
      mapGet exampleNegSwept.items "a" = some 0 ∧
      (exampleNegSwept.deref 0).expired 1000 = false ∧
      ∃ c3, exampleNegSwept.Get 1000 "a" = some (c3, some 1, none) :=
  have q : Cache.Quiet exampleNeg exampleNegSwept :=
    Cache.Quiet.step exampleNeg exampleNeg exampleNegSwept (Cache.Quiet.refl exampleNeg)
      (Cache.QuietStep.sweep exampleNeg 50 exampleNegSwept rfl)
  ⟨by decide, by decide, q,
    negative_ttl_when_sole exampleNeg
      (Cache.Reachable.setWithTTL (NewCache 0) 0 "a" (some 1) (-1) exampleNeg none
        (Cache.Reachable.newCache 0) rfl)
      rfl "a" 0 (some 1) (-1) (by decide) (by decide) (by decide) (by decide)
      (by
        intro q hq _
        have e : exampleNeg.expirationHeap.entries = [0] := by decide
        rw [e] at hq
        simpa using hq)
      exampleNegSwept q 1000⟩

/-! ## Loader calls -/

namespace Cache

theorem makeRoom_returns (c : Cache) (inv : c.Inv)
    (hs : 0 ≤ c.sizeLimit ∨ c.expirationHeap.entries ≠ []) :
    ∃ c1, c.makeRoom = some c1 := by
  unfold makeRoom
  split_ifs with hc
  · have hex : ∃ root, c.expirationHeap.Peek = some root := by
      rcases hs with hs | hs
      · have hpos : 0 < c.items.length := by
          have := hc.1
          have := hc.2
          omega
        exact inv.peek_of_items hpos
      · cases hp : c.expirationHeap.Peek with
        | none => exact absurd ((Peek_none_iff _).1 hp) hs
        | some root => exact ⟨root, rfl⟩
    obtain ⟨root, hr⟩ := hex
    rw [hr]
    dsimp only
    obtain ⟨c1, e1, _⟩ := removeItem_spec c root EvictionReason.EvictedSize inv
      (ExpirationHeap.Peek_mem _ _ hr)
    exact ⟨c1, e1⟩
  · exact ⟨c, rfl⟩

/-- Method invokeLoader for a key that is not in the key map of an open cache
(whose size limit is not negative or whose heap is not empty, when the loader
function returns no error): it returns what the loader function returned, and
the cache is the one SetWithTTL leaves when the loader returned no error, and
is unchanged when it returned an error. -/
theorem invokeLoader_miss (c : Cache) (now : Int) (k : String) (f : LoaderFunction) (inv : c.Inv)
    (hopen : c.isShutDown = false)
    (hs : (f k).2.2 = none → 0 ≤ c.sizeLimit ∨ c.expirationHeap.entries ≠ [])
    (hk : mapGet c.items k = none) :
    ∃ c2, c.invokeLoader now k f = some (c2, f k) ∧
      ((f k).2.2 = none → c.SetWithTTL now k (f k).1 (f k).2.1 = some (c2, none)) ∧
      ((f k).2.2 ≠ none → c2 = c) := by
  unfold invokeLoader
  rcases hfk : f k with ⟨d, t, e⟩
  cases e with
  | some err =>
    exact ⟨c, rfl, fun hc => by simp at hc, fun _ => rfl⟩
  | none =>
    dsimp only
    obtain ⟨c1, hm⟩ := makeRoom_returns c inv (hs (by rw [hfk]))
    obtain ⟨c2, e2, _, _⟩ := SetWithTTL_miss_returns c now k d t inv hopen (Or.inl hk) c1 hm
    rw [e2]
    exact ⟨c2, rfl, fun _ => rfl, fun hc => absurd rfl hc⟩

end Cache

theorem flightGet_cons_self (m : List (String × call)) (k : String) (c : call) :
    flightGet ((k, c) :: m) k = some c := by
  simp [flightGet]

theorem find_sent (chs : List Nat) (r : LoadResult) (ch : Nat) (h : ch ∈ chs) :
    ((chs.map (fun x => (x, r))).find? (fun e => e.1 == ch)).map Prod.snd = some r := by
  induction chs with
  | nil => cases h
  | cons a t ih =>
    rw [List.map_cons, List.find?_cons]
    by_cases e : a = ch
    · subst e
      simp
    · have : ((a, r).1 == ch) = false := by simpa using e
      rw [this]
      rcases List.mem_cons.1 h with x | x
      · exact absurd x.symm e
      · exact ih x

namespace Flight

/-- A call of Get for a key that is not in the key map, on an open cache with a
loader function: the miss is counted and the caller waits for the result of
DoChan. -/
theorem arrive_miss (s : Flight) (now : Int) (ch : Nat) (k : String) (f : LoaderFunction)
    (custom : Option LoaderFunction) (hopen : s.cache.isShutDown = false)
    (hk : mapGet s.cache.items k = none)
    (hl : custom = some f ∨ (custom = none ∧ s.cache.loaderFunction = some f)) :
    s.arrive now ch k custom =
      some ((⟨s.cache.countHit.countMiss, s.m, s.invoked, s.sent⟩ : Flight).DoChan k f ch,
        none) := by
  unfold arrive
  rw [if_neg (by rw [hopen]; simp)]
  have hg : s.cache.countHit.getItem now k = some (s.cache.countHit, none, false) :=
    Cache.getItem_miss _ now k (Or.inl hk)
  rw [hg]
  simp only [Option.map_some']
  rcases hl with e | ⟨e1, e2⟩
  · rw [e]
  · rw [e1]
    have : s.cache.countHit.countMiss.loaderFunction = some f := e2
    simp only [this]

/-- Calls of Get for a key with a call in flight, which is not in the key map
of the open cache: every caller joins the call and waits. -/
theorem arriveAll_join (callers : List (Nat × Int)) (s : Flight) (k : String)
    (f : LoaderFunction) (c0 : call) (hopen : s.cache.isShutDown = false)
    (hk : mapGet s.cache.items k = none) (hl : s.cache.loaderFunction = some f)
    (hm : s.m = [(k, c0)]) :
    ∃ s1, s.arriveAll k callers = some (s1, callers.map (fun _ => none)) ∧
      s1.m = [(k, ⟨c0.fn, c0.chans ++ callers.map Prod.fst, c0.dups + callers.length⟩)] ∧
      s1.invoked = s.invoked ∧ s1.sent = s.sent ∧
      s1.cache.items = s.cache.items ∧ s1.cache.expirationHeap = s.cache.expirationHeap ∧
      Cache.SameConfig s.cache s1.cache := by
  induction callers generalizing s c0 with
  | nil =>
    refine ⟨s, rfl, ?_, rfl, rfl, rfl, rfl, Cache.SameConfig.config_refl _⟩
    rw [hm]
    simp
  | cons a rest ih =>
    obtain ⟨ch, now⟩ := a
    have ha := arrive_miss s now ch k f none hopen hk (Or.inr ⟨rfl, hl⟩)
    have hd : (⟨s.cache.countHit.countMiss, s.m, s.invoked, s.sent⟩ : Flight).DoChan k f ch =
        ⟨s.cache.countHit.countMiss, [(k, ⟨c0.fn, c0.chans ++ [ch], c0.dups + 1⟩)], s.invoked,
          s.sent⟩ := by
      unfold DoChan
      simp only [hm, flightGet_cons_self]
      simp [flightDelete]
    rw [hd] at ha
    obtain ⟨s1, e1, x1, x2, x3, x4, x5, x6⟩ := ih
      ⟨s.cache.countHit.countMiss, [(k, ⟨c0.fn, c0.chans ++ [ch], c0.dups + 1⟩)], s.invoked,
        s.sent⟩
      ⟨c0.fn, c0.chans ++ [ch], c0.dups + 1⟩ hopen hk hl rfl
    refine ⟨s1, ?_, ?_, x2, x3, x4, x5, ?_⟩
    · unfold arriveAll
      rw [ha]
      simp only [Option.some_bind]
      rw [e1]
      rfl
    · rw [x1]
      simp only [List.length_cons, List.map_cons, List.append_assoc, List.singleton_append]
      congr 3
      omega
    · exact (Cache.SameConfig.config_refl s.cache).config_trans x6

/-- K calls of Get for a key that is not in the key map of an open cache with
the loader function f, with no call in flight before: the first caller starts
the call, the others join it, and every caller waits. -/
theorem arriveAll_start (c : Cache) (k : String) (f : LoaderFunction)
    (callers : List (Nat × Int)) (hne : callers ≠ []) (hopen : c.isShutDown = false)
    (hk : mapGet c.items k = none) (hl : c.loaderFunction = some f) :
    ∃ s1, (start c).arriveAll k callers = some (s1, callers.map (fun _ => none)) ∧
      s1.m = [(k, ⟨f, callers.map Prod.fst, callers.length - 1⟩)] ∧
      s1.invoked = [] ∧ s1.sent = [] ∧
      s1.cache.items = c.items ∧ s1.cache.expirationHeap = c.expirationHeap ∧
      Cache.SameConfig c s1.cache := by
  cases callers with
  | nil => exact absurd rfl hne
  | cons a rest =>
    obtain ⟨ch, now⟩ := a
    have ha := arrive_miss (start c) now ch k f none hopen hk (Or.inr ⟨rfl, hl⟩)
    have hd : (⟨(start c).cache.countHit.countMiss, (start c).m, (start c).invoked,
        (start c).sent⟩ : Flight).DoChan k f ch =
        ⟨c.countHit.countMiss, [(k, ⟨f, [ch], 0⟩)], [], []⟩ := rfl
    rw [hd] at ha
    obtain ⟨s1, e1, x1, x2, x3, x4, x5, x6⟩ := arriveAll_join rest
      ⟨c.countHit.countMiss, [(k, ⟨f, [ch], 0⟩)], [], []⟩ k f ⟨f, [ch], 0⟩ hopen hk hl rfl
    refine ⟨s1, ?_, ?_, x2, x3, x4, x5, ?_⟩
    · unfold arriveAll
      rw [ha]
      simp only [Option.some_bind]
      rw [e1]
      rfl
    · rw [x1]
      simp
    · exact (Cache.SameConfig.config_refl c).config_trans x6

end Flight

namespace Cache

theorem getItemRefresh_withMetrics (c : Cache) (m : Metrics) (now : Int) (p : Nat) :
    (c.withMetrics m).getItemRefresh now p =
      (c.getItemRefresh now p).map (fun d => d.withMetrics m) := by
  unfold getItemRefresh
  have e1 : (c.withMetrics m).deref p = c.deref p := rfl
  have e2 : (c.withMetrics m).ttl = c.ttl := rfl
  rw [e1, e2]
  by_cases h1 : (c.deref p).ttl ≥ 0 ∧ ((c.deref p).ttl > 0 ∨ c.ttl > 0)
  · rw [if_pos h1, if_pos h1]
    dsimp only
    by_cases h2 : c.ttl > 0 ∧ (c.deref p).ttl = 0
    · rw [if_pos h2, if_pos h2]
      cases hs : c.skipTTLExtension <;>
        simp only [withMetrics, setItem, withHeap, deref, hs, Bool.false_eq_true,
          not_false_eq_true, not_true_eq_false, if_true, if_false, Option.map_map] <;> rfl
    · rw [if_neg h2, if_neg h2]
      cases hs : c.skipTTLExtension <;>
        simp only [withMetrics, setItem, withHeap, deref, hs, Bool.false_eq_true,
          not_false_eq_true, not_true_eq_false, if_true, if_false, Option.map_map] <;> rfl
  · rw [if_neg h1, if_neg h1]
    rfl

end Cache

namespace Cache

theorem getItem_withMetrics (c : Cache) (m : Metrics) (now : Int) (key : String) :
    (c.withMetrics m).getItem now key =
      (c.getItem now key).map (fun g => (g.1.withMetrics m, g.2)) := by
  unfold getItem
  have e0 : (c.withMetrics m).items = c.items := rfl
  rw [e0]
  cases mapGet c.items key with
  | none => rfl
  | some p =>
    dsimp only
    have e1 : (c.withMetrics m).deref p = c.deref p := rfl
    rw [e1]
    by_cases hx : (c.deref p).expired now = true
    · rw [if_pos hx, if_pos hx]; rfl
    · rw [if_neg hx, if_neg hx, getItemRefresh_withMetrics, Option.map_map, Option.map_map]
      rfl

theorem removeItem_withMetrics (c : Cache) (m : Metrics) (p : Nat) (r : EvictionReason) :
    (c.withMetrics m).removeItem p r =
      (c.removeItem p r).map (fun d => d.withMetrics (countEviction m r)) := by
  unfold removeItem
  simp only [withMetrics, logEviction, withHeap, withItems, deref, Option.map_map]
  rfl

theorem makeRoom_withMetrics (c : Cache) (m : Metrics) :
    ∃ m2, (c.withMetrics m).makeRoom = c.makeRoom.map (fun d => d.withMetrics m2) := by
  unfold makeRoom
  have e0 : (c.withMetrics m).items = c.items := rfl
  have e1 : (c.withMetrics m).sizeLimit = c.sizeLimit := rfl
  have e2 : (c.withMetrics m).expirationHeap = c.expirationHeap := rfl
  rw [e0, e1, e2]
  split_ifs with hc
  · cases c.expirationHeap.Peek with
    | none => exact ⟨m, rfl⟩
    | some root => exact ⟨_, removeItem_withMetrics c m root EvictionReason.EvictedSize⟩
  · exact ⟨m, rfl⟩

theorem refresh_withMetrics (c : Cache) (m : Metrics) (now : Int) (p : Nat) :
    (c.withMetrics m).refresh now p = (c.refresh now p).withMetrics m := by
  unfold refresh
  have e1 : (c.withMetrics m).deref p = c.deref p := rfl
  have e2 : (c.withMetrics m).ttl = c.ttl := rfl
  rw [e1, e2]
  by_cases h1 : (c.deref p).ttl ≥ 0 ∧ ((c.deref p).ttl > 0 ∨ c.ttl > 0)
  · rw [if_pos h1, if_pos h1]
    dsimp only
    by_cases h2 : c.ttl > 0 ∧ (c.deref p).ttl = 0
    · rw [if_pos h2, if_pos h2]; rfl
    · rw [if_neg h2, if_neg h2]; rfl
  · rw [if_neg h1, if_neg h1]

/-- SetWithTTL does not read the metrics: on a cache that differs in its
metrics only it stores the same, and the results differ in their metrics only. -/
theorem SetWithTTL_withMetrics (c : Cache) (m : Metrics) (now : Int) (key : String)
    (data : Value) (ttl : Int) (c3 : Cache) (e : Option GoError)
    (h : c.SetWithTTL now key data ttl = some (c3, e)) :
    ∃ m2, (c.withMetrics m).SetWithTTL now key data ttl = some (c3.withMetrics m2, e) := by
  unfold SetWithTTL at h ⊢
  have e0 : (c.withMetrics m).isShutDown = c.isShutDown := rfl
  rw [e0]
  by_cases hs : c.isShutDown = true
  · rw [if_pos hs] at h ⊢
    simp only [Option.some.injEq, Prod.mk.injEq] at h
    rw [← h.1, ← h.2]
    exact ⟨m, rfl⟩
  · rw [if_neg hs] at h ⊢
    rw [getItem_withMetrics]
    cases hg : c.getItem now key with
    | none => rw [hg] at h; cases h
    | some g =>
      rw [hg] at h
      obtain ⟨c1, op, fl⟩ := g
      simp only [Option.map_some', Option.some_bind] at h ⊢
      cases op with
      | some p =>
        simp only [Option.some_bind, Option.isSome_some, if_true] at h ⊢
        have e5 : ((c1.withMetrics m).setItem p
            { (c1.withMetrics m).deref p with data := data, ttl := ttl }).countInserted.refresh
              now p =
            ((c1.setItem p { c1.deref p with data := data, ttl := ttl }).countInserted.refresh
              now p).withMetrics { m with Inserted := m.Inserted + 1 } := by
          have : ((c1.withMetrics m).setItem p
              { (c1.withMetrics m).deref p with data := data, ttl := ttl }).countInserted =
              ((c1.setItem p { c1.deref p with data := data, ttl := ttl }).countInserted).withMetrics
                { m with Inserted := m.Inserted + 1 } := rfl
          rw [this, refresh_withMetrics]
        rw [e5]
        cases hu : ((c1.setItem p { c1.deref p with data := data, ttl := ttl }).countInserted.refresh
            now p).expirationHeap.Update p with
        | none => rw [hu] at h; cases h
        | some h3 =>
          rw [hu] at h
          simp only [Option.map_some', Option.some.injEq, Prod.mk.injEq] at h
          have hu2 : (((c1.setItem p { c1.deref p with data := data, ttl := ttl
              }).countInserted.refresh now p).withMetrics
                { m with Inserted := m.Inserted + 1 }).expirationHeap.Update p = some h3 := hu
          rw [hu2]
          simp only [Option.map_some']
          rw [← h.1, ← h.2]
          exact ⟨{ m with Inserted := m.Inserted + 1 }, rfl⟩
      | none =>
        obtain ⟨m2, hm2⟩ := makeRoom_withMetrics c1 m
        simp only [hm2]
        cases hmr : c1.makeRoom with
        | none => rw [hmr] at h; simp at h
        | some c2 =>
          rw [hmr] at h
          simp only [Option.map_some', Option.some_bind, Option.isSome_none,
            Bool.false_eq_true, if_false, Option.some.injEq, Prod.mk.injEq] at h ⊢
          rw [← h.1, ← h.2]
          refine ⟨{ m2 with Inserted := m2.Inserted + 1 }, ?_, rfl⟩
          have e5 : ((c2.withMetrics m2).storeNew now key data ttl).1.countInserted.refresh now
              ((c2.withMetrics m2).storeNew now key data ttl).2 =
              ((c2.storeNew now key data ttl).1.countInserted.refresh now
                (c2.storeNew now key data ttl).2).withMetrics
                  { m2 with Inserted := m2.Inserted + 1 } := by
            have e6 : ((c2.withMetrics m2).storeNew now key data ttl).2 =
                (c2.storeNew now key data ttl).2 := rfl
            have e7 : ((c2.withMetrics m2).storeNew now key data ttl).1.countInserted =
                ((c2.storeNew now key data ttl).1.countInserted).withMetrics
                  { m2 with Inserted := m2.Inserted + 1 } := rfl
            rw [e6, e7, refresh_withMetrics]
          rw [e5]
          rfl

end Cache

/-! ## Remaining lifetimes while SkipTTLExtensionOnHit keeps its default -/

namespace Cache

theorem Renewed.renewed_refl (now : Int) (c : Cache) : Renewed now c c :=
  ⟨rfl, fun _ => Or.inl ⟨rfl, rfl⟩⟩

theorem Renewed.renewed_trans {now : Int} {a b c : Cache} (x : Renewed now a b)
    (y : Renewed now b c) : Renewed now a c := by
  refine ⟨y.1.trans x.1, fun q => ?_⟩
  rcases y.2 q with h | h
  · rcases x.2 q with g | g
    · exact Or.inl ⟨h.1.trans g.1, h.2.trans g.2⟩
    · right
      rw [h.1, h.2]
      exact g
  · exact Or.inr h

theorem Renewed.of_core {now : Int} {c c2 : Cache}
    (hs : c2.skipTTLExtension = c.skipTTLExtension)
    (h : ∀ q, (c2.deref q).core = (c.deref q).core) : Renewed now c c2 := by
  refine ⟨hs, fun q => Or.inl ?_⟩
  have := item_core_fields _ _ (h q)
  exact ⟨this.2.2.1, this.2.2.2⟩

theorem Fresh.fresh_step {T now : Int} {c c2 : Cache} (f : Fresh T c) (hT : T ≤ now)
    (x : Renewed now c c2) : Fresh now c2 := by
  refine ⟨x.1.trans f.1, fun p hp => ?_⟩
  rcases x.2 p with h | h
  · rw [h.1, h.2]
    rw [h.1] at hp
    have := f.2 p hp
    omega
  · exact h hp

theorem ItemRemoved.removed_renewed {now : Int} {c c2 : Cache} {p : Nat} {r : EvictionReason}
    (x : ItemRemoved c p r c2) : Renewed now c c2 :=
  Renewed.of_core x.config.2.2.2.1 x.heap.core.2

theorem EvictStep.evict_renewed {now : Int} {c c2 : Cache} (x : EvictStep c c2) : Renewed now c c2 := by
  rcases x with ⟨_, e⟩ | ⟨_, root, _, y⟩
  · rw [e]; exact Renewed.renewed_refl now c
  · exact y.removed_renewed

theorem Hit.hit_renewed {now : Int} {c c2 : Cache} {p : Nat} (hit : Hit c p now c2)
    (hs : c.skipTTLExtension = false) : Renewed now c c2 := by
  refine ⟨hit.config.2.2.2.1, fun q => ?_⟩
  by_cases hq : q = p
  · subst hq
    right
    intro hpos
    rw [hit.ttl] at hpos
    rw [hit.expireAt, if_pos ⟨hpos, hs⟩, hit.ttl]
  · left
    have := item_core_fields _ _ (hit.other q hq)
    exact ⟨this.2.2.1, this.2.2.2⟩

theorem Overwritten.overwritten_renewed {now : Int} {c c2 : Cache} {p : Nat} {data : Value} {ttl : Int}
    (x : Overwritten c p now data ttl c2) : Renewed now c c2 := by
  refine ⟨x.config.2.2.2.1, fun q => ?_⟩
  by_cases hq : q = p
  · subst hq
    right
    intro hpos
    rw [x.ttl_eq] at hpos
    rw [x.expireAt_eq, if_pos hpos, x.ttl_eq]
  · left
    have := item_core_fields _ _ (x.other q hq)
    exact ⟨this.2.2.1, this.2.2.2⟩

theorem deref_out (c : Cache) (q : Nat) (h : c.expirationHeap.mem.length ≤ q) :
    c.deref q = default := by
  unfold deref ExpirationHeap.deref
  exact List.getD_eq_default _ _ h

theorem Inserted.inserted_renewed {now : Int} {c c2 : Cache} {key : String} {data : Value} {ttl : Int}
    (x : Inserted c now key data ttl c2) : Renewed now c c2 := by
  refine ⟨x.config.2.2.2.1, fun q => ?_⟩
  rcases Nat.lt_trichotomy q c.expirationHeap.mem.length with h | h | h
  · left
    have := item_core_fields _ _ (x.old q h)
    exact ⟨this.2.2.1, this.2.2.2⟩
  · subst h
    right
    intro hpos
    rw [x.ttl_eq] at hpos
    rw [x.expireAt_eq, if_pos hpos, x.ttl_eq]
  · left
    rw [deref_out c q (by omega), deref_out c2 q (by rw [x.memlen]; omega)]
    exact ⟨rfl, rfl⟩

theorem Vetoed.vetoed_renewed {now : Int} {c c2 : Cache} {p : Nat} (x : Vetoed c p now c2) :
    Renewed now c c2 := by
  refine ⟨x.config.2.2.2.1, fun q => ?_⟩
  by_cases hq : q = p
  · subst hq
    right
    intro _
    rw [x.expireAt_eq, x.ttl_eq]
  · left
    have := item_core_fields _ _ (x.other q hq)
    exact ⟨this.2.2.1, this.2.2.2⟩

theorem Swept.swept_renewed {now : Int} {c c2 : Cache} (x : Swept now c c2) : Renewed now c c2 := by
  induction x with
  | done c _ => exact Renewed.renewed_refl now c
  | veto c p c1 c2 _ _ _ v _ ih => exact v.vetoed_renewed.renewed_trans ih
  | expire c p c1 c2 _ _ _ r _ _ ih => exact r.removed_renewed.renewed_trans ih

theorem SetWithTTL_renewed (c : Cache) (now : Int) (key : String) (data : Value) (ttl : Int)
    (c2 : Cache) (e : Option GoError) (inv : c.Inv) (hs : c.skipTTLExtension = false)
    (h : c.SetWithTTL now key data ttl = some (c2, e)) : Renewed now c c2 := by
  cases hsd : c.isShutDown with
  | true =>
    rw [SetWithTTL_closed c now key data ttl hsd] at h
    cases h
    exact Renewed.renewed_refl now c
  | false =>
    rcases expired_cases c now key with hm | ⟨p, h1, h2⟩
    · obtain ⟨_, c1, ev, ins⟩ := SetWithTTL_miss c now key data ttl inv hsd hm c2 e h
      exact ev.evict_renewed.renewed_trans ins.inserted_renewed
    · obtain ⟨c1, c3, hit, e3, ow⟩ := SetWithTTL_hit c now key data ttl p inv hsd h1 h2
      rw [e3] at h
      cases h
      exact (hit.hit_renewed hs).renewed_trans ow.overwritten_renewed

theorem GetByLoader_renewed (c : Cache) (now : Int) (key : String) (l : Option LoaderFunction)
    (c2 : Cache) (r : Value × Int × Option GoError) (inv : c.Inv)
    (hs : c.skipTTLExtension = false) (h : c.GetByLoader now key l = some (c2, r)) :
    Renewed now c c2 := by
  cases hsd : c.isShutDown with
  | true =>
    rw [GetByLoader_closed c now key l hsd] at h
    cases h
    exact Renewed.renewed_refl now c
  | false =>
    rcases expired_cases c now key with hm | ⟨p, h1, h2⟩
    · unfold GetByLoader at h
      rw [if_neg (by simp [hsd]), getItem_miss c.countHit now key hm] at h
      simp only [Option.some_bind] at h
      have inv2 : c.countHit.countMiss.Inv := inv.congr rfl rfl
      have tail : ∀ f, c.countHit.countMiss.invokeLoader now key f = some (c2, r) →
          Renewed now c c2 := by
        intro f hf
        unfold invokeLoader at hf
        rcases hfk : f key with ⟨d, t, er⟩
        rw [hfk] at hf
        cases er with
        | some err =>
          simp only [Option.some.injEq, Prod.mk.injEq] at hf
          rw [← hf.1]
          exact Renewed.renewed_refl now c
        | none =>
          simp only [Option.map_eq_some'] at hf
          obtain ⟨x, hx, hx2⟩ := hf
          obtain ⟨c3, e3⟩ := x
          have hc : c2 = c3 := by
            cases e3 <;> simp only [Prod.mk.injEq] at hx2 <;> exact hx2.1.symm
          rw [hc]
          exact SetWithTTL_renewed c.countHit.countMiss now key d t c3 e3 inv2 hs hx
      cases l with
      | some f => exact tail f h
      | none =>
        simp only at h
        cases hlf : c.countHit.countMiss.loaderFunction with
        | some f =>
          rw [hlf] at h
          exact tail f h
        | none =>
          rw [hlf] at h
          simp only [Option.some.injEq, Prod.mk.injEq] at h
          rw [← h.1]
          exact Renewed.renewed_refl now c
    · obtain ⟨c1, hit, e1⟩ := GetByLoader_hit c now key l p inv hsd h1 h2
      rw [e1] at h
      cases h
      have : Renewed now c.countHit c1 := hit.hit_renewed hs
      exact ⟨this.1, this.2⟩

theorem Remove_renewed (c : Cache) (now : Int) (key : String) (c2 : Cache) (e : Option GoError)
    (inv : c.Inv) (h : c.Remove key = some (c2, e)) : Renewed now c c2 := by
  cases hsd : c.isShutDown with
  | true =>
    rw [Remove_closed c key hsd] at h
    cases h
    exact Renewed.renewed_refl now c
  | false =>
    cases hm : mapGet c.items key with
    | none =>
      rw [Remove_absent c key hsd hm] at h
      cases h
      exact Renewed.renewed_refl now c
    | some p =>
      obtain ⟨c3, e3, x⟩ := Remove_present c key p inv hsd hm
      rw [e3] at h
      cases h
      exact x.removed_renewed

theorem Touch_renewed (c : Cache) (now : Int) (key : String) (inv : c.Inv) :
    Renewed now c (c.Touch now key).1 := by
  cases hm : mapGet c.items key with
  | none =>
    rw [Touch_absent c now key hm]
    exact Renewed.renewed_refl now c
  | some p =>
    rw [Touch_present c now key p hm]
    have hlt := inv.lt_mem (inv.2.2 key p hm).1
    refine ⟨rfl, fun q => ?_⟩
    rw [deref_setItem c p q _ hlt]
    by_cases hq : q = p
    · subst hq
      rw [if_pos rfl]
      unfold item.touch
      split_ifs with hpos
      · right
        intro _
        exact le_refl _
      · exact Or.inl ⟨rfl, rfl⟩
    · rw [if_neg hq]
      exact Or.inl ⟨rfl, rfl⟩

theorem evictLoop_renewed (fuel : Nat) (now : Int) (c : Cache) (r : EvictionReason) (c2 : Cache)
    (inv : c.Inv) (h : evictLoop fuel c r = some c2) : Renewed now c c2 := by
  induction fuel generalizing c with
  | zero =>
    unfold evictLoop at h
    cases hp : c.expirationHeap.Peek with
    | none =>
      rw [hp] at h
      simp only [Option.some.injEq] at h
      rw [← h]
      exact Renewed.renewed_refl now c
    | some p =>
      rw [hp] at h
      cases h
  | succ fuel ih =>
    unfold evictLoop at h
    cases hp : c.expirationHeap.Peek with
    | none =>
      rw [hp] at h
      simp only [Option.some.injEq] at h
      rw [← h]
      exact Renewed.renewed_refl now c
    | some p =>
      rw [hp] at h
      dsimp only at h
      obtain ⟨c1, e1, x⟩ := removeItem_spec c p r inv (ExpirationHeap.Peek_mem _ _ hp)
      rw [e1] at h
      simp only [Option.some_bind] at h
      exact x.removed_renewed.renewed_trans (ih c1 x.inv h)

theorem Close_renewed (c : Cache) (now : Int) (c2 : Cache) (e : Option GoError) (inv : c.Inv)
    (h : c.Close = some (c2, e)) : Renewed now c c2 := by
  cases hsd : c.isShutDown with
  | true =>
    rw [Close_closed c hsd] at h
    cases h
    exact Renewed.renewed_refl now c
  | false =>
    unfold Close at h
    rw [if_pos (by simp [hsd])] at h
    dsimp only at h
    rw [Option.map_eq_some'] at h
    obtain ⟨c1, h1, h2⟩ := h
    have e2 : c2 = c1.Purge.1 := by rw [h2]
    have r1 : Renewed now c c1 := by
      split_ifs at h1
      · have inv1 : c.shutDown.Inv := inv.congr rfl rfl
        have := evictLoop_renewed _ now c.shutDown EvictionReason.Closed c1 inv1 h1
        exact ⟨this.1, this.2⟩
      · cases h1
        exact ⟨rfl, fun _ => Or.inl ⟨rfl, rfl⟩⟩
    rw [e2]
    exact r1.renewed_trans ⟨rfl, fun _ => Or.inl ⟨rfl, rfl⟩⟩

theorem NewCache_fresh (now : Int) : Fresh now (NewCache now) := by
  refine ⟨rfl, fun p hp => ?_⟩
  have : (NewCache now).deref p = default := deref_out _ p (Nat.zero_le _)
  rw [this] at hp
  exact absurd hp (by decide)

theorem DefaultRun.reachable {T : Int} {c : Cache} (d : DefaultRun T c) : Reachable c := by
  induction d with
  | newCache now => exact Reachable.newCache now
  | later _ _ _ _ _ ih => exact ih
  | setWithTTL T c key data ttl c2 e _ h ih => exact Reachable.setWithTTL c T key data ttl c2 e ih h
  | getByLoader T c key l c2 r _ h ih => exact Reachable.getByLoader c T key l c2 r ih h
  | remove T c key c2 e _ h ih => exact Reachable.remove c key c2 e ih h
  | touch T c key _ ih => exact Reachable.touch c T key ih
  | purge T c _ ih => exact Reachable.purge c ih
  | close T c c2 e _ h ih => exact Reachable.close c c2 e ih h
  | setTTL T c ttl _ ih => exact Reachable.setTTL c ttl ih
  | setCheckExpirationCallback T c f _ ih => exact Reachable.setCheckExpirationCallback c f ih
  | setLoaderFunction T c f _ ih => exact Reachable.setLoaderFunction c f ih
  | setCacheSizeLimit T c limit _ ih => exact Reachable.setCacheSizeLimit c limit ih
  | schedule T c _ ih => exact Reachable.schedule c T ih
  | sweep T c c2 _ h ih => exact Reachable.sweep c T c2 ih h

/-- While SkipTTLExtensionOnHit keeps its default, no item with a positive ttl
has more than its ttl left. -/
theorem DefaultRun.fresh {T : Int} {c : Cache} (d : DefaultRun T c) : Fresh T c := by
  induction d with
  | newCache now => exact NewCache_fresh now
  | later T T2 c _ hT ih => exact ih.fresh_step hT (Renewed.renewed_refl T2 c)
  | setWithTTL T c key data ttl c2 e d h ih =>
    exact ih.fresh_step (le_refl _)
      (SetWithTTL_renewed c T key data ttl c2 e d.reachable.reach_inv ih.1 h)
  | getByLoader T c key l c2 r d h ih =>
    exact ih.fresh_step (le_refl _)
      (GetByLoader_renewed c T key l c2 r d.reachable.reach_inv ih.1 h)
  | remove T c key c2 e d h ih =>
    exact ih.fresh_step (le_refl _) (Remove_renewed c T key c2 e d.reachable.reach_inv h)
  | touch T c key d ih =>
    exact ih.fresh_step (le_refl _) (Touch_renewed c T key d.reachable.reach_inv)
  | purge T c _ ih => exact ih.fresh_step (le_refl _) ⟨rfl, fun _ => Or.inl ⟨rfl, rfl⟩⟩
  | close T c c2 e d h ih =>
    exact ih.fresh_step (le_refl _) (Close_renewed c T c2 e d.reachable.reach_inv h)
  | setTTL T c ttl _ ih =>
    refine ih.fresh_step (le_refl _) ?_
    unfold SetTTL
    split_ifs
    · exact Renewed.renewed_refl T c
    · exact ⟨rfl, fun _ => Or.inl ⟨rfl, rfl⟩⟩
  | setCheckExpirationCallback T c f _ ih =>
    exact ih.fresh_step (le_refl _) ⟨rfl, fun _ => Or.inl ⟨rfl, rfl⟩⟩
  | setLoaderFunction T c f _ ih =>
    exact ih.fresh_step (le_refl _) ⟨rfl, fun _ => Or.inl ⟨rfl, rfl⟩⟩
  | setCacheSizeLimit T c limit _ ih =>
    exact ih.fresh_step (le_refl _) ⟨rfl, fun _ => Or.inl ⟨rfl, rfl⟩⟩
  | schedule T c _ ih => exact ih.fresh_step (le_refl _) ⟨rfl, fun _ => Or.inl ⟨rfl, rfl⟩⟩
  | sweep T c c2 d h ih =>
    obtain ⟨c3, e3, sw, _⟩ := sweep_swept c T d.reachable.reach_inv
    rw [h] at e3
    cases e3
    exact ih.fresh_step (le_refl _) sw.swept_renewed

end Cache

/-! ## Claims C18, C19 and C20 -/

theorem exampleHeapPopped_operated : ExpirationHeap.Operated exampleHeapPopped [3, 0] [1, 2] := by
  have b0 := ExpirationHeap.Operated.empty
  have b1 := ExpirationHeap.Operated.add _ _ _ ⟨"x", none, 0, 3, -1⟩ b0
  have b2 := ExpirationHeap.Operated.add _ _ _ ⟨"y", none, 0, 1, -1⟩ b1
  have b3 := ExpirationHeap.Operated.add _ _ _ ⟨"z", none, 0, 2, -1⟩ b2
  have b4 : ExpirationHeap.Operated exampleHeapAdded [3, 2, 1, 0] [] :=
    ExpirationHeap.Operated.add _ _ _ ⟨"n", none, 0, 0, -1⟩ b3
  have b5 : ExpirationHeap.Operated exampleHeapUpdated [3, 2, 1, 0] [] :=
    ExpirationHeap.Operated.update _ _ _ 0 5 _ b4 (by decide) (by decide)
  have b6 : ExpirationHeap.Operated exampleHeap [3, 1, 0] [2] :=
    ExpirationHeap.Operated.remove _ _ _ 2 _ b5 (by decide) (by decide)
  exact ExpirationHeap.Operated.first _ _ _ 1 b6 (by decide)

/-- C18 (heap index integrity).  For every heap reached from the empty heap by
a sequence of Add (each with a new entry object), Remove, Update and First,
with live the entries in the heap and gone the entries removed or popped:
every entry at position i of the heap has GetIndex() = i, the heap holds
exactly the entries of live, every entry that was removed or popped has
GetIndex() = EntryNotIndexed, and Remove and Update of an entry that was added
before return. -/
theorem heap_index_integrity (h : ExpirationHeap) (live gone : List Nat)
    (b : ExpirationHeap.Operated h live gone) :
    (∀ i, i < h.Len → (h.deref (h.entry i)).queueIndex = (i : Int)) ∧
      (∀ p, p ∈ h.entries ↔ p ∈ live) ∧
      (∀ p, p ∈ gone → (h.deref p).queueIndex = EntryNotIndexed) ∧
      (∀ p, p ∈ live ∨ p ∈ gone → ∃ h2, h.Remove p = some h2) ∧
      (∀ p e, p ∈ live ∨ p ∈ gone → ∃ h2, (h.setExpireAt p e).Update p = some h2) := by
  obtain ⟨w, hm, _, hout, hg⟩ := b.operated_inv
  refine ⟨fun i hi => (w i hi).2, hm, fun p hp => hout p (hg p hp).1 (hg p hp).2, ?_, ?_⟩
  · intro p hp
    by_cases hin : p ∈ h.entries
    · obtain ⟨h2, e, _⟩ := ExpirationHeap.Remove_removed h w p hin
      exact ⟨h2, e⟩
    · have hplt : p < h.mem.length := by
        rcases hp with e | e
        · exact absurd ((hm p).2 e) hin
        · exact (hg p e).1
      exact ⟨h, ExpirationHeap.Remove_notIndexed h p (hout p hplt hin)⟩
  · intro p e hp
    have m := ExpirationHeap.setExpireAt_modified h p e
    by_cases hin : p ∈ h.entries
    · obtain ⟨h2, e2, _⟩ := ExpirationHeap.Update_shuffle _ (m.wf w) p
        (by rw [m.entries]; exact hin)
      exact ⟨h2, e2⟩
    · have hplt : p < h.mem.length := by
        rcases hp with e | e
        · exact absurd ((hm p).2 e) hin
        · exact (hg p e).1
      refine ⟨h.setExpireAt p e, ?_⟩
      have hidx : ((h.setExpireAt p e).deref p).queueIndex = EntryNotIndexed := by
        rw [m.index]; exact hout p hplt hin
      unfold ExpirationHeap.Update
      dsimp only
      rw [hidx]
      simp [EntryNotIndexed]

theorem heap_index_integrity_witness :
    ExpirationHeap.Operated exampleHeapPopped [3, 0] [1, 2] ∧
      ((∀ i, i < exampleHeapPopped.Len →
          (exampleHeapPopped.deref (exampleHeapPopped.entry i)).queueIndex = (i : Int)) ∧
        (∀ p, p ∈ exampleHeapPopped.entries ↔ p ∈ [3, 0]) ∧
        (∀ p, p ∈ [1, 2] → (exampleHeapPopped.deref p).queueIndex = EntryNotIndexed) ∧
        (∀ p, p ∈ [3, 0] ∨ p ∈ [1, 2] → ∃ h2, exampleHeapPopped.Remove p = some h2) ∧
        (∀ p e, p ∈ [3, 0] ∨ p ∈ [1, 2] →
          ∃ h2, (exampleHeapPopped.setExpireAt p e).Update p = some h2)) :=
  ⟨exampleHeapPopped_operated,
    heap_index_integrity exampleHeapPopped [3, 0] [1, 2] exampleHeapPopped_operated⟩

/-- C19 (heap Remove removes exactly the given entry).  For every heap with
index integrity and every entry e: if e is in the heap, Remove(e) returns,
lowers Len() by one and takes e out of the heap, the calls of First that follow
(repeated until First returns nil) never return e and return every other entry
of the heap, each once; if the index of e is EntryNotIndexed, Remove(e) leaves
the heap as it is. -/
theorem heap_remove_exact (h : ExpirationHeap) (w : h.WF) (e : Nat) :
    (e ∈ h.entries → ∃ h2, h.Remove e = some h2 ∧ h2.Len + 1 = h.Len ∧
        e ∉ h2.entries ∧ e ∉ h2.drain.1 ∧
        (∀ q, q ∈ h.entries → q ≠ e → q ∈ h2.entries ∧ q ∈ h2.drain.1) ∧
        h2.drain.1.Nodup ∧ h2.drain.2.First = (h2.drain.2, none)) ∧
      ((h.deref e).queueIndex = EntryNotIndexed → h.Remove e = some h) := by
  refine ⟨fun he => ?_, fun hidx => ExpirationHeap.Remove_notIndexed h e hidx⟩
  obtain ⟨h2, e2, r⟩ := ExpirationHeap.Remove_removed h w e he
  obtain ⟨p1, p3⟩ := ExpirationHeap.drainLoop_perm h2.entries.length h2 rfl r.wf
  have hne : e ∉ h2.entries := fun hc => ((r.mem e).1 hc).2 rfl
  refine ⟨h2, e2, r.len, hne, fun hc => hne (p1.subset hc), ?_, ?_, ?_⟩
  · intro q hq hqe
    have : q ∈ h2.entries := (r.mem q).2 ⟨hq, hqe⟩
    exact ⟨this, p1.symm.subset this⟩
  · exact (List.Perm.nodup_iff p1).2 r.wf.nodup
  · exact ExpirationHeap.First_empty _ (by
      have : h2.drain.2.entries = [] := p3
      rw [this]; rfl)

theorem heap_remove_exact_witness :
    exampleHeapUpdated.WF ∧
      ((2 ∈ exampleHeapUpdated.entries → ∃ h2, exampleHeapUpdated.Remove 2 = some h2 ∧
          h2.Len + 1 = exampleHeapUpdated.Len ∧ 2 ∉ h2.entries ∧ 2 ∉ h2.drain.1 ∧
          (∀ q, q ∈ exampleHeapUpdated.entries → q ≠ 2 → q ∈ h2.entries ∧ q ∈ h2.drain.1) ∧
          h2.drain.1.Nodup ∧ h2.drain.2.First = (h2.drain.2, none)) ∧
        ((exampleHeapUpdated.deref 2).queueIndex = EntryNotIndexed →
          exampleHeapUpdated.Remove 2 = some exampleHeapUpdated)) :=
  have w : exampleHeapUpdated.WF := by
    unfold ExpirationHeap.WF
    decide
  ⟨w, heap_remove_exact exampleHeapUpdated w 2⟩

/-- C20 (root-changed signal on Add).  For every heap with index integrity and
every new entry e (an entry object that is not in the heap): Add(e) makes one
attempt of the notification when e is at position 0 after the Add and none
otherwise; and when e is at position 0 after an Add to a heap that was not
empty, NextExpiration after the Add sorts strictly before NextExpiration before
the Add (it is not zero, and the old one is zero or later). -/
theorem add_signals_new_root (h : ExpirationHeap) (w : h.WF) (e : Nat)
    (he : e < h.mem.length) (hn : e ∉ h.entries) :
    ((h.Add e).notified = h.notified + 1 ∨ (h.Add e).notified = h.notified) ∧
      ((h.Add e).notified = h.notified + 1 ↔ (h.Add e).entry 0 = e) ∧
      ((h.Add e).entry 0 = e → h.Len ≠ 0 →
        (h.Add e).NextExpiration ≠ 0 ∧
          (h.NextExpiration = 0 ∨ (h.Add e).NextExpiration < h.NextExpiration)) := by
  obtain ⟨x1, x2⟩ := ExpirationHeap.Add_notified h w e he hn
  have a := ExpirationHeap.Add_added h e w he hn
  refine ⟨?_, ?_, ?_⟩
  · by_cases hr : (h.Add e).entry 0 = e
    · exact Or.inl (x1 hr).1
    · exact Or.inr (x2 hr)
  · constructor
    · intro hc
      by_contra hr
      have := x2 hr
      omega
    · intro hr
      exact (x1 hr).1
  · intro hr hl
    have hne : h.entries ≠ [] := fun hc => hl (by simp [ExpirationHeap.Len, hc])
    have hx := (x1 hr).2 hne
    have e1 : (h.Add e).NextExpiration = (h.Add e).exp 0 := by
      unfold ExpirationHeap.NextExpiration ExpirationHeap.exp
      rw [if_neg (by simp only [ExpirationHeap.Len]; rw [a.len]; omega)]
    have e2 : h.NextExpiration = h.exp 0 := by
      unfold ExpirationHeap.NextExpiration ExpirationHeap.exp
      rw [if_neg hl]
    rw [e1, e2]
    unfold expLe at hx
    omega

theorem add_signals_new_root_witness :
    exampleHeapFresh.WF ∧ 1 < exampleHeapFresh.mem.length ∧ 1 ∉ exampleHeapFresh.entries ∧
      (((exampleHeapFresh.Add 1).notified = exampleHeapFresh.notified + 1 ∨
          (exampleHeapFresh.Add 1).notified = exampleHeapFresh.notified) ∧
        ((exampleHeapFresh.Add 1).notified = exampleHeapFresh.notified + 1 ↔
          (exampleHeapFresh.Add 1).entry 0 = 1) ∧
        ((exampleHeapFresh.Add 1).entry 0 = 1 → exampleHeapFresh.Len ≠ 0 →
          (exampleHeapFresh.Add 1).NextExpiration ≠ 0 ∧
            (exampleHeapFresh.NextExpiration = 0 ∨
              (exampleHeapFresh.Add 1).NextExpiration < exampleHeapFresh.NextExpiration))) :=
  have w : exampleHeapFresh.WF := by
    unfold ExpirationHeap.WF
    decide
  ⟨w, by decide, by decide,
    add_signals_new_root exampleHeapFresh w 1 (by decide) (by decide)⟩

/-! ## Claim C11 -/

/-- Failing input for C11: key a is set with ttl 0 on a cache with no global
TTL, then the global TTL is set to 10.  The entry has ttl 0 and the global TTL
is positive, so its effective ttl is 10, yet Touch at instant 5 returns no
error and leaves expireAt at the zero instant, not at 5 + 10. -/
theorem touch_failing_input :
    (NewCache 0).Set 0 "a" (some 1) = some (exampleNoTTL, none) ∧
      exampleNoTTL.SetTTL 10 = (exampleLateTTL, none) ∧
      mapGet exampleLateTTL.items "a" = some 0 ∧ exampleLateTTL.isShutDown = false ∧
      (exampleLateTTL.deref 0).ttl = 0 ∧ exampleLateTTL.ttl = 10 ∧
      (exampleLateTTL.Touch 5 "a").2 = none ∧
      ((exampleLateTTL.Touch 5 "a").1.deref 0).expireAt = 0 ∧
      ((exampleLateTTL.Touch 5 "a").1.deref 0).expireAt ≠ 5 + exampleLateTTL.ttl := by
  refine ⟨rfl, rfl, ?_, rfl, ?_, rfl, ?_, ?_, ?_⟩ <;> decide

/-- Touch on an entry with a positive ttl (the case of C11 that the code gets
right).  For every reachable cache and every key k in its key map, with item
p: Touch(k) at instant now returns no error; the key map is the same; key,
value and ttl of the item are unchanged; if the ttl of the item is positive its
expireAt becomes now + that ttl; if the ttl of the item is zero or negative its
expireAt is left as it was, whatever the global TTL is; no other item and no
configuration changes. -/
theorem touch_resets_positive_ttl (c : Cache) (r : Cache.Reachable c) (now : Int) (k : String)
    (p : Nat) (hp : mapGet c.items k = some p) :
    (c.Touch now k).2 = none ∧ (c.Touch now k).1.items = c.items ∧
      ((c.Touch now k).1.deref p).key = (c.deref p).key ∧
      ((c.Touch now k).1.deref p).data = (c.deref p).data ∧
      ((c.Touch now k).1.deref p).ttl = (c.deref p).ttl ∧
      (0 < (c.deref p).ttl → ((c.Touch now k).1.deref p).expireAt = now + (c.deref p).ttl) ∧
      ((c.deref p).ttl ≤ 0 → ((c.Touch now k).1.deref p).expireAt = (c.deref p).expireAt) ∧
      (∀ q, q ≠ p → (c.Touch now k).1.deref q = c.deref q) ∧
      Cache.SameConfig c (c.Touch now k).1 := by
  have inv := r.reach_inv
  have hlt := inv.lt_mem (inv.2.2 k p hp).1
  rw [Cache.Touch_present c now k p hp]
  have hd : ∀ q, (c.setItem p ((c.deref p).touch now)).deref q =
      if q = p then (c.deref p).touch now else c.deref q :=
    fun q => Cache.deref_setItem c p q _ hlt
  refine ⟨rfl, rfl, ?_, ?_, ?_, ?_, ?_, ?_, ?_⟩
  · rw [hd p, if_pos rfl]; exact Cache.touch_key _ _
  · rw [hd p, if_pos rfl]; unfold item.touch; split_ifs <;> rfl
  · rw [hd p, if_pos rfl]; unfold item.touch; split_ifs <;> rfl
  · intro hpos
    rw [hd p, if_pos rfl]; unfold item.touch; rw [if_pos hpos]
  · intro hle
    rw [hd p, if_pos rfl]; unfold item.touch; rw [if_neg (by omega)]
  · intro q hq
    rw [hd q, if_neg hq]
  · exact ⟨rfl, rfl, rfl, rfl, rfl, rfl, rfl⟩

theorem touch_resets_positive_ttl_witness :
    mapGet exampleSet.items "a" = some 0 ∧
      ((exampleSet.Touch 100 "a").2 = none ∧ (exampleSet.Touch 100 "a").1.items = exampleSet.items ∧
        ((exampleSet.Touch 100 "a").1.deref 0).key = (exampleSet.deref 0).key ∧
        ((exampleSet.Touch 100 "a").1.deref 0).data = (exampleSet.deref 0).data ∧
        ((exampleSet.Touch 100 "a").1.deref 0).ttl = (exampleSet.deref 0).ttl ∧
        (0 < (exampleSet.deref 0).ttl →
          ((exampleSet.Touch 100 "a").1.deref 0).expireAt = 100 + (exampleSet.deref 0).ttl) ∧
        ((exampleSet.deref 0).ttl ≤ 0 →
          ((exampleSet.Touch 100 "a").1.deref 0).expireAt = (exampleSet.deref 0).expireAt) ∧
        (∀ q, q ≠ 0 → (exampleSet.Touch 100 "a").1.deref q = exampleSet.deref q) ∧
        Cache.SameConfig exampleSet (exampleSet.Touch 100 "a").1) :=
  ⟨by decide,
    touch_resets_positive_ttl exampleSet
      (Cache.Reachable.setWithTTL (NewCache 0) 10 "a" (some 7) 50 exampleSet none
        (Cache.Reachable.newCache 0) rfl) 100 "a" 0 (by decide)⟩

/-! ## Claim C12 -/

namespace Cache

theorem ttlToReturn_full (now ttl : Int) (hpos : 0 < ttl) (hmax : ttl ≤ maxDuration) :
    ttlToReturn (now + ttl) now = ttl := by
  unfold ttlToReturn timeUntil
  unfold maxDuration minDuration at *
  norm_num at *
  split_ifs <;> omega

theorem ttlToReturn_before (t0 now ttl : Int) (hpos : 0 < ttl) (hmax : ttl ≤ maxDuration)
    (h0 : t0 ≤ now) :
    ttlToReturn (t0 + ttl) now ≤ ttl ∧ (t0 < now → ttlToReturn (t0 + ttl) now < ttl) := by
  unfold ttlToReturn timeUntil
  unfold maxDuration minDuration at *
  norm_num at *
  split_ifs <;> constructor <;> intros <;> omega

theorem ttlToReturn_le (e now ttl : Int) (hpos : 0 < ttl) (hmax : ttl ≤ maxDuration)
    (h : e ≤ now + ttl) : ttlToReturn e now ≤ ttl := by
  unfold ttlToReturn timeUntil
  unfold maxDuration minDuration at *
  norm_num at *
  split_ifs <;> omega

end Cache

/-- Failing input for C12: key a is set with ttl 100 at instant 0 and set again
with ttl 0 at instant 1, on a cache with no global TTL (its expireAt stays
101); then the global TTL is set to 5, SkipTTLExtensionOnHit(true) is called,
Get(a) at instant 2 gives the entry the ttl 5 without touching it, and
SkipTTLExtensionOnHit(false) is called.  Now the flag is off and the entry has
the positive ttl 5, expireAt 101 and is not expired at instant 3: its
remaining TTL is 98.  GetWithTTL(a) at instant 3 hits it, sets its expireAt to
3 + 5 = 8 and reports the remaining TTL 5, which is less than the remaining TTL
98 just before the call. -/
theorem read_lowers_ttl_failing_input :
    (NewCache 0).SetWithTTL 0 "a" (some 1) 100 = some (exampleLong, none) ∧
      exampleLong.Set 1 "a" (some 1) = some (exampleLongReset, none) ∧
      (exampleLongReset.deref 0).ttl = 0 ∧ (exampleLongReset.deref 0).expireAt = 101 ∧
      exampleLongSkip.ttl = 5 ∧ exampleLongSkip.skipTTLExtension = true ∧
      exampleLongSkip.Get 2 "a" = some (exampleLongRead, some 1, none) ∧
      exampleLongBack.isShutDown = false ∧ exampleLongBack.skipTTLExtension = false ∧
      mapGet exampleLongBack.items "a" = some 0 ∧ (exampleLongBack.deref 0).ttl = 5 ∧
      (exampleLongBack.deref 0).expireAt = 101 ∧
      (exampleLongBack.deref 0).expired 3 = false ∧
      Cache.ttlToReturn (exampleLongBack.deref 0).expireAt 3 = 98 ∧
      exampleLongBack.GetWithTTL 3 "a" = some (exampleLongAgain, some 1, 5, none) ∧
      (exampleLongAgain.deref 0).ttl = 5 ∧ (exampleLongAgain.deref 0).expireAt = 8 ∧
      Cache.ttlToReturn (exampleLongAgain.deref 0).expireAt 3 = 5 ∧
      Cache.ttlToReturn (exampleLongAgain.deref 0).expireAt 3 <
        Cache.ttlToReturn (exampleLongBack.deref 0).expireAt 3 := by
  refine ⟨rfl, rfl, ?_, ?_, rfl, rfl, rfl, rfl, rfl, ?_, ?_, ?_, ?_, ?_, rfl, ?_, ?_, ?_, ?_⟩ <;>
    decide

/-- Touch on read (the cases of C12 that the code gets right).  For every
reachable open cache with
SkipTTLExtensionOnHit false and every key k whose item p has a positive ttl (a
time.Duration) and is not expired at instant now: Get(k) and GetWithTTL(k) at
now return the value with no error; the expireAt of the item is now + ttl
afterwards, so the remaining TTL after the call, which is the one GetWithTTL
reports, is the full ttl; and for an item that was last refreshed at an instant
t0 no later than now (its expireAt was t0 + ttl), the remaining TTL just before
the call is not more than the one after it, and is strictly less when t0 is
before now.  The remaining TTL just before the call is not more than the one
after it in every state reached, with a clock that does not run backwards,
while SkipTTLExtensionOnHit keeps its default. -/
theorem touch_on_read (c : Cache) (r : Cache.Reachable c) (hopen : c.isShutDown = false)
    (hskip : c.skipTTLExtension = false) (now : Int) (k : String) (p : Nat)
    (hp : mapGet c.items k = some p) (hpos : 0 < (c.deref p).ttl)
    (hmax : (c.deref p).ttl ≤ maxDuration) (hne : (c.deref p).expired now = false) :
    ∃ c1, c.GetWithTTL now k = some (c1, (c.deref p).data, (c.deref p).ttl, none) ∧
      c.Get now k = some (c1, (c.deref p).data, none) ∧
      mapGet c1.items k = some p ∧
      (c1.deref p).expireAt = now + (c.deref p).ttl ∧ (c1.deref p).ttl = (c.deref p).ttl ∧
      Cache.ttlToReturn (c1.deref p).expireAt now = (c.deref p).ttl ∧
      (∀ t0, (c.deref p).expireAt = t0 + (c.deref p).ttl → t0 ≤ now →
        Cache.ttlToReturn (c.deref p).expireAt now ≤ Cache.ttlToReturn (c1.deref p).expireAt now ∧
        (t0 < now →
          Cache.ttlToReturn (c.deref p).expireAt now <
            Cache.ttlToReturn (c1.deref p).expireAt now)) ∧
      ∀ T, Cache.DefaultRun T c → T ≤ now →
        Cache.ttlToReturn (c.deref p).expireAt now ≤
          Cache.ttlToReturn (c1.deref p).expireAt now := by
  have inv := r.reach_inv
  obtain ⟨c1, hit, e⟩ := Cache.GetByLoader_hit c now k none p inv hopen hp hne
  have hres : resolvedTTL c.countHit.ttl (c.countHit.deref p).ttl = (c.deref p).ttl := by
    unfold resolvedTTL
    have : (c.countHit.deref p).ttl = (c.deref p).ttl := rfl
    rw [this, if_neg (by omega)]
  have hexp : (c1.deref p).expireAt = now + (c.deref p).ttl := by
    rw [hit.expireAt, hres]
    have : c.countHit.skipTTLExtension = false := hskip
    rw [if_pos ⟨hpos, this⟩]
  have httl : (c1.deref p).ttl = (c.deref p).ttl := by rw [hit.ttl, hres]
  have hdata : (c1.deref p).data = (c.deref p).data := hit.data
  have hfull := Cache.ttlToReturn_full now (c.deref p).ttl hpos hmax
  have e2 : c.GetWithTTL now k =
      some (c1.countRetrieval, (c.deref p).data, (c.deref p).ttl, none) := by
    unfold Cache.GetWithTTL
    rw [e, hdata, hexp, hfull]
  refine ⟨c1.countRetrieval, e2, ?_, ?_, hexp, httl, ?_, ?_, ?_⟩
  · unfold Cache.GetWithTTL at e2
    unfold Cache.Get
    rw [e2]
    rfl
  · have : c1.countRetrieval.items = c.items := hit.items
    rw [this]; exact hp
  · have : (c1.countRetrieval.deref p).expireAt = (c1.deref p).expireAt := rfl
    rw [this, hexp]; exact hfull
  · intro t0 ht0 hle
    have : (c1.countRetrieval.deref p).expireAt = (c1.deref p).expireAt := rfl
    rw [this, hexp, hfull, ht0]
    exact Cache.ttlToReturn_before t0 now (c.deref p).ttl hpos hmax hle
  · intro T d hT
    have : (c1.countRetrieval.deref p).expireAt = (c1.deref p).expireAt := rfl
    rw [this, hexp, hfull]
    have hf := d.fresh.2 p hpos
    exact Cache.ttlToReturn_le _ now _ hpos hmax (by omega)

theorem touch_on_read_witness :
    exampleSet.isShutDown = false ∧ exampleSet.skipTTLExtension = false ∧
      mapGet exampleSet.items "a" = some 0 ∧ 0 < (exampleSet.deref 0).ttl ∧
      (exampleSet.deref 0).ttl ≤ maxDuration ∧ (exampleSet.deref 0).expired 20 = false ∧
      ∃ c1, exampleSet.GetWithTTL 20 "a" =
          some (c1, (exampleSet.deref 0).data, (exampleSet.deref 0).ttl, none) ∧
        exampleSet.Get 20 "a" = some (c1, (exampleSet.deref 0).data, none) ∧
        mapGet c1.items "a" = some 0 ∧
        (c1.deref 0).expireAt = 20 + (exampleSet.deref 0).ttl ∧
        (c1.deref 0).ttl = (exampleSet.deref 0).ttl ∧
        Cache.ttlToReturn (c1.deref 0).expireAt 20 = (exampleSet.deref 0).ttl ∧
        (∀ t0, (exampleSet.deref 0).expireAt = t0 + (exampleSet.deref 0).ttl → t0 ≤ 20 →
          Cache.ttlToReturn (exampleSet.deref 0).expireAt 20 ≤
              Cache.ttlToReturn (c1.deref 0).expireAt 20 ∧
          (t0 < 20 →
            Cache.ttlToReturn (exampleSet.deref 0).expireAt 20 <
              Cache.ttlToReturn (c1.deref 0).expireAt 20)) ∧
        ∀ T, Cache.DefaultRun T exampleSet → T ≤ 20 →
          Cache.ttlToReturn (exampleSet.deref 0).expireAt 20 ≤
            Cache.ttlToReturn (c1.deref 0).expireAt 20 :=
  ⟨rfl, rfl, by decide, by decide, by decide, by decide,
    touch_on_read exampleSet
      (Cache.Reachable.setWithTTL (NewCache 0) 10 "a" (some 7) 50 exampleSet none
        (Cache.Reachable.newCache 0) rfl) rfl rfl 20 "a" 0 (by decide) (by decide) (by decide)
      (by decide)⟩

/-! ## Claims C13 and C14 -/

namespace ExpirationHeap

theorem upLoop_noop (fuel : Nat) (h : ExpirationHeap) (j : Nat)
    (hle : 0 < j → expLe (h.exp ((j - 1) / 2)) (h.exp j)) : upLoop fuel h j = h := by
  cases fuel with
  | zero => rfl
  | succ fuel =>
    unfold upLoop
    simp only
    by_cases hj : j = 0
    · subst hj
      rw [if_pos (Or.inl rfl)]
    · rw [if_pos (Or.inr ((Less_false_iff h j ((j - 1) / 2)).2 (hle (by omega))))]

/-- On a heap in heap order heap.Fix finds nothing to repair. -/
theorem heapFix_noop (h : ExpirationHeap) (i : Nat) (hi : i < h.entries.length)
    (o : Ordered h h.entries.length) : h.heapFix i = h := by
  unfold heapFix down
  dsimp only
  have hd : downLoop h.Len h i h.Len = (h, i) := by
    apply downLoop_noop
    · intro hc
      have := o (2 * i + 1) (by omega) hc
      have e : (2 * i + 1 - 1) / 2 = i := by omega
      rw [e] at this
      exact this
    · intro hc
      have := o (2 * i + 1 + 1) (by omega) hc
      have e : (2 * i + 1 + 1 - 1) / 2 = i := by omega
      rw [e] at this
      exact this
  rw [hd]
  simp only [gt_iff_lt, lt_self_iff_false, decide_False, Bool.false_eq_true, not_false_eq_true,
    if_true]
  unfold up
  exact upLoop_noop i h i (fun hpos => o i hpos hi)

theorem Update_noop (h : ExpirationHeap) (w : h.WF) (e : Nat) (he : e ∈ h.entries)
    (o : Ordered h h.entries.length) : h.Update e = some h := by
  obtain ⟨h0, h1, _⟩ := (w.mem_iff e).1 he
  unfold Update
  dsimp only
  rw [if_pos ⟨h0, by simpa [Len] using h1⟩, heapFix_noop h _ (by omega) o]

end ExpirationHeap

/-- Failing input for C13: keys a (ttl 10) and b (ttl 12) are set at instant 0,
Touch(a) at instant 5 moves the expiration of a to 15 and leaves a at the root
of the heap, above b, whose expiration is 12.  With SkipTTLExtensionOnHit(true),
Get(a) at instant 6 hits and leaves the expireAt of a at 15, but the heap order
changes: b replaces a at the root. -/
theorem skip_extension_failing_input :
    exampleTouched.skipTTLExtension = true ∧ exampleTouched.isShutDown = false ∧
      mapGet exampleTouched.items "a" = some 0 ∧ mapGet exampleTouched.items "b" = some 1 ∧
      (exampleTouched.deref 0).ttl = 10 ∧ (exampleTouched.deref 0).expireAt = 15 ∧
      (exampleTouched.deref 1).expireAt = 12 ∧
      exampleTouched.expirationHeap.entries = [0, 1] ∧
      (exampleTouched.Get 6 "a").map Prod.snd = some (some 1, none) ∧
      (exampleTouchedRead.deref 0).expireAt = 15 ∧
      exampleTouchedRead.expirationHeap.entries = [1, 0] ∧
      exampleTouchedRead.expirationHeap.entries ≠ exampleTouched.expirationHeap.entries := by
  refine ⟨rfl, rfl, ?_, ?_, ?_, ?_, ?_, ?_, ?_, ?_, ?_, ?_⟩ <;> decide

/-- Skip TTL extension on hit, on a heap in heap order (the case of C13 that
the code gets right).  For every reachable open cache with
SkipTTLExtensionOnHit(true) and every key k whose item p has a positive ttl and
is not expired at instant now: Get(k) returns the value with no error, and the
heap (every item with all its fields, and the position of every entry) is the
same after the call when it was in heap order before; in every case the item
keeps its expireAt and its ttl, so GetWithTTL reports the remaining TTL of
before the call, and the same entries are in the heap. -/
theorem skip_extension_when_ordered (c : Cache) (r : Cache.Reachable c)
    (hopen : c.isShutDown = false) (hskip : c.skipTTLExtension = true) (now : Int) (k : String)
    (p : Nat) (hp : mapGet c.items k = some p) (hpos : 0 < (c.deref p).ttl)
    (hne : (c.deref p).expired now = false) :
    ∃ c1, c.GetWithTTL now k =
        some (c1, (c.deref p).data, Cache.ttlToReturn (c.deref p).expireAt now, none) ∧
      c.Get now k = some (c1, (c.deref p).data, none) ∧
      c1.items = c.items ∧
      (c1.deref p).expireAt = (c.deref p).expireAt ∧ (c1.deref p).ttl = (c.deref p).ttl ∧
      (∀ q, q ∈ c1.expirationHeap.entries ↔ q ∈ c.expirationHeap.entries) ∧
      (∀ q, (c1.deref q).core = (c.deref q).core) ∧
      (c.expirationHeap.Ordered c.expirationHeap.entries.length →
        c1.expirationHeap = c.expirationHeap) := by
  have inv := r.reach_inv
  have hin := (inv.2.2 k p hp).1
  obtain ⟨c1, hit, e⟩ := Cache.GetByLoader_hit c now k none p inv hopen hp hne
  have hres : resolvedTTL c.countHit.ttl (c.countHit.deref p).ttl = (c.deref p).ttl := by
    unfold resolvedTTL
    have : (c.countHit.deref p).ttl = (c.deref p).ttl := rfl
    rw [this, if_neg (by omega)]
  have hexp : (c1.deref p).expireAt = (c.deref p).expireAt := by
    rw [hit.expireAt, hres]
    have : c.countHit.skipTTLExtension = true := hskip
    rw [if_neg (by rw [this]; simp)]
    rfl
  have httl : (c1.deref p).ttl = (c.deref p).ttl := by rw [hit.ttl, hres]
  have hdata : (c1.deref p).data = (c.deref p).data := hit.data
  have e2 : c.GetWithTTL now k =
      some (c1.countRetrieval, (c.deref p).data,
        Cache.ttlToReturn (c.deref p).expireAt now, none) := by
    unfold Cache.GetWithTTL
    rw [e, hdata, hexp]
  have hcore : ∀ q, (c1.deref q).core = (c.deref q).core := by
    intro q
    by_cases hq : q = p
    · subst hq
      have hk : (c1.deref q).key = (c.deref q).key := hit.key
      unfold item.core
      rw [hk, hdata, httl, hexp]
    · exact hit.other q hq
  refine ⟨c1.countRetrieval, e2, ?_, hit.items, hexp, httl, hit.entries, hcore, ?_⟩
  · unfold Cache.GetWithTTL at e2
    unfold Cache.Get
    rw [e2]
    rfl
  · intro o
    have hg : c.countHit.getItem now k =
        some (c.countHit, some p, decide (c.countHit.expirationTime > now + (c.deref p).ttl)) := by
      unfold Cache.getItem
      have hp2 : mapGet c.countHit.items k = some p := hp
      rw [hp2]
      dsimp only
      have hne2 : (c.countHit.deref p).expired now = false := hne
      rw [hne2]
      have hrf : c.countHit.getItemRefresh now p = some c.countHit := by
        unfold Cache.getItemRefresh
        have ht : 0 < (c.countHit.deref p).ttl := hpos
        have hs : c.countHit.skipTTLExtension = true := hskip
        rw [if_pos (show (c.countHit.deref p).ttl ≥ 0 ∧
          ((c.countHit.deref p).ttl > 0 ∨ c.countHit.ttl > 0) from ⟨by omega, Or.inl ht⟩)]
        dsimp only
        rw [if_neg (show ¬ (c.countHit.ttl > 0 ∧ (c.countHit.deref p).ttl = 0) from by omega)]
        rw [if_neg (show ¬ ¬ c.countHit.skipTTLExtension = true from by simp [hs])]
        have hu := ExpirationHeap.Update_noop c.expirationHeap inv.1 p hin o
        have : c.countHit.expirationHeap = c.expirationHeap := rfl
        rw [this, hu]
        rfl
      rw [hrf]
      rfl
    have e3 : c.GetByLoader now k none =
        some (c.countHit.countRetrieval, (c.deref p).data,
          Cache.ttlToReturn (c.deref p).expireAt now, none) := by
      unfold Cache.GetByLoader
      rw [if_neg (by rw [hopen]; simp), hg]
      rfl
    rw [e3] at e
    simp only [Option.some.injEq, Prod.mk.injEq] at e
    rw [← e.1]
    rfl

theorem skip_extension_when_ordered_witness :
    exampleSkip.isShutDown = false ∧ exampleSkip.skipTTLExtension = true ∧
      mapGet exampleSkip.items "a" = some 0 ∧ 0 < (exampleSkip.deref 0).ttl ∧
      (exampleSkip.deref 0).expired 20 = false ∧
      exampleSkip.expirationHeap.Ordered exampleSkip.expirationHeap.entries.length ∧
      ∃ c1, exampleSkip.Get 20 "a" = some (c1, some 7, none) ∧
        (c1.deref 0).expireAt = 60 ∧ c1.expirationHeap = exampleSkip.expirationHeap := by
  have o : exampleSkip.expirationHeap.Ordered exampleSkip.expirationHeap.entries.length := by
    intro k hk0 hk
    have : exampleSkip.expirationHeap.entries.length = 1 := by decide
    omega
  obtain ⟨c1, _, h2, _, h4, _, _, _, h8⟩ := skip_extension_when_ordered exampleSkip
    (Cache.Reachable.skipTTLExtensionOnHit exampleSet true
      (Cache.Reachable.setWithTTL (NewCache 0) 10 "a" (some 7) 50 exampleSet none
        (Cache.Reachable.newCache 0) rfl)) rfl rfl 20 "a" 0 (by decide) (by decide) (by decide)
  exact ⟨rfl, rfl, by decide, by decide, by decide, o, c1, h2, h4, h8 o⟩

/-- Failing input for C14: on a new cache, SkipTTLExtensionOnHit(true) and a
check-expiration callback that returns false are set, and key a is set with
ttl 10 at instant 0, so its expireAt is 10.  The expiration sweep at instant 20
evaluates the callback for the expired entry, keeps it and moves its expireAt
forward to 30. -/
theorem skip_on_veto_failing_input :
    exampleVeto.skipTTLExtension = true ∧ exampleVeto.isShutDown = false ∧
      mapGet exampleVeto.items "a" = some 0 ∧ (exampleVeto.deref 0).ttl = 10 ∧
      (exampleVeto.deref 0).expireAt = 10 ∧ (exampleVeto.deref 0).expired 20 = true ∧
      exampleVeto.vetoes 0 = true ∧
      exampleVeto.sweep 20 = some exampleVetoSwept ∧
      mapGet exampleVetoSwept.items "a" = some 0 ∧
      (exampleVetoSwept.deref 0).expireAt = 30 ∧
      (exampleVeto.deref 0).expireAt < (exampleVetoSwept.deref 0).expireAt := by
  refine ⟨rfl, rfl, ?_, ?_, ?_, ?_, ?_, rfl, ?_, ?_, ?_⟩ <;> decide

/-! ## Claim C17 -/

/-- Failing input for C17: keys a (ttl 10) and b (ttl 12) are set at instant 0
and Touch(a) at instant 5 moves the expiration of a to 15 and leaves a at the
root of the heap.  No check-expiration callback is set.  At instant 13 the
entry of b is due (its expireAt is 12), but the expiration sweep stops at the
root a, which is not due: it changes nothing, b is not removed and
EvictedExpired does not grow. -/
theorem expiry_veto_failing_input :
    exampleTouchedOnly.isShutDown = false ∧
      mapGet exampleTouchedOnly.items "b" = some 1 ∧
      exampleTouchedOnly.expirationHeap.entries = [0, 1] ∧
      (exampleTouchedOnly.deref 0).expireAt = 15 ∧
      (exampleTouchedOnly.deref 1).expireAt = 12 ∧
      (exampleTouchedOnly.deref 1).expired 13 = true ∧
      exampleTouchedOnly.vetoes 1 = false ∧
      exampleTouchedOnly.sweep 13 = some exampleTouchedSwept ∧
      mapGet exampleTouchedSwept.items "b" = some 1 ∧
      exampleTouchedSwept.expirationHeap.entries = [0, 1] ∧
      (exampleTouchedSwept.deref 1).expired 13 = true ∧
      exampleTouchedSwept.evictions = [] ∧
      exampleTouchedSwept.metrics.EvictedExpired = exampleTouchedOnly.metrics.EvictedExpired := by
  refine ⟨rfl, ?_, ?_, ?_, ?_, ?_, ?_, rfl, ?_, ?_, ?_, ?_, ?_⟩ <;> decide

/-- The rounds of a sweep follow the veto rule (the part of C17 that holds in
every reachable state).  For every reachable cache, the expiration sweep at
instant now returns, and it is a sequence of rounds on the root of the heap,
which ends when the heap is empty or its root is not due: a due root for which
the check-expiration callback returns false stays in the heap and in the key
map with key, value and ttl unchanged and expireAt renewed to now + its ttl,
and no eviction is counted or reported; a due root for which the callback
returns true, or with no callback set, is removed from the heap, its key is
deleted from the key map, the removal is reported with reason Expired and
EvictedExpired grows by one. -/
theorem sweep_rounds (c : Cache) (r : Cache.Reachable c) (now : Int) :
    ∃ c2, c.sweep now = some c2 ∧ Cache.Swept now c c2 := by
  obtain ⟨c2, e, sw, _⟩ := Cache.sweep_swept c now r.reach_inv
  exact ⟨c2, e, sw⟩

theorem sweep_rounds_witness :
    exampleVetoOne.expirationHeap.entries = [0, 1] ∧
      (exampleVetoOne.deref 0).expired 20 = true ∧ (exampleVetoOne.deref 1).expired 20 = true ∧
      exampleVetoOne.vetoes 0 = true ∧ exampleVetoOne.vetoes 1 = false ∧
      exampleVetoOne.sweep 20 = some exampleVetoOneSwept ∧
      exampleVetoOneSwept.expirationHeap.entries = [0] ∧
      (exampleVetoOneSwept.deref 0).expireAt = 30 ∧
      exampleVetoOneSwept.items = [("a", 0)] ∧
      exampleVetoOneSwept.metrics.EvictedExpired = 1 ∧
      exampleVetoOneSwept.evictions = [("b", EvictionReason.Expired, some 2)] ∧
      ∃ c2, exampleVetoOne.sweep 20 = some c2 ∧ Cache.Swept 20 exampleVetoOne c2 :=
  ⟨by decide, by decide, by decide, by decide, by decide, rfl, by decide, by decide, by decide,
    by decide, by decide,
    sweep_rounds exampleVetoOne
      (Cache.Reachable.setWithTTL exampleVetoA 0 "b" (some 2) 10 exampleVetoOne none
        (Cache.Reachable.setWithTTL
          ((NewCache 0).SetCheckExpirationCallback (some (fun _ v => decide (v ≠ some 1)))) 0
          "a" (some 1) 10 exampleVetoA none
          (Cache.Reachable.setCheckExpirationCallback (NewCache 0) _
            (Cache.Reachable.newCache 0)) rfl) rfl) 20⟩

/-! ## Claims C15 and C16 -/

/-- C15, as stated, fails: SetCacheSizeLimit(-1) is called on a new cache.  The
cache is open, key k is not in it, and the loader exampleLoader returns for k
the value 5 with ttl 100 and no error.  GetByLoader(k, exampleLoader) has no
result: the store of the value through SetWithTTL takes the size check for a
full cache (0 >= -1) and panics on the type assertion of the nil result of Peek
on the empty heap, in the plain call as in the run through the single-flight
group.  The call does not return the value and the value is not stored. -/
theorem loader_no_room_counterexample :
    exampleNoRoom.isShutDown = false ∧ exampleNoRoom.sizeLimit = -1 ∧
      exampleNoRoom.items = [] ∧ exampleNoRoom.expirationHeap.Peek = none ∧
      mapGet exampleNoRoom.items "k" = none ∧ exampleLoader "k" = (some 5, 100, none) ∧
      exampleNoRoom.SetWithTTL 0 "k" (some 5) 100 = none ∧
      exampleNoRoom.GetByLoader 0 "k" (some exampleLoader) = none ∧
      (Flight.start exampleNoRoom).arrive 0 0 "k" (some exampleLoader) =
        some (exampleNoRoomOne, none) ∧
      exampleNoRoomOne.doCall 0 "k" = none ∧ exampleNoRoomOne.receive 0 = none := by
  refine ⟨rfl, rfl, rfl, rfl, rfl, ?_, rfl, rfl, rfl, rfl, rfl⟩
  decide

namespace Cache

/-- Method SetWithTTL with a negative size limit on an empty heap: the size
check takes the cache for full and the type assertion on the nil result of
Peek panics. -/
theorem SetWithTTL_no_room (c : Cache) (inv : c.Inv) (hopen : c.isShutDown = false)
    (hneg : c.sizeLimit < 0) (hempty : c.expirationHeap.entries = []) (now : Int) (k : String)
    (d : Value) (t : Int) : c.SetWithTTL now k d t = none := by
  have hitems : c.items = [] := inv.items_nil hempty
  have hk : mapGet c.items k = none := by rw [hitems]; rfl
  have hm : c.makeRoom = none := by
    unfold makeRoom
    rw [if_pos ⟨by omega, by rw [hitems]; simp only [List.length_nil, Nat.cast_zero]; omega⟩,
      (Peek_none_iff _).2 hempty]
  unfold SetWithTTL
  rw [if_neg (by simp [hopen]), getItem_miss c now k (Or.inl hk)]
  simp only [Option.some_bind, hm, Option.map_none', Option.none_bind]

end Cache

/-- The caches that the amendment of C15 and C16 leaves out.  On every
reachable open cache with a negative size limit and an empty heap, for every
key k and every loader f that returns no error for k, GetByLoader(k, f) has no
result: the store of the loaded value panics. -/
theorem loader_needs_room (c : Cache) (r : Cache.Reachable c) (hopen : c.isShutDown = false)
    (hneg : c.sizeLimit < 0) (hempty : c.expirationHeap.entries = []) (now : Int) (k : String)
    (f : LoaderFunction) (hf : (f k).2.2 = none) : c.GetByLoader now k (some f) = none := by
  have inv := r.reach_inv
  have hitems : c.items = [] := inv.items_nil hempty
  have hk : mapGet c.items k = none := by rw [hitems]; rfl
  have inv2 : c.countHit.countMiss.Inv := inv.congr rfl rfl
  have hset := Cache.SetWithTTL_no_room c.countHit.countMiss inv2 hopen hneg hempty now k
    (f k).1 (f k).2.1
  unfold Cache.GetByLoader
  rw [if_neg (by simp [hopen]), Cache.getItem_miss c.countHit now k (Or.inl hk)]
  simp only [Option.some_bind]
  unfold Cache.invokeLoader
  rcases hfk : f k with ⟨d, t, e⟩
  rw [hfk] at hf hset
  cases e with
  | some err => simp at hf
  | none =>
    dsimp only at hset ⊢
    rw [hset]
    rfl

theorem loader_needs_room_witness :
    exampleNoRoom.sizeLimit < 0 ∧ exampleNoRoom.expirationHeap.entries = [] ∧
      exampleNoRoom.GetByLoader 7 "k" (some exampleLoader) = none :=
  ⟨by decide, rfl, loader_needs_room exampleNoRoom
    (Cache.Reachable.setCacheSizeLimit (NewCache 0) (-1) (Cache.Reachable.newCache 0)) rfl
    (by decide) rfl 7 "k" exampleLoader (by decide)⟩

/-- C15, amended (loader on a miss, single caller).  For every reachable open
cache, key k that is not in its key map and loader f such that the size limit
of the cache is not negative or its heap is not empty when f(k) returns no
error (a negative limit on an empty heap makes the store panic):
GetByLoader(k, f) at instant now returns, and what it returns is what
f(k) returned, data, ttl and error as they are.  If f(k) returned no error the
cache afterwards is the one that SetWithTTL(k, v, ttl) leaves on the cache in
which the miss was counted, it holds k with the value v, and it differs from
what SetWithTTL(k, v, ttl) leaves on the cache before the call in its metrics
only.  If f(k) returned an error the cache is the one in which the miss was
counted: key map and heap are unchanged and k is not in the key map.  In the
run of the call through the single-flight group (the caller arrives, doCall
runs, the caller reads its channel) the loader function is invoked once, and
cache and result are the same. -/
theorem loader_on_miss (c : Cache) (r : Cache.Reachable c) (hopen : c.isShutDown = false)
    (now : Int) (k : String) (hk : mapGet c.items k = none) (f : LoaderFunction)
    (hsize : (f k).2.2 = none → 0 ≤ c.sizeLimit ∨ c.expirationHeap.entries ≠ []) :
    ∃ c2, c.GetByLoader now k (some f) = some (c2, f k) ∧
      ((f k).2.2 = none →
        c.countHit.countMiss.SetWithTTL now k (f k).1 (f k).2.1 = some (c2, none) ∧
        (∃ p, mapGet c2.items k = some p ∧ (c2.deref p).data = (f k).1 ∧
          (c2.deref p).ttl = resolvedTTL c.ttl (f k).2.1) ∧
        ∃ c3 m, c.SetWithTTL now k (f k).1 (f k).2.1 = some (c3, none) ∧
          c2 = c3.withMetrics m) ∧
      ((f k).2.2 ≠ none →
        c2 = c.countHit.countMiss ∧ c2.items = c.items ∧
          c2.expirationHeap = c.expirationHeap ∧ mapGet c2.items k = none) ∧
      ∃ s1 s2, (Flight.start c).arrive now 0 k (some f) = some (s1, none) ∧
        s1.doCall now k = some s2 ∧ s2.invoked = [k] ∧ s2.cache = c2 ∧
        s2.receive 0 = some (f k) := by
  have inv := r.reach_inv
  have inv2 : c.countHit.countMiss.Inv := inv.congr rfl rfl
  obtain ⟨c2, e2, a, b⟩ := Cache.invokeLoader_miss c.countHit.countMiss now k f inv2 hopen hsize hk
  have hg : c.GetByLoader now k (some f) = some (c2, f k) := by
    unfold Cache.GetByLoader
    rw [if_neg (by rw [hopen]; simp)]
    have hgi : c.countHit.getItem now k = some (c.countHit, none, false) :=
      Cache.getItem_miss _ now k (Or.inl hk)
    rw [hgi]
    simp only [Option.some_bind]
    exact e2
  refine ⟨c2, hg, ?_, ?_, ?_⟩
  · intro hnone
    have hset := a hnone
    obtain ⟨_, _, _, p, h1, h2, _, h4, _⟩ :=
      Cache.SetWithTTL_stored c.countHit.countMiss now k (f k).1 (f k).2.1 c2 none inv2 hopen hset
    refine ⟨hset, ⟨p, h1, h2, h4⟩, ?_⟩
    obtain ⟨c1, hm⟩ := Cache.makeRoom_returns c inv (hsize hnone)
    obtain ⟨c3, e3, _, _⟩ :=
      Cache.SetWithTTL_miss_returns c now k (f k).1 (f k).2.1 inv hopen (Or.inl hk) c1 hm
    obtain ⟨m2, e4⟩ := Cache.SetWithTTL_withMetrics c c.countHit.countMiss.metrics now k (f k).1
      (f k).2.1 c3 none e3
    have e5 : c.withMetrics c.countHit.countMiss.metrics = c.countHit.countMiss := rfl
    rw [e5, hset] at e4
    simp only [Option.some.injEq, Prod.mk.injEq, and_true] at e4
    exact ⟨c3, m2, e3, e4⟩
  · intro herr
    have := b herr
    rw [this]
    exact ⟨rfl, rfl, rfl, hk⟩
  · have ha := Flight.arrive_miss (Flight.start c) now 0 k f (some f) hopen hk (Or.inl rfl)
    have hd : (⟨(Flight.start c).cache.countHit.countMiss, (Flight.start c).m,
        (Flight.start c).invoked, (Flight.start c).sent⟩ : Flight).DoChan k f 0 =
        ⟨c.countHit.countMiss, [(k, ⟨f, [0], 0⟩)], [], []⟩ := rfl
    rw [hd] at ha
    refine ⟨_, ⟨c2, [], [k], [(0, f k)]⟩, ha, ?_, rfl, rfl, ?_⟩
    · unfold Flight.doCall
      simp only [flightGet_cons_self]
      rw [e2]
      simp [flightDelete]
    · simp [Flight.receive]

theorem loader_on_miss_witness :
    exampleSet.isShutDown = false ∧ mapGet exampleSet.items "b" = none ∧
      exampleLoader "b" = (some 5, 100, none) ∧
      ((exampleLoader "b").2.2 = none →
        0 ≤ exampleSet.sizeLimit ∨ exampleSet.expirationHeap.entries ≠ []) ∧
      ∃ c2, exampleSet.GetByLoader 20 "b" (some exampleLoader) = some (c2, exampleLoader "b") ∧
        ((exampleLoader "b").2.2 = none →
          exampleSet.countHit.countMiss.SetWithTTL 20 "b" (exampleLoader "b").1
              (exampleLoader "b").2.1 = some (c2, none) ∧
          (∃ p, mapGet c2.items "b" = some p ∧ (c2.deref p).data = (exampleLoader "b").1 ∧
            (c2.deref p).ttl = resolvedTTL exampleSet.ttl (exampleLoader "b").2.1) ∧
          ∃ c3 m, exampleSet.SetWithTTL 20 "b" (exampleLoader "b").1 (exampleLoader "b").2.1 =
              some (c3, none) ∧ c2 = c3.withMetrics m) ∧
        ((exampleLoader "b").2.2 ≠ none →
          c2 = exampleSet.countHit.countMiss ∧ c2.items = exampleSet.items ∧
            c2.expirationHeap = exampleSet.expirationHeap ∧ mapGet c2.items "b" = none) ∧
        ∃ s1 s2, (Flight.start exampleSet).arrive 20 0 "b" (some exampleLoader) = some (s1, none) ∧
          s1.doCall 20 "b" = some s2 ∧ s2.invoked = ["b"] ∧ s2.cache = c2 ∧
          s2.receive 0 = some (exampleLoader "b") :=
  ⟨rfl, by decide, by decide, fun _ => Or.inl (by decide),
    loader_on_miss exampleSet
      (Cache.Reachable.setWithTTL (NewCache 0) 10 "a" (some 7) 50 exampleSet none
        (Cache.Reachable.newCache 0) rfl) rfl 20 "b" (by decide)
      exampleLoader (fun _ => Or.inl (by decide))⟩

/-- C16, as stated, fails: on a new cache SetCacheSizeLimit(-1) is called and
the loader exampleLoader is set, which returns for k the value 5 with ttl 100
and no error.  Two calls of Get(k) arrive and wait; the one call of the loader
in flight has no result, because the store of the loaded value panics (size
check on a negative limit, nil result of Peek on the empty heap): nothing is
sent and neither caller receives a value. -/
theorem dedup_no_room_counterexample :
    exampleNoRoomLoading.isShutDown = false ∧
      exampleNoRoomLoading.loaderFunction = some exampleLoader ∧
      mapGet exampleNoRoomLoading.items "k" = none ∧
      exampleLoader "k" = (some 5, 100, none) ∧
      (Flight.start exampleNoRoomLoading).arriveAll "k" [(0, 0), (1, 1)] =
        some (exampleNoRoomTwo, [none, none]) ∧
      exampleNoRoomTwo.invoked = [] ∧ exampleNoRoomTwo.doCall 2 "k" = none ∧
      exampleNoRoomTwo.receive 0 = none ∧ exampleNoRoomTwo.receive 1 = none := by
  refine ⟨rfl, rfl, rfl, ?_, rfl, rfl, rfl, rfl, rfl⟩
  decide

/-- C16, amended (loader deduplication).  For every reachable open cache with
the loader function f and key k that is not in its key map, such that the size
limit of the cache is not negative or its heap is not empty when f(k) returns
no error, and K >= 1 calls of Get(k), given by their
channels and the instants at which they arrive: when all K calls arrive before
the call of the loader in flight finishes, every one of them waits (none returns before), no
loader function was invoked yet, and when the call in flight finishes, at
instant now, the loader function was invoked exactly once, no call is in flight
any more, and every one of the K callers reads from its channel the same
result, which is what that invocation f(k) returned, data, ttl and error; the
value is stored under k when f(k) returned no error, and the key map is
unchanged when it returned an error. -/
theorem loader_deduplication (c : Cache) (r : Cache.Reachable c) (hopen : c.isShutDown = false)
    (k : String) (f : LoaderFunction)
    (hsize : (f k).2.2 = none → 0 ≤ c.sizeLimit ∨ c.expirationHeap.entries ≠ [])
    (hl : c.loaderFunction = some f) (hk : mapGet c.items k = none)
    (callers : List (Nat × Int)) (hK : 1 ≤ callers.length) (now : Int) :
    ∃ s1 s2, (Flight.start c).arriveAll k callers = some (s1, callers.map (fun _ => none)) ∧
      s1.invoked = [] ∧ s1.doCall now k = some s2 ∧ s2.invoked = [k] ∧ s2.m = [] ∧
      (∀ ch, ch ∈ callers.map Prod.fst → s2.receive ch = some (f k)) ∧
      ((f k).2.2 = none →
        ∃ p, mapGet s2.cache.items k = some p ∧ (s2.cache.deref p).data = (f k).1) ∧
      ((f k).2.2 ≠ none → s2.cache.items = c.items) := by
  have inv := r.reach_inv
  have hne : callers ≠ [] := by
    intro hc
    rw [hc] at hK
    simp at hK
  obtain ⟨s1, e1, x1, x2, x3, x4, x5, x6⟩ := Flight.arriveAll_start c k f callers hne hopen hk hl
  have inv1 : s1.cache.Inv := inv.congr x5 x4
  have hopen1 : s1.cache.isShutDown = false := by rw [x6.2.2.2.2.1]; exact hopen
  have hsize1 : (f k).2.2 = none →
      0 ≤ s1.cache.sizeLimit ∨ s1.cache.expirationHeap.entries ≠ [] := by
    intro hnone
    rw [x6.2.2.2.2.2.2, x5]; exact hsize hnone
  have hk1 : mapGet s1.cache.items k = none := by rw [x4]; exact hk
  obtain ⟨c2, e2, a, b⟩ := Cache.invokeLoader_miss s1.cache now k f inv1 hopen1 hsize1 hk1
  have hdo : s1.doCall now k =
      some ⟨c2, [], [k], (callers.map Prod.fst).map (fun ch => (ch, f k))⟩ := by
    unfold Flight.doCall
    rw [x1]
    simp only [flightGet_cons_self]
    rw [e2, x2, x3]
    simp [flightDelete]
  refine ⟨s1, _, e1, x2, hdo, rfl, rfl, ?_, ?_, ?_⟩
  · intro ch hch
    exact find_sent _ (f k) ch hch
  · intro hnone
    obtain ⟨_, _, _, p, h1, h2, _⟩ :=
      Cache.SetWithTTL_stored s1.cache now k (f k).1 (f k).2.1 c2 none inv1 hopen1 (a hnone)
    exact ⟨p, h1, h2⟩
  · intro herr
    show c2.items = c.items
    rw [b herr]
    exact x4

theorem loader_deduplication_witness :
    exampleLoading.isShutDown = false ∧
      ((exampleLoader "b").2.2 = none →
        0 ≤ exampleLoading.sizeLimit ∨ exampleLoading.expirationHeap.entries ≠ []) ∧
      exampleLoading.loaderFunction = some exampleLoader ∧
      mapGet exampleLoading.items "b" = none ∧ 1 ≤ [(0, (20 : Int)), (1, 21), (2, 22)].length ∧
      ∃ s1 s2, (Flight.start exampleLoading).arriveAll "b" [(0, 20), (1, 21), (2, 22)] =
          some (s1, [(0, (20 : Int)), (1, 21), (2, 22)].map (fun _ => none)) ∧
        s1.invoked = [] ∧ s1.doCall 30 "b" = some s2 ∧ s2.invoked = ["b"] ∧ s2.m = [] ∧
        (∀ ch, ch ∈ [(0, (20 : Int)), (1, 21), (2, 22)].map Prod.fst →
          s2.receive ch = some (exampleLoader "b")) ∧
        ((exampleLoader "b").2.2 = none →
          ∃ p, mapGet s2.cache.items "b" = some p ∧
            (s2.cache.deref p).data = (exampleLoader "b").1) ∧
        ((exampleLoader "b").2.2 ≠ none → s2.cache.items = exampleLoading.items) :=
  ⟨rfl, fun _ => Or.inl (by decide), rfl, by decide, by decide,
    loader_deduplication exampleLoading
      (Cache.Reachable.setLoaderFunction exampleSet (some exampleLoader)
        (Cache.Reachable.setWithTTL (NewCache 0) 10 "a" (some 7) 50 exampleSet none
          (Cache.Reachable.newCache 0) rfl)) rfl "b" exampleLoader
      (fun _ => Or.inl (by decide)) rfl (by decide)
      [(0, 20), (1, 21), (2, 22)] (by decide) 30⟩

/-! ## Sweeps of a heap in heap order -/

namespace ExpirationHeap

theorem Update_ordered (h0 h : ExpirationHeap) (p : Nat) (w : h0.WF)
    (o : Ordered h0 h0.entries.length) (hin : p ∈ h0.entries) (m : Modified h0 p h) :
    ∃ h2, h.Update p = some h2 ∧ Shuffle h h2 ∧ Ordered h2 h2.entries.length := by
  have w1 := m.wf w
  have hin1 : p ∈ h.entries := by rw [m.entries]; exact hin
  obtain ⟨h3, e3, s⟩ := Update_shuffle h w1 p hin1
  obtain ⟨a0, a1, a2⟩ := (w.mem_iff p).1 hin
  have pre := m.fixPre w (h0.deref p).queueIndex.toNat (by omega) a2 o
  have hidx : (h.deref p).queueIndex = (h0.deref p).queueIndex := m.index
  have hfix := heapFix_ordered h (h0.deref p).queueIndex.toNat (by rw [m.entries]; omega) pre
  have e : h.Update p = some (h.heapFix (h0.deref p).queueIndex.toNat) := by
    unfold Update
    dsimp only
    rw [hidx, if_pos ⟨a0, by simp only [Len]; rw [m.entries]; exact a1⟩]
  rw [e3] at e
  simp only [Option.some.injEq] at e
  refine ⟨h3, e3, s, ?_⟩
  rw [s.len, e]
  exact hfix

theorem Remove_ordered (h : ExpirationHeap) (p : Nat) (w : h.WF)
    (o : Ordered h h.entries.length) (hin : p ∈ h.entries) :
    ∃ h2, h.Remove p = some h2 ∧ Removed h p h2 ∧ Ordered h2 h2.entries.length := by
  obtain ⟨h3, e3, r⟩ := Remove_removed h w p hin
  obtain ⟨a0, a1, _⟩ := (w.mem_iff p).1 hin
  have hrem := heapRemove_ordered h (h.deref p).queueIndex.toNat (by omega) o
  have e : h.Remove p = some (h.heapRemove (h.deref p).queueIndex.toNat).1 := by
    unfold Remove
    dsimp only
    rw [if_pos (by simp only [EntryNotIndexed]; omega), if_pos ⟨a0, by simpa [Len] using a1⟩]
  rw [e3] at e
  simp only [Option.some.injEq] at e
  refine ⟨h3, e3, r, ?_⟩
  have hl := r.len
  have e2 : h3.entries.length = h.entries.length - 1 := by omega
  rw [e2, e]
  exact hrem

end ExpirationHeap

namespace Cache

theorem removeItem_heap (c : Cache) (p : Nat) (r : EvictionReason) (c2 : Cache)
    (h : c.removeItem p r = some c2) : c.expirationHeap.Remove p = some c2.expirationHeap := by
  unfold removeItem at h
  simp only [Option.map_eq_some'] at h
  obtain ⟨h2, e2, e3⟩ := h
  have : ((c.withMetrics (countEviction c.metrics r)).logEviction p r).expirationHeap =
      c.expirationHeap := rfl
  rw [this] at e2
  rw [e2, ← e3]
  rfl

/-- On a sound heap whose root is not due no entry is due. -/
theorem Sound.none_due {c : Cache} (hs : c.Sound) (now : Int)
    (hroot : ∀ p, c.expirationHeap.Peek = some p → (c.deref p).expired now = false) :
    ∀ q, q ∈ c.expirationHeap.entries → (c.deref q).expired now = false := by
  intro q hq
  obtain ⟨k, hk, ek⟩ := (ExpirationHeap.mem_entries_iff _ q).1 hq
  have hl : 0 < c.expirationHeap.entries.length := by omega
  have hpeek := ExpirationHeap.Peek_eq c.expirationHeap hl
  have hr := hroot _ hpeek
  have hrin : c.expirationHeap.entry 0 ∈ c.expirationHeap.entries :=
    (ExpirationHeap.mem_entries_iff _ _).2 ⟨0, hl, rfl⟩
  by_contra hcon
  have hex : (c.deref q).expired now = true := by simpa using hcon
  have hq1 := expired_ttl_pos _ _ hex
  have hq2 : (c.deref q).expireAt < now := by
    unfold item.expired at hex
    rw [if_neg (by omega)] at hex
    simpa using hex
  have hq3 : (c.deref q).expireAt ≠ 0 := fun e => by
    have := (hs.2 q hq).1 e
    omega
  rcases hs.1.root_le k hk with x | x
  · unfold ExpirationHeap.exp at x
    rw [ek] at x
    unfold expLe at x
    have x1 : (c.deref (c.expirationHeap.entry 0)).expireAt ≠ 0 ∧
        (c.deref (c.expirationHeap.entry 0)).expireAt ≤ (c.deref q).expireAt := by
      rcases x with x | x
      · exact absurd x hq3
      · exact x
    have hrt : 0 < (c.deref (c.expirationHeap.entry 0)).ttl := by
      by_contra hc
      exact x1.1 ((hs.2 _ hrin).2 (by omega))
    unfold item.expired at hr
    rw [if_neg (by omega)] at hr
    simp only [decide_eq_false_iff_not, not_lt] at hr
    omega
  · rw [x] at ek
    rw [ek, hex] at hr
    cases hr

theorem Handled.transfer {now : Int} {c c1 c2 : Cache} {q : Nat} (cf : SameConfig c c1)
    (hc : (c1.deref q).core = (c.deref q).core) (h : Handled now c1 c2 q) :
    Handled now c c2 q := by
  have hf := item_core_fields _ _ hc
  have hex := item_expired_core _ _ hc now
  have hv := vetoes_congr cf hc
  rcases h with ⟨a, b⟩ | ⟨a, b1, b2, b3, b4, b5, b6⟩ | ⟨a, b1, b2, b3⟩
  · exact Or.inl ⟨a, b.trans hc⟩
  · right; left
    refine ⟨a, by rw [← hex]; exact b1, by rw [← hv]; exact b2, by rw [b3, hf.1],
      by rw [b4, hf.2.1], by rw [b5, hf.2.2.1], by rw [b6, hf.2.2.1]⟩
  · right; right
    refine ⟨a, by rw [← hex]; exact b1, by rw [← hv]; exact b2, ?_⟩
    rw [← hf.1, ← hf.2.1]
    exact b3

/-- The loop of cleanjob on a sound heap: it returns, the heap is sound after
it and holds no due entry, and every due entry of the heap was handled as the
veto rule says. -/
theorem cleanLoop_handled (fuel : Nat) (c : Cache) (now : Int) (inv : c.Inv) (hs : c.Sound)
    (h0 : 0 ≤ now)
    (hf : c.expirationHeap.entries.countP (fun q => (c.deref q).expired now) ≤ fuel) :
    ∃ c2, cleanLoop fuel c now = some c2 ∧ c2.Inv ∧ c2.Sound ∧
      (∀ q, q ∈ c2.expirationHeap.entries → q ∈ c.expirationHeap.entries) ∧
      (∀ e, e ∈ c.evictions → e ∈ c2.evictions) ∧
      (∀ q, q ∈ c2.expirationHeap.entries → (c2.deref q).expired now = false) ∧
      ∀ q, q ∈ c.expirationHeap.entries → Handled now c c2 q := by
  have stop : (∀ p, c.expirationHeap.Peek = some p → (c.deref p).expired now = false) →
      c.Inv ∧ c.Sound ∧
      (∀ q, q ∈ c.expirationHeap.entries → q ∈ c.expirationHeap.entries) ∧
      (∀ e, e ∈ c.evictions → e ∈ c.evictions) ∧
      (∀ q, q ∈ c.expirationHeap.entries → (c.deref q).expired now = false) ∧
      ∀ q, q ∈ c.expirationHeap.entries → Handled now c c q :=
    fun hroot => ⟨inv, hs, fun _ h => h, fun _ h => h, hs.none_due now hroot,
      fun q hq => Or.inl ⟨hq, rfl⟩⟩
  induction fuel generalizing c with
  | zero =>
    unfold cleanLoop
    cases hp : c.expirationHeap.Peek with
    | none => exact ⟨c, rfl, stop (fun p hc => by rw [hp] at hc; cases hc)⟩
    | some p =>
      dsimp only
      have hin := ExpirationHeap.Peek_mem _ _ hp
      by_cases hex : (c.deref p).expired now = true
      · exfalso
        have : 0 < c.expirationHeap.entries.countP (fun q => (c.deref q).expired now) :=
          List.countP_pos_iff.2 ⟨p, hin, hex⟩
        omega
      · rw [if_pos hex]
        refine ⟨c, rfl, stop (fun q hq => ?_)⟩
        rw [hp] at hq
        cases hq
        simpa using hex
  | succ fuel ih =>
    unfold cleanLoop
    cases hp : c.expirationHeap.Peek with
    | none => exact ⟨c, rfl, stop (fun p hc => by rw [hp] at hc; cases hc)⟩
    | some p =>
      dsimp only
      have hin := ExpirationHeap.Peek_mem _ _ hp
      by_cases hex : (c.deref p).expired now = true
      · rw [if_neg (by simp [hex])]
        have hpos := expired_ttl_pos _ _ hex
        by_cases hv : c.vetoes p = true
        · rw [if_pos hv]
          obtain ⟨h3, e3, v, hm⟩ := vetoRound_spec c p now inv hin hex
          have m := setItem_modified c p ((c.deref p).touch now) (touch_queueIndex _ _)
          obtain ⟨h4, e4, _, o4⟩ := ExpirationHeap.Update_ordered c.expirationHeap
            (c.setItem p ((c.deref p).touch now)).expirationHeap p inv.1 hs.1 hin m
          rw [e3] at e4
          simp only [Option.some.injEq] at e4
          rw [e3]
          simp only [Option.map_some', Option.some_bind]
          have hs1 : ((c.setItem p ((c.deref p).touch now)).withHeap h3).Sound := by
            refine ⟨by rw [e4]; exact o4, fun q hq => ?_⟩
            by_cases hqp : q = p
            · subst hqp
              rw [v.expireAt_eq, v.ttl_eq]
              constructor <;> intro hc <;> omega
            · have hq1 := (v.entries q).1 hq
              have hf := item_core_fields _ _ (v.other q hqp)
              rw [hf.2.2.1, hf.2.2.2]
              exact hs.2 q hq1
          have hnex : (((c.setItem p ((c.deref p).touch now)).withHeap h3).deref p).expired now =
              false := by
            unfold item.expired
            rw [v.ttl_eq, v.expireAt_eq, if_neg (by omega)]
            simp only [decide_eq_false_iff_not, not_lt]
            omega
          obtain ⟨c2, e2, i2, s2, sub2, ev2, nd2, hd2⟩ := ih _ v.inv hs1 (by omega)
            (fun hroot => ⟨v.inv, hs1, fun _ h => h, fun _ h => h, hs1.none_due now hroot,
              fun q hq => Or.inl ⟨hq, rfl⟩⟩)
          refine ⟨c2, e2, i2, s2, fun q hq => (v.entries q).1 (sub2 q hq),
            fun e he => ev2 e (by rw [v.evictions]; exact he), nd2, fun q hq => ?_⟩
          have hq1 := (v.entries q).2 hq
          by_cases hqp : q = p
          · subst hqp
            rcases hd2 q hq1 with ⟨a, b⟩ | ⟨_, b1, _⟩ | ⟨_, b1, _⟩
            · right; left
              have hf := item_core_fields _ _ b
              exact ⟨a, hex, hv, by rw [hf.1, v.key_eq], by rw [hf.2.1, v.data_eq],
                by rw [hf.2.2.1, v.ttl_eq], by rw [hf.2.2.2, v.expireAt_eq]⟩
            · rw [hnex] at b1; cases b1
            · rw [hnex] at b1; cases b1
          · exact (hd2 q hq1).transfer v.config (v.other q hqp)
        · rw [if_neg hv]
          have hv2 : c.vetoes p = false := by simpa using hv
          obtain ⟨c1, e1, x, hme, hm⟩ := expireRound_spec c p now inv hin hex
          obtain ⟨h4, e4, _, o4⟩ := ExpirationHeap.Remove_ordered c.expirationHeap p inv.1 hs.1 hin
          have e5 := removeItem_heap c p EvictionReason.Expired c1 e1
          rw [e4] at e5
          simp only [Option.some.injEq] at e5
          rw [e1]
          simp only [Option.some_bind]
          have hcore : ∀ q, (c1.deref q).core = (c.deref q).core := x.heap.core.2
          have hs1 : c1.Sound := by
            refine ⟨by rw [← e5]; exact o4, fun q hq => ?_⟩
            have hf := item_core_fields _ _ (hcore q)
            rw [hf.2.2.1, hf.2.2.2]
            exact hs.2 q ((x.heap.mem q).1 hq).1
          obtain ⟨c2, e2, i2, s2, sub2, ev2, nd2, hd2⟩ := ih _ x.inv hs1 (by omega)
            (fun hroot => ⟨x.inv, hs1, fun _ h => h, fun _ h => h, hs1.none_due now hroot,
              fun q hq => Or.inl ⟨hq, rfl⟩⟩)
          refine ⟨c2, e2, i2, s2, fun q hq => ((x.heap.mem q).1 (sub2 q hq)).1,
            fun e he => ev2 e (by rw [x.evictions]; exact List.mem_append_left _ he), nd2,
            fun q hq => ?_⟩
          by_cases hqp : q = p
          · subst hqp
            right; right
            refine ⟨fun hc => ((x.heap.mem q).1 (sub2 q hc)).2 rfl, hex, hv2, ev2 _ ?_⟩
            rw [x.evictions]
            exact List.mem_append_right _ (List.mem_singleton.2 rfl)
          · exact (hd2 q ((x.heap.mem q).2 ⟨hq, hqp⟩)).transfer x.config (hcore q)
      · rw [if_pos hex]
        refine ⟨c, rfl, stop (fun q hq => ?_)⟩
        rw [hp] at hq
        cases hq
        simpa using hex

end Cache

/-- The veto rule for every due entry, on a sound heap (the case of C17 that
the code gets right).  For every reachable cache whose heap is in heap order
and whose entries have the zero expiration exactly when their ttl is not
positive, and every instant now that is not before the zero instant: the
expiration sweep returns, leaves such a heap, and leaves no due entry in it;
every entry that was due and for which the check-expiration callback returns
false is still in the heap, with key, value and ttl unchanged and expireAt =
now + its ttl; every entry that was due and for which the callback returns
true, or no callback is set, is out of the heap and its removal was reported
with reason Expired. -/
theorem sweep_handles_every_due (c : Cache) (r : Cache.Reachable c) (hs : c.Sound) (now : Int)
    (h0 : 0 ≤ now) :
    ∃ c2, c.sweep now = some c2 ∧ c2.Sound ∧
      (∀ q, q ∈ c2.expirationHeap.entries → (c2.deref q).expired now = false) ∧
      ∀ q, q ∈ c.expirationHeap.entries → (c.deref q).expired now = true →
        (c.vetoes q = true →
          q ∈ c2.expirationHeap.entries ∧ (c2.deref q).key = (c.deref q).key ∧
          (c2.deref q).data = (c.deref q).data ∧ (c2.deref q).ttl = (c.deref q).ttl ∧
          (c2.deref q).expireAt = now + (c.deref q).ttl) ∧
        (c.vetoes q = false →
          q ∉ c2.expirationHeap.entries ∧
          ((c.deref q).key, EvictionReason.Expired, (c.deref q).data) ∈ c2.evictions) := by
  have inv := r.reach_inv
  have key : ∃ c2, c.sweep now = some c2 ∧ c2.Sound ∧
      (∀ q, q ∈ c2.expirationHeap.entries → (c2.deref q).expired now = false) ∧
      ∀ q, q ∈ c.expirationHeap.entries → Cache.Handled now c c2 q := by
    unfold Cache.sweep
    split_ifs with hl
    · have hroot : ∀ p, c.expirationHeap.Peek = some p → (c.deref p).expired now = false := by
        intro p hp
        unfold ExpirationHeap.Peek at hp
        rw [if_pos hl] at hp
        cases hp
      exact ⟨c, rfl, hs, hs.none_due now hroot, fun q hq => Or.inl ⟨hq, rfl⟩⟩
    · unfold Cache.cleanjob
      obtain ⟨c2, e2, _, s2, _, _, nd2, hd2⟩ :=
        Cache.cleanLoop_handled _ c now inv hs h0 (List.countP_le_length _)
      exact ⟨c2, e2, s2, nd2, hd2⟩
  obtain ⟨c2, e2, s2, nd2, hd2⟩ := key
  refine ⟨c2, e2, s2, nd2, fun q hq hex => ?_⟩
  rcases hd2 q hq with ⟨a, b⟩ | ⟨a, _, b2, b3, b4, b5, b6⟩ | ⟨a, _, b2, b3⟩
  · exfalso
    have := nd2 q a
    rw [item_expired_core _ _ b now, hex] at this
    cases this
  · exact ⟨fun _ => ⟨a, b3, b4, b5, b6⟩, fun hc => by rw [b2] at hc; cases hc⟩
  · exact ⟨fun hc => (by rw [b2] at hc; cases hc), fun _ => ⟨a, b3⟩⟩

theorem sweep_handles_every_due_witness :
    exampleVetoOne.Sound ∧
      ∃ c2, exampleVetoOne.sweep 20 = some c2 ∧ c2.Sound ∧
        (∀ q, q ∈ c2.expirationHeap.entries → (c2.deref q).expired 20 = false) := by
  have hs : exampleVetoOne.Sound := by
    constructor
    · intro k hk0 hk
      have hl : exampleVetoOne.expirationHeap.entries.length = 2 := by decide
      have hk1 : k = 1 := by omega
      subst hk1
      unfold expLe
      decide
    · intro q hq
      have e : exampleVetoOne.expirationHeap.entries = [0, 1] := by decide
      rw [e] at hq
      simp only [List.mem_cons, List.mem_singleton, List.not_mem_nil, or_false] at hq
      rcases hq with rfl | rfl <;> decide
  obtain ⟨c2, e2, s2, nd2, _⟩ := sweep_handles_every_due exampleVetoOne
    (Cache.Reachable.setWithTTL exampleVetoA 0 "b" (some 2) 10 exampleVetoOne none
      (Cache.Reachable.setWithTTL
        ((NewCache 0).SetCheckExpirationCallback (some (fun _ v => decide (v ≠ some 1)))) 0
        "a" (some 1) 10 exampleVetoA none
        (Cache.Reachable.setCheckExpirationCallback (NewCache 0) _
          (Cache.Reachable.newCache 0)) rfl) rfl) hs 20 (by decide)
  exact ⟨hs, c2, e2, s2, nd2⟩

/-! ## Claim C21 -/

/-- Failing input for C21: Get of a key that is not in a new cache, at instant
0.  The call returns ErrNotFound; it is a retrieval attempt that found nothing,
yet Retrievals stays 0 and Hits grows to 1 (Misses grows to 1).  GetWithTTL is
the same call and counts the same. -/
theorem metrics_failing_input :
    (NewCache 0).isShutDown = false ∧ mapGet (NewCache 0).items "a" = none ∧
      (NewCache 0).metrics = ⟨0, 0, 0, 0, 0, 0, 0⟩ ∧
      (NewCache 0).Get 0 "a" = some (exampleMissRead, none, some GoError.ErrNotFound) ∧
      (NewCache 0).GetWithTTL 0 "a" = some (exampleMissRead, none, 0, some GoError.ErrNotFound) ∧
      (NewCache 0).GetByLoader 0 "a" none =
        some (exampleMissRead, none, 0, some GoError.ErrNotFound) ∧
      exampleMissRead.metrics.Retrievals = 0 ∧ exampleMissRead.metrics.Hits = 1 ∧
      exampleMissRead.metrics.Misses = 1 ∧
      exampleMissRead.metrics.Retrievals ≠ (NewCache 0).metrics.Retrievals + 1 ∧
      exampleMissRead.metrics.Hits ≠ (NewCache 0).metrics.Hits := by
  refine ⟨rfl, rfl, rfl, rfl, rfl, rfl, ?_, ?_, ?_, ?_, ?_⟩ <;> decide

namespace Cache

theorem EvictStep.counters {c1 c2 : Cache} (x : EvictStep c1 c2) :
    c2.metrics.Retrievals = c1.metrics.Retrievals ∧ c2.metrics.Hits = c1.metrics.Hits ∧
      c2.metrics.Misses = c1.metrics.Misses := by
  rcases x with ⟨_, rfl⟩ | ⟨_, root, _, ir⟩
  · exact ⟨rfl, rfl, rfl⟩
  · rw [ir.metrics]
    exact ⟨rfl, rfl, rfl⟩

/-- Method invokeLoader for a key that getItem does not find returns, and it
leaves the counters Retrievals, Hits and Misses alone. -/
theorem invokeLoader_counters (c : Cache) (now : Int) (k : String) (f : LoaderFunction)
    (inv : c.Inv) (hopen : c.isShutDown = false)
    (hs : 0 ≤ c.sizeLimit ∨ c.expirationHeap.entries ≠ [])
    (hmiss : mapGet c.items k = none ∨
      ∃ p, mapGet c.items k = some p ∧ (c.deref p).expired now = true) :
    ∃ c2 res, c.invokeLoader now k f = some (c2, res) ∧
      c2.metrics.Retrievals = c.metrics.Retrievals ∧ c2.metrics.Hits = c.metrics.Hits ∧
      c2.metrics.Misses = c.metrics.Misses := by
  unfold invokeLoader
  rcases hfk : f k with ⟨d, t, e⟩
  cases e with
  | some err => exact ⟨c, _, rfl, rfl, rfl, rfl⟩
  | none =>
    dsimp only
    obtain ⟨c1, hm⟩ := makeRoom_returns c inv hs
    obtain ⟨c2, e2, x, ins⟩ := SetWithTTL_miss_returns c now k d t inv hopen hmiss c1 hm
    rw [e2]
    refine ⟨c2, _, rfl, ?_⟩
    have h1 := x.counters
    rw [ins.metrics]
    exact h1

end Cache

/-- What a read counts (C21: the hit case and the counter Misses are as the
claim says; on a miss the counters Hits and Retrievals are not).  For every
reachable open cache whose size limit is not negative or whose heap is not
empty, every key k, every instant now and every loader argument (none is the
nil loader; Get and GetWithTTL are GetByLoader with the nil loader):
GetByLoader returns.  If the key map holds an item for k that is not expired
at now, the call returns no error, and Retrievals and Hits grow by one each and
Misses is unchanged.  Otherwise Misses and Hits grow by one each and Retrievals
is unchanged. -/
theorem get_counters (c : Cache) (r : Cache.Reachable c) (hopen : c.isShutDown = false)
    (hsize : 0 ≤ c.sizeLimit ∨ c.expirationHeap.entries ≠ []) (now : Int) (k : String)
    (l : Option LoaderFunction) :
    ∃ c2 res, c.GetByLoader now k l = some (c2, res) ∧
      ((∃ p, mapGet c.items k = some p ∧ (c.deref p).expired now = false) →
        res.2.2 = none ∧ c2.metrics.Retrievals = c.metrics.Retrievals + 1 ∧
        c2.metrics.Hits = c.metrics.Hits + 1 ∧ c2.metrics.Misses = c.metrics.Misses) ∧
      ((¬ ∃ p, mapGet c.items k = some p ∧ (c.deref p).expired now = false) →
        c2.metrics.Retrievals = c.metrics.Retrievals ∧
        c2.metrics.Hits = c.metrics.Hits + 1 ∧ c2.metrics.Misses = c.metrics.Misses + 1) := by
  have inv := r.reach_inv
  rcases Cache.expired_cases c now k with hmiss | ⟨p, hp, hne⟩
  · have hnot : ¬ ∃ p, mapGet c.items k = some p ∧ (c.deref p).expired now = false := by
      rintro ⟨p, hp, hne⟩
      rcases hmiss with h | ⟨q, hq, hx⟩
      · rw [h] at hp; cases hp
      · rw [hq] at hp
        cases hp
        rw [hx] at hne
        cases hne
    have inv2 : c.countHit.countMiss.Inv := inv.congr rfl rfl
    have key : ∃ c2 res, c.GetByLoader now k l = some (c2, res) ∧
        c2.metrics.Retrievals = c.countHit.countMiss.metrics.Retrievals ∧
        c2.metrics.Hits = c.countHit.countMiss.metrics.Hits ∧
        c2.metrics.Misses = c.countHit.countMiss.metrics.Misses := by
      unfold Cache.GetByLoader
      rw [if_neg (by simp [hopen]), Cache.getItem_miss c.countHit now k hmiss]
      simp only [Option.some_bind]
      cases l with
      | some f => exact Cache.invokeLoader_counters _ now k f inv2 hopen hsize hmiss
      | none =>
        dsimp only
        cases hl : c.countHit.countMiss.loaderFunction with
        | none => exact ⟨_, _, rfl, rfl, rfl, rfl⟩
        | some f => exact Cache.invokeLoader_counters _ now k f inv2 hopen hsize hmiss
    obtain ⟨c2, res, e, h1, h2, h3⟩ := key
    refine ⟨c2, res, e, fun hc => absurd hc hnot, fun _ => ?_⟩
    rw [h1, h2, h3]
    exact ⟨rfl, rfl, rfl⟩
  · obtain ⟨c1, hit, e⟩ := Cache.GetByLoader_hit c now k l p inv hopen hp hne
    refine ⟨_, _, e, fun _ => ⟨rfl, ?_⟩, fun hc => absurd ⟨p, hp, hne⟩ hc⟩
    have hm : c1.countRetrieval.metrics = { c1.metrics with Retrievals := c1.metrics.Retrievals + 1 } :=
      rfl
    rw [hm, hit.metrics]
    exact ⟨rfl, rfl, rfl⟩

theorem get_counters_witness :
    exampleSet.isShutDown = false ∧
      ∃ c2 res, exampleSet.GetByLoader 20 "a" none = some (c2, res) ∧
        c2.metrics.Retrievals = exampleSet.metrics.Retrievals + 1 := by
  have r : Cache.Reachable exampleSet :=
    Cache.Reachable.setWithTTL (NewCache 0) 10 "a" (some 7) 50 exampleSet none
      (Cache.Reachable.newCache 0) rfl
  obtain ⟨c2, res, e, h, _⟩ := get_counters exampleSet r rfl (Or.inl (by decide)) 20 "a" none
  exact ⟨rfl, c2, res, e, (h ⟨0, by decide, by decide⟩).2.1⟩

/-! ## Claim C22 -/

/-- Failing input for C22: key a is set with ttl 1 at instant 0 and set again
at instant 5, when its entry is expired and no sweep has run.  Both calls
return no error.  After them the key map has one entry, the item 1 of key a,
and the heap has two: the item 1 and the old item 0 of key a, which is not the
item that the key map holds for its key. -/
theorem map_heap_failing_input :
    (NewCache 0).SetWithTTL 0 "a" (some 1) 1 = some (exampleStale, none) ∧
      exampleStale.SetWithTTL 5 "a" (some 2) 100 = some (exampleOver, none) ∧
      exampleOver.items = [("a", 1)] ∧ exampleOver.expirationHeap.entries = [0, 1] ∧
      exampleOver.items.length = 1 ∧ exampleOver.expirationHeap.entries.length = 2 ∧
      (exampleOver.deref 0).key = "a" ∧ mapGet exampleOver.items "a" = some 1 ∧
      mapGet exampleOver.items (exampleOver.deref 0).key ≠ some 0 ∧
      ¬ exampleOver.Agree := by
  refine ⟨rfl, rfl, ?_, ?_, ?_, ?_, ?_, ?_, ?_, ?_⟩
  · decide
  · decide
  · decide
  · decide
  · decide
  · decide
  · decide
  · intro ag
    have h := ag 0 (by decide)
    revert h
    decide

namespace Cache

theorem Agree.of_same {c c2 : Cache} (ag : c.Agree) (hi : c2.items = c.items)
    (he : ∀ q, q ∈ c2.expirationHeap.entries → q ∈ c.expirationHeap.entries)
    (hk : ∀ q, q ∈ c.expirationHeap.entries → (c2.deref q).key = (c.deref q).key) :
    c2.Agree := by
  intro q hq
  rw [hi, hk q (he q hq)]
  exact ag q (he q hq)

theorem Hit.hit_agree {c c2 : Cache} {p : Nat} {now : Int} (hit : Hit c p now c2) (ag : c.Agree) :
    c2.Agree := by
  refine ag.of_same hit.items (fun q hq => (hit.entries q).1 hq) (fun q _ => ?_)
  by_cases hqp : q = p
  · rw [hqp]; exact hit.key
  · exact (item_core_fields _ _ (hit.other q hqp)).1

theorem Overwritten.overwritten_agree {c c2 : Cache} {p : Nat} {now : Int} {data : Value} {ttl : Int}
    (ow : Overwritten c p now data ttl c2) (ag : c.Agree) : c2.Agree := by
  refine ag.of_same ow.items (fun q hq => (ow.entries q).1 hq) (fun q _ => ?_)
  by_cases hqp : q = p
  · rw [hqp]; exact ow.key_eq
  · exact (item_core_fields _ _ (ow.other q hqp)).1

theorem Vetoed.vetoed_agree {c c2 : Cache} {p : Nat} {now : Int} (v : Vetoed c p now c2)
    (ag : c.Agree) : c2.Agree := by
  refine ag.of_same v.items (fun q hq => (v.entries q).1 hq) (fun q _ => ?_)
  by_cases hqp : q = p
  · rw [hqp]; exact v.key_eq
  · exact (item_core_fields _ _ (v.other q hqp)).1

theorem ItemRemoved.removed_agree {c c2 : Cache} {p : Nat} {r : EvictionReason}
    (x : ItemRemoved c p r c2) (ag : c.Agree) (hp : p ∈ c.expirationHeap.entries) :
    c2.Agree := by
  intro q hq
  obtain ⟨hq1, hqp⟩ := (x.heap.mem q).1 hq
  have hk : (c2.deref q).key = (c.deref q).key := (item_core_fields _ _ (x.heap.core.2 q)).1
  rw [hk, x.items, mapGet_mapDelete]
  have hne : (c.deref q).key ≠ (c.deref p).key := by
    intro e
    have h1 := ag q hq1
    rw [e, ag p hp] at h1
    exact hqp (Option.some.inj h1).symm
  rw [if_neg hne]
  exact ag q hq1

theorem EvictStep.evict_agree {c c2 : Cache} (x : EvictStep c c2) (ag : c.Agree) : c2.Agree := by
  rcases x with ⟨_, e⟩ | ⟨_, root, hroot, ir⟩
  · rw [e]; exact ag
  · exact ir.removed_agree ag (ExpirationHeap.Peek_mem _ _ hroot)

theorem EvictStep.absent {c c2 : Cache} (x : EvictStep c c2) (k : String)
    (h : mapGet c.items k = none) : mapGet c2.items k = none := by
  rcases x with ⟨_, e⟩ | ⟨_, root, _, ir⟩
  · rw [e]; exact h
  · rw [ir.items, mapGet_mapDelete]
    split_ifs
    · rfl
    · exact h

theorem EvictStep.inv {c c2 : Cache} (x : EvictStep c c2) (inv : c.Inv) : c2.Inv := by
  rcases x with ⟨_, e⟩ | ⟨_, root, _, ir⟩
  · rw [e]; exact inv
  · exact ir.inv

theorem Inserted.inserted_agree {c c2 : Cache} {now : Int} {key : String} {data : Value} {ttl : Int}
    (ins : Inserted c now key data ttl c2) (inv : c.Inv) (ag : c.Agree)
    (hk : mapGet c.items key = none) : c2.Agree := by
  intro q hq
  rw [ins.items, mapGet_mapSet]
  rcases (ins.entries q).1 hq with e | hq1
  · rw [e, ins.key_eq, if_pos rfl]
  · have hkq : (c2.deref q).key = (c.deref q).key :=
      (item_core_fields _ _ (ins.old q (inv.lt_mem hq1))).1
    rw [hkq]
    have h1 := ag q hq1
    have hne : (c.deref q).key ≠ key := by
      intro e
      rw [e, hk] at h1
      cases h1
    rw [if_neg hne]
    exact h1

theorem SetWithTTL_agree (c : Cache) (now : Int) (key : String) (data : Value) (ttl : Int)
    (c2 : Cache) (e : Option GoError) (inv : c.Inv) (ag : c.Agree)
    (hc : ∀ p, mapGet c.items key = some p → (c.deref p).expired now = false)
    (h : c.SetWithTTL now key data ttl = some (c2, e)) : c2.Agree := by
  cases hs : c.isShutDown with
  | true =>
    rw [SetWithTTL_closed c now key data ttl hs] at h
    cases h
    exact ag
  | false =>
    rcases expired_cases c now key with hm | ⟨p, h1, h2⟩
    · obtain ⟨_, c1, r1, r2⟩ := SetWithTTL_miss c now key data ttl inv hs hm c2 e h
      have hk : mapGet c.items key = none := by
        rcases hm with hm | ⟨p, hp, hx⟩
        · exact hm
        · rw [hc p hp] at hx; cases hx
      exact r2.inserted_agree (r1.inv inv) (r1.evict_agree ag) (r1.absent key hk)
    · obtain ⟨c1, c3, hit, e3, ow⟩ := SetWithTTL_hit c now key data ttl p inv hs h1 h2
      rw [e3] at h
      cases h
      exact ow.overwritten_agree (hit.hit_agree ag)

theorem GetByLoader_agree (c : Cache) (now : Int) (key : String) (l : Option LoaderFunction)
    (c2 : Cache) (r : Value × Int × Option GoError) (inv : c.Inv) (ag : c.Agree)
    (hc : (l = none ∧ c.loaderFunction = none) ∨
      ∀ p, mapGet c.items key = some p → (c.deref p).expired now = false)
    (h : c.GetByLoader now key l = some (c2, r)) : c2.Agree := by
  cases hs : c.isShutDown with
  | true =>
    rw [GetByLoader_closed c now key l hs] at h
    cases h
    exact ag
  | false =>
    rcases expired_cases c now key with hm | ⟨p, h1, h2⟩
    · unfold GetByLoader at h
      rw [if_neg (by simp [hs]), getItem_miss c.countHit now key hm] at h
      simp only [Option.some_bind] at h
      have inv2 : c.countHit.countMiss.Inv := inv.congr rfl rfl
      have ag2 : c.countHit.countMiss.Agree := ag
      have tail : ∀ f, c.countHit.countMiss.invokeLoader now key f = some (c2, r) →
          (∀ p, mapGet c.items key = some p → (c.deref p).expired now = false) →
          c2.Agree := by
        intro f hf hcond
        unfold invokeLoader at hf
        rcases hfk : f key with ⟨d, t, err⟩
        rw [hfk] at hf
        cases err with
        | some er =>
          simp only [Option.some.injEq, Prod.mk.injEq] at hf
          rw [← hf.1]
          exact ag2
        | none =>
          simp only at hf
          rw [Option.map_eq_some'] at hf
          obtain ⟨⟨c3, e3⟩, hset, hres⟩ := hf
          have hc3 : c3 = c2 := by
            cases e3 <;> simp only [Prod.mk.injEq] at hres <;> exact hres.1
          rw [← hc3]
          exact SetWithTTL_agree _ now key d t c3 e3 inv2 ag2 hcond hset
      cases l with
      | some f =>
        rcases hc with ⟨hl, _⟩ | hc
        · cases hl
        · exact tail f h hc
      | none =>
        simp only at h
        cases hlf : c.countHit.countMiss.loaderFunction with
        | some f =>
          rw [hlf] at h
          rcases hc with ⟨_, hl⟩ | hc
          · have : c.countHit.countMiss.loaderFunction = c.loaderFunction := rfl
            rw [this, hl] at hlf
            cases hlf
          · exact tail f h hc
        | none =>
          rw [hlf] at h
          simp only [Option.some.injEq, Prod.mk.injEq] at h
          rw [← h.1]
          exact ag2
    · obtain ⟨c1, hit, e1⟩ := GetByLoader_hit c now key l p inv hs h1 h2
      rw [e1] at h
      cases h
      have ag1 : c.countHit.Agree := ag
      exact hit.hit_agree ag1

theorem Remove_agree (c : Cache) (key : String) (c2 : Cache) (e : Option GoError) (inv : c.Inv)
    (ag : c.Agree) (h : c.Remove key = some (c2, e)) : c2.Agree := by
  cases hs : c.isShutDown with
  | true =>
    rw [Remove_closed c key hs] at h
    cases h
    exact ag
  | false =>
    cases hm : mapGet c.items key with
    | none =>
      rw [Remove_absent c key hs hm] at h
      cases h
      exact ag
    | some p =>
      have hin := (inv.2.2 key p hm).1
      obtain ⟨c3, e3, x⟩ := removeItem_spec c p EvictionReason.Removed inv hin
      unfold Remove at h
      rw [if_neg (by simp [hs]), hm] at h
      simp only [e3, Option.map_some', Option.some.injEq, Prod.mk.injEq] at h
      rw [← h.1]
      exact x.removed_agree ag hin

theorem Touch_agree (c : Cache) (now : Int) (key : String) (inv : c.Inv) (ag : c.Agree) :
    (c.Touch now key).1.Agree := by
  cases hm : mapGet c.items key with
  | none =>
    rw [Touch_absent c now key hm]
    exact ag
  | some p =>
    rw [Touch_present c now key p hm]
    have hlt := inv.lt_mem (inv.2.2 key p hm).1
    refine ag.of_same rfl (fun q hq => hq) (fun q _ => ?_)
    rw [deref_setItem c p q _ hlt]
    split_ifs with hqp
    · rw [hqp]; exact touch_key _ _
    · rfl

theorem Swept.swept_agree {now : Int} {c c2 : Cache} (sw : Swept now c c2) (ag : c.Agree) :
    c2.Agree := by
  induction sw with
  | done c _ => exact ag
  | veto c p c1 c2 _ _ _ v _ ih => exact ih (v.vetoed_agree ag)
  | expire c p c1 c2 hp _ _ x _ _ ih =>
    exact ih (x.removed_agree ag (ExpirationHeap.Peek_mem _ _ hp))

/-- In a run that never writes a key whose entry is expired and unswept, the
invariant of the cache holds and heap and key map agree. -/
theorem CleanRun.clean_agree {c : Cache} (r : CleanRun c) : c.Inv ∧ c.Agree := by
  induction r with
  | newCache now =>
    exact ⟨NewCache_inv now, fun q hq => absurd hq (by
      simp [NewCache, ExpirationHeap.NewExpirationHeap])⟩
  | setWithTTL c now key data ttl c2 e _ hc h ih =>
    exact ⟨(SetWithTTL_frame c now key data ttl c2 e ih.1 h).1,
      SetWithTTL_agree c now key data ttl c2 e ih.1 ih.2 hc h⟩
  | getByLoader c now key l c2 r _ hc h ih =>
    exact ⟨(GetByLoader_frame c now key l c2 r ih.1 h).1,
      GetByLoader_agree c now key l c2 r ih.1 ih.2 hc h⟩
  | remove c key c2 e _ h ih =>
    exact ⟨(Remove_frame c key c2 e ih.1 h).1, Remove_agree c key c2 e ih.1 ih.2 h⟩
  | touch c now key _ ih => exact ⟨(Touch_frame c now key ih.1).1, Touch_agree c now key ih.1 ih.2⟩
  | purge c _ _ =>
    exact ⟨Purge_inv c, fun q hq => absurd hq (by
      simp [Purge, withHeap, withItems, ExpirationHeap.NewExpirationHeap])⟩
  | close c c2 e _ h ih =>
    cases hs : c.isShutDown with
    | true =>
      rw [Close_closed c hs] at h
      cases h
      exact ih
    | false =>
      obtain ⟨_, _, _, hent, i2⟩ := Close_open c c2 e hs h
      exact ⟨i2, fun q hq => absurd hq (by rw [hent]; simp)⟩
  | setTTL c ttl _ ih =>
    unfold SetTTL
    split_ifs
    · exact ih
    · exact ⟨ih.1.congr rfl rfl, ih.2⟩
  | setCheckExpirationCallback c f _ ih => exact ⟨ih.1.congr rfl rfl, ih.2⟩
  | skipTTLExtensionOnHit c b _ ih => exact ⟨ih.1.congr rfl rfl, ih.2⟩
  | setLoaderFunction c f _ ih => exact ⟨ih.1.congr rfl rfl, ih.2⟩
  | setCacheSizeLimit c limit _ ih => exact ⟨ih.1.congr rfl rfl, ih.2⟩
  | schedule c now _ ih => exact ⟨ih.1.congr rfl rfl, ih.2⟩
  | sweep c now c2 _ h ih =>
    obtain ⟨c3, e3, sw, i3⟩ := sweep_swept c now ih.1
    rw [e3] at h
    cases h
    exact ⟨i3, sw.swept_agree ih.2⟩

end Cache

/-- Map/heap agreement (the part of C22 that holds in every reachable state,
and the whole of it in runs that never write a key whose entry is expired and
unswept).  In every reachable state every entry of the key map is in the heap,
at the position recorded in its queueIndex, and carries the key it is stored
under.  In every state of
a run in which neither SetWithTTL nor a loader writes a key while its entry is
expired and still in the key map, moreover every heap entry is the entry that
the key map holds for its key, and heap and key map have the same number of
entries. -/
theorem map_heap_agreement (c : Cache) :
    (Cache.Reachable c →
      (∀ k p, mapGet c.items k = some p →
        (c.deref p).key = k ∧ 0 ≤ (c.deref p).queueIndex ∧
        (c.deref p).queueIndex < c.expirationHeap.entries.length ∧
        c.expirationHeap.entry (c.deref p).queueIndex.toNat = p)) ∧
    (Cache.CleanRun c →
      (∀ q, q ∈ c.expirationHeap.entries → mapGet c.items (c.deref q).key = some q) ∧
      c.expirationHeap.entries.length = c.items.length) := by
  constructor
  · intro r k p hp
    have inv := r.reach_inv
    obtain ⟨hin, hk⟩ := inv.2.2 k p hp
    obtain ⟨a0, a1, a2⟩ := (inv.1.mem_iff p).1 hin
    exact ⟨hk, a0, a1, a2⟩
  · intro r
    obtain ⟨inv, ag⟩ := r.clean_agree
    exact ⟨ag, ag.length_eq inv⟩

theorem map_heap_agreement_witness :
    Cache.CleanRun exampleSet ∧
      (∀ q, q ∈ exampleSet.expirationHeap.entries →
        mapGet exampleSet.items (exampleSet.deref q).key = some q) ∧
      exampleSet.expirationHeap.entries.length = exampleSet.items.length := by
  have r : Cache.CleanRun exampleSet :=
    Cache.CleanRun.setWithTTL (NewCache 0) 10 "a" (some 7) 50 exampleSet none
      (Cache.CleanRun.newCache 0) (fun p hp => absurd hp (by simp [NewCache, mapGet])) rfl
  exact ⟨r, (map_heap_agreement exampleSet).2 r⟩

/-! ## Claim C23 -/

/-- Failing input for C23: key a is set with ttl 10 at instant 0 and set again
at instant 5 with the ttl ItemNotExpire (-1), on a cache with no global TTL.
The second call returns no error and the entry holds the new value and the
ttl -1, but its expireAt is 15 (the instant that getItem gave it inside the
call), not the zero instant. -/
theorem set_existing_failing_input :
    (NewCache 0).SetWithTTL 0 "a" (some 1) 10 = some (exampleTen, none) ∧
      exampleTen.ttl = 0 ∧ mapGet exampleTen.items "a" = some 0 ∧
      (exampleTen.deref 0).expireAt = 10 ∧
      exampleTen.SetWithTTL 5 "a" (some 2) ItemNotExpire = some (exampleReset, none) ∧
      mapGet exampleReset.items "a" = some 0 ∧ (exampleReset.deref 0).data = some 2 ∧
      (exampleReset.deref 0).ttl = -1 ∧ (exampleReset.deref 0).expireAt = 15 ∧
      (exampleReset.deref 0).expireAt ≠ 0 := by
  refine ⟨rfl, rfl, ?_, ?_, rfl, ?_, ?_, ?_, ?_, ?_⟩ <;> decide

/-- The TTL rule of SetWithTTL (the cases of C23 that the code gets right, and
what it does in the other).  For every reachable open cache whose size limit is
not negative or whose heap is not empty, every key k, value v, ttl and instant
now: SetWithTTL(k, v, ttl) returns no error and afterwards the key map holds
for k an item with the value v.  If ttl > 0 its expireAt is now + ttl; if
ttl = 0 and the global TTL is positive its expireAt is now + the global TTL.
Otherwise the item keeps the ttl given and never expires, and its expireAt is
the zero instant when getItem did not find k before the call (k not in the key
map, or its entry expired); when getItem found k, the item is the one found and
its expireAt is what getItem left in it: now + its former effective ttl if that
was positive and skipTTLExtension is off, else its former expireAt. -/
theorem set_ttl_rule (c : Cache) (r : Cache.Reachable c) (hopen : c.isShutDown = false)
    (hsize : 0 ≤ c.sizeLimit ∨ c.expirationHeap.entries ≠ []) (now : Int) (k : String)
    (v : Value) (ttl : Int) :
    ∃ c2 p, c.SetWithTTL now k v ttl = some (c2, none) ∧ mapGet c2.items k = some p ∧
      (c2.deref p).data = v ∧
      (0 < ttl → (c2.deref p).ttl = ttl ∧ (c2.deref p).expireAt = now + ttl) ∧
      (ttl = 0 → 0 < c.ttl → (c2.deref p).ttl = c.ttl ∧ (c2.deref p).expireAt = now + c.ttl) ∧
      ((ttl < 0 ∨ (ttl = 0 ∧ c.ttl ≤ 0)) →
        (c2.deref p).ttl = ttl ∧ (c2.deref p).expired now = false ∧
        ((mapGet c.items k = none ∨
            ∃ q, mapGet c.items k = some q ∧ (c.deref q).expired now = true) →
          (c2.deref p).expireAt = 0) ∧
        (∀ q, mapGet c.items k = some q → (c.deref q).expired now = false →
          p = q ∧ (c2.deref p).expireAt =
            if 0 < resolvedTTL c.ttl (c.deref q).ttl ∧ c.skipTTLExtension = false
            then now + resolvedTTL c.ttl (c.deref q).ttl else (c.deref q).expireAt)) := by
  have inv := r.reach_inv
  have hres1 : 0 < ttl → resolvedTTL c.ttl ttl = ttl := by
    intro h; unfold resolvedTTL; rw [if_neg (by omega)]
  have hres2 : ttl = 0 → 0 < c.ttl → resolvedTTL c.ttl ttl = c.ttl := by
    intro h1 h2; unfold resolvedTTL; rw [if_pos ⟨h2, h1⟩]
  have hres3 : (ttl < 0 ∨ (ttl = 0 ∧ c.ttl ≤ 0)) → resolvedTTL c.ttl ttl = ttl := by
    intro h; unfold resolvedTTL; rw [if_neg (by omega)]
  have hexp : ∀ it : item, it.ttl = ttl → (ttl < 0 ∨ (ttl = 0 ∧ c.ttl ≤ 0)) →
      it.expired now = false := by
    intro it h1 h2
    unfold item.expired
    rw [if_pos (by omega)]
  rcases Cache.expired_cases c now k with hm | ⟨q, h1, h2⟩
  · obtain ⟨c1, hmr⟩ := Cache.makeRoom_returns c inv hsize
    obtain ⟨c2, e2, x, ins⟩ := Cache.SetWithTTL_miss_returns c now k v ttl inv hopen hm c1 hmr
    have httl : c1.ttl = c.ttl := x.config.1
    have ht := ins.ttl_eq
    have he := ins.expireAt_eq
    rw [httl] at ht he
    refine ⟨c2, c1.expirationHeap.mem.length, e2, ?_, ins.data_eq, ?_, ?_, ?_⟩
    · rw [ins.items, mapGet_mapSet, if_pos rfl]
    · intro hp
      rw [hres1 hp] at ht he
      exact ⟨ht, by rw [he, if_pos hp]⟩
    · intro hz hg
      rw [hres2 hz hg] at ht he
      exact ⟨ht, by rw [he, if_pos hg]⟩
    · intro hn
      rw [hres3 hn] at ht he
      refine ⟨ht, hexp _ ht hn, fun _ => by rw [he, if_neg (by omega)], fun q' hq' hne => ?_⟩
      exfalso
      rcases hm with hm | ⟨q2, hq2, hx⟩
      · rw [hm] at hq'; cases hq'
      · rw [hq2] at hq'
        cases hq'
        rw [hx] at hne
        cases hne
  · obtain ⟨c1, c2, hit, e2, ow⟩ := Cache.SetWithTTL_hit c now k v ttl q inv hopen h1 h2
    have httl : c1.ttl = c.ttl := hit.config.1
    have ht := ow.ttl_eq
    have he := ow.expireAt_eq
    rw [httl] at ht he
    refine ⟨c2, q, e2, by rw [ow.items, hit.items]; exact h1, ow.data_eq, ?_, ?_, ?_⟩
    · intro hp
      rw [hres1 hp] at ht he
      exact ⟨ht, by rw [he, if_pos hp]⟩
    · intro hz hg
      rw [hres2 hz hg] at ht he
      exact ⟨ht, by rw [he, if_pos hg]⟩
    · intro hn
      rw [hres3 hn] at ht he
      refine ⟨ht, hexp _ ht hn, fun hc => ?_, fun q' hq' _ => ?_⟩
      · exfalso
        rcases hc with hc | ⟨q2, hq2, hx⟩
        · rw [hc] at h1; cases h1
        · rw [hq2] at h1
          cases h1
          rw [hx] at h2
          cases h2
      · rw [h1] at hq'
        cases hq'
        refine ⟨rfl, ?_⟩
        rw [he, if_neg (by omega), hit.expireAt]

theorem set_ttl_rule_witness :
    exampleTen.isShutDown = false ∧
      ∃ c2 p, exampleTen.SetWithTTL 5 "a" (some 2) 20 = some (c2, none) ∧
        mapGet c2.items "a" = some p ∧ (c2.deref p).data = some 2 ∧
        (c2.deref p).expireAt = 5 + 20 := by
  have r : Cache.Reachable exampleTen :=
    Cache.Reachable.setWithTTL (NewCache 0) 0 "a" (some 1) 10 exampleTen none
      (Cache.Reachable.newCache 0) rfl
  obtain ⟨c2, p, e, h1, h2, h3, _⟩ :=
    set_ttl_rule exampleTen r rfl (Or.inl (by decide)) 5 "a" (some 2) 20
  exact ⟨rfl, c2, p, e, h1, h2, (h3 (by decide)).2⟩

/-- The expireAt that SetWithTTL leaves in an entry that never expires keeps
the entry at the root of the heap and stops the sweeps there (what follows from
the failing input of C23).  After the failing input of C23, key b is set with
ttl 15 at instant 5: its expireAt is 20, and it is placed below the entry of a,
whose expireAt is 15.  The expiration sweep at instant 25 stops at the root a,
which never expires, and leaves the entry of b, which is expired at 25. -/
theorem stale_root_blocks_sweep :
    exampleReset.SetWithTTL 5 "b" (some 3) 15 = some (exampleResetTwo, none) ∧
      exampleResetTwo.checkExpireCallback = none ∧
      exampleResetTwo.expirationHeap.entries = [0, 1] ∧
      (exampleResetTwo.deref 0).ttl = -1 ∧ (exampleResetTwo.deref 0).expireAt = 15 ∧
      (exampleResetTwo.deref 1).ttl = 15 ∧ (exampleResetTwo.deref 1).expireAt = 20 ∧
      exampleResetTwo.sweep 25 = some exampleResetSwept ∧
      exampleResetSwept.expirationHeap.entries = [0, 1] ∧
      mapGet exampleResetSwept.items "b" = some 1 ∧
      (exampleResetSwept.deref 1).expired 25 = true := by
  refine ⟨rfl, rfl, ?_, ?_, ?_, ?_, ?_, rfl, ?_, ?_, ?_⟩ <;> decide

/-! ## Claim C24 -/

/-- Failing input for C24: keys a (ttl 10) and b (ttl 12) are set at instant 0,
then Touch(a) at instant 5 moves the expiration of a to 15.  The entry of a
stays at the root of the heap, and the entry of b, whose expiration 12 is
earlier, is below it: the heap is not in heap order. -/
theorem root_failing_input :
    exampleTwoKeys.Touch 5 "a" = (exampleTouchedOnly, none) ∧
      exampleTwoKeys.expirationHeap.entries = [0, 1] ∧
      (exampleTwoKeys.deref 0).expireAt = 10 ∧ (exampleTwoKeys.deref 1).expireAt = 12 ∧
      exampleTouchedOnly.expirationHeap.entries = [0, 1] ∧
      exampleTouchedOnly.expirationHeap.Peek = some 0 ∧
      mapGet exampleTouchedOnly.items "a" = some 0 ∧
      mapGet exampleTouchedOnly.items "b" = some 1 ∧
      (exampleTouchedOnly.deref 0).expireAt = 15 ∧
      (exampleTouchedOnly.deref 1).expireAt = 12 ∧
      ¬ expLe (exampleTouchedOnly.deref 0).expireAt (exampleTouchedOnly.deref 1).expireAt ∧
      ¬ exampleTouchedOnly.expirationHeap.Ordered
        exampleTouchedOnly.expirationHeap.entries.length := by
  refine ⟨rfl, ?_, ?_, ?_, ?_, ?_, ?_, ?_, ?_, ?_, ?_, ?_⟩
  · decide
  · decide
  · decide
  · decide
  · decide
  · decide
  · decide
  · decide
  · decide
  · unfold expLe; decide
  · intro o
    have h := o 1 (by decide) (by decide)
    revert h
    unfold expLe
    decide

/-! ### Heap order at cache level -/

namespace Cache

theorem getItemRefresh_order (c : Cache) (now : Int) (p : Nat) (inv : c.Inv)
    (hin : p ∈ c.expirationHeap.entries) (o : c.InOrder) (c2 : Cache)
    (h : c.getItemRefresh now p = some c2) : c2.InOrder := by
  have hlt := inv.lt_mem hin
  unfold getItemRefresh at h
  by_cases hc : (c.deref p).ttl ≥ 0 ∧ ((c.deref p).ttl > 0 ∨ c.ttl > 0)
  · rw [if_pos hc] at h
    dsimp only at h
    have hskip : (if c.ttl > 0 ∧ (c.deref p).ttl = 0
        then c.setItem p { c.deref p with ttl := c.ttl } else c).skipTTLExtension =
        c.skipTTLExtension := by split_ifs <;> rfl
    rw [hskip] at h
    obtain ⟨hmod, _⟩ := writes_spec c p now (!c.skipTTLExtension) hlt _ rfl
    have hcond : (¬ c.skipTTLExtension = true) ↔ ((!c.skipTTLExtension) = true) := by
      cases c.skipTTLExtension <;> simp
    simp only [hcond] at h
    generalize hg : (if (!c.skipTTLExtension) = true then _ else _) = c5 at hmod h
    obtain ⟨h2, e2, _, o2⟩ :=
      ExpirationHeap.Update_ordered c.expirationHeap c5.expirationHeap p inv.1 o hin hmod
    rw [e2] at h
    simp only [Option.map_some', Option.some.injEq] at h
    rw [← h]
    exact o2
  · rw [if_neg hc] at h
    cases h
    exact o

theorem getItem_order (c : Cache) (now : Int) (key : String) (inv : c.Inv) (o : c.InOrder)
    (g : Cache × Option Nat × Bool) (h : c.getItem now key = some g) : g.1.InOrder := by
  unfold getItem at h
  cases hm : mapGet c.items key with
  | none =>
    rw [hm] at h
    cases h
    exact o
  | some p =>
    rw [hm] at h
    dsimp only at h
    split_ifs at h with hx
    · cases h
      exact o
    · rw [Option.map_eq_some'] at h
      obtain ⟨c3, e3, hg⟩ := h
      rw [← hg]
      exact getItemRefresh_order c now p inv (inv.2.2 key p hm).1 o c3 e3

theorem removeItem_order (c : Cache) (p : Nat) (reason : EvictionReason) (inv : c.Inv)
    (hin : p ∈ c.expirationHeap.entries) (o : c.InOrder) (c2 : Cache)
    (h : c.removeItem p reason = some c2) : c2.InOrder := by
  obtain ⟨h2, e2, _, o2⟩ := ExpirationHeap.Remove_ordered c.expirationHeap p inv.1 o hin
  have e3 := removeItem_heap c p reason c2 h
  rw [e2] at e3
  simp only [Option.some.injEq] at e3
  unfold InOrder
  rw [← e3]
  exact o2

theorem makeRoom_order (c : Cache) (inv : c.Inv) (o : c.InOrder) (c2 : Cache)
    (h : c.makeRoom = some c2) : c2.InOrder := by
  unfold makeRoom at h
  split_ifs at h with hc
  · cases hp : c.expirationHeap.Peek with
    | none => rw [hp] at h; cases h
    | some root =>
      rw [hp] at h
      exact removeItem_order c root _ inv (ExpirationHeap.Peek_mem _ _ hp) o c2 h
  · cases h
    exact o

theorem insert_order (c : Cache) (now : Int) (key : String) (data : Value) (ttl : Int)
    (inv : c.Inv) (o : c.InOrder) :
    (((c.storeNew now key data ttl).1.countInserted.refresh now
          (c.storeNew now key data ttl).2).withHeap
        (((c.storeNew now key data ttl).1.countInserted.refresh now
          (c.storeNew now key data ttl).2).expirationHeap.Add
            (c.storeNew now key data ttl).2)).InOrder := by
  have hp2 : (c.storeNew now key data ttl).2 = c.expirationHeap.mem.length := rfl
  rw [hp2]
  generalize hc4 : (c.storeNew now key data ttl).1.countInserted = c4
  have h4heap : c4.expirationHeap = c.expirationHeap.alloc (newItem key data ttl now) := by
    rw [← hc4]; rfl
  have hlt4 : c.expirationHeap.mem.length < c4.expirationHeap.mem.length := by
    rw [h4heap]; simp [ExpirationHeap.alloc]
  have w4 : c4.expirationHeap.WF := by rw [h4heap]; exact inv.1.wf_alloc _
  have o4 : c4.expirationHeap.Ordered c4.expirationHeap.entries.length := by
    rw [h4heap]
    exact ExpirationHeap.Ordered.ordered_alloc inv.1 (le_refl _) o _
  obtain ⟨hmod, _⟩ := refresh_spec c4 now c.expirationHeap.mem.length hlt4
  generalize hc5 : c4.refresh now c.expirationHeap.mem.length = c5 at hmod ⊢
  have w5 := hmod.wf w4
  have hfresh4 : ∀ k, k < c4.expirationHeap.entries.length →
      c4.expirationHeap.entry k ≠ c.expirationHeap.mem.length := by
    intro k hk e
    have hk2 : k < c.expirationHeap.entries.length := by rw [h4heap] at hk; exact hk
    have := (inv.1 k hk2).1
    have e2 : c4.expirationHeap.entry k = c.expirationHeap.entry k := by rw [h4heap]; rfl
    omega
  have o5 : c5.expirationHeap.Ordered c5.expirationHeap.entries.length := by
    rw [hmod.entries]
    intro k hk0 hkn
    rw [hmod.exp k (hfresh4 k hkn), hmod.exp _ (hfresh4 _ (by omega))]
    exact o4 k hk0 hkn
  have hfresh : c.expirationHeap.mem.length ∉ c5.expirationHeap.entries := by
    rw [hmod.entries, h4heap]
    intro hcon
    have := inv.lt_mem hcon
    omega
  have hlt5 : c.expirationHeap.mem.length < c5.expirationHeap.mem.length := by
    rw [hmod.len]; exact hlt4
  have a := ExpirationHeap.Add_added c5.expirationHeap c.expirationHeap.mem.length w5 hlt5 hfresh
  have o6 := ExpirationHeap.heapPush_ordered c5.expirationHeap c.expirationHeap.mem.length o5
  show (c5.expirationHeap.Add c.expirationHeap.mem.length).Ordered
    (c5.expirationHeap.Add c.expirationHeap.mem.length).entries.length
  rw [a.len]
  exact o6

theorem SetWithTTL_order (c : Cache) (now : Int) (key : String) (data : Value) (ttl : Int)
    (c2 : Cache) (e : Option GoError) (inv : c.Inv) (o : c.InOrder)
    (h : c.SetWithTTL now key data ttl = some (c2, e)) : c2.InOrder := by
  cases hs : c.isShutDown with
  | true =>
    rw [SetWithTTL_closed c now key data ttl hs] at h
    cases h
    exact o
  | false =>
    rcases expired_cases c now key with hm | ⟨p, h1, h2⟩
    · unfold SetWithTTL at h
      rw [if_neg (by simp [hs]), getItem_miss c now key hm] at h
      simp only [Option.some_bind, Option.isSome_none, Bool.false_eq_true, if_false] at h
      cases hmr : c.makeRoom with
      | none => rw [hmr] at h; cases h
      | some c1 =>
        rw [hmr] at h
        simp only [Option.map_some', Option.some_bind, Option.some.injEq, Prod.mk.injEq] at h
        rw [← h.1]
        exact insert_order c1 now key data ttl (makeRoom_spec c c1 inv hmr).2
          (makeRoom_order c inv o c1 hmr)
    · obtain ⟨c1, flag, e1, hit⟩ := getItem_hit c now key p inv h1 h2
      have o1 : c1.InOrder := getItem_order c now key inv o _ e1
      have hin1 : p ∈ c1.expirationHeap.entries := (hit.entries p).2 (inv.2.2 key p h1).1
      have hlt1 := hit.inv.lt_mem hin1
      generalize hc3 :
        (c1.setItem p { c1.deref p with data := data, ttl := ttl }).countInserted = c4 at h
      have m3 := setItem_modified c1 p { c1.deref p with data := data, ttl := ttl } rfl
      have h4heap : c4.expirationHeap =
          (c1.setItem p { c1.deref p with data := data, ttl := ttl }).expirationHeap := by
        rw [← hc3]; rfl
      have hlt4 : p < c4.expirationHeap.mem.length := by rw [h4heap, m3.len]; exact hlt1
      obtain ⟨hmod, _⟩ := refresh_spec c4 now p hlt4
      generalize hc5 : c4.refresh now p = c5 at hmod
      have m5 : ExpirationHeap.Modified c1.expirationHeap p c5.expirationHeap := by
        refine ⟨hmod.entries.trans (by rw [h4heap, m3.entries]),
          hmod.len.trans (by rw [h4heap, m3.len]), fun q hq => ?_, ?_⟩
        · rw [hmod.other q hq, h4heap, m3.other q hq]
        · rw [hmod.index, h4heap, m3.index]
      obtain ⟨h6, e6, _, o6⟩ :=
        ExpirationHeap.Update_ordered c1.expirationHeap c5.expirationHeap p hit.inv.1 o1 hin1 m5
      unfold SetWithTTL at h
      rw [if_neg (by simp [hs]), e1] at h
      simp only [Option.some_bind, Option.isSome_some, if_true, hc3, hc5, e6, Option.map_some',
        Option.some.injEq, Prod.mk.injEq] at h
      rw [← h.1]
      exact o6

theorem GetByLoader_order (c : Cache) (now : Int) (key : String) (l : Option LoaderFunction)
    (c2 : Cache) (r : Value × Int × Option GoError) (inv : c.Inv) (o : c.InOrder)
    (h : c.GetByLoader now key l = some (c2, r)) : c2.InOrder := by
  cases hs : c.isShutDown with
  | true =>
    rw [GetByLoader_closed c now key l hs] at h
    cases h
    exact o
  | false =>
    rcases expired_cases c now key with hm | ⟨p, h1, h2⟩
    · unfold GetByLoader at h
      rw [if_neg (by simp [hs]), getItem_miss c.countHit now key hm] at h
      simp only [Option.some_bind] at h
      have inv2 : c.countHit.countMiss.Inv := inv.congr rfl rfl
      have o2 : c.countHit.countMiss.InOrder := o
      have tail : ∀ f, c.countHit.countMiss.invokeLoader now key f = some (c2, r) →
          c2.InOrder := by
        intro f hf
        unfold invokeLoader at hf
        rcases hfk : f key with ⟨d, t, err⟩
        rw [hfk] at hf
        cases err with
        | some er =>
          simp only [Option.some.injEq, Prod.mk.injEq] at hf
          rw [← hf.1]
          exact o2
        | none =>
          simp only at hf
          rw [Option.map_eq_some'] at hf
          obtain ⟨⟨c3, e3⟩, hset, hres⟩ := hf
          have hc3 : c3 = c2 := by
            cases e3 <;> simp only [Prod.mk.injEq] at hres <;> exact hres.1
          rw [← hc3]
          exact SetWithTTL_order _ now key d t c3 e3 inv2 o2 hset
      cases l with
      | some f => exact tail f h
      | none =>
        simp only at h
        cases hlf : c.countHit.countMiss.loaderFunction with
        | some f =>
          rw [hlf] at h
          exact tail f h
        | none =>
          rw [hlf] at h
          simp only [Option.some.injEq, Prod.mk.injEq] at h
          rw [← h.1]
          exact o2
    · obtain ⟨c1, flag, e1, hit⟩ := getItem_hit c.countHit now key p (countHit_inv inv) h1 h2
      have o1 : c1.InOrder := getItem_order c.countHit now key (countHit_inv inv) o _ e1
      unfold GetByLoader at h
      rw [if_neg (by simp [hs]), e1] at h
      simp only [Option.some_bind, Option.some.injEq, Prod.mk.injEq] at h
      rw [← h.1]
      exact o1

theorem Remove_order (c : Cache) (key : String) (c2 : Cache) (e : Option GoError) (inv : c.Inv)
    (o : c.InOrder) (h : c.Remove key = some (c2, e)) : c2.InOrder := by
  cases hs : c.isShutDown with
  | true =>
    rw [Remove_closed c key hs] at h
    cases h
    exact o
  | false =>
    cases hm : mapGet c.items key with
    | none =>
      rw [Remove_absent c key hs hm] at h
      cases h
      exact o
    | some p =>
      unfold Remove at h
      rw [if_neg (by simp [hs]), hm] at h
      simp only [Option.map_eq_some', Prod.mk.injEq] at h
      obtain ⟨c3, e3, hc, _⟩ := h
      rw [← hc]
      exact removeItem_order c p _ inv (inv.2.2 key p hm).1 o c3 e3

theorem cleanLoop_order (fuel : Nat) (c : Cache) (now : Int) (inv : c.Inv) (o : c.InOrder)
    (c2 : Cache) (h : cleanLoop fuel c now = some c2) : c2.InOrder := by
  induction fuel generalizing c with
  | zero =>
    unfold cleanLoop at h
    cases hp : c.expirationHeap.Peek with
    | none => rw [hp] at h; cases h; exact o
    | some p =>
      rw [hp] at h
      dsimp only at h
      split_ifs at h
      cases h
      exact o
  | succ fuel ih =>
    unfold cleanLoop at h
    cases hp : c.expirationHeap.Peek with
    | none => rw [hp] at h; cases h; exact o
    | some p =>
      rw [hp] at h
      dsimp only at h
      have hin := ExpirationHeap.Peek_mem _ _ hp
      by_cases hex : (c.deref p).expired now = true
      · rw [if_neg (by simp [hex])] at h
        by_cases hv : c.vetoes p = true
        · rw [if_pos hv] at h
          obtain ⟨h3, e3, v, _⟩ := vetoRound_spec c p now inv hin hex
          have m := setItem_modified c p ((c.deref p).touch now) (touch_queueIndex _ _)
          obtain ⟨h4, e4, _, o4⟩ := ExpirationHeap.Update_ordered c.expirationHeap
            (c.setItem p ((c.deref p).touch now)).expirationHeap p inv.1 o hin m
          rw [e3] at e4
          simp only [Option.some.injEq] at e4
          rw [e3] at h
          simp only [Option.map_some', Option.some_bind] at h
          refine ih _ v.inv ?_ h
          show h3.Ordered h3.entries.length
          rw [e4]
          exact o4
        · rw [if_neg hv] at h
          obtain ⟨c1, e1, x, _⟩ := expireRound_spec c p now inv hin hex
          rw [e1] at h
          simp only [Option.some_bind] at h
          exact ih _ x.inv (removeItem_order c p _ inv hin o c1 e1) h
      · rw [if_pos hex] at h
        cases h
        exact o

theorem sweep_order (c : Cache) (now : Int) (c2 : Cache) (inv : c.Inv) (o : c.InOrder)
    (h : c.sweep now = some c2) : c2.InOrder := by
  unfold sweep at h
  split_ifs at h
  · cases h
    exact o
  · exact cleanLoop_order _ c now inv o c2 h

theorem InOrder.of_empty {c : Cache} (h : c.expirationHeap.entries = []) : c.InOrder := by
  intro k _ hk
  rw [h] at hk
  simp at hk

/-- In a run without Touch the invariant of the cache holds and the heap is in
heap order. -/
theorem NoTouchRun.order {c : Cache} (r : NoTouchRun c) : c.Inv ∧ c.InOrder := by
  induction r with
  | newCache now => exact ⟨NewCache_inv now, InOrder.of_empty rfl⟩
  | setWithTTL c now key data ttl c2 e _ h ih =>
    exact ⟨(SetWithTTL_frame c now key data ttl c2 e ih.1 h).1,
      SetWithTTL_order c now key data ttl c2 e ih.1 ih.2 h⟩
  | getByLoader c now key l c2 r _ h ih =>
    exact ⟨(GetByLoader_frame c now key l c2 r ih.1 h).1,
      GetByLoader_order c now key l c2 r ih.1 ih.2 h⟩
  | remove c key c2 e _ h ih =>
    exact ⟨(Remove_frame c key c2 e ih.1 h).1, Remove_order c key c2 e ih.1 ih.2 h⟩
  | purge c _ _ => exact ⟨Purge_inv c, InOrder.of_empty rfl⟩
  | close c c2 e _ h ih =>
    cases hs : c.isShutDown with
    | true =>
      rw [Close_closed c hs] at h
      cases h
      exact ih
    | false =>
      obtain ⟨_, _, _, hent, i2⟩ := Close_open c c2 e hs h
      exact ⟨i2, InOrder.of_empty hent⟩
  | setTTL c ttl _ ih =>
    unfold SetTTL
    split_ifs
    · exact ih
    · exact ⟨ih.1.congr rfl rfl, ih.2⟩
  | setCheckExpirationCallback c f _ ih => exact ⟨ih.1.congr rfl rfl, ih.2⟩
  | skipTTLExtensionOnHit c b _ ih => exact ⟨ih.1.congr rfl rfl, ih.2⟩
  | setLoaderFunction c f _ ih => exact ⟨ih.1.congr rfl rfl, ih.2⟩
  | setCacheSizeLimit c limit _ ih => exact ⟨ih.1.congr rfl rfl, ih.2⟩
  | schedule c now _ ih => exact ⟨ih.1.congr rfl rfl, ih.2⟩
  | sweep c now c2 _ h ih =>
    exact ⟨(sweep_frame c now c2 ih.1 h).1, sweep_order c now c2 ih.1 ih.2 h⟩

end Cache

/-- The heap root is the entry due first, in runs without Touch (the case of
C24 that the code gets right).  In every state reached from NewCache by the
public methods other than Touch and by the rounds and sweeps of the scheduler,
at arbitrary instants, the heap is in heap order, and the expiration of the
heap root is no later than the expiration of every entry in the heap and of
every entry in the key map, the zero expiration counting as later than every
other. -/
theorem root_soonest_without_touch (c : Cache) (r : Cache.NoTouchRun c) :
    c.expirationHeap.Ordered c.expirationHeap.entries.length ∧
      ∀ root, c.expirationHeap.Peek = some root →
        (∀ q, q ∈ c.expirationHeap.entries →
          expLe (c.deref root).expireAt (c.deref q).expireAt) ∧
        ∀ k q, mapGet c.items k = some q → expLe (c.deref root).expireAt (c.deref q).expireAt := by
  obtain ⟨inv, o⟩ := r.order
  refine ⟨o, fun root hroot => ?_⟩
  have hall : ∀ q, q ∈ c.expirationHeap.entries →
      expLe (c.deref root).expireAt (c.deref q).expireAt := by
    intro q hq
    obtain ⟨k, hk, ek⟩ := (ExpirationHeap.mem_entries_iff _ q).1 hq
    have hl : 0 < c.expirationHeap.entries.length := by omega
    have hpeek := ExpirationHeap.Peek_eq c.expirationHeap hl
    rw [hroot] at hpeek
    simp only [Option.some.injEq] at hpeek
    rcases o.root_le k hk with x | x
    · unfold ExpirationHeap.exp at x
      rw [ek, ← hpeek] at x
      exact x
    · rw [x, ← hpeek] at ek
      rw [ek]
      exact ExpirationHeap.expLe_refl _
  exact ⟨hall, fun k q hq => hall q (inv.2.2 k q hq).1⟩

theorem root_soonest_without_touch_witness :
    Cache.NoTouchRun exampleTwoKeys ∧
      exampleTwoKeys.expirationHeap.Ordered exampleTwoKeys.expirationHeap.entries.length := by
  have r : Cache.NoTouchRun exampleTwoKeys :=
    Cache.NoTouchRun.setWithTTL exampleTen 0 "b" (some 2) 12 exampleTwoKeys none
      (Cache.NoTouchRun.setWithTTL (NewCache 0) 0 "a" (some 1) 10 exampleTen none
        (Cache.NoTouchRun.newCache 0) rfl) rfl
  exact ⟨r, (root_soonest_without_touch exampleTwoKeys r).1⟩

/-! ## Claim C25 -/

/-- Failing input for C25: keys a (ttl 10) and b (ttl 12) are set at instant 0
and Touch(a) at instant 5 moves the expiration of a to 15.  No check-expiration
callback is set.  The expiration sweep at instant 13 returns and removes
nothing, and the entry of b, which it leaves in the cache, is expired at
instant 13. -/
theorem sweep_failing_input :
    exampleTouchedOnly.checkExpireCallback = none ∧
      exampleTouchedOnly.expirationHeap.Len ≠ 0 ∧
      exampleTouchedOnly.cleanjob 13 = some exampleTouchedSwept ∧
      exampleTouchedSwept.items = exampleTouchedOnly.items ∧
      exampleTouchedSwept.expirationHeap = exampleTouchedOnly.expirationHeap ∧
      mapGet exampleTouchedSwept.items "b" = some 1 ∧
      1 ∈ exampleTouchedSwept.expirationHeap.entries ∧
      (exampleTouchedSwept.deref 1).ttl = 12 ∧ (exampleTouchedSwept.deref 1).expireAt = 12 ∧
      (exampleTouchedSwept.deref 1).expired 13 = true := by
  refine ⟨rfl, ?_, rfl, ?_, ?_, ?_, ?_, ?_, ?_, ?_⟩ <;> decide

namespace Cache

/-- What a sweep removes: only entries that were due and whose expiry no
callback vetoed, each reported with reason Expired and counted in
EvictedExpired. -/
theorem Swept.removed_due {now : Int} {c c2 : Cache} (sw : Swept now c c2) (inv : c.Inv) :
    (∀ q, q ∈ c2.expirationHeap.entries → q ∈ c.expirationHeap.entries) ∧
      (∀ e, e ∈ c.evictions → e ∈ c2.evictions) ∧
      c2.metrics.EvictedExpired + c2.expirationHeap.entries.length =
        c.metrics.EvictedExpired + c.expirationHeap.entries.length ∧
      ∀ q, q ∈ c.expirationHeap.entries → q ∉ c2.expirationHeap.entries →
        (c.deref q).expired now = true ∧ c.vetoes q = false ∧
        ((c.deref q).key, EvictionReason.Expired, (c.deref q).data) ∈ c2.evictions := by
  induction sw with
  | done c _ => exact ⟨fun _ h => h, fun _ h => h, rfl, fun q hq hn => absurd hq hn⟩
  | veto c p c1 c2 hp hex _ v _ ih =>
    obtain ⟨sub, ev, cnt, rem⟩ := ih v.inv
    have hlen : c1.expirationHeap.entries.length = c.expirationHeap.entries.length :=
      ((List.perm_ext_iff_of_nodup v.inv.1.nodup inv.1.nodup).2 (fun q => v.entries q)).length_eq
    refine ⟨fun q hq => (v.entries q).1 (sub q hq), fun e he => ev e (by rw [v.evictions]; exact he),
      by rw [cnt, v.metrics, hlen], fun q hq hn => ?_⟩
    obtain ⟨a1, a2, a3⟩ := rem q ((v.entries q).2 hq) hn
    have hqp : q ≠ p := by
      intro e
      rw [e] at a1
      have hpos := expired_ttl_pos _ _ hex
      have : (c1.deref p).expired now = false := by
        unfold item.expired
        rw [v.ttl_eq, v.expireAt_eq, if_neg (by omega)]
        simp only [decide_eq_false_iff_not, not_lt]
        omega
      rw [this] at a1
      cases a1
    have hc := v.other q hqp
    have hf := item_core_fields _ _ hc
    refine ⟨by rw [← item_expired_core _ _ hc now]; exact a1,
      by rw [← vetoes_congr v.config hc]; exact a2, ?_⟩
    rw [← hf.1, ← hf.2.1]
    exact a3
  | expire c p c1 c2 hp hex hnv x hm _ ih =>
    obtain ⟨sub, ev, cnt, rem⟩ := ih x.inv
    have hlen := x.heap.len
    refine ⟨fun q hq => ((x.heap.mem q).1 (sub q hq)).1,
      fun e he => ev e (by rw [x.evictions]; exact List.mem_append_left _ he),
      by rw [cnt, hm, ← hlen]; push_cast; ring, fun q hq hn => ?_⟩
    by_cases hqp : q = p
    · rw [hqp]
      refine ⟨hex, (vetoes_false_iff c p).2 hnv, ev _ ?_⟩
      rw [x.evictions]
      exact List.mem_append_right _ (List.mem_singleton.2 rfl)
    · obtain ⟨a1, a2, a3⟩ := rem q ((x.heap.mem q).2 ⟨hq, hqp⟩) hn
      have hc : (c1.deref q).core = (c.deref q).core := x.heap.core.2 q
      have hf := item_core_fields _ _ hc
      refine ⟨by rw [← item_expired_core _ _ hc now]; exact a1,
        by rw [← vetoes_congr x.config hc]; exact a2, ?_⟩
      rw [← hf.1, ← hf.2.1]
      exact a3

/-- Method cleanjob and the timer branch of startExpirationProcessing, which
calls it on a heap that is not empty, leave the same cache. -/
theorem sweep_eq_cleanjob (c : Cache) (now : Int) : c.sweep now = c.cleanjob now := by
  unfold sweep
  split_ifs with hl
  · unfold cleanjob
    rw [hl]
    unfold cleanLoop
    have : c.expirationHeap.Peek = none := by
      unfold ExpirationHeap.Peek
      rw [if_pos hl]
    rw [this]
  · rfl

end Cache

/-- What a sweep removes, and when it removes all that is due (the parts of
C25 that the code gets right).  For every reachable cache and every instant
now: the expiration sweep (cleanjob) at now returns; every entry that it took
out of the heap was expired at now, no callback vetoed its expiry, and its
removal was reported with reason Expired; EvictedExpired grew by the number of
entries taken out.  If moreover the heap was in heap order and the expiration
of each of its entries was the zero instant exactly when the ttl of the entry
was not positive, and now is not before the zero instant, then no entry left in
the heap or in the key map is expired at now. -/
theorem sweep_removes_due (c : Cache) (r : Cache.Reachable c) (now : Int) :
    ∃ c2, c.cleanjob now = some c2 ∧ c.sweep now = some c2 ∧
      (∀ q, q ∈ c.expirationHeap.entries → q ∉ c2.expirationHeap.entries →
        (c.deref q).expired now = true ∧ c.vetoes q = false ∧
        ((c.deref q).key, EvictionReason.Expired, (c.deref q).data) ∈ c2.evictions) ∧
      c2.metrics.EvictedExpired + c2.expirationHeap.entries.length =
        c.metrics.EvictedExpired + c.expirationHeap.entries.length ∧
      (c.Sound → 0 ≤ now →
        (∀ q, q ∈ c2.expirationHeap.entries → (c2.deref q).expired now = false) ∧
        ∀ k p, mapGet c2.items k = some p → (c2.deref p).expired now = false) := by
  have inv := r.reach_inv
  obtain ⟨c2, e2, sw, i2⟩ := Cache.sweep_swept c now inv
  obtain ⟨_, _, cnt, rem⟩ := sw.removed_due inv
  refine ⟨c2, by rw [← Cache.sweep_eq_cleanjob]; exact e2, e2, rem, cnt, fun hs h0 => ?_⟩
  have hnd : ∀ q, q ∈ c2.expirationHeap.entries → (c2.deref q).expired now = false := by
    have e3 := e2
    unfold Cache.sweep at e3
    split_ifs at e3 with hl
    · cases e3
      intro q hq
      have : c.expirationHeap.entries = [] := by
        simp only [ExpirationHeap.Len] at hl
        exact List.length_eq_zero.1 hl
      rw [this] at hq
      cases hq
    · obtain ⟨c3, e4, _, _, _, _, nd, _⟩ :=
        Cache.cleanLoop_handled _ c now inv hs h0 (List.countP_le_length _)
      have e5 : Cache.cleanLoop c.expirationHeap.entries.length c now = some c2 := e3
      rw [e4] at e5
      cases e5
      exact nd
  exact ⟨hnd, fun k p hp => hnd p (i2.2.2 k p hp).1⟩

theorem sweep_removes_due_witness :
    exampleSet.Sound ∧ ∃ c2, exampleSet.cleanjob 100 = some c2 ∧
      ∀ k p, mapGet c2.items k = some p → (c2.deref p).expired 100 = false := by
  have r : Cache.Reachable exampleSet :=
    Cache.Reachable.setWithTTL (NewCache 0) 10 "a" (some 7) 50 exampleSet none
      (Cache.Reachable.newCache 0) rfl
  have hs : exampleSet.Sound := by
    constructor
    · intro k hk0 hk
      have hl : exampleSet.expirationHeap.entries.length = 1 := by decide
      omega
    · intro q hq
      have e : exampleSet.expirationHeap.entries = [0] := by decide
      rw [e] at hq
      simp only [List.mem_singleton] at hq
      subst hq
      decide
  obtain ⟨c2, e2, _, _, _, h⟩ := sweep_removes_due exampleSet r 100
  exact ⟨hs, c2, e2, (h hs (by decide)).2⟩

/-! ## Claim C26 -/

/-- Failing input for C26: key a is set with ttl 0 on a new cache at instant 0,
then the global TTL is set to 10 and SkipTTLExtensionOnHit(true) is called.
Get(a) at instant 5 returns the value 1 with no error; inside the call the ttl
of the entry becomes 10 while its expireAt stays the zero instant, so the entry
is expired at instant 5 right after the call, and a second Get(a) at instant 5
returns ErrNotFound. -/
theorem hit_failing_input :
    exampleLateSkip.isShutDown = false ∧ exampleLateSkip.ttl = 10 ∧
      exampleLateSkip.skipTTLExtension = true ∧
      mapGet exampleLateSkip.items "a" = some 0 ∧
      (exampleLateSkip.deref 0).ttl = 0 ∧ (exampleLateSkip.deref 0).expireAt = 0 ∧
      exampleLateSkip.Get 5 "a" = some (exampleLateRead, some 1, none) ∧
      mapGet exampleLateRead.items "a" = some 0 ∧
      (exampleLateRead.deref 0).ttl = 10 ∧ (exampleLateRead.deref 0).expireAt = 0 ∧
      (exampleLateRead.deref 0).expired 5 = true ∧
      exampleLateRead.Get 5 "a" = some (exampleLateAgain, none, some GoError.ErrNotFound) := by
  refine ⟨rfl, rfl, rfl, ?_, ?_, ?_, rfl, ?_, ?_, ?_, ?_, rfl⟩ <;> decide

namespace Cache

/-- An item whose expiration is now + its ttl, or whose ttl is not positive,
is not expired at now. -/
theorem not_expired_of_fresh (it : item) (now : Int)
    (h : 0 < it.ttl → now ≤ it.expireAt) : it.expired now = false := by
  unfold item.expired
  by_cases hp : it.ttl ≤ 0
  · rw [if_pos hp]
  · rw [if_neg hp]
    have := h (by omega)
    simp only [decide_eq_false_iff_not, not_lt]
    exact this

/-- Method Get on a key whose item is in the key map and is not expired
returns the value of the item with no error, whatever loader is set. -/
theorem Get_live (c : Cache) (now : Int) (k : String) (p : Nat) (inv : c.Inv)
    (hopen : c.isShutDown = false) (h1 : mapGet c.items k = some p)
    (h2 : (c.deref p).expired now = false) :
    ∃ c2, c.Get now k = some (c2, (c.deref p).data, none) :=
  (Get_hit c now k p inv hopen h1 h2).elim (fun _ h => ⟨_, h.2⟩)

end Cache

/-- A hit leaves the entry live (the cases of C26 that the code gets right).
For every reachable open cache, key k and instant now such that the item of k
in the key map, if there is one, has a ttl other than zero, or the global TTL
is not positive, or skipTTLExtension is off, or the expireAt of the item is not
before now: if Get(k) at now returns the value v with no error (from the cache
or from the loader), then afterwards the key map holds an item for k that is
not expired at now, and a second Get(k) at now returns v with no error. -/
theorem hit_stays_live (c : Cache) (r : Cache.Reachable c) (hopen : c.isShutDown = false)
    (now : Int) (k : String)
    (hcond : ∀ p, mapGet c.items k = some p →
      c.skipTTLExtension = false ∨ (c.deref p).ttl ≠ 0 ∨ c.ttl ≤ 0 ∨ now ≤ (c.deref p).expireAt)
    (c1 : Cache) (v : Value) (h : c.Get now k = some (c1, v, none)) :
    ∃ p, mapGet c1.items k = some p ∧ (c1.deref p).expired now = false ∧
      ∃ c2, c1.Get now k = some (c2, v, none) := by
  have inv := r.reach_inv
  have fin : ∀ p, c1.Inv → c1.isShutDown = false → mapGet c1.items k = some p →
      (c1.deref p).expired now = false → (c1.deref p).data = v →
      ∃ p, mapGet c1.items k = some p ∧ (c1.deref p).expired now = false ∧
        ∃ c2, c1.Get now k = some (c2, v, none) := by
    intro p i1 o1 hp hx hd
    obtain ⟨c2, e2⟩ := Cache.Get_live c1 now k p i1 o1 hp hx
    rw [hd] at e2
    exact ⟨p, hp, hx, c2, e2⟩
  rcases Cache.expired_cases c now k with hm | ⟨p, h1, h2⟩
  · have inv2 : c.countHit.countMiss.Inv := inv.congr rfl rfl
    have tail : ∀ f, (c.countHit.countMiss.invokeLoader now k f).map
        (fun r => (r.1, r.2.1, r.2.2.2)) = some (c1, v, none) →
        ∃ p, mapGet c1.items k = some p ∧ (c1.deref p).expired now = false ∧
          ∃ c2, c1.Get now k = some (c2, v, none) := by
      intro f hf
      unfold Cache.invokeLoader at hf
      rcases hfk : f k with ⟨d, t, err⟩
      rw [hfk] at hf
      cases err with
      | some er => simp at hf
      | none =>
        simp only [Option.map_map, Option.map_eq_some'] at hf
        obtain ⟨⟨c3, e3⟩, hset, hres⟩ := hf
        obtain ⟨he, i3, cf3, p, hp, hd, _, ht, hx⟩ :=
          Cache.SetWithTTL_stored _ now k d t c3 e3 inv2 hopen hset
        subst he
        simp only [Function.comp_apply, Prod.mk.injEq] at hres
        obtain ⟨hc, hv, _⟩ := hres
        subst hc
        subst hv
        refine fin p i3 ?_ hp ?_ hd
        · rw [cf3.2.2.2.2.1]; exact hopen
        · refine Cache.not_expired_of_fresh _ now (fun hpos => ?_)
          rw [ht] at hpos
          rw [hx hpos]
          omega
    unfold Cache.Get Cache.GetByLoader at h
    rw [if_neg (by simp [hopen]), Cache.getItem_miss c.countHit now k hm] at h
    simp only [Option.some_bind] at h
    cases hlf : c.countHit.countMiss.loaderFunction with
    | some f =>
      rw [hlf] at h
      exact tail f h
    | none =>
      rw [hlf] at h
      simp at h
  · obtain ⟨c0, hit, e⟩ := Cache.Get_hit c now k p inv hopen h1 h2
    rw [e] at h
    simp only [Option.some.injEq, Prod.mk.injEq, and_true] at h
    obtain ⟨hc, hv⟩ := h
    subst hc
    have hx : (c0.deref p).expired now = false := by
      refine Cache.not_expired_of_fresh _ now (fun hpos => ?_)
      have ht : (c0.deref p).ttl = resolvedTTL c.ttl (c.deref p).ttl := hit.ttl
      have he : (c0.deref p).expireAt =
          if 0 < resolvedTTL c.ttl (c.deref p).ttl ∧ c.skipTTLExtension = false
          then now + resolvedTTL c.ttl (c.deref p).ttl else (c.deref p).expireAt := hit.expireAt
      rw [ht] at hpos
      rw [he]
      by_cases hs : c.skipTTLExtension = false
      · rw [if_pos ⟨hpos, hs⟩]
        omega
      · rw [if_neg (fun hc => hs hc.2)]
        have hold : 0 < (c.deref p).ttl → now ≤ (c.deref p).expireAt := by
          intro hp
          unfold item.expired at h2
          rw [if_neg (by omega)] at h2
          simpa using h2
        rcases hcond p h1 with a | a | a | a
        · exact absurd a hs
        · unfold resolvedTTL at hpos
          split_ifs at hpos with hg
          · exact absurd hg.2 a
          · exact hold hpos
        · unfold resolvedTTL at hpos
          rw [if_neg (by omega)] at hpos
          exact hold hpos
        · exact a
    refine fin p (hit.inv.congr rfl rfl) ?_ ?_ hx ?_
    · show c0.isShutDown = false
      rw [hit.config.2.2.2.2.1]
      exact hopen
    · show mapGet c0.items k = some p
      rw [hit.items]
      exact h1
    · show (c0.deref p).data = v
      rw [hit.data, ← hv]
      rfl

theorem hit_stays_live_witness :
    exampleSkip.isShutDown = false ∧
      exampleSkip.Get 20 "a" = some (exampleSkipRead, some 7, none) ∧
      ∃ p, mapGet exampleSkipRead.items "a" = some p ∧
        (exampleSkipRead.deref p).expired 20 = false ∧
        ∃ c2, exampleSkipRead.Get 20 "a" = some (c2, some 7, none) := by
  have r : Cache.Reachable exampleSkip :=
    Cache.Reachable.skipTTLExtensionOnHit exampleSet true
      (Cache.Reachable.setWithTTL (NewCache 0) 10 "a" (some 7) 50 exampleSet none
        (Cache.Reachable.newCache 0) rfl)
  have h0 : mapGet exampleSkip.items "a" = some 0 := by decide
  refine ⟨rfl, rfl, hit_stays_live exampleSkip r rfl 20 "a" (fun p hp => ?_) exampleSkipRead
    (some 7) rfl⟩
  rw [h0] at hp
  cases hp
  exact Or.inr (Or.inl (by decide))

end TTL
